import Mathlib

/-!
# go-protoc: toolchain provisioning and argument assembly

A shallow embedding of `generator.go`, `internal/zip.go`, `internal/go_cmd.go`
and `internal/proto_editor.go`.

Conventions of the embedding:

* Go strings and byte slices are Lean strings; `len` is the number of characters.
* Paths follow the Unix flavour of `path/filepath` (separator `/`, no volume names).
* The file system, the fault plan of the operating system, the memo cells of the
  `Generator` and the log of external effects are an explicit `World` that every
  effectful function takes and returns.
* External programs and libraries whose results the code only inspects (`go list`,
  `go env`, `go install`, the HTTP server, the zip index parser, SHA-256 with
  base64, the directory walker) are oracles collected in `Env`.
-/

namespace GoProtoc

/-! ## Strings -/

/-- Mirror of strings.HasPrefix. -/
def hasPrefix (s p : String) : Bool := p.data.isPrefixOf s.data

/-- Mirror of strings.HasSuffix. -/
def hasSuffix (s p : String) : Bool := p.data.reverse.isPrefixOf s.data.reverse

/-- Split a character list at every occurrence of `sep`, as strings.Split does for a
one-byte separator: the result is never empty. -/
def splitChars (sep : Char) : List Char → List (List Char)
  | [] => [[]]
  | c :: cs =>
    if c = sep then [] :: splitChars sep cs
    else match splitChars sep cs with
      | [] => [[c]]
      | h :: t => (c :: h) :: t

/-- Mirror of unicode.IsSpace, the set strings.TrimSpace strips. -/
def isSpace (c : Char) : Bool :=
  c = ' ' ∨ c = '\t' ∨ c = '\n' ∨ c = '\x0b' ∨ c = '\x0c' ∨ c = '\r' ∨
  c.toNat = 0x85 ∨ c.toNat = 0xA0 ∨ c.toNat = 0x1680 ∨
  (0x2000 ≤ c.toNat ∧ c.toNat ≤ 0x200A) ∨ c.toNat = 0x2028 ∨ c.toNat = 0x2029 ∨
  c.toNat = 0x202F ∨ c.toNat = 0x205F ∨ c.toNat = 0x3000

/-- Mirror of strings.TrimSpace. -/
def TrimSpace (s : String) : String :=
  ⟨((s.data.dropWhile isSpace).reverse.dropWhile isSpace).reverse⟩

/-! ## Lexical paths (`path/filepath` on Unix) -/

/-- One step of filepath.Clean over the stack of kept components, top first: empty
and `.` components are dropped, `..` removes the component above it when there is
one that is not itself `..`, is dropped at the root, and is kept otherwise. -/
def cleanStep (rooted : Bool) (stack : List (List Char)) (comp : List Char) :
    List (List Char) :=
  if comp = [] ∨ comp = ['.'] then stack
  else if comp = ['.', '.'] then
    match stack with
    | [] => if rooted then [] else [comp]
    | top :: below => if top = ['.', '.'] then comp :: stack else below
  else comp :: stack

/-- Components joined by single slashes. -/
def joinSlash : List (List Char) → List Char
  | [] => []
  | [c] => c
  | c :: d :: cs => c ++ '/' :: joinSlash (d :: cs)

/-- Text of a cleaned path from its component stack (top first). -/
def renderPath (rooted : Bool) (stack : List (List Char)) : List Char :=
  if rooted then '/' :: joinSlash stack.reverse
  else if joinSlash stack.reverse = [] then ['.'] else joinSlash stack.reverse

/-- Character-level filepath.Clean. -/
def cleanChars (p : List Char) : List Char :=
  renderPath (p.head? = some '/')
    ((splitChars '/' p).foldl (cleanStep (p.head? = some '/')) [])

/-- Mirror of filepath.Clean: the shortest path name equivalent to `p` by purely
lexical processing. -/
def Clean (p : String) : String := ⟨cleanChars p.data⟩

/-- Mirror of filepath.Join for two elements: empty elements are ignored, the rest is
joined by the separator and cleaned; the result is empty when both are empty. -/
def Join (a b : String) : String :=
  if a ≠ "" then Clean (a ++ "/" ++ b) else if b ≠ "" then Clean b else ""

/-- Mirror of filepath.Join for any number of elements: leading empty elements are
skipped, the rest is joined by the separator and cleaned. -/
def JoinList (elems : List String) : String :=
  match elems.dropWhile (fun e => e = "") with
  | [] => ""
  | rest => Clean ("/".intercalate rest)

/-- The part of a path up to and including its last separator. -/
def dirPrefix (p : List Char) : List Char :=
  (p.reverse.dropWhile (fun c => c ≠ '/')).reverse

/-- Mirror of filepath.Dir: all but the last element of the path, cleaned. -/
def Dir (p : String) : String := ⟨cleanChars (dirPrefix p.data)⟩

/-- Mirror of filepath.IsAbs on Unix. -/
def IsAbs (p : String) : Bool := hasPrefix p "/"

/-- Lexical ancestors of the reversed path `r`, nearest first: for every separator,
the text before it (the root when that text is empty). -/
def ancestorsRev : List Char → List String
  | [] => []
  | c :: cs =>
    if c = '/' then (if cs = [] then "/" else ⟨cs.reverse⟩) :: ancestorsRev cs
    else ancestorsRev cs

/-- Lexical ancestors of a path, nearest first: `/a/b/c` has `/a/b`, `/a`, `/`. -/
def ancestors (p : String) : List String := ancestorsRev p.data.reverse

/-! ## The world -/

/-- Go error values: ordinary errors carry the message of the site that made them;
a run-time panic (nil dereference) is kept apart from returned errors. -/
inductive Err where
  | error (msg : String)
  | panic (msg : String)
  deriving DecidableEq, Repr

/-- A node of the file system. -/
inductive Node where
  | dir
  | file (content : String) (mode : Nat)
  deriving DecidableEq, Repr

/-- Externally visible actions of the generator, in the order they happen: a
download attempt, the removal of a tree, the write of the staged argument file, the
save of the editor configuration, a `go install` run, the compiler run. -/
inductive Event where
  | download (url dest : String)
  | removeAll (path : String)
  | writeFile (path content : String)
  | editorSave (path : String)
  | goInstall (pkg gobin : String)
  | exec (bin : String) (args : List String)
  deriving DecidableEq, Repr

/-- Mutable state: the file system keyed by path, the fault plan (one flag per fallible
system call still to come, `true` meaning that call fails for a reason outside the
model such as permissions or a full disk), the log of external effects, and the two
`sync.OnceValues` cells of the generator. -/
structure World where
  fs : String → Option Node
  faults : List Bool
  trace : List Event
  urlOnce : Option (Except Err String)
  distOnce : Option (Except Err String)

/-- Take the next flag of the fault plan; an exhausted plan means no further faults. -/
def World.popFault (w : World) : Bool × World :=
  match w.faults with
  | [] => (false, w)
  | b :: rest => (b, { w with faults := rest })

/-- Replace the node at one path. -/
def World.setNode (w : World) (p : String) (n : Option Node) : World :=
  { w with fs := fun q => if q = p then n else w.fs q }

/-- Append an event to the log. -/
def World.log (w : World) (e : Event) : World :=
  { w with trace := w.trace ++ [e] }

/-- The mkdir system call on a path that does not exist and whose parent was ensured. -/
def Mkdir (p : String) (w : World) : Option Err × World :=
  match w.popFault with
  | (true, w1) => (some (.error "mkdir"), w1)
  | (false, w1) => (none, w1.setNode p (some .dir))

/-- The recursion of os.MkdirAll over a path followed by its ancestors: a path that
is a directory ends it with success, one that is a file ends it with an error, and a
missing one is created after its ancestors have been ensured. -/
def mkdirAllList : List String → World → Option Err × World
  | [], w => (none, w)
  | p :: rest, w =>
    match w.fs p with
    | some .dir => (none, w)
    | some (.file _ _) => (some (.error "mkdir: not a directory"), w)
    | none =>
      match mkdirAllList rest w with
      | (some e, w1) => (some e, w1)
      | (none, w1) => Mkdir p w1

/-- Mirror of os.MkdirAll. -/
def MkdirAll (p : String) (w : World) : Option Err × World :=
  mkdirAllList (p :: ancestors p) w

/-- The `fs.ModeSetuid`, `fs.ModeSetgid` and `fs.ModeSticky` bits together. -/
def modeSpecialBits : Nat := 8388608 + 4194304 + 1048576

/-- The mode of a file that `os.OpenFile` creates when asked for the `fs.FileMode`
`mode`, as `os.Stat` reports it afterwards: `syscallMode` passes the nine permission
bits and the setuid, setgid and sticky bits to `open(2)`, and the kernel clears the
permission bits that are set in the umask. -/
def createdMode (umask mode : Nat) : Nat :=
  (mode % 512 - (mode % 512 &&& umask)) + (mode &&& modeSpecialBits)

/-- Mirror of os.OpenFile with O_WRONLY|O_CREATE|O_TRUNC in a process whose file mode
creation mask is `umask`: an existing file is truncated and keeps its mode, a missing
one is created empty inside an existing parent directory, with the requested mode as
the umask lets it through (`createdMode`). -/
def OpenFile (umask : Nat) (p : String) (mode : Nat) (w : World) : Option Err × World :=
  match w.popFault with
  | (true, w1) => (some (.error "open"), w1)
  | (false, w1) =>
    match w1.fs p with
    | some .dir => (some (.error "open: is a directory"), w1)
    | some (.file _ m) => (none, w1.setNode p (some (.file "" m)))
    | none =>
      match (ancestors p).head? with
      | none => (none, w1.setNode p (some (.file "" (createdMode umask mode))))
      | some d =>
        if w1.fs d = some .dir then
          (none, w1.setNode p (some (.file "" (createdMode umask mode))))
        else (some (.error "open: no such file or directory"), w1)

/-- Write to an open file: appends `data` to the file at `p`. -/
def WriteTo (p : String) (data : String) (w : World) : Option Err × World :=
  match w.popFault with
  | (true, w1) => (some (.error "write"), w1)
  | (false, w1) =>
    match w1.fs p with
    | some (.file c m) => (none, w1.setNode p (some (.file (c ++ data) m)))
    | _ => (some (.error "write: bad file"), w1)

/-- Close an open file. -/
def CloseFile (w : World) : Option Err × World :=
  match w.popFault with
  | (true, w1) => (some (.error "close"), w1)
  | (false, w1) => (none, w1)

/-- Outcome of os.ReadFile. -/
inductive ReadResult where
  | ok (content : String)
  | notExist
  | otherErr
  deriving DecidableEq, Repr

/-- Mirror of os.ReadFile: a missing path is reported as not-exist, a directory or a
faulted read as another error. -/
def ReadFile (p : String) (w : World) : ReadResult × World :=
  match w.popFault with
  | (true, w1) => (.otherErr, w1)
  | (false, w1) =>
    match w1.fs p with
    | some (.file c _) => (.ok c, w1)
    | some .dir => (.otherErr, w1)
    | none => (.notExist, w1)

/-- Mirror of os.WriteFile: open with create and truncate, write, close; a close
error is reported only when the write succeeded. -/
def WriteFile (umask : Nat) (p : String) (data : String) (perm : Nat) (w : World) :
    Option Err × World :=
  match OpenFile umask p perm w with
  | (some e, w1) => (some e, w1)
  | (none, w1) =>
    match WriteTo p data w1 with
    | (some e, w2) => (some e, (CloseFile w2).2)
    | (none, w2) => CloseFile w2

/-- Mirror of `endsWithDot` of package os: the path is `.` or ends in a separator
followed by a dot. -/
def endsWithDot (p : String) : Bool := p = "." ∨ hasSuffix p "/."

/-- The last element of a path, trailing separators set aside (the base name that
`splitPath` of package os hands to `removeAllFrom`). -/
def lastElement (p : String) : String :=
  ⟨(((splitChars '/' p.data).filter (fun c => decide (c ≠ []))).getLast?).getD []⟩

/-- The paths at and below the directory `d`. -/
def atOrBelow (d q : String) : Bool :=
  q = d ∨ hasPrefix q (if hasSuffix d "/" then d else d ++ "/")

/-- Mirror of os.RemoveAll.

* The empty path is accepted and nothing is done.
* A path that is `.` or ends in `/.` is refused with EINVAL before any system call.
* A path whose last element is `.` or `..` (after trailing separators) cannot be
  unlinked: `removeAllFrom` removes the entries of the directory and then fails.
* Any other path: the node it names and everything below it are removed; removing
  what does not exist succeeds.

The path is resolved by its text: the node it names is the one at the cleaned path
(trailing and doubled separators and `.` elements dropped, `..` elements resolved
against the text). This is what the kernel finds when the directories that the path
names on its way exist; the model has no symbolic links. A system call that fails for
another reason is a fault of the plan. -/
def RemoveAll (p : String) (w : World) : Option Err × World :=
  if p = "" then (none, w)
  else if endsWithDot p then (some (.error "RemoveAll: invalid argument"), w)
  else
    match w.popFault with
    | (true, w1) => (some (.error "remove"), w1)
    | (false, w1) =>
      if lastElement p = "." ∨ lastElement p = ".." then
        (some (.error "unlinkat: invalid argument"),
          { w1 with fs := fun q =>
              if q ≠ Clean p ∧ atOrBelow (Clean p) q then none else w1.fs q })
      else
        (none, { w1 with fs := fun q => if atOrBelow (Clean p) q then none else w1.fs q })

/-! ## `internal/zip.go` -/

/-- An entry of the archive index (`zip.File`): its name, its `fs.FileMode`, the
bytes stored for it, and how reading it goes: `openErr` makes `f.Open()` fail,
`readErr = some k` makes the body reader fail after `k` bytes (corrupt data or a
checksum mismatch), `closeErr` makes closing the body reader fail. -/
structure ZipFile where
  Name : String
  Mode : Nat
  data : String
  openErr : Bool
  readErr : Option Nat
  closeErr : Bool
  deriving DecidableEq, Repr

/-- The `fs.ModeDir` bit. -/
def ModeDir : Nat := 2147483648

/-- Mirror of `f.FileInfo().IsDir()`: the directory bit of the entry's mode. -/
def ZipFile.IsDir (f : ZipFile) : Bool := (f.Mode / ModeDir) % 2 = 1

/-- The bytes the body reader of an entry delivers before it ends or fails. -/
def ZipFile.readable (f : ZipFile) : String :=
  match f.readErr with
  | none => f.data
  | some k => ⟨f.data.data.take k⟩

/-- Mirror of `io.Copy(outFile, rc)`: writes what the body reader delivers to the open
file and reports the read error or the write error, if any. -/
def Copy (f : ZipFile) (p : String) (w : World) : Option Err × World :=
  match WriteTo p f.readable w with
  | (some e, w1) => (some e, w1)
  | (none, w1) =>
    match f.readErr with
    | none => (none, w1)
    | some _ => (some (.error "read: corrupt entry"), w1)

/-- Body of the loop of `Unzip` for one entry, in a process whose file mode creation
mask is `umask`. -/
def unzipFile (umask : Nat) (dest : String) (f : ZipFile) (w : World) : Option Err × World :=
  let fpath := Join dest f.Name
  if !hasPrefix fpath (Clean dest ++ "/") then
    (some (.error (fpath ++ ": illegal file path")), w)
  else if f.IsDir then
    match MkdirAll fpath w with
    | (some _, w1) => (some (.error "os.MkdirAll() error"), w1)
    | (none, w1) => (none, w1)
  else
    match MkdirAll (Dir fpath) w with
    | (some _, w1) => (some (.error "os.MkdirAll() error"), w1)
    | (none, w1) =>
      match OpenFile umask fpath f.Mode w1 with
      | (some _, w2) => (some (.error "os.OpenFile() error"), w2)
      | (none, w2) =>
        if f.openErr then (some (.error "zip: open entry"), w2)
        else
          -- `_, err = io.Copy(outFile, rc)`: the error is overwritten below
          let w3 := (Copy f fpath w2).2
          match CloseFile w3 with
          | (some _, w4) => (some (.error "outFile.Close() error"), w4)
          | (none, w4) =>
            if f.closeErr then (some (.error "rc.Close() error"), w4)
            else (none, w4)

/-- Mirror of `Unzip`, in a process whose file mode creation mask is `umask`: entries
are extracted in index order, the first error ends the call and leaves what was written
so far. -/
def Unzip (umask : Nat) : List ZipFile → String → World → Option Err × World
  | [], _, w => (none, w)
  | f :: rest, dest, w =>
    match unzipFile umask dest f w with
    | (some e, w1) => (some e, w1)
    | (none, w1) => Unzip umask rest dest w1


/-- The components of a path: the pieces between separators. -/
def components (p : String) : List String := (splitChars '/' p.data).map String.mk

/-! ## `internal/model.go` and `internal/go_cmd.go` -/

/-- The fields of `ModulePublic` the generator reads. -/
structure ModulePublic where
  Path : String
  Version : String
  Dir : String
  deriving DecidableEq, Repr

/-- Mirror of `PackageError`. -/
structure PackageError where
  Err : String
  deriving DecidableEq, Repr

/-- The fields of `PackagePublic` the generator reads; `Module` and `Error` are
pointers and may be nil. -/
structure PackagePublic where
  Dir : String
  ImportPath : String
  Imports : List String
  Module : Option ModulePublic
  Error : Option PackageError
  deriving DecidableEq, Repr

/-- An HTTP response: its status code, its body, and whether reading the body fails. -/
structure HttpResponse where
  StatusCode : Nat
  body : String
  bodyErr : Bool
  deriving DecidableEq, Repr

/-- What `filepath.WalkDir` hands to its callback for one visited path. -/
structure WalkEntry where
  path : String
  isDir : Bool
  err : Bool
  deriving DecidableEq, Repr

/-- Mirror of `XmlElement` with `xml.Attr` as name and value pairs. -/
inductive XmlElement where
  | mk (XMLName : String) (Attrs : List (String × String)) (Elements : List XmlElement)
      (Comment : String)

/-- The surroundings of a run that the code only queries. -/
structure Env where
  /-- os.LookupEnv -/
  lookupEnv : String → Option String
  /-- runtime.GOOS -/
  GOOS : String
  /-- runtime.GOARCH -/
  GOARCH : String
  /-- os.TempDir -/
  tempDir : String
  /-- os.UserCacheDir -/
  userCacheDir : Except Err String
  /-- os.Getwd, used by filepath.Abs -/
  getwd : Except Err String
  /-- the file mode creation mask of the process, which the program never changes -/
  umask : Nat
  /-- standard output of a `go` subprocess decoded as a package description, by
  argument list; an error is a failed subprocess or undecodable output -/
  goListJson : List String → Except Err PackagePublic
  /-- trimmed output of `go env NAME` -/
  goEnvOut : String → Except Err String
  /-- whether `go install pkg` with the given GOBIN succeeds -/
  goInstallOk : String → String → Bool
  /-- whether http.NewRequestWithContext accepts the URL -/
  newRequestOk : String → Bool
  /-- outcome of http.DefaultClient.Do: no response on a transport error or timeout -/
  httpDo : String → Option HttpResponse
  /-- zip.NewReader: the index of an archive, or an error -/
  zipNewReader : String → Except Err (List ZipFile)
  /-- base64.RawURLEncoding of the SHA-256 of a string -/
  sha256Base64 : String → String
  /-- the visit sequence of filepath.WalkDir from a root -/
  walkDir : String → List WalkEntry
  /-- whether the compiler run with the given binary and arguments exits with zero -/
  protocOk : String → List String → Bool
  /-- the order in which the concurrent import queries complete -/
  schedule : List String → List Nat
  /-- xml.Unmarshal of the editor configuration; `none` is a decoding error -/
  xmlUnmarshal : String → Option XmlElement
  /-- encoding of the editor configuration; `none` is an encoder error -/
  xmlEncode : XmlElement → Option String

/-- Mirror of `GoListPkg`: `go list -json -e [-tags t1,t2] pkg`; a failed command and
an undecodable output both come back as the error. -/
def GoListPkg (env : Env) (pkg : String) (tags : List String) : Except Err PackagePublic :=
  env.goListJson
    (["list", "-json", "-e"] ++ (if tags.length > 0 then ["-tags", ",".intercalate tags] else [])
      ++ [pkg])

/-- Mirror of `GoInstall`: runs `go install pkg` with GOBIN set to the install path. -/
def GoInstall (env : Env) (pkg installPath : String) (w : World) : Option Err × World :=
  if env.goInstallOk pkg installPath then (none, w.log (.goInstall pkg installPath))
  else (some (.error "go install"), w.log (.goInstall pkg installPath))

/-- Mirror of `GoEnv`. -/
def GoEnv (env : Env) (name : String) : Except Err String :=
  match env.goEnvOut name with
  | .error _ => .error (.error "cmd.Output() error")
  | .ok out => .ok out

/-! ## `generator.go`: configuration and package variables -/

/-- The configuration fields of `Generator`. -/
structure Generator where
  ProtoDir : String
  ProtocDownloadUrl : String
  ProtocVer : String
  ProtocGenGoGrpcVer : String
  CleanDir : String
  CustomProtocOpts : List String
  DisableJetBrains : Bool
  deriving DecidableEq, Repr

def defaultProtocDownloadUrl : String :=
  "https://github.com/protocolbuffers/protobuf/releases/download/v\x7b\x7b.Version\x7d\x7d/protoc-\x7b\x7b.Version\x7d\x7d-\x7b\x7b.OsArch\x7d\x7d.zip"

def defaultProtocVer : String := "27.2"

def defaultProtocGenGoGrpcVer : String := "1.4.0"

def defaultProtoDir : String := "proto"

def defaultCleanDir : String := "proto_gen_go"

def pkgNameProtocGenGo : String := "google.golang.org/protobuf/cmd/protoc-gen-go"

def pkgNameGrpc : String := "google.golang.org/grpc"

def pkgNameProtocGenGoGrpc : String := "google.golang.org/grpc/cmd/protoc-gen-go-grpc"

/-- Mirror of `getProtocOsArch`. -/
def getProtocOsArch (env : Env) : Except Err String :=
  let goos := (env.lookupEnv "GOOS").getD env.GOOS
  let goarch := (env.lookupEnv "GOARCH").getD env.GOARCH
  if goos = "darwin" then
    if goarch = "amd64" then .ok "osx-x86_64"
    else if goarch = "arm64" then .ok "osx-aarch_64"
    else .ok "osx-universal_binary"
  else if goos = "linux" ∧ goarch = "386" then .ok "linux-x86_32"
  else if goos = "linux" ∧ goarch = "amd64" then .ok "linux-x86_64"
  else if goos = "linux" ∧ goarch = "arm64" then .ok "linux-aarch_64"
  else if goos = "windows" ∧ goarch = "386" then .ok "win32"
  else if goos = "windows" ∧ goarch = "amd64" then .ok "win64"
  else .error (.error ("not support os:[" ++ goos ++ "] and arch:[" ++ goarch ++ "]"))

/-- The package-level variables of `generator.go`. -/
structure PkgVars where
  osArch : String
  rootDir : String
  protocDistDir : String
  protocGenGoDir : String
  protocGenGoGrpcDir : String
  deriving DecidableEq, Repr

/-- Package initialisation: `lo.Must` turns an error into a panic. -/
def initVars (env : Env) : Except Err PkgVars :=
  match getProtocOsArch env with
  | .error _ => .error (.panic "getProtocOsArch")
  | .ok osArch =>
    match env.userCacheDir with
    | .error _ => .error (.panic "os.UserCacheDir")
    | .ok cache =>
      .ok { osArch := osArch
            rootDir := Join cache ".go_protoc"
            protocDistDir := Join (Join cache ".go_protoc") "protoc"
            protocGenGoDir := Join (Join cache ".go_protoc") "protoc-gen-go"
            protocGenGoGrpcDir := Join (Join cache ".go_protoc") "protoc-gen-go-grpc" }

def Generator.getProtocVer (g : Generator) : String :=
  if g.ProtocVer ≠ "" then g.ProtocVer else defaultProtocVer

def Generator.getProtocGenGoGrpcVer (g : Generator) : String :=
  if g.ProtocGenGoGrpcVer ≠ "" then g.ProtocGenGoGrpcVer else defaultProtocGenGoGrpcVer

def Generator.getProtocGenGoPath (_ : Generator) (v : PkgVars) (protocGenGoVer : String) : String :=
  Join v.protocGenGoDir protocGenGoVer

def Generator.getProtocGenGoGrpcPath (_ : Generator) (v : PkgVars) (protocGenGoGrpcVer : String) : String :=
  Join v.protocGenGoGrpcDir protocGenGoGrpcVer

def Generator.getProtoDir (g : Generator) : String :=
  if g.ProtoDir ≠ "" then g.ProtoDir else defaultProtoDir

def Generator.getProtoDirAbs (g : Generator) (current : String) : String :=
  if IsAbs g.getProtoDir then g.getProtoDir else Join current g.getProtoDir

def Generator.getCleanDir (g : Generator) : String :=
  if g.CleanDir ≠ "" then g.CleanDir else defaultCleanDir

/-- Whether a character matches the class `\\w` of the regexp package. -/
def isWordChar (c : Char) : Bool :=
  ('0' ≤ c ∧ c ≤ '9') ∨ ('A' ≤ c ∧ c ≤ 'Z') ∨ ('a' ≤ c ∧ c ≤ 'z') ∨ c = '_'

/-- Replace every maximal run of non-word characters by one underscore; `inRun` tells
that the previous character was part of such a run. -/
def replaceNonWord (inRun : Bool) : List Char → List Char
  | [] => []
  | c :: cs =>
    if isWordChar c then c :: replaceNonWord false cs
    else if inRun then replaceNonWord true cs
    else '_' :: replaceNonWord true cs

/-- Mirror of `getProtoGenFilePath`. -/
def Generator.getProtoGenFilePath (_ : Generator) (env : Env) (genPkg : PackagePublic) : String :=
  JoinList [env.tempDir, ".go-protoc", ⟨replaceNonWord false genPkg.ImportPath.data⟩,
    "proto_gen.txt"]

/-! ## `generator.go`: the download URL and the distribution path -/

/-- Evaluate an action of the URL template on the data `{Version, OsArch}`: the body
(reversed, as collected) must be one of the two field references. -/
def evalAction (version osArch : String) (bodyRev : List Char) : Option (List Char) :=
  let body := ((bodyRev.dropWhile (fun c => c = ' ' ∨ c = '\t' ∨ c = '\r' ∨ c = '\n')).reverse.dropWhile
    (fun c => c = ' ' ∨ c = '\t' ∨ c = '\r' ∨ c = '\n'))
  if body = ".Version".data then some version.data
  else if body = ".OsArch".data then some osArch.data
  else none

/-- Lexer state of the template: in literal text, after one opening brace, inside an
action (with its reversed body), inside an action after one closing brace. -/
inductive TmplState where
  | text
  | open1
  | action (bodyRev : List Char)
  | close1 (bodyRev : List Char)

/-- Parse and execute a template of the fragment of `text/template` made of literal
text and the actions that print the fields `.Version` and `.OsArch`. Every other
action is reported as an error, as is an action left open. -/
def renderAux (version osArch : String) : TmplState → List Char → Option (List Char)
  | .text, [] => some []
  | .open1, [] => some ['\x7b']
  | .action _, [] => none
  | .close1 _, [] => none
  | .text, c :: cs =>
    if c = '\x7b' then renderAux version osArch .open1 cs
    else (renderAux version osArch .text cs).map (fun out => c :: out)
  | .open1, c :: cs =>
    if c = '\x7b' then renderAux version osArch (.action []) cs
    else (renderAux version osArch .text cs).map (fun out => '\x7b' :: c :: out)
  | .action body, c :: cs =>
    if c = '\x7d' then renderAux version osArch (.close1 body) cs
    else renderAux version osArch (.action (c :: body)) cs
  | .close1 body, c :: cs =>
    if c = '\x7d' then
      match evalAction version osArch body, renderAux version osArch .text cs with
      | some v, some out => some (v ++ out)
      | _, _ => none
    else renderAux version osArch (.action (c :: '\x7d' :: body)) cs

/-- Mirror of `doGetProtocDownloadUrl`: the configured template, or the default one,
rendered with the toolchain version and the platform tag. -/
def Generator.doGetProtocDownloadUrl (g : Generator) (v : PkgVars) : Except Err String :=
  let downloadUrl := if g.ProtocDownloadUrl = "" then defaultProtocDownloadUrl
    else g.ProtocDownloadUrl
  match renderAux g.getProtocVer v.osArch .text downloadUrl.data with
  | none => .error (.error "template error")
  | some url => .ok ⟨url⟩

/-- `getProtocDownloadUrl`: the `sync.OnceValues` wrapper made by `Init`. -/
def Generator.getProtocDownloadUrl (g : Generator) (v : PkgVars) (w : World) :
    Except Err String × World :=
  match w.urlOnce with
  | some r => (r, w)
  | none => (g.doGetProtocDownloadUrl v, { w with urlOnce := some (g.doGetProtocDownloadUrl v) })

/-- Mirror of `doGetProtocDistPath`. -/
def Generator.doGetProtocDistPath (g : Generator) (v : PkgVars) (env : Env) (w : World) :
    Except Err String × World :=
  match g.getProtocDownloadUrl v w with
  | (.error _, w1) => (.error (.error "getProtocDownloadUrl() error"), w1)
  | (.ok downloadUrl, w1) => (.ok (Join v.protocDistDir (env.sha256Base64 downloadUrl)), w1)

/-- `getProtocDistPath`: the `sync.OnceValues` wrapper made by `Init`. -/
def Generator.getProtocDistPath (g : Generator) (v : PkgVars) (env : Env) (w : World) :
    Except Err String × World :=
  match w.distOnce with
  | some r => (r, w)
  | none =>
    match g.doGetProtocDistPath v env w with
    | (r, w1) => (r, { w1 with distOnce := some r })

/-- Mirror of `getProtocDistZipFilePath`. -/
def Generator.getProtocDistZipFilePath (g : Generator) (v : PkgVars) (env : Env) (w : World) :
    Except Err String × World :=
  match g.getProtocDistPath v env w with
  | (.error _, w1) => (.error (.error "getProtocDistPath() error"), w1)
  | (.ok distPath, w1) => (.ok (distPath ++ ".zip"), w1)

/-- Mirror of `Init`: fresh memo cells. -/
def Generator.Init (w : World) : World :=
  { w with urlOnce := none, distOnce := none }

/-! ## `generator.go`: provisioning the compiler distribution -/

/-- Error wrapping (`errors.Wrapf`, `fmt.Errorf`): an error gets the message of the
wrapping site, a panic passes through. -/
def wrapErr (msg : String) : Err → Err
  | .error _ => .error msg
  | .panic m => .panic m

/-- Mirror of `downloadProtocZip`: the request is built, sent, its status checked, its
body read in full and only then written to the destination file. The deadline of the
context is not modelled: a timeout is a transport error. -/
def downloadProtocZip (env : Env) (zipUrl destFile : String) (w : World) :
    Option Err × World :=
  if !env.newRequestOk zipUrl then
    (some (.error "http.NewRequestWithContext() error"), w)
  else
    match env.httpDo zipUrl with
    | none => (some (.error "http.DefaultClient.Do() error"), w)
    | some resp =>
      if resp.StatusCode ≠ 200 then
        (some (.error "http.DefaultClient.Do() error: statusCode"), w)
      else if resp.bodyErr then (some (.error "io.ReadAll() error"), w)
      else
        match WriteFile env.umask destFile resp.body 438 w with
        | (some _, w1) => (some (.error "os.WriteFile() error"), w1)
        | (none, w1) => (none, w1)

/-- The part of `prepareProtoc` after the archive bytes are in hand: parse the index,
remove the extracted tree, extract. -/
def Generator.extractProtoc (g : Generator) (v : PkgVars) (env : Env) (zipFileBytes : String)
    (w : World) : Option Err × World :=
  match env.zipNewReader zipFileBytes with
  | .error _ => (some (.error "zip.NewReader() error"), w)
  | .ok zipReader =>
    match g.getProtocDistPath v env w with
    | (.error _, w1) => (some (.error "getProtocDistPath() error"), w1)
    | (.ok protocDistPath, w1) =>
      match RemoveAll protocDistPath (w1.log (.removeAll protocDistPath)) with
      | (some _, w2) => (some (.error "os.RemoveAll() error"), w2)
      | (none, w2) =>
        match Unzip env.umask zipReader protocDistPath w2 with
        | (some _, w3) => (some (.error "unzip() error"), w3)
        | (none, w3) => (none, w3)

/-- The download branch of `prepareProtoc`: resolve the URL, download to the cache
path, read the file back, extract. The attempt is logged when `downloadProtocZip` is
entered. -/
def Generator.downloadAndExtract (g : Generator) (v : PkgVars) (env : Env)
    (protocDistZipFilepath : String) (w : World) : Option Err × World :=
  match g.getProtocDownloadUrl v w with
  | (.error _, w1) => (some (.error "getProtocDownloadUrl() error"), w1)
  | (.ok downloadUrl, w1) =>
    match downloadProtocZip env downloadUrl protocDistZipFilepath
        (w1.log (.download downloadUrl protocDistZipFilepath)) with
    | (some _, w2) => (some (.error "downloadProtocZip() error"), w2)
    | (none, w2) =>
      match ReadFile protocDistZipFilepath w2 with
      | (.ok zipFileBytes, w3) => g.extractProtoc v env zipFileBytes w3
      | (_, w3) => (some (.error "os.ReadFile() error"), w3)

/-- Mirror of `prepareProtoc`. -/
def Generator.prepareProtoc (g : Generator) (v : PkgVars) (env : Env) (w : World) :
    Option Err × World :=
  match g.getProtocDistZipFilePath v env w with
  | (.error _, w1) => (some (.error "getProtocDistZipFilePath() error"), w1)
  | (.ok protocDistZipFilepath, w1) =>
    match MkdirAll (Dir protocDistZipFilepath) w1 with
    | (some _, w2) => (some (.error "os.MkdirAll() error"), w2)
    | (none, w2) =>
      match ReadFile protocDistZipFilepath w2 with
      | (.ok zipFileBytes, w3) =>
        if zipFileBytes.length < 1024 * 1024 then
          g.downloadAndExtract v env protocDistZipFilepath w3
        else g.extractProtoc v env zipFileBytes w3
      | (.notExist, w3) => g.downloadAndExtract v env protocDistZipFilepath w3
      | (.otherErr, w3) => (some (.error "os.ReadFile() error"), w3)

/-! ## `generator.go`: the plugins -/

/-- Mirror of `prepareProtocGenGo`. -/
def Generator.prepareProtocGenGo (g : Generator) (v : PkgVars) (env : Env) (w : World) :
    Except Err String × World :=
  match GoListPkg env pkgNameProtocGenGo [] with
  | .error _ => (.error (.error "GoListPkg() error"), w)
  | .ok ProtocGenGoPkg =>
    if ProtocGenGoPkg.Error ≠ none then (.error (.error "GoListPkg() error"), w)
    else
      match ProtocGenGoPkg.Module with
      | none => (.error (.panic "nil pointer dereference"), w)
      | some module =>
        match MkdirAll (g.getProtocGenGoPath v module.Version) w with
        | (some _, w1) => (.error (.error "os.MkdirAll() error"), w1)
        | (none, w1) =>
          match GoInstall env pkgNameProtocGenGo (g.getProtocGenGoPath v module.Version) w1 with
          | (some _, w2) => (.error (.error "GoInstall() error"), w2)
          | (none, w2) => (.ok (g.getProtocGenGoPath v module.Version), w2)

/-- Mirror of `prepareProtocGenGoGrpc`. -/
def Generator.prepareProtocGenGoGrpc (g : Generator) (v : PkgVars) (env : Env) (w : World) :
    Except Err String × World :=
  match GoListPkg env pkgNameGrpc [] with
  | .error _ => (.error (.error "GoListPkg() error"), w)
  | .ok grpcPkg =>
    if grpcPkg.Error ≠ none then (.ok "", w)
    else
      match grpcPkg.Module with
      | none => (.error (.panic "nil pointer dereference"), w)
      | some _ =>
        match MkdirAll (g.getProtocGenGoGrpcPath v g.getProtocGenGoGrpcVer) w with
        | (some _, w1) => (.error (.error "os.MkdirAll() error"), w1)
        | (none, w1) =>
          match GoInstall env (pkgNameProtocGenGoGrpc ++ "@v" ++ g.getProtocGenGoGrpcVer)
              (g.getProtocGenGoGrpcPath v g.getProtocGenGoGrpcVer) w1 with
          | (some _, w2) => (.error (.error "GoInstall() error"), w2)
          | (none, w2) => (.ok (g.getProtocGenGoGrpcPath v g.getProtocGenGoGrpcVer), w2)

/-! ## `generator.go`: resolving the import directories -/

/-- The body of one goroutine of `listImportPathDir`: nothing for an empty import
path, else the source directory of the package or an error. -/
def importTask (env : Env) (importPath : String) : Except Err (Option String) :=
  if importPath.length = 0 then .ok none
  else
    match GoListPkg env importPath ["generate"] with
    | .error _ => .error (.error "GoListPkg() error")
    | .ok importPkgInfo =>
      if importPkgInfo.Dir.length = 0 then
        if importPkgInfo.Error ≠ none then .error (.error "GoListPkg() error: importPkgInfo.Error")
        else .error (.error "GoListPkg() error, cannot find pkg dir")
      else .ok (some importPkgInfo.Dir)

/-- The goroutines of `listImportPathDir` finishing in the order `order` (indices
into the import list): each appends its directory under the mutex, and the error
group keeps the first error to arrive. -/
def runImportTasks (env : Env) (importPaths : List String) :
    List Nat → List String × Option Err → List String × Option Err
  | [], acc => acc
  | i :: order, (dirs, firstErr) =>
    match importPaths.get? i with
    | none => runImportTasks env importPaths order (dirs, firstErr)
    | some importPath =>
      match importTask env importPath with
      | .error e =>
        runImportTasks env importPaths order (dirs, if firstErr = none then some e else firstErr)
      | .ok none => runImportTasks env importPaths order (dirs, firstErr)
      | .ok (some dir) => runImportTasks env importPaths order (dirs ++ [dir], firstErr)

/-- Mirror of `listImportPathDir` for a given completion order of its goroutines:
after all of them are done, the first error wins and the directories are dropped. -/
def listImportPathDirIn (env : Env) (importPaths : List String) (order : List Nat) :
    Except Err (List String) :=
  match runImportTasks env importPaths order ([], none) with
  | (_, some e) => .error e
  | (dirs, none) => .ok dirs

/-- Mirror of `listImportPathDir` under the completion order of the environment. -/
def listImportPathDir (env : Env) (importPaths : List String) : Except Err (List String) :=
  listImportPathDirIn env importPaths (env.schedule importPaths)

/-! ## `internal/proto_editor.go` -/

def XmlElement.XMLName : XmlElement → String
  | .mk n _ _ _ => n

def XmlElement.Attrs : XmlElement → List (String × String)
  | .mk _ a _ _ => a

def XmlElement.Elements : XmlElement → List XmlElement
  | .mk _ _ e _ => e

def XmlElement.Comment : XmlElement → String
  | .mk _ _ _ c => c

/-- The zero value `XmlElement{}`. -/
def XmlElement.empty : XmlElement := .mk "" [] [] ""

/-- Whether the element has the attribute `name` with the given value. -/
def hasNameAttr (value : String) (e : XmlElement) : Bool :=
  e.Attrs.any (fun a => a.1 = "name" ∧ a.2 = value)

/-- Update through the pointer returned by `findFirstEle`: the first element passing
the test is replaced by its image under `f`; when none passes, `f` applied to
`fresh` is appended. -/
def updateFirst (test : XmlElement → Bool) (f : XmlElement → XmlElement) (fresh : XmlElement) :
    List XmlElement → List XmlElement
  | [] => [f fresh]
  | e :: es => if test e then f e :: es else e :: updateFirst test f fresh es

/-- Set the first attribute called `value`, or append one. -/
def setValueAttr (value : String) : List (String × String) → List (String × String)
  | [] => [("value", value)]
  | a :: as => if a.1 = "value" then (a.1, value) :: as else a :: setValueAttr value as

/-- Ensure the option `name` of a component holds `value`: an existing option gets its
value attribute set, a missing one is appended with both attributes. -/
def setOption (name value : String) (elements : List XmlElement) : List XmlElement :=
  if elements.any (fun e => e.XMLName = "option" ∧ hasNameAttr name e) then
    updateFirst (fun e => e.XMLName = "option" ∧ hasNameAttr name e)
      (fun e => .mk e.XMLName (setValueAttr value e.Attrs) e.Elements e.Comment)
      XmlElement.empty elements
  else elements ++ [.mk "option" [("name", name), ("value", value)] [] ""]

/-- The pruning loop of `ConfigProtoPath`, for `i` running from `k - 1` down to 0 over
the slice `es` of fixed length: an entry whose comment is empty or the package is
overwritten by the entry at index `len - 1 - deleteCount`. -/
def pruneLoop (goPkg : String) : Nat → List XmlElement → Nat → List XmlElement × Nat
  | 0, es, deleteCount => (es, deleteCount)
  | i + 1, es, deleteCount =>
    if (es.getD i XmlElement.empty).Comment = "" ∨ (es.getD i XmlElement.empty).Comment = goPkg then
      pruneLoop goPkg i (es.set i (es.getD (es.length - 1 - deleteCount) XmlElement.empty))
        (deleteCount + 1)
    else pruneLoop goPkg i es deleteCount

/-- The import path list after pruning. -/
def pruneEntries (goPkg : String) (es : List XmlElement) : List XmlElement :=
  (pruneLoop goPkg es.length es 0).1.take (es.length - (pruneLoop goPkg es.length es 0).2)

/-- The entry appended for one proto path; `filepath.ToSlash` is the identity here. -/
def importPathEntry (goPkg protoPath : String) : XmlElement :=
  .mk "ImportPathEntry" []
    [.mk "option" [("name", "location"), ("value", "file://" ++ protoPath)] [] ""] goPkg

/-- Mirror of `ConfigProtoPath` on the document root. -/
def ConfigProtoPath (goPkg : String) (protoPaths : List String) (docRoot : XmlElement) :
    XmlElement :=
  let editList : XmlElement → XmlElement := fun pList =>
    .mk pList.XMLName pList.Attrs
      (pruneEntries goPkg pList.Elements ++ protoPaths.map (importPathEntry goPkg)) pList.Comment
  let editEntries : XmlElement → XmlElement := fun pOption =>
    .mk "option" [("name", "importPathEntries")]
      (updateFirst (fun e => e.XMLName = "list") editList (.mk "list" [] [] "") pOption.Elements)
      pOption.Comment
  let editComponent : XmlElement → XmlElement := fun pComponent =>
    .mk pComponent.XMLName pComponent.Attrs
      (updateFirst (fun e => e.XMLName = "option" ∧ hasNameAttr "importPathEntries" e)
        editEntries XmlElement.empty
        (setOption "descriptorPath" "google/protobuf/descriptor.proto"
          (setOption "autoConfigEnabled" "false" pComponent.Elements)))
      pComponent.Comment
  .mk docRoot.XMLName docRoot.Attrs
    (updateFirst (fun e => e.XMLName = "component" ∧ hasNameAttr "ProtobufLanguageSettings" e)
      editComponent (.mk "component" [("name", "ProtobufLanguageSettings")] [] "")
      docRoot.Elements)
    docRoot.Comment

/-- Mirror of filepath.Abs. -/
def Abs (env : Env) (p : String) : Except Err String :=
  if IsAbs p then .ok (Clean p)
  else
    match env.getwd with
    | .error e => .error e
    | .ok wd => .ok (Join wd p)

/-- Outcome of os.Stat. -/
inductive StatResult where
  | isDir
  | notDir
  | notExist
  | otherErr
  deriving DecidableEq, Repr

/-- Mirror of os.Stat. -/
def Stat (p : String) (w : World) : StatResult × World :=
  match w.popFault with
  | (true, w1) => (.otherErr, w1)
  | (false, w1) =>
    match w1.fs p with
    | some .dir => (.isDir, w1)
    | some (.file _ _) => (.notDir, w1)
    | none => (.notExist, w1)

/-- The search loop of `FindJetBrainsRootAndOpen`: walk up from `findFrom` until a
directory `.idea` is found; `fuel` bounds the number of rounds and is never used up
when it exceeds the length of the path. -/
def findIdeaDir : Nat → String → World → Except Err String × World
  | 0, _, w => (.error (.error "dir not found: [.idea]"), w)
  | fuel + 1, findFrom, w =>
    match Stat (Join findFrom ".idea") w with
    | (.isDir, w1) => (.ok (Join findFrom ".idea"), w1)
    | (.otherErr, w1) => (.error (.error "func os.Stat() error"), w1)
    | (_, w1) =>
      if Dir findFrom = findFrom then (.error (.error "dir not found: [.idea]"), w1)
      else findIdeaDir fuel (Dir findFrom) w1

/-- Mirror of `FindJetBrainsRootAndOpen`: the path of the configuration file and the
decoded document; a missing or empty file gives the empty document. -/
def FindJetBrainsRootAndOpen (env : Env) (findFrom : String) (w : World) :
    Except Err (String × XmlElement) × World :=
  match Abs env findFrom with
  | .error _ => (.error (.error "func filepath.Abs() error"), w)
  | .ok start =>
    match findIdeaDir (start.length + 1) start w with
    | (.error e, w1) => (.error e, w1)
    | (.ok ideaDir, w1) =>
      match ReadFile (Join ideaDir "protoeditor.xml") w1 with
      | (.otherErr, w2) => (.error (.error "func os.ReadFile() error"), w2)
      | (.notExist, w2) => (.ok (Join ideaDir "protoeditor.xml", XmlElement.empty), w2)
      | (.ok fileBytes, w2) =>
        if fileBytes = "" then (.ok (Join ideaDir "protoeditor.xml", XmlElement.empty), w2)
        else
          match env.xmlUnmarshal fileBytes with
          | none => (.error (.error "func xml.Unmarshal() error"), w2)
          | some doc => (.ok (Join ideaDir "protoeditor.xml", doc), w2)

/-- Mirror of `Save`. -/
def Save (env : Env) (xmlFile : String) (docRoot : XmlElement) (w : World) :
    Option Err × World :=
  match env.xmlEncode docRoot with
  | none => (some (.error "func encoder.Encode() error"), w)
  | some text =>
    match WriteFile env.umask xmlFile ("<?xml version=\"1.0\" encoding=\"UTF-8\"?>" ++ text) 420
        (w.log (.editorSave xmlFile)) with
    | (some _, w1) => (some (.error "func os.WriteFile() error"), w1)
    | (none, w1) => (none, w1)

/-- Mirror of `configProtoEditor`: a configuration that cannot be found or opened is
not an error. -/
def configProtoEditor (env : Env) (genPkg : PackagePublic) (protoPaths : List String)
    (w : World) : Option Err × World :=
  match FindJetBrainsRootAndOpen env genPkg.Dir w with
  | (.error _, w1) => (none, w1)
  | (.ok (xmlFile, docRoot), w1) =>
    match Save env xmlFile (ConfigProtoPath genPkg.ImportPath protoPaths docRoot) w1 with
    | (some _, w2) => (some (.error "func protoEditor.Save() error"), w2)
    | (none, w2) => (none, w2)

/-! ## `generator.go`: `Run` -/

/-- The callback of `filepath.WalkDir` folded over the visit sequence: an entry with
an error aborts, directories and files without the suffix are skipped, every other
path is made absolute and appended. -/
def walkProtoFiles (env : Env) : List WalkEntry → List String → Except Err (List String)
  | [], acc => .ok acc
  | d :: rest, acc =>
    if d.err then .error (.error "WalkDirFunc error")
    else if d.isDir || !hasSuffix d.path ".proto" then walkProtoFiles env rest acc
    else
      match Abs env d.path with
      | .error _ => .error (.error "filepath.Abs() error")
      | .ok absPath => walkProtoFiles env rest (acc ++ [absPath])

/-- The directives written to the buffer `protocOpts`, one per line, in order. -/
def protocOptLines (protoPaths : List String) (protoDirAbs protocDistPath moduleDir modulePath
    protocGenGoInstallDir protocGenGoGrpcInstallDir goExe : String) (protoFiles : List String) :
    List String :=
  (protoPaths ++ [protoDirAbs, Join protocDistPath "include"]).map (fun p => "--proto_path=" ++ p)
  ++ ["--go_out=" ++ moduleDir,
      "--go_opt=module=" ++ modulePath,
      "--plugin=protoc-gen-go=" ++ Join protocGenGoInstallDir ("protoc-gen-go" ++ goExe)]
  ++ (if protocGenGoGrpcInstallDir ≠ "" then
        ["--go-grpc_out=" ++ moduleDir,
         "--go-grpc_opt=module=" ++ modulePath,
         "--plugin=protoc-gen-go-grpc=" ++
           Join protocGenGoGrpcInstallDir ("protoc-gen-go-grpc" ++ goExe)]
      else [])
  ++ protoFiles

/-- The bytes of the buffer: every directive followed by a newline. -/
def optsText (lines : List String) : String :=
  String.join (lines.map (fun l => l ++ "\n"))

/-- The clean loop of `Run` over the pieces of the clean list. -/
def cleanDirs (genFileDir : String) : List String → World → Option Err × World
  | [], w => (none, w)
  | piece :: rest, w =>
    if TrimSpace piece = "" then cleanDirs genFileDir rest w
    else
      match RemoveAll
          (if !IsAbs (TrimSpace piece) then Join genFileDir (TrimSpace piece) else TrimSpace piece)
          (w.log (.removeAll
            (if !IsAbs (TrimSpace piece) then Join genFileDir (TrimSpace piece)
             else TrimSpace piece))) with
      | (some _, w1) => (some (.error "os.RemoveAll() error"), w1)
      | (none, w1) => cleanDirs genFileDir rest w1

/-- The end of `Run`: stage the argument file, clean, run the compiler. -/
def Generator.stageAndInvoke (g : Generator) (env : Env) (genFilePkg genPkg : PackagePublic)
    (protocDistPath : String) (lines : List String) (w : World) : Option Err × World :=
  match MkdirAll (Dir (g.getProtoGenFilePath env genPkg)) w with
  | (some _, w1) => (some (.error "os.MkdirAll() error"), w1)
  | (none, w1) =>
    match WriteFile env.umask (g.getProtoGenFilePath env genPkg) (optsText lines) 438
        (w1.log (.writeFile (g.getProtoGenFilePath env genPkg) (optsText lines))) with
    | (some _, w2) => (some (.error "os.WriteFile() error"), w2)
    | (none, w2) =>
      match cleanDirs genFilePkg.Dir
          ((splitChars ',' g.getCleanDir.data).map String.mk) w2 with
      | (some e, w3) => (some e, w3)
      | (none, w3) =>
        if env.protocOk (JoinList [protocDistPath, "bin", "protoc"])
            ["@" ++ g.getProtoGenFilePath env genPkg] then
          (none, w3.log (.exec (JoinList [protocDistPath, "bin", "protoc"])
            ["@" ++ g.getProtoGenFilePath env genPkg]))
        else
          (some (.error "cmd.Run() error"),
            w3.log (.exec (JoinList [protocDistPath, "bin", "protoc"])
              ["@" ++ g.getProtoGenFilePath env genPkg]))

/-- The middle of `Run`, once the packages and plugins are resolved: the search
paths, the editor configuration (started as a goroutine, modelled as running at once;
its error is only logged), the directives, the proto files. -/
def Generator.assemble (g : Generator) (v : PkgVars) (env : Env)
    (genFilePkg genPkg : PackagePublic)
    (protocGenGoInstallDir protocGenGoGrpcInstallDir : String) (w : World) :
    Option Err × World :=
  match listImportPathDir env genFilePkg.Imports with
  | .error _ => (some (.error "listImportPathDir() error"), w)
  | .ok protoPaths =>
    match g.getProtocDistPath v env w with
    | (.error _, w1) => (some (.error "getProtocDistPath() error"), w1)
    | (.ok protocDistPath, w1) =>
      match configProtoEditor env genPkg protoPaths w1 with
      | (_, w2) =>
        match GoEnv env "GOEXE" with
        | .error _ => (some (.error "GoEnv() error"), w2)
        | .ok goExe =>
          match genPkg.Module with
          | none => (some (.panic "nil pointer dereference"), w2)
          | some module =>
            match walkProtoFiles env (env.walkDir (g.getProtoDirAbs genFilePkg.Dir)) [] with
            | .error _ => (some (.error "filepath.WalkDir() error"), w2)
            | .ok protoFiles =>
              g.stageAndInvoke env genFilePkg genPkg protocDistPath
                (protocOptLines protoPaths (g.getProtoDirAbs genFilePkg.Dir) protocDistPath
                  module.Dir module.Path protocGenGoInstallDir protocGenGoGrpcInstallDir goExe
                  protoFiles) w2

/-- Mirror of `Run`. -/
def Generator.Run (g : Generator) (v : PkgVars) (env : Env) (w : World) : Option Err × World :=
  match GoListPkg env ((env.lookupEnv "GOFILE").getD "") ["generate"] with
  | .error _ => (some (.error "GoListPkg() error"), w)
  | .ok genFilePkg =>
    if genFilePkg.Error ≠ none then (some (.error "GoListPkg() error: pbGoPkg.Error"), w)
    else
      match GoListPkg env genFilePkg.Dir ["generate"] with
      | .error _ => (some (.error "GoListPkg() error"), w)
      | .ok genPkg =>
        -- the second check reads `genFilePkg.Error` again, as the source does
        if genFilePkg.Error ≠ none then (some (.error "GoListPkg() error: pbGoPkg.Error"), w)
        else
          match g.prepareProtoc v env w with
          | (some e, w1) => (some (wrapErr "prepareProtoc() error" e), w1)
          | (none, w1) =>
            match g.prepareProtocGenGo v env w1 with
            | (.error e, w2) => (some (wrapErr "prepareProtocGenGo() error" e), w2)
            | (.ok protocGenGoInstallDir, w2) =>
              match g.prepareProtocGenGoGrpc v env w2 with
              | (.error e, w3) => (some (wrapErr "prepareProtocGenGoGrpc() error" e), w3)
              | (.ok protocGenGoGrpcInstallDir, w3) =>
                g.assemble v env genFilePkg genPkg protocGenGoInstallDir
                  protocGenGoGrpcInstallDir w3

/-! ## Concrete inputs used by witnesses and counterexamples -/

/-- A world whose file system holds one directory and nothing else, with no faults. -/
def worldWithDir (d : String) : World :=
  { fs := fun q => if q = d then some Node.dir else none
    faults := [], trace := [], urlOnce := none, distOnce := none }

/-- The entry `a/b/c.txt` with content `hello` and mode 0644. -/
def entryHello : ZipFile :=
  { Name := "a/b/c.txt", Mode := 420, data := "hello",
    openErr := false, readErr := none, closeErr := false }

/-- The entry `a/b/c.txt` with content `hello` and mode 0666. -/
def entryShared : ZipFile :=
  { Name := "a/b/c.txt", Mode := 438, data := "hello",
    openErr := false, readErr := none, closeErr := false }

/-- The path-traversal entry `../../evil`. -/
def entryEvil : ZipFile :=
  { Name := "../../evil", Mode := 420, data := "x",
    openErr := false, readErr := none, closeErr := false }

/-- An entry `a.txt` whose body reader fails after two of its five bytes. -/
def entryCorrupt : ZipFile :=
  { Name := "a.txt", Mode := 420, data := "hello",
    openErr := false, readErr := some 2, closeErr := false }

/-- A world with an empty file system and no faults. -/
def worldEmpty : World :=
  { fs := fun _ => none, faults := [], trace := [], urlOnce := none, distOnce := none }

/-- A generator with every field left at its zero value. -/
def genDefault : Generator :=
  { ProtoDir := "", ProtocDownloadUrl := "", ProtocVer := "", ProtocGenGoGrpcVer := "",
    CleanDir := "", CustomProtocOpts := [], DisableJetBrains := false }

/-- Package variables for linux/amd64 with the user cache directory `/c`. -/
def varsStub : PkgVars :=
  { osArch := "linux-x86_64", rootDir := "/c/.go_protoc",
    protocDistDir := "/c/.go_protoc/protoc",
    protocGenGoDir := "/c/.go_protoc/protoc-gen-go",
    protocGenGoGrpcDir := "/c/.go_protoc/protoc-gen-go-grpc" }

/-- Surroundings in which every query fails and the server is unreachable; the digest
is a fixed key, and the process has cleared its umask. -/
def envStub : Env :=
  { lookupEnv := fun _ => none, GOOS := "linux", GOARCH := "amd64", tempDir := "/tmp"
    userCacheDir := .ok "/c", getwd := .ok "/proj", umask := 0
    goListJson := fun _ => .error (.error "go list")
    goEnvOut := fun _ => .ok ""
    goInstallOk := fun _ _ => true
    newRequestOk := fun _ => true
    httpDo := fun _ => none
    zipNewReader := fun _ => .error (.error "zip: not a valid zip file")
    sha256Base64 := fun _ => "KEY"
    walkDir := fun _ => []
    protocOk := fun _ _ => true
    schedule := fun l => List.range l.length
    xmlUnmarshal := fun _ => none
    xmlEncode := fun _ => none }

/-- The entry `bin/protoc` of a tiny archive. -/
def entryProtoc : ZipFile :=
  { Name := "bin/protoc", Mode := 493, data := "#!", openErr := false, readErr := none,
    closeErr := false }

/-- Surroundings whose server answers every request with status 200 and the two-byte
body `PK`, which the zip reader accepts as an archive holding `bin/protoc`. -/
def envSmallZip : Env :=
  { envStub with
    httpDo := fun _ => some { StatusCode := 200, body := "PK", bodyErr := false }
    zipNewReader := fun b =>
      if b = "PK" then .ok [entryProtoc] else .error (.error "zip: not a valid zip file") }

/-- A cached archive of exactly 1048576 bytes. -/
def bigArchive : String := ⟨List.replicate 1048576 'z'⟩

/-- A world that already holds the cached archive at the cache path of `envStub`. -/
def worldCached : World :=
  { fs := fun q =>
      if q = "/c/.go_protoc/protoc/KEY.zip" then some (Node.file bigArchive 438)
      else if q = "/c/.go_protoc/protoc" then some Node.dir
      else none
    faults := [], trace := [], urlOnce := none, distOnce := none }

/-- Surroundings whose zip reader accepts every archive as one holding `bin/protoc`. -/
def envAnyZip : Env :=
  { envStub with zipNewReader := fun _ => .ok [entryProtoc] }

/-- Surroundings whose digest is the identity, hence free of collisions. -/
def envIdDigest : Env :=
  { envStub with sha256Base64 := fun s => s }

/-- A generator for toolchain version `ver` whose download URL is a fixed mirror
address that does not mention the version. -/
def genMirror (ver : String) : Generator :=
  { genDefault with ProtocDownloadUrl := "https://mirror.example/protoc.zip", ProtocVer := ver }

/-- Surroundings whose build graph knows `pkgA` in `/x` and `pkgB` in `/y` and
nothing else. -/
def envImports : Env :=
  { envStub with
    goListJson := fun args =>
      if args.getLast? = some "pkgA" then
        .ok { Dir := "/x", ImportPath := "pkgA", Imports := [], Module := none, Error := none }
      else if args.getLast? = some "pkgB" then
        .ok { Dir := "/y", ImportPath := "pkgB", Imports := [], Module := none, Error := none }
      else .error (.error "exit status 1") }

/-- The package description of the example project `/proj`. -/
def pkgProj : PackagePublic :=
  { Dir := "/proj", ImportPath := "example.com/proj", Imports := ["pkgA", ""],
    Module := some { Path := "example.com/proj", Version := "", Dir := "/proj" },
    Error := none }

/-- Surroundings of a complete run in the project `/proj`: the build graph knows the
project, its import `pkgA` and the base plugin, and reports a package error for the
gRPC module; the server delivers a tiny archive; the schema directory holds
`a.proto`. -/
def envNoGrpc : Env :=
  { envSmallZip with
    lookupEnv := fun name => if name = "GOFILE" then some "gen.go" else none
    goListJson := fun args =>
      if args.getLast? = some "gen.go" ∨ args.getLast? = some "/proj" then .ok pkgProj
      else if args.getLast? = some "pkgA" then
        .ok { Dir := "/x", ImportPath := "pkgA", Imports := [], Module := none, Error := none }
      else if args.getLast? = some pkgNameProtocGenGo then
        .ok { Dir := "/m/protoc-gen-go", ImportPath := pkgNameProtocGenGo, Imports := [],
              Module := some { Path := "google.golang.org/protobuf", Version := "v1.34.2",
                               Dir := "/m" },
              Error := none }
      else if args.getLast? = some pkgNameGrpc then
        .ok { Dir := "", ImportPath := pkgNameGrpc, Imports := [], Module := none,
              Error := some { Err := "no required module provides package" } }
      else .error (.error "exit status 1")
    walkDir := fun _ =>
      [{ path := "/proj/proto", isDir := true, err := false },
       { path := "/proj/proto/a.proto", isDir := false, err := false }] }

/-! ## Auxiliary predicates used in the proofs -/

/-- A component that survives cleaning: not empty, not `.`, free of separators. -/
def GoodComp (c : List Char) : Prop := c ≠ [] ∧ c ≠ ['.'] ∧ '/' ∉ c

/-- Shape of the component stack of a cleaned path (top first): `..` components occur
only in unrooted paths and only at the bottom of the stack. -/
inductive NormStack (rooted : Bool) : List (List Char) → Prop where
  | nil : NormStack rooted []
  | dots {st : List (List Char)} : rooted = false → NormStack rooted st →
      (∀ c ∈ st, c = ['.', '.']) → NormStack rooted (['.', '.'] :: st)
  | comp {c : List Char} {st : List (List Char)} : GoodComp c → c ≠ ['.', '.'] →
      NormStack rooted st → NormStack rooted (c :: st)

/-- The file system of `w'` differs from that of `w` only at paths satisfying `S`. -/
def ChangedOnly (S : String → Prop) (w w' : World) : Prop :=
  ∀ p, w'.fs p ≠ w.fs p → S p

/-- Nothing disappears and directories stay directories from `w` to `w'`. -/
def Mono (w w' : World) : Prop :=
  (∀ p, w.fs p = some Node.dir → w'.fs p = some Node.dir) ∧
  (∀ p, w.fs p ≠ none → w'.fs p ≠ none)

/-- The destination of an extraction exists, or its parent directory does (a
destination without a lexical parent lies in the working directory). -/
def DestReady (d : String) (w : World) : Prop :=
  w.fs d ≠ none ∨ ∀ a, (ancestors d).head? = some a → w.fs a = some Node.dir

/-- Paths an extraction into `d` may touch: `d` itself and what lies lexically below. -/
def InDest (d p : String) : Prop := hasPrefix p (d ++ "/") = true ∨ p = d

/-- The fault plan holds no fault: no system call fails for a reason outside the model. -/
def NoFaults (w : World) : Prop := ∀ b ∈ w.faults, b = false

/-- No regular file is at `p`. -/
def NotFile (w : World) (p : String) : Prop := ∀ c m, w.fs p ≠ some (Node.file c m)

/-- Outside `S`, the only change from `w` to `w'` is that missing paths became
directories. -/
def Grown (S : String → Prop) (w w' : World) : Prop :=
  ∀ q, S q ∨ w'.fs q = w.fs q ∨ (w.fs q = none ∧ w'.fs q = some Node.dir)

/-- The errors of `Unzip` that report a failed file-system operation. -/
def fsErrors : List Err :=
  [.error "os.MkdirAll() error", .error "os.OpenFile() error", .error "outFile.Close() error"]

/-- Between `w` and `w'` only the file system and the fault plan may differ. -/
def SameMeta (w w' : World) : Prop :=
  w'.trace = w.trace ∧ w'.urlOnce = w.urlOnce ∧ w'.distOnce = w.distOnce

/-- The log of `w'` is the log of `w` followed by events that all satisfy `P`. -/
def TraceAdds (P : Event → Prop) (w w' : World) : Prop :=
  ∃ added, w'.trace = w.trace ++ added ∧ ∀ e ∈ added, P e

/-- Download attempts in a log. -/
def downloads (t : List Event) : List Event :=
  t.filter (fun e => match e with
    | .download _ _ => true
    | _ => false)

/-- The memo cells are consistent, as they are after `Init` and after any calls made
through the two wrappers: a resolved distribution path comes with a resolved URL. -/
def MemoOK (w : World) : Prop :=
  ∀ p, w.distOnce = some (.ok p) → ∃ u, w.urlOnce = some (.ok u)

/-- The source directory the build graph reports for an import path (empty when the
query fails). -/
def importDir (env : Env) (importPath : String) : String :=
  match GoListPkg env importPath ["generate"] with
  | .ok info => info.Dir
  | .error _ => ""

/-- The query for an import path fails as `listImportPathDir` sees it: a hard error,
or a description with an empty source directory. -/
def importFails (env : Env) (importPath : String) : Prop :=
  (∃ e, GoListPkg env importPath ["generate"] = .error e) ∨
    ∃ info, GoListPkg env importPath ["generate"] = .ok info ∧ info.Dir = ""

/-- What a goroutine of `listImportPathDir` contributes when its query succeeds. -/
def importDirOpt (env : Env) (importPath : String) : Option String :=
  if importPath = "" then none else some (importDir env importPath)

/-- The event is not a write of the staged argument file. -/
def NotWrite (e : Event) : Prop := ∀ p c, e ≠ Event.writeFile p c

/-- The directive does not refer to the gRPC plugin. -/
def NoGrpc (l : String) : Prop :=
  hasPrefix l "--go-grpc_out" = false ∧ hasPrefix l "--go-grpc_opt" = false ∧
    hasPrefix l "--plugin=protoc-gen-go-grpc" = false

/-! ## Auxiliary definitions for the claims about `Run` -/

/-- An event of the provisioning part of `Run`: a download attempt, the removal of the
extracted distribution (when `dist` is its resolved path), a `go install` run, the
save of the editor configuration. -/
def ProvD (dist : Except Err String) (e : Event) : Prop :=
  (∃ u d, e = Event.download u d) ∨ (∃ d, dist = .ok d ∧ e = Event.removeAll d) ∨
    (∃ a b, e = Event.goInstall a b) ∨ (∃ p, e = Event.editorSave p)

/-- The values `Run` has resolved when it starts to stage the argument file, and the
world at that point. -/
structure Resolved where
  genFilePkg : PackagePublic
  genPkg : PackagePublic
  module : ModulePublic
  protoPaths : List String
  protocDistPath : String
  protocGenGoInstallDir : String
  protocGenGoGrpcInstallDir : String
  goExe : String
  protoFiles : List String
  world : World

/-- The directives `Run` stages for resolved values. -/
def Resolved.lines (g : Generator) (s : Resolved) : List String :=
  protocOptLines s.protoPaths (g.getProtoDirAbs s.genFilePkg.Dir) s.protocDistPath
    s.module.Dir s.module.Path s.protocGenGoInstallDir s.protocGenGoGrpcInstallDir s.goExe
    s.protoFiles

/-- `Run`, started in `w`, gets as far as staging the argument file with the resolved
values `s`: every step before succeeded with these results. -/
def Generator.reaches (g : Generator) (v : PkgVars) (env : Env) (w : World) (s : Resolved) :
    Prop :=
  GoListPkg env ((env.lookupEnv "GOFILE").getD "") ["generate"] = .ok s.genFilePkg ∧
  s.genFilePkg.Error = none ∧
  GoListPkg env s.genFilePkg.Dir ["generate"] = .ok s.genPkg ∧
  s.genPkg.Module = some s.module ∧
  listImportPathDir env s.genFilePkg.Imports = .ok s.protoPaths ∧
  GoEnv env "GOEXE" = .ok s.goExe ∧
  walkProtoFiles env (env.walkDir (g.getProtoDirAbs s.genFilePkg.Dir)) [] = .ok s.protoFiles ∧
  ∃ w1 w2 w3 w4,
    g.prepareProtoc v env w = (none, w1) ∧
    g.prepareProtocGenGo v env w1 = (.ok s.protocGenGoInstallDir, w2) ∧
    g.prepareProtocGenGoGrpc v env w2 = (.ok s.protocGenGoGrpcInstallDir, w3) ∧
    g.getProtocDistPath v env w3 = (.ok s.protocDistPath, w4) ∧
    s.world = (configProtoEditor env s.genPkg s.protoPaths w4).2

/-- The directories the clean loop of `Run` is to remove, in order, written from the
words of the specification: the comma-separated pieces of the clean list, trimmed,
without the empty ones, relative ones joined onto the package directory. -/
def cleanTargets (cleanList genFileDir : String) : List String :=
  ((((splitChars ',' cleanList.data).map String.mk).map TrimSpace).filter
    (fun d => decide (d ≠ ""))).map (fun d => if IsAbs d then d else Join genFileDir d)

/-! ## `Run` with the editor integration as a parameter -/

/-- The middle of `Run` with the editor integration replaced by `sink`: the text of
`assemble`, with `sink genPkg protoPaths` where `assemble` calls `configProtoEditor`. -/
def Generator.assembleWith (g : Generator)
    (sink : PackagePublic → List String → World → Option Err × World) (v : PkgVars) (env : Env)
    (genFilePkg genPkg : PackagePublic)
    (protocGenGoInstallDir protocGenGoGrpcInstallDir : String) (w : World) :
    Option Err × World :=
  match listImportPathDir env genFilePkg.Imports with
  | .error _ => (some (.error "listImportPathDir() error"), w)
  | .ok protoPaths =>
    match g.getProtocDistPath v env w with
    | (.error _, w1) => (some (.error "getProtocDistPath() error"), w1)
    | (.ok protocDistPath, w1) =>
      match sink genPkg protoPaths w1 with
      | (_, w2) =>
        match GoEnv env "GOEXE" with
        | .error _ => (some (.error "GoEnv() error"), w2)
        | .ok goExe =>
          match genPkg.Module with
          | none => (some (.panic "nil pointer dereference"), w2)
          | some module =>
            match walkProtoFiles env (env.walkDir (g.getProtoDirAbs genFilePkg.Dir)) [] with
            | .error _ => (some (.error "filepath.WalkDir() error"), w2)
            | .ok protoFiles =>
              g.stageAndInvoke env genFilePkg genPkg protocDistPath
                (protocOptLines protoPaths (g.getProtoDirAbs genFilePkg.Dir) protocDistPath
                  module.Dir module.Path protocGenGoInstallDir protocGenGoGrpcInstallDir goExe
                  protoFiles) w2

/-- `Run` with the editor integration replaced by `sink`: the text of `Run`, ending in
`assembleWith`. -/
def Generator.RunWith (g : Generator)
    (sink : PackagePublic → List String → World → Option Err × World) (v : PkgVars) (env : Env)
    (w : World) : Option Err × World :=
  match GoListPkg env ((env.lookupEnv "GOFILE").getD "") ["generate"] with
  | .error _ => (some (.error "GoListPkg() error"), w)
  | .ok genFilePkg =>
    if genFilePkg.Error ≠ none then (some (.error "GoListPkg() error: pbGoPkg.Error"), w)
    else
      match GoListPkg env genFilePkg.Dir ["generate"] with
      | .error _ => (some (.error "GoListPkg() error"), w)
      | .ok genPkg =>
        if genFilePkg.Error ≠ none then (some (.error "GoListPkg() error: pbGoPkg.Error"), w)
        else
          match g.prepareProtoc v env w with
          | (some e, w1) => (some (wrapErr "prepareProtoc() error" e), w1)
          | (none, w1) =>
            match g.prepareProtocGenGo v env w1 with
            | (.error e, w2) => (some (wrapErr "prepareProtocGenGo() error" e), w2)
            | (.ok protocGenGoInstallDir, w2) =>
              match g.prepareProtocGenGoGrpc v env w2 with
              | (.error e, w3) => (some (wrapErr "prepareProtocGenGoGrpc() error" e), w3)
              | (.ok protocGenGoGrpcInstallDir, w3) =>
                g.assembleWith sink v env genFilePkg genPkg protocGenGoInstallDir
                  protocGenGoGrpcInstallDir w3

/-- What an editor integration may do: it raises no fault of its own on a fault-free
plan, changes the file system only at paths in `S`, and logs no write of the argument
file. Its result is not constrained. -/
def SinkFrame (S : String → Prop)
    (sink : PackagePublic → List String → World → Option Err × World) : Prop :=
  ∀ genPkg protoPaths w,
    (NoFaults w → NoFaults (sink genPkg protoPaths w).2) ∧
    (∀ p, ¬ S p → (sink genPkg protoPaths w).2.fs p = w.fs p) ∧
    TraceAdds NotWrite w (sink genPkg protoPaths w).2

/-- Writes of the argument file in a log. -/
def writes (t : List Event) : List Event :=
  t.filter (fun e => match e with
    | .writeFile _ _ => true
    | _ => false)

/-- Two fault-free worlds whose file systems agree outside `S` and whose logs hold the
same writes of the argument file. -/
def Agree (S : String → Prop) (w w' : World) : Prop :=
  NoFaults w ∧ NoFaults w' ∧ (∀ p, ¬ S p → w.fs p = w'.fs p) ∧
    writes w.trace = writes w'.trace

/-- The paths the staging of the argument file looks at: the staging path, its
directory, and their lexical ancestors. -/
def stagingFootprint (g : Generator) (env : Env) (genPkg : PackagePublic) : List String :=
  g.getProtoGenFilePath env genPkg :: ancestors (g.getProtoGenFilePath env genPkg) ++
    Dir (g.getProtoGenFilePath env genPkg) :: ancestors (Dir (g.getProtoGenFilePath env genPkg))

/-! ## Auxiliary definitions for the claims about the editor configuration -/

/-- The import path list of an editor document, found the way `ConfigProtoPath` finds
it: the elements of the first `list` element of the first option `importPathEntries`
of the first component `ProtobufLanguageSettings`; empty when one of them is missing. -/
def importPathList (docRoot : XmlElement) : List XmlElement :=
  match docRoot.Elements.find?
      (fun e => e.XMLName = "component" ∧ hasNameAttr "ProtobufLanguageSettings" e) with
  | none => []
  | some pComponent =>
    match pComponent.Elements.find?
        (fun e => e.XMLName = "option" ∧ hasNameAttr "importPathEntries" e) with
    | none => []
    | some pOption =>
      match pOption.Elements.find? (fun e => e.XMLName = "list") with
      | none => []
      | some pList => pList.Elements

/-! ## Further concrete inputs -/

/-- The surroundings of the example project, except that the build graph describes
the import `pkgA` with the source directory `dir` and a structured package error (as
`go list -e` does for a package whose files are all excluded by build constraints). -/
def envImportErr (dir : String) : Env :=
  { envNoGrpc with
    goListJson := fun args =>
      if args.getLast? = some "pkgA" then
        .ok { Dir := dir, ImportPath := "pkgA", Imports := [], Module := none,
              Error := some { Err := "build constraints exclude all Go files" } }
      else envNoGrpc.goListJson args }

/-- The surroundings of the example project with an encoder for the editor
configuration that always succeeds. -/
def envIdea : Env :=
  { envNoGrpc with xmlEncode := fun _ => some "<project></project>" }

/-- A generator with the opt-out flag for the editor integration set. -/
def genNoJetBrains : Generator :=
  { genDefault with DisableJetBrains := true }

/-- A generator with one custom compiler option. -/
def genCustomOpt : Generator :=
  { genDefault with CustomProtocOpts := ["--experimental_allow_proto3_optional"] }

/-! ## Auxiliary definitions for the claims about pruning, idempotence and memoisation -/

/-- The last element moved to the front, the effect on the surviving entries of
overwriting a pruned entry by the last surviving one. -/
def moveLast {α : Type} (r : List α) : List α :=
  match r.getLast? with
  | none => []
  | some x => x :: r.dropLast

/-- An import path entry with the given comment and no content. -/
def entryOf (comment : String) : XmlElement := .mk "ImportPathEntry" [] [] comment

/-- An editor document whose import path list holds the given entries. -/
def docWithEntries (entries : List XmlElement) : XmlElement :=
  .mk "project" [("version", "4")]
    [.mk "component" [("name", "ProtobufLanguageSettings")]
      [.mk "option" [("name", "importPathEntries")] [.mk "list" [] entries ""] ""] ""] ""

/-- An editor document with an entry of the package itself before two entries of other
packages. -/
def docMixed : XmlElement :=
  docWithEntries [entryOf "example.com/proj", entryOf "example.com/a", entryOf "example.com/b"]

/-- An editor document whose entries of other packages come before an entry of the
package itself and an entry without a comment. -/
def docKeptFirst : XmlElement :=
  docWithEntries [entryOf "example.com/a", entryOf "example.com/b", entryOf "example.com/proj",
    entryOf ""]

/-- The test of `ConfigProtoPath` for the option of a given name. -/
def isOption (name : String) (e : XmlElement) : Bool :=
  e.XMLName = "option" ∧ hasNameAttr name e

/-- The element with its first attribute `value` set, or one appended. -/
def withValue (value : String) (e : XmlElement) : XmlElement :=
  .mk e.XMLName (setValueAttr value e.Attrs) e.Elements e.Comment

/-- What `ConfigProtoPath` does to the `list` element: prune, then append the entries of
the package. -/
def editList (goPkg : String) (protoPaths : List String) (pList : XmlElement) : XmlElement :=
  .mk pList.XMLName pList.Attrs
    (pruneEntries goPkg pList.Elements ++ protoPaths.map (importPathEntry goPkg)) pList.Comment

/-- What `ConfigProtoPath` does to the option `importPathEntries`. -/
def editEntries (goPkg : String) (protoPaths : List String) (pOption : XmlElement) :
    XmlElement :=
  .mk "option" [("name", "importPathEntries")]
    (updateFirst (fun e => e.XMLName = "list") (editList goPkg protoPaths) (.mk "list" [] [] "")
      pOption.Elements)
    pOption.Comment

/-- What `ConfigProtoPath` does to the elements of the settings component. -/
def editOptions (goPkg : String) (protoPaths : List String) (elements : List XmlElement) :
    List XmlElement :=
  updateFirst (isOption "importPathEntries") (editEntries goPkg protoPaths) XmlElement.empty
    (setOption "descriptorPath" "google/protobuf/descriptor.proto"
      (setOption "autoConfigEnabled" "false" elements))

/-- What `ConfigProtoPath` does to the settings component. -/
def editComponent (goPkg : String) (protoPaths : List String) (pComponent : XmlElement) :
    XmlElement :=
  .mk pComponent.XMLName pComponent.Attrs (editOptions goPkg protoPaths pComponent.Elements)
    pComponent.Comment

/-- An editor document whose settings component has one option, which carries two
attributes with the local name `name`: `autoConfigEnabled` and `importPathEntries`. -/
def docTwoNames : XmlElement :=
  .mk "project" [("version", "4")]
    [.mk "component" [("name", "ProtobufLanguageSettings")]
      [.mk "option" [("name", "autoConfigEnabled"), ("name", "importPathEntries")] [] ""] ""] ""

/-- An editor document with the three options of the settings component, the first
with the value `true`, and entries of two packages. -/
def docSettled : XmlElement :=
  .mk "project" [("version", "4")]
    [.mk "component" [("name", "ProtobufLanguageSettings")]
      [.mk "option" [("name", "autoConfigEnabled"), ("value", "true")] [] "",
        .mk "option" [("name", "importPathEntries")]
          [.mk "list" [] [entryOf "example.com/proj", entryOf "example.com/a"] ""] ""] ""] ""

/-! ### Sequences of calls to the memoised functions -/

/-- `getProtocDownloadUrl`, with the number of runs of `doGetProtocDownloadUrl` the
call makes: the derivation runs when the cell is empty. -/
def Generator.getProtocDownloadUrlCounted (g : Generator) (v : PkgVars) (w : World) :
    (Except Err String × World) × Nat :=
  match w.urlOnce with
  | some r => ((r, w), 0)
  | none =>
    ((g.doGetProtocDownloadUrl v, { w with urlOnce := some (g.doGetProtocDownloadUrl v) }), 1)

/-- `doGetProtocDistPath`, with the number of runs of `doGetProtocDownloadUrl` it
makes through `getProtocDownloadUrl`. -/
def Generator.doGetProtocDistPathCounted (g : Generator) (v : PkgVars) (env : Env)
    (w : World) : (Except Err String × World) × Nat :=
  match g.getProtocDownloadUrlCounted v w with
  | ((.error _, w1), n) => ((.error (.error "getProtocDownloadUrl() error"), w1), n)
  | ((.ok downloadUrl, w1), n) =>
    ((.ok (Join v.protocDistDir (env.sha256Base64 downloadUrl)), w1), n)

/-- `getProtocDistPath`, with the numbers of runs of `doGetProtocDownloadUrl` and of
`doGetProtocDistPath` the call makes. -/
def Generator.getProtocDistPathCounted (g : Generator) (v : PkgVars) (env : Env) (w : World) :
    (Except Err String × World) × (Nat × Nat) :=
  match w.distOnce with
  | some r => ((r, w), (0, 0))
  | none =>
    match g.doGetProtocDistPathCounted v env w with
    | ((r, w1), n) => ((r, { w1 with distOnce := some r }), (n, 1))

/-- A call on a generator: `getProtocDownloadUrl` or `getProtocDistPath` with the
configuration fields as they are at the time of the call, or `Init`. -/
inductive MemoCall where
  | url (g : Generator)
  | dist (g : Generator)
  | init
  deriving DecidableEq, Repr

/-- What a sequence of calls shows: the results returned to the callers of
`getProtocDownloadUrl` and of `getProtocDistPath`, in the order of the calls, and the
numbers of runs of the two derivations. -/
structure MemoLog where
  urls : List (Except Err String)
  dists : List (Except Err String)
  urlRuns : Nat
  distRuns : Nat

/-- A sequence of calls, run from a world. -/
def runCalls (v : PkgVars) (env : Env) : List MemoCall → World → MemoLog × World
  | [], w => ({ urls := [], dists := [], urlRuns := 0, distRuns := 0 }, w)
  | .url g :: calls, w =>
    match g.getProtocDownloadUrlCounted v w with
    | ((r, w1), n) =>
      match runCalls v env calls w1 with
      | (log, w2) => ({ log with urls := r :: log.urls, urlRuns := n + log.urlRuns }, w2)
  | .dist g :: calls, w =>
    match g.getProtocDistPathCounted v env w with
    | ((r, w1), (n, m)) =>
      match runCalls v env calls w1 with
      | (log, w2) =>
        ({ log with dists := r :: log.dists, urlRuns := n + log.urlRuns,
                    distRuns := m + log.distRuns }, w2)
  | .init :: calls, w => runCalls v env calls (Generator.Init w)

/-- A generator for the toolchain version `ver` and the default download URL. -/
def genVer (ver : String) : Generator := { genDefault with ProtocVer := ver }

/-! ### Two runs with the same resolved inputs -/

/-- A generator whose schema directory is the absolute path `/proj/proto`. -/
def genAbsProto : Generator := { genDefault with ProtoDir := "/proj/proto" }

/-- The package in `/proj/other` of the module of the example project, with the
imports of `pkgProj`. -/
def pkgOther : PackagePublic :=
  { Dir := "/proj/other", ImportPath := "example.com/proj/other", Imports := ["pkgA", ""],
    Module := some { Path := "example.com/proj", Version := "", Dir := "/proj" },
    Error := none }

/-- The surroundings of the example project, with the generate file in the package
`/proj/other`. -/
def envOther : Env :=
  { envNoGrpc with
    goListJson := fun args =>
      if args.getLast? = some "gen.go" ∨ args.getLast? = some "/proj/other" then .ok pkgOther
      else envNoGrpc.goListJson args }

/-- The values that the run of `g` from the empty world resolves in surroundings of the
example project in which the generate file lies in the package `pkg`. -/
def resolvedIn (g : Generator) (env : Env) (pkg : PackagePublic) : Resolved :=
  { genFilePkg := pkg, genPkg := pkg,
    module := { Path := "example.com/proj", Version := "", Dir := "/proj" },
    protoPaths := ["/x"], protocDistPath := "/c/.go_protoc/protoc/KEY",
    protocGenGoInstallDir := "/c/.go_protoc/protoc-gen-go/v1.34.2",
    protocGenGoGrpcInstallDir := "", goExe := "", protoFiles := ["/proj/proto/a.proto"],
    world := (configProtoEditor env pkg ["/x"]
      (g.getProtocDistPath varsStub env
        (g.prepareProtocGenGoGrpc varsStub env
          (g.prepareProtocGenGo varsStub env
            (g.prepareProtoc varsStub env worldEmpty).2).2).2).2).2 }

/-! ### Runs with a configured clean list -/

/-- A generator with the clean list `gen, /abs/other`. -/
def genCleanList : Generator := { genDefault with CleanDir := "gen, /abs/other" }

/-- A generator whose clean list starts with a path that ends in `/.`. -/
def genCleanDot : Generator := { genDefault with CleanDir := "/abs/x/., gen" }

/-- A world with files generated earlier in `/proj/gen` and `/abs/other`. -/
def worldStale : World :=
  { fs := fun q =>
      if q = "/proj" ∨ q = "/proj/gen" ∨ q = "/abs" ∨ q = "/abs/other" ∨ q = "/abs/x" then
        some Node.dir
      else if q = "/proj/gen/a.pb.go" ∨ q = "/abs/other/b.pb.go" ∨ q = "/abs/x/c.pb.go" then
        some (Node.file "package old" 420)
      else none
    faults := [], trace := [], urlOnce := none, distOnce := none }

/-! ### A schema file whose name holds a newline -/

/-- The surroundings of the example project, with a second schema file whose name
holds a newline followed by the text of a gRPC directive. -/
def envNewline : Env :=
  { envNoGrpc with
    walkDir := fun _ =>
      [{ path := "/proj/proto", isDir := true, err := false },
       { path := "/proj/proto/a.proto", isDir := false, err := false },
       { path := "/proj/proto/b\n--go-grpc_out=x.proto", isDir := false, err := false }] }

/-! ## Facts about strings and lexical paths -/

theorem hasPrefix_iff (s p : String) :
    hasPrefix s p = true ↔ ∃ t : List Char, s.data = p.data ++ t := by
  unfold hasPrefix
  rw [List.isPrefixOf_iff_prefix]
  constructor
  · rintro ⟨t, ht⟩; exact ⟨t, ht.symm⟩
  · rintro ⟨t, ht⟩; exact ⟨t, ht.symm⟩

theorem splitChars_ne_nil (sep : Char) (p : List Char) : splitChars sep p ≠ [] := by
  cases p with
  | nil => simp [splitChars]
  | cons c cs =>
    simp only [splitChars]
    split
    · simp
    · split <;> simp

theorem splitChars_no_sep (sep : Char) (p : List Char) :
    ∀ c ∈ splitChars sep p, sep ∉ c := by
  induction p with
  | nil => simp [splitChars]
  | cons a cs ih =>
    simp only [splitChars]
    split
    · intro c hc
      rcases List.mem_cons.1 hc with h | h
      · subst h; simp
      · exact ih c h
    · rename_i hne
      intro c hc
      split at hc
      · rename_i h0; exact absurd h0 (splitChars_ne_nil sep cs)
      · rename_i h t heq
        rw [heq] at ih
        rcases List.mem_cons.1 hc with h1 | h1
        · subst h1
          intro hmem
          rcases List.mem_cons.1 hmem with h2 | h2
          · exact hne h2.symm
          · exact ih h (List.mem_cons_self _ _) h2
        · exact ih c (List.mem_cons_of_mem _ h1)

theorem splitChars_of_no_sep (sep : Char) (p : List Char) (h : sep ∉ p) :
    splitChars sep p = [p] := by
  induction p with
  | nil => rfl
  | cons a cs ih =>
    have ha : a ≠ sep := fun e => h (by simp [e])
    have hcs : sep ∉ cs := fun e => h (List.mem_cons_of_mem _ e)
    simp [splitChars, ha, ih hcs]

theorem splitChars_append (sep : Char) (a b : List Char) :
    splitChars sep (a ++ sep :: b) = splitChars sep a ++ splitChars sep b := by
  induction a with
  | nil => simp [splitChars]
  | cons x xs ih =>
    by_cases hx : x = sep
    · simp [splitChars, hx, ih]
    · simp only [List.cons_append, splitChars, hx, if_false]
      show (match splitChars sep (xs ++ sep :: b) with
        | [] => [[x]]
        | h :: t => (x :: h) :: t) = _
      rw [ih]
      cases h : splitChars sep xs with
      | nil => exact absurd h (splitChars_ne_nil sep xs)
      | cons hd tl => simp


theorem NormStack.good {r : Bool} {st : List (List Char)} (h : NormStack r st) :
    ∀ c ∈ st, c ≠ [] ∧ '/' ∉ c := by
  induction h with
  | nil => simp
  | dots _ _ _ ih =>
    intro c hc
    rcases List.mem_cons.1 hc with h1 | h1
    · subst h1; simp
    · exact ih c h1
  | comp hg _ _ ih =>
    intro c hc
    rcases List.mem_cons.1 hc with h1 | h1
    · subst h1; exact ⟨hg.1, hg.2.2⟩
    · exact ih c h1

theorem NormStack.tail {r : Bool} {st : List (List Char)} (h : NormStack r st) :
    NormStack r st.tail := by
  cases h with
  | nil => exact NormStack.nil
  | dots _ h2 _ => exact h2
  | comp _ _ h2 => exact h2

theorem cleanStep_norm {r : Bool} {st : List (List Char)} (h : NormStack r st)
    (comp : List Char) (hc : '/' ∉ comp) : NormStack r (cleanStep r st comp) := by
  unfold cleanStep
  split
  · exact h
  · rename_i h1
    push_neg at h1
    split
    · rename_i h2
      subst h2
      cases h with
      | nil =>
        cases r with
        | true => simpa using NormStack.nil
        | false => simpa using NormStack.dots rfl NormStack.nil (by simp)
      | dots hr hst hall =>
        simp only [if_true]
        refine NormStack.dots hr (NormStack.dots hr hst hall) ?_
        intro c hc
        rcases List.mem_cons.1 hc with h3 | h3
        · exact h3
        · exact hall c h3
      | comp hg hne hst =>
        simp only [hne, if_false]
        exact hst
    · rename_i h2
      exact NormStack.comp ⟨h1.1, h1.2, hc⟩ h2 h

theorem foldl_cleanStep_norm {r : Bool} (cs : List (List Char)) :
    ∀ st, NormStack r st → (∀ c ∈ cs, '/' ∉ c) → NormStack r (cs.foldl (cleanStep r) st) := by
  induction cs with
  | nil => intro st h _; exact h
  | cons c cs ih =>
    intro st h hall
    simp only [List.foldl_cons]
    exact ih _ (cleanStep_norm h c (hall c (List.mem_cons_self _ _)))
      (fun d hd => hall d (List.mem_cons_of_mem _ hd))

theorem cleanStep_push {r : Bool} {c : List Char} {st : List (List Char)}
    (h : NormStack r (c :: st)) : cleanStep r st c = c :: st := by
  cases h with
  | dots hr hst hall =>
    unfold cleanStep
    simp only [List.cons_ne_nil, false_or, if_true]
    rw [if_neg (by decide)]
    cases st with
    | nil => simp [hr]
    | cons top below => simp [hall top (List.mem_cons_self _ _)]
  | comp hg hne hst =>
    unfold cleanStep
    rw [if_neg (by simp [hg.1, hg.2.1]), if_neg hne]

theorem foldl_reverse_norm {r : Bool} {st : List (List Char)} (h : NormStack r st) :
    st.reverse.foldl (cleanStep r) [] = st := by
  induction st with
  | nil => rfl
  | cons c st ih =>
    rw [List.reverse_cons, List.foldl_append, ih h.tail]
    simp only [List.foldl_cons, List.foldl_nil]
    exact cleanStep_push h

theorem joinSlash_append_singleton (xs : List (List Char)) (c : List Char) (h : xs ≠ []) :
    joinSlash (xs ++ [c]) = joinSlash xs ++ '/' :: c := by
  induction xs with
  | nil => exact absurd rfl h
  | cons x xs ih =>
    cases xs with
    | nil => simp [joinSlash]
    | cons y ys =>
      have := ih (by simp)
      show x ++ '/' :: joinSlash ((y :: ys) ++ [c]) = (x ++ '/' :: joinSlash (y :: ys)) ++ '/' :: c
      rw [this]
      simp

theorem splitChars_joinSlash (cs : List (List Char)) (hne : cs ≠ [])
    (h : ∀ c ∈ cs, '/' ∉ c) : splitChars '/' (joinSlash cs) = cs := by
  induction cs with
  | nil => exact absurd rfl hne
  | cons x xs ih =>
    cases xs with
    | nil => simpa [joinSlash] using splitChars_of_no_sep '/' x (h x (List.mem_cons_self _ _))
    | cons y ys =>
      simp only [joinSlash]
      rw [splitChars_append, splitChars_of_no_sep '/' x (h x (List.mem_cons_self _ _)),
        ih (by simp) (fun c hc => h c (List.mem_cons_of_mem _ hc))]
      rfl

theorem joinSlash_head (cs : List (List Char)) (hne : cs ≠ [])
    (h : ∀ c ∈ cs, c ≠ [] ∧ '/' ∉ c) :
    joinSlash cs ≠ [] ∧ (joinSlash cs).head? ≠ some '/' := by
  cases cs with
  | nil => exact absurd rfl hne
  | cons x xs =>
    have hx := h x (List.mem_cons_self _ _)
    cases x with
    | nil => exact absurd rfl hx.1
    | cons a as =>
      have ha : a ≠ '/' := fun e => hx.2 (by simp [e])
      cases xs with
      | nil => simp [joinSlash, ha]
      | cons y ys => simp [joinSlash, ha]

theorem dirPrefix_append_slash (x l : List Char) (h : '/' ∉ l) :
    dirPrefix (x ++ '/' :: l) = x ++ ['/'] := by
  unfold dirPrefix
  have : (x ++ '/' :: l).reverse = l.reverse ++ '/' :: x.reverse := by simp
  rw [this, List.dropWhile_append_of_pos]
  · simp [List.dropWhile]
  · intro c hc
    have : c ≠ '/' := fun e => h (by rw [← e]; exact List.mem_reverse.1 hc)
    simpa using this

theorem dirPrefix_no_slash (l : List Char) (h : '/' ∉ l) : dirPrefix l = [] := by
  unfold dirPrefix
  have : l.reverse.dropWhile (fun c => decide (c ≠ '/')) = [] := by
    rw [List.dropWhile_eq_nil_iff]
    intro c hc
    have : c ≠ '/' := fun e => h (by rw [← e]; exact List.mem_reverse.1 hc)
    simpa using this
  rw [this]; rfl

theorem cleanChars_norm (p : List Char) :
    ∃ S, NormStack (decide (p.head? = some '/')) S ∧
      cleanChars p = renderPath (decide (p.head? = some '/')) S :=
  ⟨_, foldl_cleanStep_norm _ _ NormStack.nil (splitChars_no_sep '/' p), rfl⟩

theorem cleanChars_ne_nil (p : List Char) : cleanChars p ≠ [] := by
  unfold cleanChars renderPath
  split
  · simp
  · split
    · simp
    · assumption

theorem renderPath_cons {r : Bool} {top : List Char} {tl : List (List Char)}
    (h : NormStack r (top :: tl)) (htl : tl ≠ []) :
    renderPath r (top :: tl) = renderPath r tl ++ '/' :: top := by
  have hg := h.tail.good
  have hj := joinSlash_head tl.reverse (by simpa using htl)
    (fun c hc => hg c (List.mem_reverse.1 hc))
  unfold renderPath
  rw [List.reverse_cons, joinSlash_append_singleton _ _ (by simpa using htl)]
  cases r with
  | true => simp
  | false => simp [hj.1]

theorem dir_render {r : Bool} {S : List (List Char)} (h : NormStack r S) :
    cleanChars (dirPrefix (renderPath r S)) = renderPath r S.tail := by
  cases S with
  | nil =>
    cases r with
    | true => decide
    | false => decide
  | cons top tl =>
    have htop := h.good top (List.mem_cons_self _ _)
    by_cases htl : tl = []
    · subst htl
      cases r with
      | true =>
        have : renderPath true [top] = [] ++ '/' :: top := by simp [renderPath, joinSlash]
        rw [this, dirPrefix_append_slash _ _ htop.2]
        rfl
      | false =>
        have : renderPath false [top] = top := by simp [renderPath, joinSlash, htop.1]
        rw [this, dirPrefix_no_slash _ htop.2]
        rfl
    · rw [renderPath_cons h htl, dirPrefix_append_slash _ _ htop.2]
      have hg := h.tail.good
      have hne : tl.reverse ≠ [] := by simpa using htl
      have hj := joinSlash_head tl.reverse hne (fun c hc => hg c (List.mem_reverse.1 hc))
      have hsplit := splitChars_joinSlash tl.reverse hne
        (fun c hc => (hg c (List.mem_reverse.1 hc)).2)
      have hfold : tl.reverse.foldl (cleanStep r) [] = tl := foldl_reverse_norm h.tail
      have hg : ∀ c ∈ tl, c ≠ [] ∧ '/' ∉ c := hg
      simp only [List.tail_cons]
      cases r with
      | true =>
        have e1 : renderPath true tl ++ ['/'] = '/' :: (joinSlash tl.reverse ++ '/' :: []) := by
          simp [renderPath]
        rw [e1]
        unfold cleanChars
        have e2 : splitChars '/' ('/' :: (joinSlash tl.reverse ++ '/' :: [])) =
            [] :: (tl.reverse ++ [[]]) := by
          rw [splitChars, if_pos rfl, splitChars_append, hsplit]; rfl
        rw [e2]
        simp only [List.head?_cons, decide_True, List.foldl_cons, List.foldl_append,
          List.foldl_nil]
        have e3 : cleanStep true [] [] = [] := by decide
        rw [e3, hfold]
        have e4 : cleanStep true tl [] = tl := by simp [cleanStep]
        rw [e4]
      | false =>
        have e1 : renderPath false tl ++ ['/'] = joinSlash tl.reverse ++ '/' :: [] := by
          simp [renderPath, hj.1]
        rw [e1]
        unfold cleanChars
        have e0 : (joinSlash tl.reverse ++ '/' :: []).head? ≠ some '/' := by
          cases hjs : joinSlash tl.reverse with
          | nil => exact absurd hjs hj.1
          | cons a as =>
            have := hj.2
            rw [hjs] at this
            simpa using this
        rw [splitChars_append, hsplit]
        simp only [e0, decide_False, List.foldl_append]
        rw [hfold]
        simp [splitChars, cleanStep]

theorem append_slash_cases {d rest p top : List Char} (h : d ++ '/' :: rest = p ++ '/' :: top)
    (htop : '/' ∉ top) : p = d ∨ ∃ rest', p = d ++ '/' :: rest' := by
  rcases List.append_eq_append_iff.1 h with ⟨a, ha, hb⟩ | ⟨c, hc, hd⟩
  · cases a with
    | nil => left; simpa using ha
    | cons x xs =>
      simp only [List.cons_append, List.cons.injEq] at hb
      right; exact ⟨xs, by rw [ha, hb.1]⟩
  · cases c with
    | nil => left; simpa using hc.symm
    | cons x xs =>
      simp only [List.cons_append, List.cons.injEq] at hd
      exfalso; apply htop; rw [hd.2]; simp

theorem render_tail_inside {r : Bool} {S : List (List Char)} (h : NormStack r S)
    {d rest : List Char} (hd : d ≠ []) (he : renderPath r S = d ++ '/' :: rest) :
    renderPath r S.tail = d ∨ ∃ rest', renderPath r S.tail = d ++ '/' :: rest' := by
  cases S with
  | nil =>
    exfalso
    cases d with
    | nil => exact hd rfl
    | cons x xs =>
      cases r with
      | true => simp [renderPath, joinSlash] at he
      | false => simp [renderPath, joinSlash] at he
  | cons top tl =>
    have htop := h.good top (List.mem_cons_self _ _)
    by_cases htl : tl = []
    · subst htl
      exfalso
      cases r with
      | true =>
        have e : renderPath true [top] = '/' :: top := by simp [renderPath, joinSlash]
        rw [e] at he
        cases d with
        | nil => exact hd rfl
        | cons x xs =>
          simp only [List.cons_append, List.cons.injEq] at he
          apply htop.2; rw [he.2]; simp
      | false =>
        have e : renderPath false [top] = top := by simp [renderPath, joinSlash, htop.1]
        rw [e] at he
        apply htop.2; rw [he]; simp
    · rw [renderPath_cons h htl] at he
      exact append_slash_cases he.symm htop.2

/-- For a path that passed the guard of `Unzip`, `filepath.Dir` is the destination
itself or again strictly inside it. -/
theorem Dir_inside (dest name : String)
    (h : hasPrefix (Join dest name) (Clean dest ++ "/") = true) :
    Dir (Join dest name) = Clean dest ∨
      hasPrefix (Dir (Join dest name)) (Clean dest ++ "/") = true := by
  obtain ⟨rest, hrest⟩ := (hasPrefix_iff _ _).1 h
  have hD : (Clean dest).data ≠ [] := cleanChars_ne_nil _
  have hx : ∃ x : List Char, (Join dest name).data = cleanChars x := by
    unfold Join
    split
    · exact ⟨_, rfl⟩
    · split
      · exact ⟨_, rfl⟩
      · exfalso
        rw [Join, if_neg (by assumption), if_neg (by assumption)] at hrest
        simp at hrest
  obtain ⟨x, hx⟩ := hx
  obtain ⟨S, hS, hSe⟩ := cleanChars_norm x
  have he : renderPath (decide (x.head? = some '/')) S = (Clean dest).data ++ '/' :: rest := by
    rw [← hSe, ← hx, hrest]; simp
  have hdir : (Dir (Join dest name)).data = renderPath (decide (x.head? = some '/')) S.tail := by
    show cleanChars (dirPrefix (Join dest name).data) = _
    rw [hx, hSe, dir_render hS]
  rcases render_tail_inside hS hD he with h1 | ⟨rest', h1⟩
  · left
    apply String.ext
    rw [hdir, h1]
  · right
    rw [hasPrefix_iff]
    exact ⟨rest', by rw [hdir, h1]; simp⟩

/-! ## Frame facts about the file-system operations -/

theorem ChangedOnly.crefl (S : String → Prop) (w : World) : ChangedOnly S w w :=
  fun _ h => absurd rfl h

theorem ChangedOnly.ctrans {S : String → Prop} {w1 w2 w3 : World}
    (h1 : ChangedOnly S w1 w2) (h2 : ChangedOnly S w2 w3) : ChangedOnly S w1 w3 := by
  intro p hp
  by_cases h : w2.fs p = w1.fs p
  · exact h2 p (by rw [h]; exact hp)
  · exact h1 p h

theorem ChangedOnly.cof_fs_eq {S : String → Prop} {w w' : World} (h : w'.fs = w.fs) :
    ChangedOnly S w w' := fun p hp => absurd (by rw [h]) hp

theorem Mono.mrefl (w : World) : Mono w w := ⟨fun _ h => h, fun _ h => h⟩

theorem Mono.mtrans {w1 w2 w3 : World} (h1 : Mono w1 w2) (h2 : Mono w2 w3) : Mono w1 w3 :=
  ⟨fun p h => h2.1 p (h1.1 p h), fun p h => h2.2 p (h1.2 p h)⟩

theorem Mono.mof_fs_eq {w w' : World} (h : w'.fs = w.fs) : Mono w w' := by
  constructor <;> intro p hp <;> rw [h] <;> exact hp

theorem popFault_fs (w : World) : w.popFault.2.fs = w.fs := by
  unfold World.popFault
  split <;> rfl

theorem DestReady.mono {d : String} {w w' : World} (h : DestReady d w) (hm : Mono w w') :
    DestReady d w' := by
  rcases h with h | h
  · exact Or.inl (hm.2 d h)
  · exact Or.inr (fun a ha => hm.1 a (h a ha))

theorem Mkdir_frame (p : String) (w : World) :
    ChangedOnly (fun q => q = p) w (Mkdir p w).2 ∧
      Mono w (Mkdir p w).2 := by
  unfold Mkdir
  have hf := popFault_fs w
  rcases hpf : w.popFault with ⟨b, w1⟩
  rw [hpf] at hf
  simp only at hf
  cases b with
  | true => exact ⟨ChangedOnly.cof_fs_eq hf, Mono.mof_fs_eq hf⟩
  | false =>
    constructor
    · intro q hq
      by_contra hne
      apply hq
      simp [World.setNode, hne, hf]
    · constructor
      · intro q hq
        by_cases hqp : q = p
        · simp [World.setNode, hqp]
        · simp [World.setNode, hqp, hf, hq]
      · intro q hq
        by_cases hqp : q = p
        · simp [World.setNode, hqp]
        · simp only [World.setNode, hqp, if_false, hf]; exact hq

theorem mkdirAllList_mono (l : List String) :
    ∀ w, Mono w (mkdirAllList l w).2 ∧
      ChangedOnly (fun q => q ∈ l) w (mkdirAllList l w).2 := by
  induction l with
  | nil => intro w; exact ⟨Mono.mrefl w, ChangedOnly.crefl _ w⟩
  | cons p rest ih =>
    intro w
    unfold mkdirAllList
    rcases hp : w.fs p with _ | n
    · simp only
      have ih' := ih w
      rcases hr : mkdirAllList rest w with ⟨e, w1⟩
      rw [hr] at ih'
      cases e with
      | some e =>
        exact ⟨ih'.1, fun q hq => List.mem_cons_of_mem _ (ih'.2 q hq)⟩
      | none =>
        simp only
        have hk := Mkdir_frame p w1
        refine ⟨Mono.mtrans ih'.1 hk.2, ?_⟩
        refine ChangedOnly.ctrans (fun q hq => List.mem_cons_of_mem _ (ih'.2 q hq)) ?_
        intro q hq
        have := hk.1 q hq
        simp only at this
        rw [this]; exact List.mem_cons_self _ _
    · cases n with
      | dir => exact ⟨Mono.mrefl w, ChangedOnly.crefl _ w⟩
      | file c m => exact ⟨Mono.mrefl w, ChangedOnly.crefl _ w⟩

theorem ancestorsRev_chain (d : List Char) (hd : d ≠ []) (r : List Char) :
    ∃ L, ancestorsRev (r ++ '/' :: d.reverse) = L ++ (⟨d⟩ : String) :: ancestorsRev d.reverse ∧
      ∀ q ∈ L, ∃ t : List Char, q.data = d ++ '/' :: t := by
  induction r with
  | nil =>
    refine ⟨[], ?_, by simp⟩
    simp [ancestorsRev, hd]
  | cons c r ih =>
    obtain ⟨L, hL, hall⟩ := ih
    by_cases hc : c = '/'
    · refine ⟨⟨(r ++ '/' :: d.reverse).reverse⟩ :: L, ?_, ?_⟩
      · simp only [List.cons_append, ancestorsRev, hc, if_true]
        simp
        exact hL
      · intro q hq
        rcases List.mem_cons.1 hq with h | h
        · exact ⟨r.reverse, by rw [h]; simp⟩
        · exact hall q h
    · refine ⟨L, ?_, hall⟩
      simp only [List.cons_append, ancestorsRev, hc, if_false]
      exact hL

theorem ancestors_chain (d p : String) (h : hasPrefix p (d ++ "/") = true) (hd : d.data ≠ []) :
    ∃ L, ancestors p = L ++ d :: ancestors d ∧ ∀ q ∈ L, hasPrefix q (d ++ "/") = true := by
  obtain ⟨t, ht⟩ := (hasPrefix_iff _ _).1 h
  obtain ⟨L, hL, hall⟩ := ancestorsRev_chain d.data hd t.reverse
  refine ⟨L, ?_, ?_⟩
  · unfold ancestors
    have : p.data.reverse = t.reverse ++ '/' :: d.data.reverse := by
      rw [ht]; simp
    rw [this, hL]
  · intro q hq
    obtain ⟨t', ht'⟩ := hall q hq
    rw [hasPrefix_iff]
    exact ⟨t', by rw [ht']; simp⟩

theorem mkdirAllList_ready {d : String} {w : World} (h : DestReady d w) :
    ChangedOnly (InDest d) w (mkdirAllList (d :: ancestors d) w).2 := by
  unfold mkdirAllList
  rcases hp : w.fs d with _ | n
  · simp only
    have hrest : mkdirAllList (ancestors d) w = (none, w) := by
      rcases h with h | h
      · exact absurd hp h
      · cases ha : ancestors d with
        | nil => rfl
        | cons a T =>
          have := h a (by rw [ha]; rfl)
          simp [mkdirAllList, this]
    rw [hrest]
    intro q hq
    exact Or.inr ((Mkdir_frame d w).1 q hq)
  · cases n with
    | dir => exact ChangedOnly.crefl _ w
    | file c m => exact ChangedOnly.crefl _ w

theorem mkdirAllList_inside {d : String} (L : List String)
    (hL : ∀ q ∈ L, hasPrefix q (d ++ "/") = true) :
    ∀ w, DestReady d w → ChangedOnly (InDest d) w (mkdirAllList (L ++ d :: ancestors d) w).2 := by
  induction L with
  | nil => intro w h; exact mkdirAllList_ready h
  | cons q L ih =>
    intro w h
    have ih' := ih (fun x hx => hL x (List.mem_cons_of_mem _ hx)) w h
    simp only [List.cons_append]
    unfold mkdirAllList
    rcases hp : w.fs q with _ | n
    · simp only
      rcases hr : mkdirAllList (L ++ d :: ancestors d) w with ⟨e, w1⟩
      rw [hr] at ih'
      cases e with
      | some e => exact ih'
      | none =>
        refine ChangedOnly.ctrans ih' ?_
        intro x hx
        have := (Mkdir_frame q w1).1 x hx
        simp only at this
        exact Or.inl (by rw [this]; exact hL q (List.mem_cons_self _ _))
    · cases n with
      | dir => exact ChangedOnly.crefl _ w
      | file c m => exact ChangedOnly.crefl _ w

theorem MkdirAll_mono (p : String) (w : World) : Mono w (MkdirAll p w).2 :=
  (mkdirAllList_mono _ w).1

theorem MkdirAll_inDest {d p : String} {w : World} (hd : d.data ≠ []) (hp : InDest d p)
    (h : DestReady d w) : ChangedOnly (InDest d) w (MkdirAll p w).2 := by
  rcases hp with hp | hp
  · obtain ⟨L, hL, hall⟩ := ancestors_chain d p hp hd
    unfold MkdirAll
    rw [hL, ← List.cons_append]
    refine mkdirAllList_inside (p :: L) ?_ w h
    intro q hq
    rcases List.mem_cons.1 hq with h1 | h1
    · rw [h1]; exact hp
    · exact hall q h1
  · subst hp
    exact mkdirAllList_ready h

theorem OpenFile_frame (u : Nat) (p : String) (mode : Nat) (w : World) :
    ChangedOnly (fun q => q = p) w (OpenFile u p mode w).2 ∧ Mono w (OpenFile u p mode w).2 := by
  unfold OpenFile
  have hf := popFault_fs w
  rcases hpf : w.popFault with ⟨b, w1⟩
  rw [hpf] at hf
  simp only at hf
  have hset : ∀ n : Node, w1.fs p ≠ some Node.dir → n ≠ Node.dir ∨ True →
      ChangedOnly (fun q => q = p) w (w1.setNode p (some n)) ∧
        Mono w (w1.setNode p (some n)) := by
    intro n hnd _
    refine ⟨?_, ?_, ?_⟩
    · intro q hq
      by_contra hne
      exact hq (by simp [World.setNode, hne, hf])
    · intro q hq
      by_cases hqp : q = p
      · subst hqp; rw [← hf] at hq; exact absurd hq hnd
      · simp [World.setNode, hqp, hf, hq]
    · intro q hq
      by_cases hqp : q = p
      · simp [World.setNode, hqp]
      · simp only [World.setNode, hqp, if_false, hf]; exact hq
  cases b with
  | true => exact ⟨ChangedOnly.cof_fs_eq hf, Mono.mof_fs_eq hf⟩
  | false =>
    simp only
    rcases hp : w1.fs p with _ | n
    · simp only
      cases (ancestors p).head? with
      | none => exact hset _ (by rw [hp]; simp) (Or.inr trivial)
      | some a =>
        simp only
        split
        · exact hset _ (by rw [hp]; simp) (Or.inr trivial)
        · exact ⟨ChangedOnly.cof_fs_eq hf, Mono.mof_fs_eq hf⟩
    · cases n with
      | dir => exact ⟨ChangedOnly.cof_fs_eq hf, Mono.mof_fs_eq hf⟩
      | file c m => exact hset _ (by rw [hp]; simp) (Or.inr trivial)

theorem WriteTo_frame (p data : String) (w : World) :
    ChangedOnly (fun q => q = p) w (WriteTo p data w).2 ∧ Mono w (WriteTo p data w).2 := by
  unfold WriteTo
  have hf := popFault_fs w
  rcases hpf : w.popFault with ⟨b, w1⟩
  rw [hpf] at hf
  simp only at hf
  cases b with
  | true => exact ⟨ChangedOnly.cof_fs_eq hf, Mono.mof_fs_eq hf⟩
  | false =>
    simp only
    rcases hp : w1.fs p with _ | n
    · exact ⟨ChangedOnly.cof_fs_eq hf, Mono.mof_fs_eq hf⟩
    · cases n with
      | dir => exact ⟨ChangedOnly.cof_fs_eq hf, Mono.mof_fs_eq hf⟩
      | file c m =>
        refine ⟨?_, ?_, ?_⟩
        · intro q hq
          by_contra hne
          exact hq (by simp [World.setNode, hne, hf])
        · intro q hq
          by_cases hqp : q = p
          · subst hqp; rw [← hf, hp] at hq; simp at hq
          · simp [World.setNode, hqp, hf, hq]
        · intro q hq
          by_cases hqp : q = p
          · simp [World.setNode, hqp]
          · simp only [World.setNode, hqp, if_false, hf]; exact hq

theorem CloseFile_fs (w : World) : (CloseFile w).2.fs = w.fs := by
  unfold CloseFile
  have hf := popFault_fs w
  rcases hpf : w.popFault with ⟨b, w1⟩
  rw [hpf] at hf
  cases b <;> exact hf

theorem Copy_frame (f : ZipFile) (p : String) (w : World) :
    ChangedOnly (fun q => q = p) w (Copy f p w).2 ∧ Mono w (Copy f p w).2 := by
  have h := WriteTo_frame p f.readable w
  unfold Copy
  rcases hw : WriteTo p f.readable w with ⟨e, w1⟩
  rw [hw] at h
  cases e with
  | some e => exact h
  | none =>
    simp only
    cases f.readErr <;> exact h

theorem ChangedOnly.cimp {S T : String → Prop} {w w' : World} (h : ChangedOnly S w w')
    (hST : ∀ p, S p → T p) : ChangedOnly T w w' := fun p hp => hST p (h p hp)

theorem unzipFile_guard (u : Nat) (dest : String) (f : ZipFile) (w : World)
    (h : hasPrefix (Join dest f.Name) (Clean dest ++ "/") = false) :
    (unzipFile u dest f w).1 ≠ none := by
  simp [unzipFile, h]

theorem unzipFile_frame (u : Nat) (dest : String) (f : ZipFile) (w : World)
    (h : DestReady (Clean dest) w) :
    ChangedOnly (InDest (Clean dest)) w (unzipFile u dest f w).2 ∧
      Mono w (unzipFile u dest f w).2 := by
  have hD : (Clean dest).data ≠ [] := cleanChars_ne_nil _
  unfold unzipFile
  by_cases hg : hasPrefix (Join dest f.Name) (Clean dest ++ "/") = true
  · simp only [hg, Bool.not_true, Bool.false_eq_true, if_false]
    by_cases hdir : f.IsDir = true
    · simp only [hdir, if_true]
      have h1 := MkdirAll_inDest hD (Or.inl hg) h
      have h2 := MkdirAll_mono (Join dest f.Name) w
      rcases hm : MkdirAll (Join dest f.Name) w with ⟨e, w1⟩
      rw [hm] at h1 h2
      cases e <;> exact ⟨h1, h2⟩
    · simp only [hdir, Bool.false_eq_true, if_false]
      have hdin : InDest (Clean dest) (Dir (Join dest f.Name)) := by
        rcases Dir_inside dest f.Name hg with h0 | h0
        · exact Or.inr h0
        · exact Or.inl h0
      have h1 := MkdirAll_inDest hD hdin h
      have h2 := MkdirAll_mono (Dir (Join dest f.Name)) w
      rcases hm : MkdirAll (Dir (Join dest f.Name)) w with ⟨e, w1⟩
      rw [hm] at h1 h2
      cases e with
      | some e => exact ⟨h1, h2⟩
      | none =>
        simp only
        have hin : ∀ q, q = Join dest f.Name → InDest (Clean dest) q :=
          fun q hq => Or.inl (by rw [hq]; exact hg)
        have h3 := OpenFile_frame u (Join dest f.Name) f.Mode w1
        rcases ho : OpenFile u (Join dest f.Name) f.Mode w1 with ⟨e2, w2⟩
        rw [ho] at h3
        have c2 := ChangedOnly.ctrans h1 (h3.1.cimp hin)
        have m2 := Mono.mtrans h2 h3.2
        cases e2 with
        | some e2 => exact ⟨c2, m2⟩
        | none =>
          simp only
          by_cases hoe : f.openErr = true
          · simp only [hoe, if_true]; exact ⟨c2, m2⟩
          · simp only [hoe, Bool.false_eq_true, if_false]
            have h4 := Copy_frame f (Join dest f.Name) w2
            have c3 := ChangedOnly.ctrans c2 (h4.1.cimp hin)
            have m3 := Mono.mtrans m2 h4.2
            have h5 := CloseFile_fs (Copy f (Join dest f.Name) w2).2
            have c4 := ChangedOnly.ctrans c3 (ChangedOnly.cof_fs_eq h5)
            have m4 := Mono.mtrans m3 (Mono.mof_fs_eq h5)
            rcases hc : CloseFile (Copy f (Join dest f.Name) w2).2 with ⟨e3, w4⟩
            rw [hc] at c4 m4
            cases e3 with
            | some e3 => exact ⟨c4, m4⟩
            | none =>
              simp only
              split <;> exact ⟨c4, m4⟩
  · simp only [hg, Bool.not_false, if_true]
    exact ⟨ChangedOnly.crefl _ w, Mono.mrefl w⟩

theorem Unzip_frame (u : Nat) (dest : String) (files : List ZipFile) :
    ∀ w, DestReady (Clean dest) w →
      ChangedOnly (InDest (Clean dest)) w (Unzip u files dest w).2 ∧
        Mono w (Unzip u files dest w).2 := by
  induction files with
  | nil => intro w _; exact ⟨ChangedOnly.crefl _ w, Mono.mrefl w⟩
  | cons f rest ih =>
    intro w h
    have h1 := unzipFile_frame u dest f w h
    unfold Unzip
    rcases hu : unzipFile u dest f w with ⟨e, w1⟩
    rw [hu] at h1
    cases e with
    | some e => exact h1
    | none =>
      have h2 := ih w1 (h.mono h1.2)
      exact ⟨h1.1.ctrans h2.1, h1.2.mtrans h2.2⟩

theorem Unzip_error_of_escape (u : Nat) (dest : String) (files : List ZipFile) :
    ∀ w, (∃ f ∈ files, hasPrefix (Join dest f.Name) (Clean dest ++ "/") = false) →
      (Unzip u files dest w).1 ≠ none := by
  induction files with
  | nil => intro w h; simp at h
  | cons f rest ih =>
    intro w h
    unfold Unzip
    rcases hu : unzipFile u dest f w with ⟨e, w1⟩
    cases e with
    | some e => simp
    | none =>
      simp only
      apply ih
      obtain ⟨g, hg, hbad⟩ := h
      rcases List.mem_cons.1 hg with h1 | h1
      · exfalso
        have := unzipFile_guard u dest f w (by rw [← h1]; exact hbad)
        rw [hu] at this
        exact this rfl
      · exact ⟨g, h1, hbad⟩


theorem joinSlash_append (xs ys : List (List Char)) (hx : xs ≠ []) (hy : ys ≠ []) :
    joinSlash (xs ++ ys) = joinSlash xs ++ '/' :: joinSlash ys := by
  induction xs with
  | nil => exact absurd rfl hx
  | cons x xs ih =>
    cases xs with
    | nil =>
      cases ys with
      | nil => exact absurd rfl hy
      | cons y ys => simp [joinSlash]
    | cons z zs =>
      have := ih (by simp)
      show x ++ '/' :: joinSlash ((z :: zs) ++ ys) = (x ++ '/' :: joinSlash (z :: zs)) ++ _
      rw [this]
      simp

theorem foldl_cleanStep_no_dotdot (r : Bool) (cs : List (List Char))
    (h : ['.', '.'] ∉ cs) : ∀ st, cs.foldl (cleanStep r) st =
      (cs.filter (fun c => decide (c ≠ [] ∧ c ≠ ['.']))).reverse ++ st := by
  induction cs with
  | nil => intro st; rfl
  | cons c cs ih =>
    intro st
    have hc : c ≠ ['.', '.'] := fun e => h (by rw [e]; exact List.mem_cons_self _ _)
    have hcs : ['.', '.'] ∉ cs := fun e => h (List.mem_cons_of_mem _ e)
    rw [List.foldl_cons, ih hcs]
    by_cases hg : c = [] ∨ c = ['.']
    · have : cleanStep r st c = st := by simp [cleanStep, hg]
      rw [this, List.filter_cons_of_neg]
      simp only [decide_eq_true_eq]
      intro h
      rcases hg with h1 | h1
      · exact h.1 h1
      · exact h.2 h1
    · have : cleanStep r st c = c :: st := by simp [cleanStep, hg, hc]
      rw [this, List.filter_cons_of_pos]
      · simp
      · push_neg at hg; simpa using hg

/-- A name without a `..` component that has at least one proper component resolves,
under an absolute destination other than the root, to a path that passes the guard of
`Unzip`. -/
theorem Join_inside (dest name : String) (habs : IsAbs dest = true)
    (hroot : Clean dest ≠ "/") (hdd : ".." ∉ components name)
    (hcomp : ∃ c ∈ components name, c ≠ "" ∧ c ≠ ".") :
    hasPrefix (Join dest name) (Clean dest ++ "/") = true := by
  obtain ⟨d', hd'⟩ : ∃ d', dest.data = '/' :: d' := by
    obtain ⟨t, ht⟩ := (hasPrefix_iff _ _).1 habs
    exact ⟨t, ht⟩
  have hne : dest ≠ "" := by
    intro e; rw [e] at hd'; simp at hd'
  have hdd' : ['.', '.'] ∉ splitChars '/' name.data := by
    intro hmem
    apply hdd
    unfold components
    exact List.mem_map.2 ⟨_, hmem, rfl⟩
  obtain ⟨c, hc, hc1, hc2⟩ := hcomp
  obtain ⟨c', hc', hcc⟩ := List.mem_map.1 hc
  have hgood : (splitChars '/' name.data).filter (fun c => decide (c ≠ [] ∧ c ≠ ['.'])) ≠ [] := by
    intro e
    have : c' ∈ (splitChars '/' name.data).filter (fun c => decide (c ≠ [] ∧ c ≠ ['.'])) := by
      rw [List.mem_filter]
      refine ⟨hc', ?_⟩
      have h1 : c' ≠ [] := fun e => hc1 (by rw [← hcc, e])
      have h2 : c' ≠ ['.'] := fun e => hc2 (by rw [← hcc, e])
      simp [h1, h2]
    rw [e] at this
    simp at this
  -- the stack of the destination
  have hS : NormStack true ((splitChars '/' dest.data).foldl (cleanStep true) []) :=
    foldl_cleanStep_norm _ _ NormStack.nil (splitChars_no_sep '/' _)
  have hcd : (Clean dest).data =
      renderPath true ((splitChars '/' dest.data).foldl (cleanStep true) []) := by
    show cleanChars dest.data = _
    unfold cleanChars
    simp [hd']
  have hSne : (splitChars '/' dest.data).foldl (cleanStep true) [] ≠ [] := by
    intro e
    apply hroot
    apply String.ext
    rw [hcd, e]; rfl
  have hj : (Join dest name).data = renderPath true
      (((splitChars '/' name.data).filter (fun c => decide (c ≠ [] ∧ c ≠ ['.']))).reverse ++
        (splitChars '/' dest.data).foldl (cleanStep true) []) := by
    rw [Join, if_pos hne]
    show cleanChars (dest ++ "/" ++ name).data = _
    have e1 : (dest ++ "/" ++ name).data = dest.data ++ '/' :: name.data := by simp
    rw [e1]
    unfold cleanChars
    have e2 : (dest.data ++ '/' :: name.data).head? = some '/' := by simp [hd']
    rw [splitChars_append, List.foldl_append, foldl_cleanStep_no_dotdot _ _ hdd']
    simp [e2]
  rw [hasPrefix_iff]
  refine ⟨joinSlash ((splitChars '/' name.data).filter (fun c => decide (c ≠ [] ∧ c ≠ ['.']))), ?_⟩
  rw [hj]
  have e3 : (Clean dest ++ "/").data = (Clean dest).data ++ ['/'] := by simp
  rw [e3, hcd]
  unfold renderPath
  simp only [if_true, List.reverse_append, List.reverse_reverse]
  rw [joinSlash_append _ _ (by simpa using hSne) hgood]
  simp

/-! ## What a successful extraction leaves behind -/

theorem Grown.grefl (S : String → Prop) (w : World) : Grown S w w :=
  fun _ => Or.inr (Or.inl rfl)

theorem Grown.gof_fs_eq {S : String → Prop} {w w' : World} (h : w'.fs = w.fs) : Grown S w w' :=
  fun _ => Or.inr (Or.inl (by rw [h]))

theorem Grown.gtrans {S : String → Prop} {w1 w2 w3 : World} (h1 : Grown S w1 w2)
    (h2 : Grown S w2 w3) : Grown S w1 w3 := by
  intro q
  rcases h1 q with h | h | ⟨ha, hb⟩
  · exact Or.inl h
  · rcases h2 q with h' | h' | ⟨hc, hd⟩
    · exact Or.inl h'
    · exact Or.inr (Or.inl (by rw [h', h]))
    · exact Or.inr (Or.inr ⟨by rw [← h]; exact hc, hd⟩)
  · rcases h2 q with h' | h' | ⟨hc, hd⟩
    · exact Or.inl h'
    · exact Or.inr (Or.inr ⟨ha, by rw [h', hb]⟩)
    · rw [hb] at hc; exact absurd hc (by simp)

theorem Grown.gimp {S T : String → Prop} {w w' : World} (h : Grown S w w')
    (hST : ∀ q, S q → T q) : Grown T w w' := by
  intro q
  rcases h q with h | h | h
  · exact Or.inl (hST q h)
  · exact Or.inr (Or.inl h)
  · exact Or.inr (Or.inr h)

theorem popFault_noFaults {w : World} (h : NoFaults w) :
    w.popFault.1 = false ∧ w.popFault.2.fs = w.fs ∧ NoFaults w.popFault.2 := by
  unfold World.popFault
  cases hf : w.faults with
  | nil => exact ⟨rfl, rfl, h⟩
  | cons b rest =>
    refine ⟨h b (by rw [hf]; exact List.mem_cons_self _ _), rfl, ?_⟩
    intro c hc
    exact h c (by rw [hf]; exact List.mem_cons_of_mem _ hc)

theorem popFault_keeps_noFaults {w : World} (h : NoFaults w) : NoFaults w.popFault.2 := by
  unfold World.popFault
  cases hf : w.faults with
  | nil => exact h
  | cons b rest =>
    intro c hc
    exact h c (by rw [hf]; exact List.mem_cons_of_mem _ hc)

theorem Mkdir_noFaults {p : String} {w : World} (h : NoFaults w) : NoFaults (Mkdir p w).2 := by
  have := popFault_keeps_noFaults h
  unfold Mkdir
  rcases hpf : w.popFault with ⟨b, w1⟩
  rw [hpf] at this
  cases b <;> exact this

theorem Mkdir_ok {p : String} {w : World} (h : (Mkdir p w).1 = none) :
    (Mkdir p w).2.fs p = some Node.dir := by
  unfold Mkdir at h ⊢
  rcases hpf : w.popFault with ⟨b, w1⟩
  rw [hpf] at h
  cases b with
  | true => simp at h
  | false => simp [World.setNode]

theorem Mkdir_grown {p : String} {w : World} (h : w.fs p = none ∨ w.fs p = some Node.dir) :
    Grown (fun _ => False) w (Mkdir p w).2 := by
  have hf := popFault_fs w
  unfold Mkdir
  rcases hpf : w.popFault with ⟨b, w1⟩
  rw [hpf] at hf
  simp only at hf
  cases b with
  | true => exact Grown.gof_fs_eq hf
  | false =>
    intro q
    by_cases hq : q = p
    · subst hq
      rcases h with h | h
      · exact Or.inr (Or.inr ⟨h, by simp [World.setNode]⟩)
      · exact Or.inr (Or.inl (by simp [World.setNode, h]))
    · exact Or.inr (Or.inl (by simp [World.setNode, hq, hf]))

theorem mkdirAllList_grown (l : List String) :
    ∀ w, Grown (fun _ => False) w (mkdirAllList l w).2 ∧
      (NoFaults w → NoFaults (mkdirAllList l w).2) ∧
      ((mkdirAllList l w).1 = none → ∀ p, l.head? = some p →
        (mkdirAllList l w).2.fs p = some Node.dir) := by
  induction l with
  | nil => intro w; exact ⟨Grown.grefl _ w, fun h => h, fun _ p hp => by simp at hp⟩
  | cons p rest ih =>
    intro w
    unfold mkdirAllList
    rcases hp : w.fs p with _ | n
    · simp only
      have ih' := ih w
      rcases hr : mkdirAllList rest w with ⟨e, w1⟩
      rw [hr] at ih'
      cases e with
      | some e => exact ⟨ih'.1, ih'.2.1, fun h => by simp at h⟩
      | none =>
        simp only
        have hp1 : w1.fs p = none ∨ w1.fs p = some Node.dir := by
          rcases ih'.1 p with h | h | h
          · exact absurd h id
          · exact Or.inl (by rw [h, hp])
          · exact Or.inr h.2
        refine ⟨ih'.1.gtrans (Mkdir_grown hp1), fun h => Mkdir_noFaults (ih'.2.1 h), ?_⟩
        intro h q hq
        simp only [List.head?_cons, Option.some.injEq] at hq
        subst hq
        exact Mkdir_ok h
    · cases n with
      | dir =>
        refine ⟨Grown.grefl _ w, fun h => h, ?_⟩
        intro _ q hq
        simp only [List.head?_cons, Option.some.injEq] at hq
        subst hq
        exact hp
      | file c m => exact ⟨Grown.grefl _ w, fun h => h, fun h => by simp at h⟩

theorem OpenFile_spec (u : Nat) (p : String) (mode : Nat) (w : World) :
    Grown (fun q => q = p) w (OpenFile u p mode w).2 ∧
      (NoFaults w → NoFaults (OpenFile u p mode w).2) ∧
      ((OpenFile u p mode w).1 = none → ∃ m, (OpenFile u p mode w).2.fs p = some (Node.file "" m) ∧
        (NotFile w p → m = createdMode u mode)) := by
  have hf := popFault_fs w
  have hn := @popFault_keeps_noFaults w
  unfold OpenFile
  rcases hpf : w.popFault with ⟨b, w1⟩
  rw [hpf] at hf hn
  simp only at hf hn
  have hg : ∀ n : Option Node, Grown (fun q => q = p) w (w1.setNode p n) := by
    intro n q
    by_cases hq : q = p
    · exact Or.inl hq
    · exact Or.inr (Or.inl (by simp [World.setNode, hq, hf]))
  cases b with
  | true => exact ⟨Grown.gof_fs_eq hf, hn, fun h => by simp at h⟩
  | false =>
    simp only
    rcases hp : w1.fs p with _ | n
    · simp only
      cases (ancestors p).head? with
      | none =>
        exact ⟨hg _, hn, fun _ => ⟨createdMode u mode, by simp [World.setNode], fun _ => rfl⟩⟩
      | some a =>
        simp only
        split
        · exact ⟨hg _, hn, fun _ => ⟨createdMode u mode, by simp [World.setNode], fun _ => rfl⟩⟩
        · exact ⟨Grown.gof_fs_eq hf, hn, fun h => by simp at h⟩
    · cases n with
      | dir => exact ⟨Grown.gof_fs_eq hf, hn, fun h => by simp at h⟩
      | file c m =>
        refine ⟨hg _, hn, fun _ => ⟨m, by simp [World.setNode], fun hnf => ?_⟩⟩
        exact absurd (by rw [← hf]; exact hp) (hnf c m)

theorem WriteTo_spec (p data : String) (w : World) :
    Grown (fun q => q = p) w (WriteTo p data w).2 ∧
      (NoFaults w → NoFaults (WriteTo p data w).2) ∧
      (NoFaults w → ∀ c m, w.fs p = some (Node.file c m) →
        (WriteTo p data w).2.fs p = some (Node.file (c ++ data) m)) := by
  have hf := popFault_fs w
  have hn := @popFault_keeps_noFaults w
  have hb := @popFault_noFaults w
  unfold WriteTo
  rcases hpf : w.popFault with ⟨b, w1⟩
  rw [hpf] at hf hn hb
  simp only at hf hn hb
  cases b with
  | true =>
    refine ⟨Grown.gof_fs_eq hf, hn, fun h => ?_⟩
    have := (hb h).1
    simp at this
  | false =>
    simp only
    rcases hp : w1.fs p with _ | n
    · refine ⟨Grown.gof_fs_eq hf, hn, fun _ c m hc => ?_⟩
      rw [← hf, hp] at hc; simp at hc
    · cases n with
      | dir =>
        refine ⟨Grown.gof_fs_eq hf, hn, fun _ c m hc => ?_⟩
        rw [← hf, hp] at hc; simp at hc
      | file c0 m0 =>
        refine ⟨?_, hn, fun _ c m hc => ?_⟩
        · intro q
          by_cases hq : q = p
          · exact Or.inl hq
          · exact Or.inr (Or.inl (by simp [World.setNode, hq, hf]))
        · rw [← hf, hp] at hc
          simp only [Option.some.injEq, Node.file.injEq] at hc
          simp [World.setNode, hc.1, hc.2]

theorem CloseFile_noFaults {w : World} (h : NoFaults w) : NoFaults (CloseFile w).2 := by
  have := popFault_keeps_noFaults h
  unfold CloseFile
  rcases hpf : w.popFault with ⟨b, w1⟩
  rw [hpf] at this
  cases b <;> exact this

theorem Copy_spec (f : ZipFile) (p : String) (w : World) :
    Grown (fun q => q = p) w (Copy f p w).2 ∧
      (NoFaults w → NoFaults (Copy f p w).2) ∧
      (NoFaults w → ∀ c m, w.fs p = some (Node.file c m) →
        (Copy f p w).2.fs p = some (Node.file (c ++ f.readable) m)) := by
  have h := WriteTo_spec p f.readable w
  unfold Copy
  rcases hw : WriteTo p f.readable w with ⟨e, w1⟩
  rw [hw] at h
  cases e with
  | some e => exact h
  | none =>
    simp only
    cases f.readErr <;> exact h

/-! ## What the file-system operations leave alone -/

theorem SameMeta.srefl (w : World) : SameMeta w w := ⟨rfl, rfl, rfl⟩

theorem SameMeta.strans {w1 w2 w3 : World} (h1 : SameMeta w1 w2) (h2 : SameMeta w2 w3) :
    SameMeta w1 w3 :=
  ⟨h2.1.trans h1.1, h2.2.1.trans h1.2.1, h2.2.2.trans h1.2.2⟩

theorem popFault_meta (w : World) : SameMeta w w.popFault.2 := by
  unfold World.popFault
  split <;> exact ⟨rfl, rfl, rfl⟩

theorem setNode_meta (w : World) (p : String) (n : Option Node) : SameMeta w (w.setNode p n) :=
  ⟨rfl, rfl, rfl⟩

theorem Mkdir_meta (p : String) (w : World) : SameMeta w (Mkdir p w).2 := by
  have h := popFault_meta w
  unfold Mkdir
  rcases hpf : w.popFault with ⟨b, w1⟩
  rw [hpf] at h
  cases b
  · exact h.strans (setNode_meta _ _ _)
  · exact h

theorem mkdirAllList_meta (l : List String) : ∀ w, SameMeta w (mkdirAllList l w).2 := by
  induction l with
  | nil => intro w; exact SameMeta.srefl w
  | cons p rest ih =>
    intro w
    unfold mkdirAllList
    rcases hp : w.fs p with _ | n
    · simp only
      have ih' := ih w
      rcases hr : mkdirAllList rest w with ⟨e, w1⟩
      rw [hr] at ih'
      cases e with
      | some e => exact ih'
      | none => exact ih'.strans (Mkdir_meta p w1)
    · cases n <;> exact SameMeta.srefl w

theorem MkdirAll_meta (p : String) (w : World) : SameMeta w (MkdirAll p w).2 :=
  mkdirAllList_meta _ w

theorem OpenFile_meta (u : Nat) (p : String) (mode : Nat) (w : World) :
    SameMeta w (OpenFile u p mode w).2 := by
  have h := popFault_meta w
  unfold OpenFile
  rcases hpf : w.popFault with ⟨b, w1⟩
  rw [hpf] at h
  cases b with
  | true => exact h
  | false =>
    simp only
    rcases hp : w1.fs p with _ | n
    · simp only
      cases (ancestors p).head? with
      | none => exact h.strans (setNode_meta _ _ _)
      | some a =>
        simp only
        split
        · exact h.strans (setNode_meta _ _ _)
        · exact h
    · cases n with
      | dir => exact h
      | file c m => exact h.strans (setNode_meta _ _ _)

theorem WriteTo_meta (p data : String) (w : World) : SameMeta w (WriteTo p data w).2 := by
  have h := popFault_meta w
  unfold WriteTo
  rcases hpf : w.popFault with ⟨b, w1⟩
  rw [hpf] at h
  cases b with
  | true => exact h
  | false =>
    simp only
    rcases hp : w1.fs p with _ | n
    · exact h
    · cases n with
      | dir => exact h
      | file c m => exact h.strans (setNode_meta _ _ _)

theorem CloseFile_meta (w : World) : SameMeta w (CloseFile w).2 := by
  have h := popFault_meta w
  unfold CloseFile
  rcases hpf : w.popFault with ⟨b, w1⟩
  rw [hpf] at h
  cases b <;> exact h

theorem ReadFile_meta (p : String) (w : World) : SameMeta w (ReadFile p w).2 := by
  have h := popFault_meta w
  unfold ReadFile
  rcases hpf : w.popFault with ⟨b, w1⟩
  rw [hpf] at h
  cases b with
  | true => exact h
  | false =>
    simp only
    rcases hp : w1.fs p with _ | n
    · exact h
    · cases n <;> exact h

theorem ReadFile_fs (p : String) (w : World) : (ReadFile p w).2.fs = w.fs := by
  have h := popFault_fs w
  unfold ReadFile
  rcases hpf : w.popFault with ⟨b, w1⟩
  rw [hpf] at h
  cases b with
  | true => exact h
  | false =>
    simp only
    rcases hp : w1.fs p with _ | n
    · exact h
    · cases n <;> exact h

theorem Stat_meta (p : String) (w : World) : SameMeta w (Stat p w).2 := by
  have h := popFault_meta w
  unfold Stat
  rcases hpf : w.popFault with ⟨b, w1⟩
  rw [hpf] at h
  cases b with
  | true => exact h
  | false =>
    simp only
    rcases hp : w1.fs p with _ | n
    · exact h
    · cases n <;> exact h

theorem WriteFile_meta (u : Nat) (p data : String) (perm : Nat) (w : World) :
    SameMeta w (WriteFile u p data perm w).2 := by
  have h1 := OpenFile_meta u p perm w
  unfold WriteFile
  rcases ho : OpenFile u p perm w with ⟨e, w1⟩
  rw [ho] at h1
  cases e with
  | some e => exact h1
  | none =>
    simp only
    have h2 := WriteTo_meta p data w1
    have h3 := CloseFile_meta (WriteTo p data w1).2
    rcases hw : WriteTo p data w1 with ⟨e2, w2⟩
    rw [hw] at h2 h3
    cases e2 <;> exact (h1.strans h2).strans h3

theorem RemoveAll_meta (p : String) (w : World) : SameMeta w (RemoveAll p w).2 := by
  have h := popFault_meta w
  unfold RemoveAll
  split
  · exact SameMeta.srefl w
  · split
    · exact SameMeta.srefl w
    · rcases hpf : w.popFault with ⟨b, w1⟩
      rw [hpf] at h
      cases b with
      | true => exact h
      | false =>
        simp only
        split <;> exact h.strans ⟨rfl, rfl, rfl⟩

theorem Copy_meta (f : ZipFile) (p : String) (w : World) : SameMeta w (Copy f p w).2 := by
  have h := WriteTo_meta p f.readable w
  unfold Copy
  rcases hw : WriteTo p f.readable w with ⟨e, w1⟩
  rw [hw] at h
  cases e with
  | some e => exact h
  | none =>
    simp only
    cases f.readErr <;> exact h

theorem unzipFile_meta (u : Nat) (dest : String) (f : ZipFile) (w : World) :
    SameMeta w (unzipFile u dest f w).2 := by
  unfold unzipFile
  simp only
  split
  · exact SameMeta.srefl w
  · split
    · have h2 := MkdirAll_meta (Join dest f.Name) w
      rcases hm : MkdirAll (Join dest f.Name) w with ⟨e, w1⟩
      rw [hm] at h2
      cases e <;> exact h2
    · have h2 := MkdirAll_meta (Dir (Join dest f.Name)) w
      rcases hm : MkdirAll (Dir (Join dest f.Name)) w with ⟨e, w1⟩
      rw [hm] at h2
      cases e with
      | some e => exact h2
      | none =>
        simp only
        have h3 := OpenFile_meta u (Join dest f.Name) f.Mode w1
        rcases ho : OpenFile u (Join dest f.Name) f.Mode w1 with ⟨e2, w2⟩
        rw [ho] at h3
        have m2 := h2.strans h3
        cases e2 with
        | some e2 => exact m2
        | none =>
          simp only
          split
          · exact m2
          · have h4 := Copy_meta f (Join dest f.Name) w2
            have h5 := CloseFile_meta (Copy f (Join dest f.Name) w2).2
            have m4 := (m2.strans h4).strans h5
            rcases hc : CloseFile (Copy f (Join dest f.Name) w2).2 with ⟨e3, w4⟩
            rw [hc] at m4
            cases e3 with
            | some e3 => exact m4
            | none =>
              simp only
              split <;> exact m4

theorem Unzip_meta (u : Nat) (dest : String) (files : List ZipFile) :
    ∀ w, SameMeta w (Unzip u files dest w).2 := by
  induction files with
  | nil => intro w; exact SameMeta.srefl w
  | cons f rest ih =>
    intro w
    have h1 := unzipFile_meta u dest f w
    unfold Unzip
    rcases hu : unzipFile u dest f w with ⟨e, w1⟩
    rw [hu] at h1
    cases e with
    | some e => exact h1
    | none => exact h1.strans (ih w1)

theorem TraceAdds.trefl (P : Event → Prop) (w : World) : TraceAdds P w w :=
  ⟨[], by simp, by simp⟩

theorem TraceAdds.of_meta {P : Event → Prop} {w w' : World} (h : SameMeta w w') :
    TraceAdds P w w' := ⟨[], by simp [h.1], by simp⟩

theorem TraceAdds.ttrans {P : Event → Prop} {w1 w2 w3 : World} (h1 : TraceAdds P w1 w2)
    (h2 : TraceAdds P w2 w3) : TraceAdds P w1 w3 := by
  obtain ⟨a, ha, hpa⟩ := h1
  obtain ⟨b, hb, hpb⟩ := h2
  refine ⟨a ++ b, by rw [hb, ha, List.append_assoc], ?_⟩
  intro e he
  rcases List.mem_append.1 he with h | h
  · exact hpa e h
  · exact hpb e h

theorem TraceAdds.log {P : Event → Prop} (w : World) (e : Event) (h : P e) :
    TraceAdds P w (w.log e) :=
  ⟨[e], rfl, by simpa using h⟩

theorem TraceAdds.timp {P Q : Event → Prop} {w w' : World} (h : TraceAdds P w w')
    (hPQ : ∀ e, P e → Q e) : TraceAdds Q w w' := by
  obtain ⟨a, ha, hpa⟩ := h
  exact ⟨a, ha, fun e he => hPQ e (hpa e he)⟩

/-! ## Facts about the memo cells and `prepareProtoc` -/

theorem downloads_append (a b : List Event) : downloads (a ++ b) = downloads a ++ downloads b := by
  simp [downloads]

theorem downloads_of_adds {w w' : World}
    (h : TraceAdds (fun e => ∀ u d, e ≠ Event.download u d) w w') :
    downloads w'.trace = downloads w.trace := by
  obtain ⟨a, ha, hpa⟩ := h
  rw [ha, downloads_append]
  have : downloads a = [] := by
    unfold downloads
    rw [List.filter_eq_nil_iff]
    intro e he
    cases e with
    | download u d => exact fun _ => hpa _ he u d rfl
    | _ => simp
  rw [this, List.append_nil]

theorem getProtocDownloadUrl_spec (g : Generator) (v : PkgVars) (w : World) :
    (g.getProtocDownloadUrl v w).2.fs = w.fs ∧
      (g.getProtocDownloadUrl v w).2.faults = w.faults ∧
      (g.getProtocDownloadUrl v w).2.trace = w.trace ∧
      (g.getProtocDownloadUrl v w).2.distOnce = w.distOnce ∧
      (g.getProtocDownloadUrl v w).2.urlOnce = some (g.getProtocDownloadUrl v w).1 := by
  unfold Generator.getProtocDownloadUrl
  cases h : w.urlOnce <;> simp [h]

theorem getProtocDistPath_spec (g : Generator) (v : PkgVars) (env : Env) (w : World) :
    (g.getProtocDistPath v env w).2.fs = w.fs ∧
      (g.getProtocDistPath v env w).2.faults = w.faults ∧
      (g.getProtocDistPath v env w).2.trace = w.trace ∧
      (MemoOK w → ∀ p, (g.getProtocDistPath v env w).1 = .ok p →
        ∃ u, (g.getProtocDistPath v env w).2.urlOnce = some (.ok u)) ∧
      (MemoOK w → MemoOK (g.getProtocDistPath v env w).2) := by
  unfold Generator.getProtocDistPath
  cases h : w.distOnce with
  | some r =>
    refine ⟨rfl, rfl, rfl, fun hm p hp => hm p ?_, fun hm => hm⟩
    simp only at hp
    rw [h, hp]
  | none =>
    simp only
    unfold Generator.doGetProtocDistPath
    have hu := getProtocDownloadUrl_spec g v w
    rcases hr : g.getProtocDownloadUrl v w with ⟨r, w1⟩
    rw [hr] at hu
    simp only at hu
    cases r with
    | error e =>
      refine ⟨hu.1, hu.2.1, hu.2.2.1, fun _ p hp => by simp at hp, ?_⟩
      intro _ p hp
      simp at hp
    | ok url =>
      refine ⟨hu.1, hu.2.1, hu.2.2.1, fun _ p _ => ⟨url, hu.2.2.2.2⟩, ?_⟩
      intro _ p _
      exact ⟨url, hu.2.2.2.2⟩

theorem getProtocDistZipFilePath_spec (g : Generator) (v : PkgVars) (env : Env) (w : World) :
    (g.getProtocDistZipFilePath v env w).2.fs = w.fs ∧
      (g.getProtocDistZipFilePath v env w).2.trace = w.trace ∧
      (MemoOK w → ∀ z, (g.getProtocDistZipFilePath v env w).1 = .ok z →
        ∃ u, (g.getProtocDistZipFilePath v env w).2.urlOnce = some (.ok u)) := by
  have h := getProtocDistPath_spec g v env w
  unfold Generator.getProtocDistZipFilePath
  rcases hr : g.getProtocDistPath v env w with ⟨r, w1⟩
  rw [hr] at h
  cases r with
  | error e => exact ⟨h.1, h.2.2.1, fun _ z hz => by simp at hz⟩
  | ok p => exact ⟨h.1, h.2.2.1, fun hm z _ => h.2.2.2.1 hm p rfl⟩

theorem downloadProtocZip_meta (env : Env) (url dest : String) (w : World) :
    SameMeta w (downloadProtocZip env url dest w).2 := by
  unfold downloadProtocZip
  split
  · exact SameMeta.srefl w
  · split
    · exact SameMeta.srefl w
    · split
      · exact SameMeta.srefl w
      · split
        · exact SameMeta.srefl w
        · rename_i resp _ _ _
          have h := WriteFile_meta env.umask dest resp.body 438 w
          rcases hw : WriteFile env.umask dest resp.body 438 w with ⟨e, w1⟩
          rw [hw] at h
          cases e <;> exact h

theorem extractProtoc_adds (g : Generator) (v : PkgVars) (env : Env) (bytes : String)
    (w : World) :
    TraceAdds (fun e => ∃ p, e = Event.removeAll p) w (g.extractProtoc v env bytes w).2 := by
  unfold Generator.extractProtoc
  cases env.zipNewReader bytes with
  | error e => exact TraceAdds.trefl _ w
  | ok zr =>
    simp only
    have h1 := getProtocDistPath_spec g v env w
    rcases hd : g.getProtocDistPath v env w with ⟨r, w1⟩
    rw [hd] at h1
    have t1 : TraceAdds (fun e => ∃ p, e = Event.removeAll p) w w1 :=
      ⟨[], by rw [List.append_nil]; exact h1.2.2.1, by simp⟩
    cases r with
    | error e => exact t1
    | ok dist =>
      simp only
      have t2 := t1.ttrans (TraceAdds.log w1 (.removeAll dist) ⟨dist, rfl⟩)
      have h3 := RemoveAll_meta dist (w1.log (.removeAll dist))
      rcases hr : RemoveAll dist (w1.log (.removeAll dist)) with ⟨e2, w2⟩
      rw [hr] at h3
      have t3 := t2.ttrans (TraceAdds.of_meta h3)
      cases e2 with
      | some e2 => exact t3
      | none =>
        simp only
        have h4 := Unzip_meta env.umask dist zr w2
        rcases hu : Unzip env.umask zr dist w2 with ⟨e3, w3⟩
        rw [hu] at h4
        cases e3 <;> exact t3.ttrans (TraceAdds.of_meta h4)

theorem extractProtoc_downloads (g : Generator) (v : PkgVars) (env : Env) (bytes : String)
    (w : World) : downloads (g.extractProtoc v env bytes w).2.trace = downloads w.trace :=
  downloads_of_adds ((extractProtoc_adds g v env bytes w).timp
    (fun e ⟨p, hp⟩ u d => by rw [hp]; simp))

/-- The download branch either stops at the URL without logging anything, or logs
exactly one download attempt, for the resolved URL and the cache path. -/
theorem downloadAndExtract_trace (g : Generator) (v : PkgVars) (env : Env) (z : String)
    (w : World) :
    ((g.downloadAndExtract v env z w).1 ≠ none ∧
        (g.downloadAndExtract v env z w).2.trace = w.trace ∧
        ∀ u, w.urlOnce ≠ some (.ok u)) ∨
      ∃ url, (g.getProtocDownloadUrl v w).1 = .ok url ∧
        downloads (g.downloadAndExtract v env z w).2.trace =
          downloads w.trace ++ [Event.download url z] := by
  unfold Generator.downloadAndExtract
  have hu := getProtocDownloadUrl_spec g v w
  rcases hr : g.getProtocDownloadUrl v w with ⟨r, w1⟩
  rw [hr] at hu
  simp only at hu
  cases r with
  | error e =>
    left
    refine ⟨by simp, hu.2.2.1, ?_⟩
    intro u hcon
    unfold Generator.getProtocDownloadUrl at hr
    rw [hcon] at hr
    simp at hr
  | ok url =>
    right
    refine ⟨url, rfl, ?_⟩
    simp only
    have h1 := downloadProtocZip_meta env url z (w1.log (.download url z))
    rcases hd : downloadProtocZip env url z (w1.log (.download url z)) with ⟨e, w2⟩
    rw [hd] at h1
    have e2 : downloads w2.trace = downloads w.trace ++ [Event.download url z] := by
      rw [h1.1]
      simp [World.log, downloads_append, hu.2.2.1, downloads]
    cases e with
    | some e => exact e2
    | none =>
      simp only
      have h3 := ReadFile_meta z w2
      rcases hrd : ReadFile z w2 with ⟨rr, w3⟩
      rw [hrd] at h3
      have e3 : downloads w3.trace = downloads w.trace ++ [Event.download url z] := by
        rw [h3.1]; exact e2
      cases rr with
      | ok bytes => simp only; rw [extractProtoc_downloads]; exact e3
      | notExist => exact e3
      | otherErr => exact e3

theorem prepareProtoc_of_read (g : Generator) (v : PkgVars) (env : Env)
    (w w1 w2 w3 : World) (z : String) (r : ReadResult)
    (hz : g.getProtocDistZipFilePath v env w = (.ok z, w1))
    (hmk : MkdirAll (Dir z) w1 = (none, w2))
    (hread : ReadFile z w2 = (r, w3)) :
    w3.trace = w.trace ∧
    (∀ bytes, r = .ok bytes → g.prepareProtoc v env w =
      if bytes.length < 1024 * 1024 then g.downloadAndExtract v env z w3
      else g.extractProtoc v env bytes w3) ∧
    (r = .notExist → g.prepareProtoc v env w = g.downloadAndExtract v env z w3) ∧
    (r = .otherErr → g.prepareProtoc v env w = (some (.error "os.ReadFile() error"), w3)) := by
  have hok : ∀ bytes, r = .ok bytes → g.prepareProtoc v env w =
      if bytes.length < 1024 * 1024 then g.downloadAndExtract v env z w3
      else g.extractProtoc v env bytes w3 := by
    intro bytes hr
    subst hr
    unfold Generator.prepareProtoc
    rw [hz]
    simp only
    rw [hmk]
    simp only
    rw [hread]
  have hne : r = .notExist → g.prepareProtoc v env w = g.downloadAndExtract v env z w3 := by
    intro hr
    subst hr
    unfold Generator.prepareProtoc
    rw [hz]
    simp only
    rw [hmk]
    simp only
    rw [hread]
  have hoe : r = .otherErr →
      g.prepareProtoc v env w = (some (.error "os.ReadFile() error"), w3) := by
    intro hr
    subst hr
    unfold Generator.prepareProtoc
    rw [hz]
    simp only
    rw [hmk]
    simp only
    rw [hread]
  have hz' := getProtocDistZipFilePath_spec g v env w
  rw [hz] at hz'
  have hmk' := MkdirAll_meta (Dir z) w1
  rw [hmk] at hmk'
  have hrd' := ReadFile_meta z w2
  rw [hread] at hrd'
  exact ⟨by rw [hrd'.1, hmk'.1]; exact hz'.2.1, hok, hne, hoe⟩

theorem downloads_ne_append_singleton (l : List Event) (e : Event) :
    downloads l ++ [e] ≠ downloads l := by
  intro h
  have := congrArg List.length h
  simp at this

theorem bigArchive_length : bigArchive.length = 1048576 := by
  show (List.replicate 1048576 'z').length = 1048576
  exact List.length_replicate _ _

set_option maxRecDepth 100000 in
theorem prepareProtoc_worldCached :
    genDefault.prepareProtoc varsStub envAnyZip worldCached =
      genDefault.extractProtoc varsStub envAnyZip bigArchive
        (ReadFile "/c/.go_protoc/protoc/KEY.zip"
          (MkdirAll (Dir "/c/.go_protoc/protoc/KEY.zip")
            (genDefault.getProtocDistZipFilePath varsStub envAnyZip worldCached).2).2).2 := by
  have h := (prepareProtoc_of_read genDefault varsStub envAnyZip worldCached
    (genDefault.getProtocDistZipFilePath varsStub envAnyZip worldCached).2
    (MkdirAll (Dir "/c/.go_protoc/protoc/KEY.zip")
      (genDefault.getProtocDistZipFilePath varsStub envAnyZip worldCached).2).2
    (ReadFile "/c/.go_protoc/protoc/KEY.zip"
      (MkdirAll (Dir "/c/.go_protoc/protoc/KEY.zip")
        (genDefault.getProtocDistZipFilePath varsStub envAnyZip worldCached).2).2).2
    "/c/.go_protoc/protoc/KEY.zip" (.ok bigArchive)
    (Prod.ext (by rfl) rfl) (Prod.ext (by decide) rfl) (Prod.ext (by rfl) rfl)).2.1 bigArchive rfl
  rw [h, if_neg (by rw [bigArchive_length]; decide)]

/-! ## The log of `Run` -/

theorem downloadAndExtract_adds (g : Generator) (v : PkgVars) (env : Env) (z : String)
    (w : World) : TraceAdds NotWrite w (g.downloadAndExtract v env z w).2 := by
  unfold Generator.downloadAndExtract
  have hu := getProtocDownloadUrl_spec g v w
  rcases hr : g.getProtocDownloadUrl v w with ⟨r, w1⟩
  rw [hr] at hu
  have t1 : TraceAdds NotWrite w w1 := ⟨[], by rw [List.append_nil]; exact hu.2.2.1, by simp⟩
  cases r with
  | error e => exact t1
  | ok url =>
    simp only
    have t2 := t1.ttrans (TraceAdds.log w1 (.download url z) (fun _ _ => by simp))
    have h1 := downloadProtocZip_meta env url z (w1.log (.download url z))
    rcases hd : downloadProtocZip env url z (w1.log (.download url z)) with ⟨e, w2⟩
    rw [hd] at h1
    have t3 := t2.ttrans (TraceAdds.of_meta h1)
    cases e with
    | some e => exact t3
    | none =>
      simp only
      have h3 := ReadFile_meta z w2
      rcases hrd : ReadFile z w2 with ⟨rr, w3⟩
      rw [hrd] at h3
      have t4 := t3.ttrans (TraceAdds.of_meta h3)
      cases rr with
      | ok bytes =>
        exact t4.ttrans ((extractProtoc_adds g v env bytes w3).timp
          (fun e ⟨p, hp⟩ _ _ => by rw [hp]; simp))
      | notExist => exact t4
      | otherErr => exact t4

theorem prepareProtoc_adds (g : Generator) (v : PkgVars) (env : Env) (w : World) :
    TraceAdds NotWrite w (g.prepareProtoc v env w).2 := by
  unfold Generator.prepareProtoc
  have hz := getProtocDistZipFilePath_spec g v env w
  rcases hr : g.getProtocDistZipFilePath v env w with ⟨r, w1⟩
  rw [hr] at hz
  have t1 : TraceAdds NotWrite w w1 := ⟨[], by rw [List.append_nil]; exact hz.2.1, by simp⟩
  cases r with
  | error e => exact t1
  | ok z =>
    simp only
    have h2 := MkdirAll_meta (Dir z) w1
    rcases hm : MkdirAll (Dir z) w1 with ⟨e, w2⟩
    rw [hm] at h2
    have t2 := t1.ttrans (TraceAdds.of_meta h2)
    cases e with
    | some e => exact t2
    | none =>
      simp only
      have h3 := ReadFile_meta z w2
      rcases hrd : ReadFile z w2 with ⟨rr, w3⟩
      rw [hrd] at h3
      have t3 := t2.ttrans (TraceAdds.of_meta h3)
      have tex : ∀ bytes, TraceAdds NotWrite w3 (g.extractProtoc v env bytes w3).2 :=
        fun bytes => (extractProtoc_adds g v env bytes w3).timp
          (fun e ⟨p, hp⟩ _ _ => by rw [hp]; simp)
      cases rr with
      | ok bytes =>
        simp only
        split
        · exact t3.ttrans (downloadAndExtract_adds g v env z w3)
        · exact t3.ttrans (tex bytes)
      | notExist => exact t3.ttrans (downloadAndExtract_adds g v env z w3)
      | otherErr => exact t3

theorem GoInstall_adds (env : Env) (pkg dir : String) (w : World) :
    TraceAdds NotWrite w (GoInstall env pkg dir w).2 := by
  unfold GoInstall
  split <;> exact TraceAdds.log w _ (fun _ _ => by simp)

theorem prepareProtocGenGo_adds (g : Generator) (v : PkgVars) (env : Env) (w : World) :
    TraceAdds NotWrite w (g.prepareProtocGenGo v env w).2 := by
  unfold Generator.prepareProtocGenGo
  cases GoListPkg env pkgNameProtocGenGo [] with
  | error e => exact TraceAdds.trefl _ w
  | ok pkg =>
    simp only
    split
    · exact TraceAdds.trefl _ w
    · cases pkg.Module with
      | none => exact TraceAdds.trefl _ w
      | some module =>
        simp only
        have h1 := MkdirAll_meta (g.getProtocGenGoPath v module.Version) w
        rcases hm : MkdirAll (g.getProtocGenGoPath v module.Version) w with ⟨e, w1⟩
        rw [hm] at h1
        have t1 : TraceAdds NotWrite w w1 := TraceAdds.of_meta h1
        cases e with
        | some e => exact t1
        | none =>
          simp only
          have h2 := GoInstall_adds env pkgNameProtocGenGo
            (g.getProtocGenGoPath v module.Version) w1
          rcases hg : GoInstall env pkgNameProtocGenGo
            (g.getProtocGenGoPath v module.Version) w1 with ⟨e2, w2⟩
          rw [hg] at h2
          cases e2 <;> exact t1.ttrans h2

theorem prepareProtocGenGoGrpc_adds (g : Generator) (v : PkgVars) (env : Env) (w : World) :
    TraceAdds NotWrite w (g.prepareProtocGenGoGrpc v env w).2 := by
  unfold Generator.prepareProtocGenGoGrpc
  cases GoListPkg env pkgNameGrpc [] with
  | error e => exact TraceAdds.trefl _ w
  | ok pkg =>
    simp only
    split
    · exact TraceAdds.trefl _ w
    · cases pkg.Module with
      | none => exact TraceAdds.trefl _ w
      | some module =>
        simp only
        have h1 := MkdirAll_meta (g.getProtocGenGoGrpcPath v g.getProtocGenGoGrpcVer) w
        rcases hm : MkdirAll (g.getProtocGenGoGrpcPath v g.getProtocGenGoGrpcVer) w with ⟨e, w1⟩
        rw [hm] at h1
        have t1 : TraceAdds NotWrite w w1 := TraceAdds.of_meta h1
        cases e with
        | some e => exact t1
        | none =>
          simp only
          have h2 := GoInstall_adds env (pkgNameProtocGenGoGrpc ++ "@v" ++ g.getProtocGenGoGrpcVer)
            (g.getProtocGenGoGrpcPath v g.getProtocGenGoGrpcVer) w1
          rcases hg : GoInstall env (pkgNameProtocGenGoGrpc ++ "@v" ++ g.getProtocGenGoGrpcVer)
            (g.getProtocGenGoGrpcPath v g.getProtocGenGoGrpcVer) w1 with ⟨e2, w2⟩
          rw [hg] at h2
          cases e2 <;> exact t1.ttrans h2

theorem findIdeaDir_meta (fuel : Nat) : ∀ (findFrom : String) (w : World),
    SameMeta w (findIdeaDir fuel findFrom w).2 := by
  induction fuel with
  | zero => intro _ w; exact SameMeta.srefl w
  | succ n ih =>
    intro findFrom w
    unfold findIdeaDir
    have h1 := Stat_meta (Join findFrom ".idea") w
    rcases hs : Stat (Join findFrom ".idea") w with ⟨r, w1⟩
    rw [hs] at h1
    cases r with
    | isDir => exact h1
    | otherErr => exact h1
    | notDir =>
      simp only
      split
      · exact h1
      · exact h1.strans (ih _ w1)
    | notExist =>
      simp only
      split
      · exact h1
      · exact h1.strans (ih _ w1)

theorem FindJetBrainsRootAndOpen_meta (env : Env) (findFrom : String) (w : World) :
    SameMeta w (FindJetBrainsRootAndOpen env findFrom w).2 := by
  unfold FindJetBrainsRootAndOpen
  cases Abs env findFrom with
  | error e => exact SameMeta.srefl w
  | ok start =>
    simp only
    have h1 := findIdeaDir_meta (start.length + 1) start w
    rcases hf : findIdeaDir (start.length + 1) start w with ⟨r, w1⟩
    rw [hf] at h1
    cases r with
    | error e => exact h1
    | ok ideaDir =>
      simp only
      have h2 := ReadFile_meta (Join ideaDir "protoeditor.xml") w1
      rcases hr : ReadFile (Join ideaDir "protoeditor.xml") w1 with ⟨rr, w2⟩
      rw [hr] at h2
      cases rr with
      | otherErr => exact h1.strans h2
      | notExist => exact h1.strans h2
      | ok bytes =>
        simp only
        split
        · exact h1.strans h2
        · cases env.xmlUnmarshal bytes <;> exact h1.strans h2

theorem Save_adds (env : Env) (xmlFile : String) (doc : XmlElement) (w : World) :
    TraceAdds NotWrite w (Save env xmlFile doc w).2 := by
  unfold Save
  cases env.xmlEncode doc with
  | none => exact TraceAdds.trefl _ w
  | some text =>
    simp only
    have t1 : TraceAdds NotWrite w (w.log (.editorSave xmlFile)) :=
      TraceAdds.log w _ (fun _ _ => by simp)
    have h2 := WriteFile_meta env.umask xmlFile ("<?xml version=\"1.0\" encoding=\"UTF-8\"?>" ++ text) 420
      (w.log (.editorSave xmlFile))
    rcases hw : WriteFile env.umask xmlFile ("<?xml version=\"1.0\" encoding=\"UTF-8\"?>" ++ text) 420
      (w.log (.editorSave xmlFile)) with ⟨e, w1⟩
    rw [hw] at h2
    cases e <;> exact t1.ttrans (TraceAdds.of_meta h2)

theorem configProtoEditor_adds (env : Env) (genPkg : PackagePublic) (protoPaths : List String)
    (w : World) : TraceAdds NotWrite w (configProtoEditor env genPkg protoPaths w).2 := by
  unfold configProtoEditor
  have h1 := FindJetBrainsRootAndOpen_meta env genPkg.Dir w
  rcases hf : FindJetBrainsRootAndOpen env genPkg.Dir w with ⟨r, w1⟩
  rw [hf] at h1
  have t1 : TraceAdds NotWrite w w1 := TraceAdds.of_meta h1
  cases r with
  | error e => exact t1
  | ok pr =>
    rcases pr with ⟨xmlFile, docRoot⟩
    simp only
    have h2 := Save_adds env xmlFile (ConfigProtoPath genPkg.ImportPath protoPaths docRoot) w1
    rcases hs : Save env xmlFile (ConfigProtoPath genPkg.ImportPath protoPaths docRoot) w1
      with ⟨e, w2⟩
    rw [hs] at h2
    cases e <;> exact t1.ttrans h2

theorem cleanDirs_adds (genFileDir : String) (pieces : List String) :
    ∀ w, TraceAdds NotWrite w (cleanDirs genFileDir pieces w).2 := by
  induction pieces with
  | nil => intro w; exact TraceAdds.trefl _ w
  | cons piece rest ih =>
    intro w
    unfold cleanDirs
    split
    · exact ih w
    · have t1 : TraceAdds NotWrite w (w.log (.removeAll
          (if !IsAbs (TrimSpace piece) then Join genFileDir (TrimSpace piece)
           else TrimSpace piece))) := TraceAdds.log w _ (fun _ _ => by simp)
      have h2 := RemoveAll_meta
        (if !IsAbs (TrimSpace piece) then Join genFileDir (TrimSpace piece) else TrimSpace piece)
        (w.log (.removeAll
          (if !IsAbs (TrimSpace piece) then Join genFileDir (TrimSpace piece)
           else TrimSpace piece)))
      rcases hr : RemoveAll
        (if !IsAbs (TrimSpace piece) then Join genFileDir (TrimSpace piece) else TrimSpace piece)
        (w.log (.removeAll
          (if !IsAbs (TrimSpace piece) then Join genFileDir (TrimSpace piece)
           else TrimSpace piece))) with ⟨e, w1⟩
      rw [hr] at h2
      have t2 := t1.ttrans (TraceAdds.of_meta h2)
      cases e with
      | some e => exact t2
      | none => exact t2.ttrans (ih w1)

/-- The end of `Run` logs at most one write of the argument file, and its content is
the text of the directives it was given. -/
theorem stageAndInvoke_adds (g : Generator) (env : Env) (genFilePkg genPkg : PackagePublic)
    (dist : String) (lines : List String) (w : World) :
    TraceAdds (fun e => ∀ p c, e = Event.writeFile p c → c = optsText lines) w
      (g.stageAndInvoke env genFilePkg genPkg dist lines w).2 := by
  have nw : ∀ e, NotWrite e → ∀ p c, e = Event.writeFile p c → c = optsText lines :=
    fun e h p c he => absurd he (h p c)
  unfold Generator.stageAndInvoke
  have h1 := MkdirAll_meta (Dir (g.getProtoGenFilePath env genPkg)) w
  rcases hm : MkdirAll (Dir (g.getProtoGenFilePath env genPkg)) w with ⟨e, w1⟩
  rw [hm] at h1
  have t1 : TraceAdds (fun e => ∀ p c, e = Event.writeFile p c → c = optsText lines) w w1 :=
    TraceAdds.of_meta h1
  cases e with
  | some e => exact t1
  | none =>
    simp only
    have t2 := t1.ttrans (TraceAdds.log w1
      (.writeFile (g.getProtoGenFilePath env genPkg) (optsText lines))
      (fun p c he => by simp only [Event.writeFile.injEq] at he; exact he.2.symm))
    have h3 := WriteFile_meta env.umask (g.getProtoGenFilePath env genPkg) (optsText lines) 438
      (w1.log (.writeFile (g.getProtoGenFilePath env genPkg) (optsText lines)))
    rcases hw : WriteFile env.umask (g.getProtoGenFilePath env genPkg) (optsText lines) 438
      (w1.log (.writeFile (g.getProtoGenFilePath env genPkg) (optsText lines))) with ⟨e2, w2⟩
    rw [hw] at h3
    have t3 := t2.ttrans (TraceAdds.of_meta h3)
    cases e2 with
    | some e2 => exact t3
    | none =>
      simp only
      have h4 := cleanDirs_adds genFilePkg.Dir
        ((splitChars ',' g.getCleanDir.data).map String.mk) w2
      rcases hc : cleanDirs genFilePkg.Dir
        ((splitChars ',' g.getCleanDir.data).map String.mk) w2 with ⟨e3, w3⟩
      rw [hc] at h4
      have t4 := t3.ttrans (h4.timp nw)
      cases e3 with
      | some e3 => exact t4
      | none =>
        simp only
        split <;> exact t4.ttrans (TraceAdds.log w3 _ (fun p c he => by simp at he))

theorem String.empty_append' (s : String) : "" ++ s = s := by
  apply String.ext; simp

theorem unzipFile_mono (u : Nat) (dest : String) (f : ZipFile) (w : World) :
    Mono w (unzipFile u dest f w).2 := by
  unfold unzipFile
  simp only
  split
  · exact Mono.mrefl w
  · split
    · have h2 := MkdirAll_mono (Join dest f.Name) w
      rcases hm : MkdirAll (Join dest f.Name) w with ⟨e, w1⟩
      rw [hm] at h2
      cases e <;> exact h2
    · have h2 := MkdirAll_mono (Dir (Join dest f.Name)) w
      rcases hm : MkdirAll (Dir (Join dest f.Name)) w with ⟨e, w1⟩
      rw [hm] at h2
      cases e with
      | some e => exact h2
      | none =>
        simp only
        have h3 := OpenFile_frame u (Join dest f.Name) f.Mode w1
        rcases ho : OpenFile u (Join dest f.Name) f.Mode w1 with ⟨e2, w2⟩
        rw [ho] at h3
        have m2 := Mono.mtrans h2 h3.2
        cases e2 with
        | some e2 => exact m2
        | none =>
          simp only
          split
          · exact m2
          · have h4 := Copy_frame f (Join dest f.Name) w2
            have h5 := CloseFile_fs (Copy f (Join dest f.Name) w2).2
            have m4 := (m2.mtrans h4.2).mtrans (Mono.mof_fs_eq h5)
            rcases hc : CloseFile (Copy f (Join dest f.Name) w2).2 with ⟨e3, w4⟩
            rw [hc] at m4
            cases e3 with
            | some e3 => exact m4
            | none =>
              simp only
              split <;> exact m4

theorem unzipFile_spec (u : Nat) (dest : String) (f : ZipFile) (w : World) :
    Grown (fun q => q = Join dest f.Name ∧ f.IsDir = false) w (unzipFile u dest f w).2 ∧
      (NoFaults w → NoFaults (unzipFile u dest f w).2) ∧
      ((unzipFile u dest f w).1 = none → f.IsDir = false → NoFaults w → f.readErr = none →
        ∃ m, (unzipFile u dest f w).2.fs (Join dest f.Name) = some (Node.file f.data m) ∧
          (NotFile w (Join dest f.Name) → m = createdMode u f.Mode) ∧
          (unzipFile u dest f w).2.fs (Dir (Join dest f.Name)) = some Node.dir) ∧
      (∀ e, (unzipFile u dest f w).1 = some e →
        hasPrefix (Join dest f.Name) (Clean dest ++ "/") = false ∨ e ∈ fsErrors ∨
          f.openErr = true ∨ f.closeErr = true) := by
  unfold unzipFile
  simp only
  by_cases hg : hasPrefix (Join dest f.Name) (Clean dest ++ "/") = true
  · simp only [hg, Bool.not_true, Bool.false_eq_true, if_false]
    by_cases hdir : f.IsDir = true
    · rw [if_pos hdir]
      have h1 := mkdirAllList_grown (Join dest f.Name :: ancestors (Join dest f.Name)) w
      rcases hm : MkdirAll (Join dest f.Name) w with ⟨e, w1⟩
      unfold MkdirAll at hm
      rw [hm] at h1
      cases e with
      | some e =>
        exact ⟨h1.1.gimp (fun _ h => absurd h id), h1.2.1, fun h => by simp at h,
          fun e he => Or.inr (Or.inl (by simp at he; rw [← he]; simp [fsErrors]))⟩
      | none =>
        exact ⟨h1.1.gimp (fun _ h => absurd h id), h1.2.1,
          fun _ h => absurd h (by simp [hdir]), fun e he => by simp at he⟩
    · have hdir' : f.IsDir = false := by simpa using hdir
      rw [if_neg hdir]
      have h1 := mkdirAllList_grown
        (Dir (Join dest f.Name) :: ancestors (Dir (Join dest f.Name))) w
      rcases hm : MkdirAll (Dir (Join dest f.Name)) w with ⟨e, w1⟩
      unfold MkdirAll at hm
      rw [hm] at h1
      have g1 : Grown (fun q => q = Join dest f.Name ∧ f.IsDir = false) w w1 :=
        h1.1.gimp (fun _ h => absurd h id)
      cases e with
      | some e =>
        exact ⟨g1, h1.2.1, fun h => by simp at h,
          fun e he => Or.inr (Or.inl (by simp at he; rw [← he]; simp [fsErrors]))⟩
      | none =>
        simp only
        have hS : ∀ q, q = Join dest f.Name → q = Join dest f.Name ∧ f.IsDir = false :=
          fun q hq => ⟨hq, hdir'⟩
        have h3 := OpenFile_spec u (Join dest f.Name) f.Mode w1
        have h3m := (OpenFile_frame u (Join dest f.Name) f.Mode w1).2
        rcases ho : OpenFile u (Join dest f.Name) f.Mode w1 with ⟨e2, w2⟩
        rw [ho] at h3 h3m
        have g2 := g1.gtrans (h3.1.gimp hS)
        have n2 : NoFaults w → NoFaults w2 := fun h => h3.2.1 (h1.2.1 h)
        cases e2 with
        | some e2 =>
          exact ⟨g2, n2, fun h => by simp at h,
            fun e he => Or.inr (Or.inl (by simp at he; rw [← he]; simp [fsErrors]))⟩
        | none =>
          simp only
          by_cases hoe : f.openErr = true
          · rw [if_pos hoe]
            exact ⟨g2, n2, fun h => by simp at h, fun e _ => Or.inr (Or.inr (Or.inl hoe))⟩
          · rw [if_neg hoe]
            have h4 := Copy_spec f (Join dest f.Name) w2
            have h4m := (Copy_frame f (Join dest f.Name) w2).2
            have h5 := CloseFile_fs (Copy f (Join dest f.Name) w2).2
            have h5n := @CloseFile_noFaults (Copy f (Join dest f.Name) w2).2
            have g4 := (g2.gtrans (h4.1.gimp hS)).gtrans
              (Grown.gof_fs_eq (S := fun q => q = Join dest f.Name ∧ f.IsDir = false) h5)
            have n4 : NoFaults w → NoFaults (CloseFile (Copy f (Join dest f.Name) w2).2).2 :=
              fun h => h5n (h4.2.1 (n2 h))
            have hcontent : NoFaults w → f.readErr = none →
                ∃ m, (CloseFile (Copy f (Join dest f.Name) w2).2).2.fs (Join dest f.Name) =
                    some (Node.file f.data m) ∧
                  (NotFile w (Join dest f.Name) → m = createdMode u f.Mode) ∧
                  (CloseFile (Copy f (Join dest f.Name) w2).2).2.fs (Dir (Join dest f.Name)) =
                    some Node.dir := by
              intro hnf hre
              obtain ⟨m, hm2, hmode⟩ := h3.2.2 rfl
              refine ⟨m, ?_, ?_, ?_⟩
              · rw [h5, h4.2.2 (n2 hnf) _ _ hm2]
                have : f.readable = f.data := by simp [ZipFile.readable, hre]
                rw [this, String.empty_append']
              · intro hnot
                apply hmode
                intro c m' hc
                rcases h1.1 (Join dest f.Name) with h | h | h
                · exact h
                · rw [h] at hc; exact hnot c m' hc
                · rw [h.2] at hc; simp at hc
              · rw [h5]
                exact h4m.1 _ (h3m.1 _ (h1.2.2 rfl _ rfl))
            rcases hc : CloseFile (Copy f (Join dest f.Name) w2).2 with ⟨e3, w4⟩
            rw [hc] at g4 n4 hcontent
            cases e3 with
            | some e3 =>
              exact ⟨g4, n4, fun h => by simp at h,
                fun e he => Or.inr (Or.inl (by simp at he; rw [← he]; simp [fsErrors]))⟩
            | none =>
              simp only
              by_cases hce : f.closeErr = true
              · rw [if_pos hce]
                exact ⟨g4, n4, fun h => by simp at h,
                  fun e _ => Or.inr (Or.inr (Or.inr hce))⟩
              · rw [if_neg hce]
                exact ⟨g4, n4, fun _ _ hnf hre => hcontent hnf hre, fun e he => by simp at he⟩
  · have hg' : hasPrefix (Join dest f.Name) (Clean dest ++ "/") = false := by simpa using hg
    simp only [hg', Bool.not_false, if_true]
    exact ⟨Grown.grefl _ w, fun h => h, fun h => by simp at h, fun e _ => Or.inl trivial⟩

/-! ## What an extraction changes when the destination is missing -/

theorem mkdirAllList_changed (l : List String) :
    ∀ w, ChangedOnly (fun q => q ∈ l) w (mkdirAllList l w).2 := by
  induction l with
  | nil => intro w; exact ChangedOnly.crefl _ w
  | cons p rest ih =>
    intro w
    unfold mkdirAllList
    rcases hp : w.fs p with _ | n
    · simp only
      have ih' := (ih w).cimp (fun q hq => List.mem_cons_of_mem p hq)
      rcases hr : mkdirAllList rest w with ⟨e, w1⟩
      rw [hr] at ih'
      cases e with
      | some e => exact ih'
      | none =>
        refine ChangedOnly.ctrans ih' ?_
        intro x hx
        have := (Mkdir_frame p w1).1 x hx
        simp only at this
        rw [this]
        exact List.mem_cons_self _ _
    · cases n with
      | dir => exact ChangedOnly.crefl _ w
      | file c m => exact ChangedOnly.crefl _ w

/-- `os.MkdirAll` of a path at or inside `d` changes nodes at or inside `d` and at the
lexical ancestors of `d` only. -/
theorem MkdirAll_changed {d p : String} (w : World) (hd : d.data ≠ []) (hp : InDest d p) :
    ChangedOnly (fun q => InDest d q ∨ q ∈ ancestors d) w (MkdirAll p w).2 := by
  unfold MkdirAll
  refine (mkdirAllList_changed _ w).cimp ?_
  intro q hq
  rcases hp with hp | hp
  · obtain ⟨L, hL, hall⟩ := ancestors_chain d p hp hd
    rw [hL] at hq
    rcases List.mem_cons.1 hq with h | h
    · exact Or.inl (Or.inl (by rw [h]; exact hp))
    · rcases List.mem_append.1 h with h | h
      · exact Or.inl (Or.inl (hall q h))
      · rcases List.mem_cons.1 h with h | h
        · exact Or.inl (Or.inr h)
        · exact Or.inr h
  · subst hp
    rcases List.mem_cons.1 hq with h | h
    · exact Or.inl (Or.inr h)
    · exact Or.inr h

theorem unzipFile_changed (u : Nat) (dest : String) (f : ZipFile) (w : World) :
    ChangedOnly (fun q => InDest (Clean dest) q ∨ q ∈ ancestors (Clean dest)) w
      (unzipFile u dest f w).2 := by
  have hD : (Clean dest).data ≠ [] := cleanChars_ne_nil _
  unfold unzipFile
  by_cases hg : hasPrefix (Join dest f.Name) (Clean dest ++ "/") = true
  · simp only [hg, Bool.not_true, Bool.false_eq_true, if_false]
    by_cases hdir : f.IsDir = true
    · simp only [hdir, if_true]
      have h1 := MkdirAll_changed w hD (Or.inl hg)
      rcases hm : MkdirAll (Join dest f.Name) w with ⟨e, w1⟩
      rw [hm] at h1
      cases e <;> exact h1
    · simp only [hdir, Bool.false_eq_true, if_false]
      have hdin : InDest (Clean dest) (Dir (Join dest f.Name)) := by
        rcases Dir_inside dest f.Name hg with h0 | h0
        · exact Or.inr h0
        · exact Or.inl h0
      have h1 := MkdirAll_changed w hD hdin
      rcases hm : MkdirAll (Dir (Join dest f.Name)) w with ⟨e, w1⟩
      rw [hm] at h1
      cases e with
      | some e => exact h1
      | none =>
        simp only
        have hin : ∀ q, q = Join dest f.Name →
            InDest (Clean dest) q ∨ q ∈ ancestors (Clean dest) :=
          fun q hq => Or.inl (Or.inl (by rw [hq]; exact hg))
        have h3 := OpenFile_frame u (Join dest f.Name) f.Mode w1
        rcases ho : OpenFile u (Join dest f.Name) f.Mode w1 with ⟨e2, w2⟩
        rw [ho] at h3
        have c2 := ChangedOnly.ctrans h1 (h3.1.cimp hin)
        cases e2 with
        | some e2 => exact c2
        | none =>
          simp only
          by_cases hoe : f.openErr = true
          · simp only [hoe, if_true]; exact c2
          · simp only [hoe, Bool.false_eq_true, if_false]
            have h4 := Copy_frame f (Join dest f.Name) w2
            have c3 := ChangedOnly.ctrans c2 (h4.1.cimp hin)
            have h5 := CloseFile_fs (Copy f (Join dest f.Name) w2).2
            have c4 := ChangedOnly.ctrans c3 (ChangedOnly.cof_fs_eq h5)
            rcases hc : CloseFile (Copy f (Join dest f.Name) w2).2 with ⟨e3, w4⟩
            rw [hc] at c4
            cases e3 with
            | some e3 => exact c4
            | none =>
              simp only
              split <;> exact c4
  · simp only [hg, Bool.not_false, if_true]
    exact ChangedOnly.crefl _ w

theorem unzipFile_grown_inside (u : Nat) (dest : String) (f : ZipFile) (w : World) :
    Grown (fun q => hasPrefix q (Clean dest ++ "/") = true) w (unzipFile u dest f w).2 := by
  by_cases hg : hasPrefix (Join dest f.Name) (Clean dest ++ "/") = true
  · exact (unzipFile_spec u dest f w).1.gimp (fun q hq => by rw [hq.1]; exact hg)
  · have : (unzipFile u dest f w).2 = w := by
      simp [unzipFile, hg]
    rw [this]
    exact Grown.grefl _ w

/-- What `Unzip` changes, whatever the state of the destination: nodes lexically inside
the destination, and missing nodes at the destination and at its lexical ancestors,
which become directories. -/
theorem Unzip_changed (u : Nat) (dest : String) (files : List ZipFile) :
    ∀ w, ChangedOnly (fun q => InDest (Clean dest) q ∨ q ∈ ancestors (Clean dest)) w
        (Unzip u files dest w).2 ∧
      Grown (fun q => hasPrefix q (Clean dest ++ "/") = true) w (Unzip u files dest w).2 := by
  induction files with
  | nil => intro w; exact ⟨ChangedOnly.crefl _ w, Grown.grefl _ w⟩
  | cons f rest ih =>
    intro w
    have h1 := unzipFile_changed u dest f w
    have g1 := unzipFile_grown_inside u dest f w
    unfold Unzip
    rcases hu : unzipFile u dest f w with ⟨e, w1⟩
    rw [hu] at h1 g1
    cases e with
    | some e => exact ⟨h1, g1⟩
    | none =>
      obtain ⟨h2, g2⟩ := ih w1
      exact ⟨ChangedOnly.ctrans h1 h2, g1.gtrans g2⟩
/-! ## The claims about `Unzip` -/

/-- C1, as amended. When some entry of the archive resolves to a path that does not
start with the cleaned destination followed by the separator, `Unzip` returns an
error. Whatever the archive, every path whose file-system node differs after the call
is lexically inside the destination, or it is the destination or one of its lexical
ancestors, held nothing before the call and is a directory after it (`os.MkdirAll`
creates the missing ancestors of what it is asked for). When the destination or its
parent directory exists before the call, the only paths whose node differs are the
destination itself and paths lexically inside it. -/
theorem Unzip_rejects_escaping_entry (u : Nat) (files : List ZipFile) (dest : String)
    (w : World)
    (hbad : ∃ f ∈ files, hasPrefix (Join dest f.Name) (Clean dest ++ "/") = false) :
    (Unzip u files dest w).1 ≠ none ∧
      (∀ p, (Unzip u files dest w).2.fs p ≠ w.fs p →
        hasPrefix p (Clean dest ++ "/") = true ∨
          ((p = Clean dest ∨ p ∈ ancestors (Clean dest)) ∧ w.fs p = none ∧
            (Unzip u files dest w).2.fs p = some Node.dir)) ∧
      ((w.fs (Clean dest) ≠ none ∨
          ∀ a, (ancestors (Clean dest)).head? = some a → w.fs a = some Node.dir) →
        ∀ p, (Unzip u files dest w).2.fs p ≠ w.fs p →
          hasPrefix p (Clean dest ++ "/") = true ∨ p = Clean dest) := by
  refine ⟨Unzip_error_of_escape u dest files w hbad, ?_,
    fun hdest => (Unzip_frame u dest files w hdest).1⟩
  intro p hp
  obtain ⟨hc, hg⟩ := Unzip_changed u dest files w
  rcases hg p with h | h | ⟨h1, h2⟩
  · exact Or.inl h
  · exact absurd h hp
  · rcases hc p hp with (h | h) | h
    · exact Or.inl h
    · exact Or.inr ⟨Or.inl h, h1, h2⟩
    · exact Or.inr ⟨Or.inr h, h1, h2⟩

theorem Unzip_spec (u : Nat) (dest : String) (files : List ZipFile) :
    ∀ w, Grown (fun q => ∃ g ∈ files, g.IsDir = false ∧ q = Join dest g.Name) w
        (Unzip u files dest w).2 ∧
      Mono w (Unzip u files dest w).2 ∧
      (∀ e, (Unzip u files dest w).1 = some e →
        (∃ f ∈ files, hasPrefix (Join dest f.Name) (Clean dest ++ "/") = false) ∨
          e ∈ fsErrors ∨ ∃ f ∈ files, f.openErr = true ∨ f.closeErr = true) := by
  induction files with
  | nil =>
    intro w
    exact ⟨Grown.grefl _ w, Mono.mrefl w, fun e he => by simp [Unzip] at he⟩
  | cons f rest ih =>
    intro w
    have h1 := unzipFile_spec u dest f w
    have m1 := unzipFile_mono u dest f w
    unfold Unzip
    rcases hu : unzipFile u dest f w with ⟨e, w1⟩
    rw [hu] at h1 m1
    cases e with
    | some e =>
      refine ⟨h1.1.gimp (fun q hq => ⟨f, List.mem_cons_self _ _, hq.2, hq.1⟩), m1, ?_⟩
      intro e' he'
      simp only [Option.some.injEq] at he'
      subst he'
      rcases h1.2.2.2 e rfl with h | h | h
      · exact Or.inl ⟨f, List.mem_cons_self _ _, h⟩
      · exact Or.inr (Or.inl h)
      · exact Or.inr (Or.inr ⟨f, List.mem_cons_self _ _, h⟩)
    | none =>
      obtain ⟨g2, m2, e2⟩ := ih w1
      refine ⟨?_, m1.mtrans m2, ?_⟩
      · exact (h1.1.gimp (fun q hq => ⟨f, List.mem_cons_self _ _, hq.2, hq.1⟩)).gtrans
          (g2.gimp (fun q ⟨g, hg, hq⟩ => ⟨g, List.mem_cons_of_mem _ hg, hq⟩))
      · intro e' he'
        rcases e2 e' he' with ⟨g, hg, h⟩ | h | ⟨g, hg, h⟩
        · exact Or.inl ⟨g, List.mem_cons_of_mem _ hg, h⟩
        · exact Or.inr (Or.inl h)
        · exact Or.inr (Or.inr ⟨g, List.mem_cons_of_mem _ hg, h⟩)

theorem Unzip_content (u : Nat) (dest : String) (files : List ZipFile) :
    ∀ w, NoFaults w → (∀ f ∈ files, f.readErr = none) →
      files.Pairwise (fun f g => f.IsDir = false → g.IsDir = false →
        Join dest f.Name ≠ Join dest g.Name) →
      (∀ f ∈ files, f.IsDir = false → NotFile w (Join dest f.Name)) →
      (Unzip u files dest w).1 = none →
      ∀ f ∈ files, f.IsDir = false →
        (Unzip u files dest w).2.fs (Join dest f.Name) =
            some (Node.file f.data (createdMode u f.Mode)) ∧
          (Unzip u files dest w).2.fs (Dir (Join dest f.Name)) = some Node.dir := by
  induction files with
  | nil => intro w _ _ _ _ _ f hf; simp at hf
  | cons f rest ih =>
    intro w hnf hread hpair hfresh hok
    have h1 := unzipFile_spec u dest f w
    unfold Unzip at hok ⊢
    rcases hu : unzipFile u dest f w with ⟨e, w1⟩
    rw [hu] at h1 hok
    cases e with
    | some e => simp at hok
    | none =>
      simp only at hok ⊢
      rw [List.pairwise_cons] at hpair
      have hfresh1 : ∀ g ∈ rest, g.IsDir = false → NotFile w1 (Join dest g.Name) := by
        intro g hg hgd c m hc
        rcases h1.1 (Join dest g.Name) with h | h | h
        · exact hpair.1 g hg h.2 hgd h.1.symm
        · rw [h] at hc
          exact hfresh g (List.mem_cons_of_mem _ hg) hgd c m hc
        · rw [h.2] at hc; simp at hc
      have ih' := ih w1 (h1.2.1 hnf) (fun g hg => hread g (List.mem_cons_of_mem _ hg))
        hpair.2 hfresh1 hok
      intro g hg hgd
      rcases List.mem_cons.1 hg with h | h
      · subst h
        obtain ⟨m, hm, hmode, hdir⟩ := h1.2.2.1 rfl hgd hnf (hread g (List.mem_cons_self _ _))
        have hm' := hmode (hfresh g (List.mem_cons_self _ _) hgd)
        subst hm'
        obtain ⟨g2, m2, _⟩ := Unzip_spec u dest rest w1
        refine ⟨?_, m2.1 _ hdir⟩
        rcases g2 (Join dest g.Name) with ⟨g', hg', hgd', he⟩ | h | h
        · exact absurd he (hpair.1 g' hg' hgd hgd')
        · rw [h]; exact hm
        · rw [hm] at h; simp at h
      · exact ih' g h hgd

/-- C2, as amended. For an absolute destination other than the root and an archive
whose entry names have no `..` component and at least one proper component, whose
entries can be read in full, and whose non-directory entries resolve to pairwise
distinct paths holding no file before the call: when no file-system operation fails
(no injected fault, and the call does not end in a MkdirAll, OpenFile or Close
error), `Unzip` returns nil and every non-directory entry is a file at its resolved
path with exactly the entry's content, inside an existing directory; its mode is the
entry's permission bits without the bits set in the umask of the process, together
with the entry's setuid, setgid and sticky bits (`createdMode`). -/
theorem Unzip_extracts (u : Nat) (files : List ZipFile) (dest : String) (w : World)
    (habs : IsAbs dest = true) (hroot : Clean dest ≠ "/")
    (hnames : ∀ f ∈ files, ".." ∉ components f.Name ∧
      ∃ c ∈ components f.Name, c ≠ "" ∧ c ≠ ".")
    (hintact : ∀ f ∈ files, f.openErr = false ∧ f.readErr = none ∧ f.closeErr = false)
    (hdistinct : files.Pairwise (fun f g => f.IsDir = false → g.IsDir = false →
      Join dest f.Name ≠ Join dest g.Name))
    (hfresh : ∀ f ∈ files, f.IsDir = false → ∀ c m, w.fs (Join dest f.Name) ≠ some (Node.file c m))
    (hfaults : ∀ b ∈ w.faults, b = false)
    (hfs : ∀ e ∈ fsErrors, (Unzip u files dest w).1 ≠ some e) :
    (Unzip u files dest w).1 = none ∧
      ∀ f ∈ files, f.IsDir = false →
        (Unzip u files dest w).2.fs (Join dest f.Name) =
            some (Node.file f.data (createdMode u f.Mode)) ∧
          (Unzip u files dest w).2.fs (Dir (Join dest f.Name)) = some Node.dir := by
  have hok : (Unzip u files dest w).1 = none := by
    cases hr : (Unzip u files dest w).1 with
    | none => rfl
    | some e =>
      exfalso
      rcases (Unzip_spec u dest files w).2.2 e hr with ⟨f, hf, hbad⟩ | h | ⟨f, hf, h⟩
      · have := Join_inside dest f.Name habs hroot (hnames f hf).1 (hnames f hf).2
        rw [this] at hbad; simp at hbad
      · exact hfs e h hr
      · rcases h with h | h
        · rw [(hintact f hf).1] at h; simp at h
        · rw [(hintact f hf).2.2] at h; simp at h
  exact ⟨hok, Unzip_content u dest files w hfaults (fun f hf => (hintact f hf).2.1) hdistinct
    hfresh hok⟩

set_option maxRecDepth 100000 in
/-- C2, witness: the entry `a/b/c.txt` with content `hello` and mode 0666 extracted into
`/d` by a process with the umask 022: the file has the content `hello` and the mode
0644. -/
theorem Unzip_extracts_witness :
    ((Unzip 18 [entryShared] "/d" (worldWithDir "/d")).1 = none ∧
      ∀ f ∈ [entryShared], f.IsDir = false →
        (Unzip 18 [entryShared] "/d" (worldWithDir "/d")).2.fs (Join "/d" f.Name) =
            some (Node.file f.data (createdMode 18 f.Mode)) ∧
          (Unzip 18 [entryShared] "/d" (worldWithDir "/d")).2.fs (Dir (Join "/d" f.Name)) =
            some Node.dir) ∧
      (Unzip 18 [entryShared] "/d" (worldWithDir "/d")).2.fs "/d/a/b/c.txt" =
        some (Node.file "hello" 420) :=
  ⟨Unzip_extracts 18 [entryShared] "/d" (worldWithDir "/d") (by decide) (by decide)
    (by
      intro f hf
      rw [List.mem_singleton.1 hf]
      exact ⟨by decide, "a", by decide, by decide, by decide⟩)
    (by intro f hf; rw [List.mem_singleton.1 hf]; decide)
    (List.pairwise_singleton _ _)
    (by
      intro f hf _ c m
      rw [List.mem_singleton.1 hf]
      have h0 : (worldWithDir "/d").fs (Join "/d" entryShared.Name) = none := by decide
      rw [h0]
      simp)
    (by intro b hb; simp [worldWithDir] at hb)
    (by decide), by decide⟩

/-- C2, counterexample: with the root as destination the guard compares against the
prefix `//`, so the one-entry archive `a/b/c.txt` is rejected although no file-system
operation failed (none was attempted: the world is unchanged). -/
theorem Unzip_root_destination_rejected :
    IsAbs "/" = true ∧ ".." ∉ components entryHello.Name ∧
      (Unzip 18 [entryHello] "/" (worldWithDir "/")).1 =
        some (Err.error "/a/b/c.txt: illegal file path") ∧
      (Unzip 18 [entryHello] "/" (worldWithDir "/")).2.fs "/a/b/c.txt" = none := by
  decide

/-- C1, witness: `a/b/c.txt` followed by `../../evil`, extracted into the existing
directory `/d`: the call fails and changes nothing outside `/d`. -/
theorem Unzip_rejects_escaping_entry_witness :
    (Unzip 18 [entryHello, entryEvil] "/d" (worldWithDir "/d")).1 ≠ none ∧
      ∀ p, (Unzip 18 [entryHello, entryEvil] "/d" (worldWithDir "/d")).2.fs p ≠
          (worldWithDir "/d").fs p →
        hasPrefix p (Clean "/d" ++ "/") = true ∨ p = Clean "/d" :=
  ⟨(Unzip_rejects_escaping_entry 18 [entryHello, entryEvil] "/d" (worldWithDir "/d")
      ⟨entryEvil, by simp, by decide⟩).1,
    (Unzip_rejects_escaping_entry 18 [entryHello, entryEvil] "/d" (worldWithDir "/d")
      ⟨entryEvil, by simp, by decide⟩).2.2 (Or.inl (by decide))⟩

/-- C1, counterexample: `a/b/c.txt` followed by `../../evil`, extracted into `/a/b` when
only the root directory exists. The call returns the error for the second entry, and
by then `os.MkdirAll` for the first entry has created the directory `/a`, which is
neither the destination nor inside it. -/
theorem Unzip_creates_missing_ancestor :
    (Unzip 18 [entryHello, entryEvil] "/a/b" (worldWithDir "/")).1 =
        some (Err.error "/evil: illegal file path") ∧
      (worldWithDir "/").fs "/a" = none ∧
      (Unzip 18 [entryHello, entryEvil] "/a/b" (worldWithDir "/")).2.fs "/a" =
        some Node.dir ∧
      hasPrefix "/a" (Clean "/a/b" ++ "/") = false ∧ "/a" ≠ Clean "/a/b" := by
  decide

/-- An entry that resolves into the sibling directory `/dx`, which shares the text of
the destination `/d` as a prefix, is rejected as well. -/
theorem Unzip_rejects_sibling_prefix :
    (Unzip 18 [{ entryEvil with Name := "../dx/evil" }] "/d" (worldWithDir "/d")).1 =
      some (Err.error "/dx/evil: illegal file path") := by
  decide

/-- C3, evaluated at the failing input: the body reader of `a.txt` fails after two
bytes, `io.Copy` reports it, and `Unzip` still returns nil, leaving the truncated
file `he` behind. -/
theorem Unzip_ignores_copy_error :
    (Copy entryCorrupt "/d/a.txt"
        (OpenFile 18 "/d/a.txt" 420 (worldWithDir "/d")).2).1 ≠ none ∧
      (Unzip 18 [entryCorrupt] "/d" (worldWithDir "/d")).1 = none ∧
      (Unzip 18 [entryCorrupt] "/d" (worldWithDir "/d")).2.fs "/d/a.txt" =
        some (Node.file "he" 420) := by
  decide

/-! ## The claims about the distribution cache -/

theorem WriteFile_ok (u : Nat) {p data : String} {perm : Nat} {w : World}
    (h : (WriteFile u p data perm w).1 = none) :
    ∃ m, (WriteFile u p data perm w).2.fs p = some (Node.file data m) := by
  have ho := OpenFile_spec u p perm w
  unfold WriteFile at h ⊢
  rcases hop : OpenFile u p perm w with ⟨e, w1⟩
  rw [hop] at h ho
  cases e with
  | some e => simp at h
  | none =>
    simp only at h ⊢
    obtain ⟨m, hm, _⟩ := ho.2.2 rfl
    simp only at hm
    have hf := popFault_fs w1
    unfold WriteTo at h ⊢
    rcases hpf : w1.popFault with ⟨b, w2⟩
    rw [hpf] at h hf
    simp only at hf
    cases b with
    | true => simp at h
    | false =>
      simp only at h ⊢
      rw [hf, hm] at h ⊢
      simp only at h ⊢
      refine ⟨m, ?_⟩
      rw [CloseFile_fs]
      simp [World.setNode]

theorem WriteFile_err_or_ok (u : Nat) (p data : String) (perm : Nat) (w : World) :
    (WriteFile u p data perm w).1 = none ∨ ∃ e, (WriteFile u p data perm w).1 = some e := by
  cases h : (WriteFile u p data perm w).1 with
  | none => exact Or.inl rfl
  | some e => exact Or.inr ⟨e, rfl⟩

/-- C6, as amended. `downloadProtocZip` touches the destination only after a 200
status and a fully read body: when the request cannot be built, the transport fails,
the status is not 200 or the body cannot be read, it returns an error and leaves the
file system unchanged; when the status is 200 and the body is read in full, it either
returns nil with the destination file holding exactly the body, or returns the error
of the failed write. -/
theorem downloadProtocZip_writes_after_200 (env : Env) (zipUrl destFile : String) (w : World) :
    ((env.newRequestOk zipUrl = false ∨ env.httpDo zipUrl = none ∨
        ∃ resp, env.httpDo zipUrl = some resp ∧ (resp.StatusCode ≠ 200 ∨ resp.bodyErr = true)) →
      (downloadProtocZip env zipUrl destFile w).1 ≠ none ∧
        (downloadProtocZip env zipUrl destFile w).2.fs = w.fs) ∧
    (∀ resp, env.newRequestOk zipUrl = true → env.httpDo zipUrl = some resp →
      resp.StatusCode = 200 → resp.bodyErr = false →
      ((downloadProtocZip env zipUrl destFile w).1 = none ∧
          ∃ m, (downloadProtocZip env zipUrl destFile w).2.fs destFile =
            some (Node.file resp.body m)) ∨
        (downloadProtocZip env zipUrl destFile w).1 = some (Err.error "os.WriteFile() error")) := by
  constructor
  · intro h
    unfold downloadProtocZip
    by_cases h1 : env.newRequestOk zipUrl = true
    · simp only [h1, Bool.not_true, Bool.false_eq_true, if_false]
      cases h2 : env.httpDo zipUrl with
      | none => simp
      | some resp =>
        simp only
        by_cases h3 : resp.StatusCode = 200
        · by_cases h4 : resp.bodyErr = true
          · simp [h3, h4]
          · exfalso
            rcases h with h | h | ⟨r, hr, h⟩
            · rw [h1] at h; simp at h
            · rw [h2] at h; simp at h
            · rw [h2] at hr
              simp only [Option.some.injEq] at hr
              subst hr
              rcases h with h | h
              · exact h h3
              · exact h4 h
        · simp [h3]
    · simp [h1]
  · intro resp h1 h2 h3 h4
    unfold downloadProtocZip
    simp only [h1, h2, h3, h4, Bool.not_true, Bool.false_eq_true, if_false, ne_eq,
      not_true_eq_false]
    have hok := @WriteFile_ok env.umask destFile resp.body 438 w
    rcases hw : WriteFile env.umask destFile resp.body 438 w with ⟨e, w1⟩
    rw [hw] at hok
    cases e with
    | some e => right; rfl
    | none => left; exact ⟨rfl, hok rfl⟩

/-- C6, counterexample: the server answers 200 with the body `PK`, which is read in
full, but the directory of the destination does not exist: the write fails, an error
is returned and no file holds the body. -/
theorem downloadProtocZip_write_failure :
    envSmallZip.httpDo "http://host/protoc.zip" =
        some { StatusCode := 200, body := "PK", bodyErr := false } ∧
      (downloadProtocZip envSmallZip "http://host/protoc.zip" "/missing/protoc.zip"
        worldEmpty).1 = some (Err.error "os.WriteFile() error") ∧
      (downloadProtocZip envSmallZip "http://host/protoc.zip" "/missing/protoc.zip"
        worldEmpty).2.fs "/missing/protoc.zip" = none := by
  decide

/-- C4. Once `prepareProtoc` has resolved the cache path `z`, ensured its directory and
read the cached archive, the outcome `r` of that read alone decides about the
download: a readable archive of at least 1048576 bytes is extracted as it is and no
download is attempted; a missing archive, or a readable one of fewer bytes, leads to
exactly one download attempt, for the resolved URL and the cache path; any other read
error makes the call fail without a download attempt. The memo cells are taken to be
consistent, as they are after `Init`. -/
theorem prepareProtoc_download_decision (g : Generator) (v : PkgVars) (env : Env)
    (w w1 w2 w3 : World) (z : String) (r : ReadResult)
    (hmemo : ∀ p, w.distOnce = some (.ok p) → ∃ u, w.urlOnce = some (.ok u))
    (hz : g.getProtocDistZipFilePath v env w = (.ok z, w1))
    (hmk : MkdirAll (Dir z) w1 = (none, w2))
    (hread : ReadFile z w2 = (r, w3)) :
    (∀ bytes, r = .ok bytes → 1048576 ≤ bytes.length →
      g.prepareProtoc v env w = g.extractProtoc v env bytes w3 ∧
        downloads (g.prepareProtoc v env w).2.trace = downloads w.trace) ∧
    ((r = .notExist ∨ ∃ bytes, r = .ok bytes ∧ bytes.length < 1048576) →
      ∃ url, w3.urlOnce = some (.ok url) ∧
        downloads (g.prepareProtoc v env w).2.trace =
          downloads w.trace ++ [Event.download url z]) ∧
    (r = .otherErr →
      (g.prepareProtoc v env w).1 ≠ none ∧
        downloads (g.prepareProtoc v env w).2.trace = downloads w.trace) := by
  have hok : ∀ bytes, r = .ok bytes → g.prepareProtoc v env w =
      if bytes.length < 1024 * 1024 then g.downloadAndExtract v env z w3
      else g.extractProtoc v env bytes w3 := by
    intro bytes hr
    subst hr
    unfold Generator.prepareProtoc
    rw [hz]
    simp only
    rw [hmk]
    simp only
    rw [hread]
  have hne : r = .notExist → g.prepareProtoc v env w = g.downloadAndExtract v env z w3 := by
    intro hr
    subst hr
    unfold Generator.prepareProtoc
    rw [hz]
    simp only
    rw [hmk]
    simp only
    rw [hread]
  have hoe : r = .otherErr →
      g.prepareProtoc v env w = (some (.error "os.ReadFile() error"), w3) := by
    intro hr
    subst hr
    unfold Generator.prepareProtoc
    rw [hz]
    simp only
    rw [hmk]
    simp only
    rw [hread]
  have hz' := getProtocDistZipFilePath_spec g v env w
  rw [hz] at hz'
  have hmk' := MkdirAll_meta (Dir z) w1
  rw [hmk] at hmk'
  have hrd' := ReadFile_meta z w2
  rw [hread] at hrd'
  have htr : w3.trace = w.trace := by
    rw [hrd'.1, hmk'.1]; exact hz'.2.1
  have hurl : ∃ u, w3.urlOnce = some (.ok u) := by
    obtain ⟨u, hu⟩ := hz'.2.2 hmemo z rfl
    exact ⟨u, by rw [hrd'.2.1, hmk'.2.1]; exact hu⟩
  have hdl : ∃ url, w3.urlOnce = some (.ok url) ∧
      downloads (g.downloadAndExtract v env z w3).2.trace =
        downloads w.trace ++ [Event.download url z] := by
    obtain ⟨u, hu⟩ := hurl
    rcases downloadAndExtract_trace g v env z w3 with ⟨_, _, hno⟩ | ⟨url, hurl', hd⟩
    · exact absurd hu (hno u)
    · refine ⟨url, ?_, by rw [hd, htr]⟩
      unfold Generator.getProtocDownloadUrl at hurl'
      rw [hu] at hurl'
      simp only at hurl'
      rw [hu, hurl']
  refine ⟨?_, ?_, ?_⟩
  · intro bytes hr hlen
    subst hr
    have hnot : ¬ bytes.length < 1024 * 1024 := by omega
    rw [hok bytes rfl, if_neg hnot]
    exact ⟨rfl, by rw [extractProtoc_downloads, htr]⟩
  · intro h
    obtain ⟨url, hu, hd⟩ := hdl
    refine ⟨url, hu, ?_⟩
    rcases h with h | ⟨bytes, hr, hlen⟩
    · rw [hne h]; exact hd
    · have hlt : bytes.length < 1024 * 1024 := by omega
      rw [hok bytes hr, if_pos hlt]
      exact hd
  · intro h
    rw [hoe h]
    exact ⟨by simp, by rw [htr]⟩

/-- C4, witness: nothing is cached, so the read reports a missing file and one
download is attempted for the default URL. -/
theorem prepareProtoc_download_decision_witness :
    (∀ bytes, ReadResult.notExist = .ok bytes → 1048576 ≤ bytes.length →
      genDefault.prepareProtoc varsStub envStub worldEmpty =
          genDefault.extractProtoc varsStub envStub bytes
            (ReadFile "/c/.go_protoc/protoc/KEY.zip"
              (MkdirAll (Dir "/c/.go_protoc/protoc/KEY.zip")
                (genDefault.getProtocDistZipFilePath varsStub envStub worldEmpty).2).2).2 ∧
        downloads (genDefault.prepareProtoc varsStub envStub worldEmpty).2.trace =
          downloads worldEmpty.trace) ∧
    ((ReadResult.notExist = .notExist ∨
        ∃ bytes, ReadResult.notExist = .ok bytes ∧ bytes.length < 1048576) →
      ∃ url, (ReadFile "/c/.go_protoc/protoc/KEY.zip"
              (MkdirAll (Dir "/c/.go_protoc/protoc/KEY.zip")
                (genDefault.getProtocDistZipFilePath varsStub envStub worldEmpty).2).2).2.urlOnce =
            some (.ok url) ∧
        downloads (genDefault.prepareProtoc varsStub envStub worldEmpty).2.trace =
          downloads worldEmpty.trace ++ [Event.download url "/c/.go_protoc/protoc/KEY.zip"]) ∧
    (ReadResult.notExist = .otherErr →
      (genDefault.prepareProtoc varsStub envStub worldEmpty).1 ≠ none ∧
        downloads (genDefault.prepareProtoc varsStub envStub worldEmpty).2.trace =
          downloads worldEmpty.trace) :=
  prepareProtoc_download_decision genDefault varsStub envStub worldEmpty
    (genDefault.getProtocDistZipFilePath varsStub envStub worldEmpty).2
    (MkdirAll (Dir "/c/.go_protoc/protoc/KEY.zip")
      (genDefault.getProtocDistZipFilePath varsStub envStub worldEmpty).2).2
    (ReadFile "/c/.go_protoc/protoc/KEY.zip"
      (MkdirAll (Dir "/c/.go_protoc/protoc/KEY.zip")
        (genDefault.getProtocDistZipFilePath varsStub envStub worldEmpty).2).2).2
    "/c/.go_protoc/protoc/KEY.zip" .notExist
    (by intro p hp; simp [worldEmpty] at hp)
    (Prod.ext (by rfl) rfl)
    (Prod.ext (by decide) rfl)
    (Prod.ext (by decide) rfl)

/-- C5, as amended. In every execution of `prepareProtoc` that reaches the removal of
the extracted tree without having attempted a download, the archive bytes being
extracted are the content of the cached file and are at least 1048576 bytes long.
(Bytes that were just downloaded are extracted whatever their length.) -/
theorem prepareProtoc_cached_extraction_size (g : Generator) (v : PkgVars) (env : Env)
    (w w1 w2 w3 : World) (z : String) (r : ReadResult)
    (hz : g.getProtocDistZipFilePath v env w = (.ok z, w1))
    (hmk : MkdirAll (Dir z) w1 = (none, w2))
    (hread : ReadFile z w2 = (r, w3))
    (hnodl : downloads (g.prepareProtoc v env w).2.trace = downloads w.trace)
    (hrem : ∃ p added, (g.prepareProtoc v env w).2.trace = w.trace ++ added ∧
      Event.removeAll p ∈ added) :
    ∃ bytes, r = .ok bytes ∧ 1048576 ≤ bytes.length ∧
      g.prepareProtoc v env w = g.extractProtoc v env bytes w3 := by
  obtain ⟨htr, hok, hne, hoe⟩ := prepareProtoc_of_read g v env w w1 w2 w3 z r hz hmk hread
  have hdl : g.prepareProtoc v env w = g.downloadAndExtract v env z w3 → False := by
    intro he
    rw [he] at hnodl hrem
    rcases downloadAndExtract_trace g v env z w3 with ⟨_, ht, _⟩ | ⟨url, _, hd⟩
    · obtain ⟨p, added, ha, hp⟩ := hrem
      rw [ht, htr] at ha
      have : added = [] := by
        have := congrArg List.length ha
        simpa using this
      rw [this] at hp
      simp at hp
    · rw [hd, htr] at hnodl
      exact downloads_ne_append_singleton _ _ hnodl
  cases r with
  | ok bytes =>
    by_cases hlt : bytes.length < 1024 * 1024
    · exact absurd (by rw [hok bytes rfl, if_pos hlt]) hdl
    · exact ⟨bytes, rfl, by omega, by rw [hok bytes rfl, if_neg hlt]⟩
  | notExist => exact absurd (hne rfl) hdl
  | otherErr =>
    exfalso
    obtain ⟨p, added, ha, hp⟩ := hrem
    rw [hoe rfl] at ha
    simp only at ha
    rw [htr] at ha
    have : added = [] := by
      have := congrArg List.length ha
      simpa using this
    rw [this] at hp
    simp at hp

set_option maxRecDepth 100000 in
/-- C5, counterexample: nothing is cached, the server answers 200 with the two bytes
`PK`, and the zip reader accepts them: the extracted tree is removed and `bin/protoc`
is extracted from an archive of 2 bytes. -/
theorem prepareProtoc_extracts_short_download :
    (genDefault.prepareProtoc varsStub envSmallZip worldEmpty).1 = none ∧
      (genDefault.prepareProtoc varsStub envSmallZip worldEmpty).2.fs
          "/c/.go_protoc/protoc/KEY.zip" = some (Node.file "PK" 438) ∧
      (genDefault.prepareProtoc varsStub envSmallZip worldEmpty).2.fs
          "/c/.go_protoc/protoc/KEY/bin/protoc" = some (Node.file "#!" 493) ∧
      Event.removeAll "/c/.go_protoc/protoc/KEY" ∈
        (genDefault.prepareProtoc varsStub envSmallZip worldEmpty).2.trace ∧
      "PK".length < 1048576 := by
  decide

set_option maxRecDepth 100000 in
/-- C5, witness: a cached archive of 1048576 bytes is extracted without a download. -/
theorem prepareProtoc_cached_extraction_size_witness :
    ∃ bytes, ReadResult.ok bigArchive = .ok bytes ∧ 1048576 ≤ bytes.length ∧
      genDefault.prepareProtoc varsStub envAnyZip worldCached =
        genDefault.extractProtoc varsStub envAnyZip bytes
          (ReadFile "/c/.go_protoc/protoc/KEY.zip"
            (MkdirAll (Dir "/c/.go_protoc/protoc/KEY.zip")
              (genDefault.getProtocDistZipFilePath varsStub envAnyZip worldCached).2).2).2 :=
  prepareProtoc_cached_extraction_size genDefault varsStub envAnyZip worldCached
    (genDefault.getProtocDistZipFilePath varsStub envAnyZip worldCached).2
    (MkdirAll (Dir "/c/.go_protoc/protoc/KEY.zip")
      (genDefault.getProtocDistZipFilePath varsStub envAnyZip worldCached).2).2
    (ReadFile "/c/.go_protoc/protoc/KEY.zip"
      (MkdirAll (Dir "/c/.go_protoc/protoc/KEY.zip")
        (genDefault.getProtocDistZipFilePath varsStub envAnyZip worldCached).2).2).2
    "/c/.go_protoc/protoc/KEY.zip" (.ok bigArchive)
    (Prod.ext (by rfl) rfl) (Prod.ext (by decide) rfl) (Prod.ext (by rfl) rfl)
    (by rw [prepareProtoc_worldCached, extractProtoc_downloads]; rfl)
    ⟨"/c/.go_protoc/protoc/KEY", [Event.removeAll "/c/.go_protoc/protoc/KEY"],
      by rw [prepareProtoc_worldCached]; decide, by simp⟩

/-! ## The claim about the distribution key -/

theorem renderAux_default (version osArch : String) :
    renderAux version osArch .text defaultProtocDownloadUrl.data =
      some ("https://github.com/protocolbuffers/protobuf/releases/download/v".data ++
        version.data ++ ("/protoc-".data ++ version.data ++
          ("-".data ++ osArch.data ++ ".zip".data))) := by
  simp [renderAux, defaultProtocDownloadUrl, evalAction]

theorem default_url_injective (p m x v1 v2 : List Char)
    (h : p ++ v1 ++ (m ++ v1 ++ x) = p ++ v2 ++ (m ++ v2 ++ x)) : v1 = v2 := by
  have hl := congrArg List.length h
  simp only [List.length_append] at hl
  have hlen : v1.length = v2.length := by omega
  simp only [List.append_assoc] at h
  have h' := List.append_cancel_left h
  exact (List.append_inj h' hlen).1

theorem doGetProtocDownloadUrl_default (g : Generator) (v : PkgVars)
    (h : g.ProtocDownloadUrl = "") :
    g.doGetProtocDownloadUrl v =
      .ok ⟨"https://github.com/protocolbuffers/protobuf/releases/download/v".data ++
        g.getProtocVer.data ++ ("/protoc-".data ++ g.getProtocVer.data ++
          ("-".data ++ v.osArch.data ++ ".zip".data))⟩ := by
  unfold Generator.doGetProtocDownloadUrl
  simp only [h, if_true]
  rw [renderAux_default]

theorem getProtocDistPath_init (g : Generator) (v : PkgVars) (env : Env) (w : World)
    (u : String) (hu : g.doGetProtocDownloadUrl v = .ok u) :
    (g.getProtocDistPath v env (Generator.Init w)).1 =
      .ok (Join v.protocDistDir (env.sha256Base64 u)) := by
  simp [Generator.getProtocDistPath, Generator.Init, Generator.doGetProtocDistPath,
    Generator.getProtocDownloadUrl, hu]

/-- C7, as amended. With the default download URL template and a fixed platform tag,
two different toolchain versions render different download URLs, and the distribution
path of each (after `Init`) is the distribution directory joined with the digest of
its own URL: the keys differ unless the digests of the two URLs collide. -/
theorem default_template_versions_differ (g1 g2 : Generator) (v : PkgVars) (env : Env)
    (w : World) (h1 : g1.ProtocDownloadUrl = "") (h2 : g2.ProtocDownloadUrl = "")
    (hv : g1.getProtocVer ≠ g2.getProtocVer) :
    ∃ u1 u2, g1.doGetProtocDownloadUrl v = .ok u1 ∧ g2.doGetProtocDownloadUrl v = .ok u2 ∧
      u1 ≠ u2 ∧
      (g1.getProtocDistPath v env (Generator.Init w)).1 =
        .ok (Join v.protocDistDir (env.sha256Base64 u1)) ∧
      (g2.getProtocDistPath v env (Generator.Init w)).1 =
        .ok (Join v.protocDistDir (env.sha256Base64 u2)) := by
  have e1 := doGetProtocDownloadUrl_default g1 v h1
  have e2 := doGetProtocDownloadUrl_default g2 v h2
  refine ⟨_, _, e1, e2, ?_, getProtocDistPath_init g1 v env w _ e1,
    getProtocDistPath_init g2 v env w _ e2⟩
  intro hcon
  apply hv
  have hd := congrArg String.data hcon
  simp only at hd
  exact String.ext (default_url_injective _ _ _ _ _ hd)

/-- C7, witness: versions 27.2 and 28.0 under the default template. -/
theorem default_template_versions_differ_witness :
    ∃ u1 u2,
      ({ genDefault with ProtocVer := "27.2" } : Generator).doGetProtocDownloadUrl varsStub =
          .ok u1 ∧
        ({ genDefault with ProtocVer := "28.0" } : Generator).doGetProtocDownloadUrl varsStub =
          .ok u2 ∧
        u1 ≠ u2 ∧
        (({ genDefault with ProtocVer := "27.2" } : Generator).getProtocDistPath varsStub
            envIdDigest (Generator.Init worldEmpty)).1 =
          .ok (Join varsStub.protocDistDir (envIdDigest.sha256Base64 u1)) ∧
        (({ genDefault with ProtocVer := "28.0" } : Generator).getProtocDistPath varsStub
            envIdDigest (Generator.Init worldEmpty)).1 =
          .ok (Join varsStub.protocDistDir (envIdDigest.sha256Base64 u2)) :=
  default_template_versions_differ _ _ varsStub envIdDigest worldEmpty rfl rfl (by decide)

set_option maxRecDepth 100000 in
/-- C7, counterexample: with a download URL template that does not mention the
version, versions 27.2 and 28.0 render the same URL and, even under a collision-free
digest, get the same distribution path. -/
theorem mirror_template_versions_share_key :
    (genMirror "27.2").getProtocVer ≠ (genMirror "28.0").getProtocVer ∧
      (genMirror "27.2").doGetProtocDownloadUrl varsStub =
        .ok "https://mirror.example/protoc.zip" ∧
      (genMirror "28.0").doGetProtocDownloadUrl varsStub =
        .ok "https://mirror.example/protoc.zip" ∧
      ((genMirror "27.2").getProtocDistPath varsStub envIdDigest (Generator.Init worldEmpty)).1 =
        ((genMirror "28.0").getProtocDistPath varsStub envIdDigest (Generator.Init worldEmpty)).1 := by
  refine ⟨by decide, by rfl, by rfl, by rfl⟩

/-! ## The claims about `listImportPathDir` -/

theorem String.length_eq_zero' (s : String) : s.length = 0 ↔ s = "" := by
  constructor
  · intro h
    apply String.ext
    exact List.length_eq_zero.1 h
  · intro h; rw [h]; rfl

theorem importTask_empty (env : Env) : importTask env "" = .ok none := by
  simp [importTask]

theorem importTask_ok (env : Env) (p : String) (hp : p ≠ "") (hok : ¬ importFails env p) :
    importTask env p = .ok (some (importDir env p)) := by
  unfold importTask importDir
  have hl : ¬ p.length = 0 := fun h => hp ((String.length_eq_zero' p).1 h)
  rw [if_neg hl]
  cases h : GoListPkg env p ["generate"] with
  | error e => exact absurd (Or.inl ⟨e, h⟩) hok
  | ok info =>
    simp only
    have hd : ¬ info.Dir.length = 0 := by
      intro h0
      exact hok (Or.inr ⟨info, h, (String.length_eq_zero' _).1 h0⟩)
    rw [if_neg hd]

theorem importTask_fails (env : Env) (p : String) (hp : p ≠ "") (hf : importFails env p) :
    ∃ e, importTask env p = .error e := by
  unfold importTask
  have hl : ¬ p.length = 0 := fun h => hp ((String.length_eq_zero' p).1 h)
  rw [if_neg hl]
  rcases hf with ⟨e, he⟩ | ⟨info, hi, hd⟩
  · rw [he]; exact ⟨_, rfl⟩
  · rw [hi]
    simp only
    have : info.Dir.length = 0 := (String.length_eq_zero' _).2 hd
    rw [if_pos this]
    split <;> exact ⟨_, rfl⟩

theorem runImportTasks_ok (env : Env) (ips : List String)
    (hok : ∀ p ∈ ips, p ≠ "" → ¬ importFails env p) (order : List Nat) :
    ∀ dirs fe, runImportTasks env ips order (dirs, fe) =
      (dirs ++ order.filterMap (fun i => (ips.get? i).bind (importDirOpt env)), fe) := by
  induction order with
  | nil => intro dirs fe; simp [runImportTasks]
  | cons i order ih =>
    intro dirs fe
    unfold runImportTasks
    cases hi : ips.get? i with
    | none =>
      simp only
      rw [ih, List.filterMap_cons_none (by show (ips.get? i).bind _ = none; rw [hi]; rfl)]
    | some p =>
      simp only
      by_cases hp : p = ""
      · subst hp
        rw [importTask_empty]
        simp only
        rw [ih, List.filterMap_cons_none (by show (ips.get? i).bind _ = none; rw [hi]; rfl)]
      · rw [importTask_ok env p hp (hok p (List.get?_mem hi) hp)]
        simp only
        rw [ih, List.filterMap_cons_some (b := importDir env p)
          (by show (ips.get? i).bind _ = _; rw [hi]; simp [importDirOpt, hp])]
        simp

theorem runImportTasks_err (env : Env) (ips : List String) (order : List Nat) :
    ∀ dirs fe, (fe ≠ none ∨ ∃ i ∈ order, ∃ p, ips.get? i = some p ∧ p ≠ "" ∧ importFails env p) →
      (runImportTasks env ips order (dirs, fe)).2 ≠ none := by
  induction order with
  | nil =>
    intro dirs fe h
    rcases h with h | ⟨i, hi, _⟩
    · simpa [runImportTasks] using h
    · simp at hi
  | cons i order ih =>
    intro dirs fe h
    unfold runImportTasks
    have hrest : ∀ j p, j ∈ i :: order → ips.get? j = some p → p ≠ "" → importFails env p →
        j ≠ i → ∃ k ∈ order, ∃ q, ips.get? k = some q ∧ q ≠ "" ∧ importFails env q := by
      intro j p hj hjp hp hf hne
      rcases List.mem_cons.1 hj with h1 | h1
      · exact absurd h1 hne
      · exact ⟨j, h1, p, hjp, hp, hf⟩
    cases hi : ips.get? i with
    | none =>
      simp only
      apply ih
      rcases h with h | ⟨j, hj, p, hjp, hp, hf⟩
      · exact Or.inl h
      · right
        by_cases hji : j = i
        · subst hji; rw [hi] at hjp; simp at hjp
        · exact hrest j p hj hjp hp hf hji
    | some q =>
      simp only
      cases ht : importTask env q with
      | error e =>
        simp only
        apply ih
        left
        split <;> simp_all
      | ok o =>
        have hnf : ¬ (q ≠ "" ∧ importFails env q) := by
          intro ⟨hq, hf⟩
          obtain ⟨e, he⟩ := importTask_fails env q hq hf
          rw [he] at ht
          simp at ht
        have hnext : fe ≠ none ∨
            ∃ k ∈ order, ∃ p, ips.get? k = some p ∧ p ≠ "" ∧ importFails env p := by
          rcases h with h | ⟨j, hj, p, hjp, hp, hf⟩
          · exact Or.inl h
          · right
            by_cases hji : j = i
            · subst hji
              rw [hi] at hjp
              simp only [Option.some.injEq] at hjp
              subst hjp
              exact absurd ⟨hp, hf⟩ hnf
            · exact hrest j p hj hjp hp hf hji
        cases o with
        | none => exact ih _ _ hnext
        | some d => exact ih _ _ hnext

theorem filterMap_range_get? {α β : Type} (l : List α) (f : α → Option β) :
    (List.range l.length).filterMap (fun i => (l.get? i).bind f) = l.filterMap f := by
  induction l with
  | nil => rfl
  | cons a t ih =>
    rw [List.length_cons, List.range_succ_eq_map, List.filterMap_cons, List.filterMap_map]
    have : ((fun i => ((a :: t).get? i).bind f) ∘ Nat.succ) = fun i => (t.get? i).bind f := by
      funext i; rfl
    rw [this, ih]
    simp only [List.get?_cons_zero, Option.some_bind, List.filterMap_cons]

theorem filterMap_importDirOpt (env : Env) (ips : List String) :
    ips.filterMap (importDirOpt env) =
      (ips.filter (fun p => decide (p ≠ ""))).map (importDir env) := by
  induction ips with
  | nil => rfl
  | cons p t ih =>
    by_cases hp : p = ""
    · simp [List.filterMap_cons, importDirOpt, hp, ih]
    · simp [List.filterMap_cons, importDirOpt, hp, ih]

/-- C8. When the goroutines finish in any order (a permutation of the indices) and
every non-empty import path is answered with a non-empty source directory,
`listImportPathDir` returns no error and a list that is a permutation of the
directories of the non-empty import paths, one per entry; empty entries contribute
nothing. -/
theorem listImportPathDir_permutation (env : Env) (importPaths : List String)
    (order : List Nat) (horder : order.Perm (List.range importPaths.length))
    (hok : ∀ p ∈ importPaths, p ≠ "" →
      ∃ info, GoListPkg env p ["generate"] = .ok info ∧ info.Dir ≠ "") :
    ∃ dirs, listImportPathDirIn env importPaths order = .ok dirs ∧
      dirs.Perm ((importPaths.filter (fun p => decide (p ≠ ""))).map (importDir env)) := by
  have hok' : ∀ p ∈ importPaths, p ≠ "" → ¬ importFails env p := by
    intro p hp hne hf
    obtain ⟨info, hi, hd⟩ := hok p hp hne
    rcases hf with ⟨e, he⟩ | ⟨info', hi', hd'⟩
    · rw [hi] at he; simp at he
    · rw [hi] at hi'
      simp only [Except.ok.injEq] at hi'
      subst hi'
      exact hd hd'
  refine ⟨order.filterMap (fun i => (importPaths.get? i).bind (importDirOpt env)), ?_, ?_⟩
  · unfold listImportPathDirIn
    rw [runImportTasks_ok env importPaths hok']
    simp
  · rw [← filterMap_importDirOpt, ← filterMap_range_get? importPaths (importDirOpt env)]
    exact horder.filterMap _

/-- C8, witness: the imports `pkgA`, `pkgB` and the empty string, with the goroutines
finishing in reverse order. -/
theorem listImportPathDir_permutation_witness :
    ∃ dirs, listImportPathDirIn envImports ["pkgA", "pkgB", ""] [2, 1, 0] = .ok dirs ∧
      dirs.Perm ((["pkgA", "pkgB", ""].filter (fun p => decide (p ≠ ""))).map
        (importDir envImports)) :=
  listImportPathDir_permutation envImports ["pkgA", "pkgB", ""] [2, 1, 0] (by decide)
    (by
      intro p hp hne
      simp only [List.mem_cons, List.mem_singleton, List.not_mem_nil, or_false] at hp
      rcases hp with h | h | h
      · subst h; exact ⟨_, rfl, by decide⟩
      · subst h; exact ⟨_, rfl, by decide⟩
      · exact absurd h hne)

/-- C9. When the goroutines finish in any order, `listImportPathDir` returns an error
(and with it no directory list) exactly when the query of some non-empty import path
reports a hard error or comes back with an empty source directory; in every other
case it returns no error. -/
theorem listImportPathDir_fails_iff (env : Env) (importPaths : List String)
    (order : List Nat) (horder : order.Perm (List.range importPaths.length)) :
    (∃ e, listImportPathDirIn env importPaths order = .error e) ↔
      ∃ p ∈ importPaths, p ≠ "" ∧
        ((∃ e, GoListPkg env p ["generate"] = .error e) ∨
          ∃ info, GoListPkg env p ["generate"] = .ok info ∧ info.Dir = "") := by
  constructor
  · intro ⟨e, he⟩
    by_contra hno
    have hok : ∀ p ∈ importPaths, p ≠ "" → ¬ importFails env p :=
      fun p hp hne hf => hno ⟨p, hp, hne, hf⟩
    unfold listImportPathDirIn at he
    rw [runImportTasks_ok env importPaths hok] at he
    simp at he
  · intro ⟨p, hp, hne, hf⟩
    obtain ⟨i, hi⟩ := List.mem_iff_get?.1 hp
    have hlt : i < importPaths.length := by
      by_contra hge
      rw [List.get?_eq_none.2 (by omega)] at hi
      simp at hi
    have hmem : i ∈ order := (horder.mem_iff).2 (List.mem_range.2 hlt)
    have herr := runImportTasks_err env importPaths order [] none
      (Or.inr ⟨i, hmem, p, hi, hne, hf⟩)
    unfold listImportPathDirIn
    rcases hr : runImportTasks env importPaths order ([], none) with ⟨dirs, fe⟩
    rw [hr] at herr
    cases fe with
    | none => exact absurd rfl herr
    | some e => exact ⟨e, rfl⟩

/-- C9, witness: the imports `pkgA` and `missing`, the latter unknown to the build
graph. -/
theorem listImportPathDir_fails_iff_witness :
    (∃ e, listImportPathDirIn envImports ["pkgA", "missing"] [1, 0] = .error e) ↔
      ∃ p ∈ ["pkgA", "missing"], p ≠ "" ∧
        ((∃ e, GoListPkg envImports p ["generate"] = .error e) ∨
          ∃ info, GoListPkg envImports p ["generate"] = .ok info ∧ info.Dir = "") :=
  listImportPathDir_fails_iff envImports ["pkgA", "missing"] [1, 0] (by decide)

/-! ## The claim about the optional plugin -/

theorem cleanChars_rooted (p : List Char) (h : p.head? = some '/') :
    ∃ t, cleanChars p = '/' :: t := by
  unfold cleanChars renderPath
  simp [h]

theorem Abs_rooted (env : Env) (hwd : ∀ wd, env.getwd = .ok wd → IsAbs wd = true)
    (p q : String) (h : Abs env p = .ok q) : ∃ t, q.data = '/' :: t := by
  unfold Abs at h
  split at h
  · rename_i habs
    simp only [Except.ok.injEq] at h
    subst h
    obtain ⟨t, ht⟩ := (hasPrefix_iff _ _).1 habs
    exact cleanChars_rooted p.data (by rw [ht]; rfl)
  · cases hw : env.getwd with
    | error e => rw [hw] at h; simp at h
    | ok wd =>
      rw [hw] at h
      simp only [Except.ok.injEq] at h
      subst h
      obtain ⟨t, ht⟩ := (hasPrefix_iff _ _).1 (hwd wd hw)
      have hne : wd ≠ "" := by
        intro e; rw [e] at ht; simp at ht
      rw [Join, if_pos hne]
      exact cleanChars_rooted _ (by simp [ht])

theorem NoGrpc_rooted (l : String) (h : ∃ t, l.data = '/' :: t) : NoGrpc l := by
  obtain ⟨t, ht⟩ := h
  simp [NoGrpc, hasPrefix, ht, List.isPrefixOf]

theorem walkProtoFiles_rooted (env : Env) (hwd : ∀ wd, env.getwd = .ok wd → IsAbs wd = true)
    (entries : List WalkEntry) :
    ∀ acc files, (∀ l ∈ acc, ∃ t, l.data = '/' :: t) →
      walkProtoFiles env entries acc = .ok files → ∀ l ∈ files, ∃ t, l.data = '/' :: t := by
  induction entries with
  | nil =>
    intro acc files hacc h
    simp only [walkProtoFiles, Except.ok.injEq] at h
    subst h
    exact hacc
  | cons d rest ih =>
    intro acc files hacc h
    unfold walkProtoFiles at h
    split at h
    · simp at h
    · split at h
      · exact ih acc files hacc h
      · cases ha : Abs env d.path with
        | error e => rw [ha] at h; simp at h
        | ok q =>
          rw [ha] at h
          simp only at h
          refine ih (acc ++ [q]) files ?_ h
          intro l hl
          rcases List.mem_append.1 hl with h1 | h1
          · exact hacc l h1
          · rw [List.mem_singleton.1 h1]
            exact Abs_rooted env hwd d.path q ha

theorem protocOptLines_noGrpc (protoPaths : List String)
    (protoDirAbs dist moduleDir modulePath goDir goExe : String) (protoFiles : List String)
    (hfiles : ∀ l ∈ protoFiles, ∃ t, l.data = '/' :: t) :
    ∀ l ∈ protocOptLines protoPaths protoDirAbs dist moduleDir modulePath goDir "" goExe
      protoFiles, NoGrpc l := by
  intro l hl
  unfold protocOptLines at hl
  simp only [ne_eq, not_true_eq_false, if_false, List.append_nil, List.mem_append,
    List.mem_map, List.mem_cons, List.mem_singleton, List.not_mem_nil, or_false] at hl
  rcases hl with ((⟨p, _, hp⟩ | h | h | h) | h)
  · subst hp; simp [NoGrpc, hasPrefix, List.isPrefixOf]
  · subst h; simp [NoGrpc, hasPrefix, List.isPrefixOf]
  · subst h; simp [NoGrpc, hasPrefix, List.isPrefixOf]
  · subst h; simp [NoGrpc, hasPrefix, List.isPrefixOf]
  · exact NoGrpc_rooted l (hfiles l h)

theorem assemble_noGrpc (g : Generator) (v : PkgVars) (env : Env)
    (hwd : ∀ wd, env.getwd = .ok wd → IsAbs wd = true)
    (genFilePkg genPkg : PackagePublic) (goDir : String) (w : World) :
    TraceAdds (fun e => ∀ p c, e = Event.writeFile p c →
        ∃ lines, c = optsText lines ∧ ∀ l ∈ lines, NoGrpc l) w
      (g.assemble v env genFilePkg genPkg goDir "" w).2 := by
  unfold Generator.assemble
  cases listImportPathDir env genFilePkg.Imports with
  | error e => exact TraceAdds.trefl _ w
  | ok protoPaths =>
    simp only
    have h1 := getProtocDistPath_spec g v env w
    rcases hd : g.getProtocDistPath v env w with ⟨r, w1⟩
    rw [hd] at h1
    have t1 : TraceAdds (fun e => ∀ p c, e = Event.writeFile p c →
        ∃ lines, c = optsText lines ∧ ∀ l ∈ lines, NoGrpc l) w w1 :=
      ⟨[], by rw [List.append_nil]; exact h1.2.2.1, by simp⟩
    cases r with
    | error e => exact t1
    | ok dist =>
      simp only
      have h2 := configProtoEditor_adds env genPkg protoPaths w1
      rcases hc : configProtoEditor env genPkg protoPaths w1 with ⟨e2, w2⟩
      rw [hc] at h2
      have t2 := t1.ttrans (h2.timp (fun e h p c he => absurd he (h p c)))
      simp only
      cases GoEnv env "GOEXE" with
      | error e => exact t2
      | ok goExe =>
        simp only
        cases genPkg.Module with
        | none => exact t2
        | some module =>
          simp only
          cases hwalk : walkProtoFiles env (env.walkDir (g.getProtoDirAbs genFilePkg.Dir)) [] with
          | error e => exact t2
          | ok protoFiles =>
            simp only
            have hfiles := walkProtoFiles_rooted env hwd _ [] protoFiles (by simp) hwalk
            refine t2.ttrans ((stageAndInvoke_adds g env genFilePkg genPkg dist _ w2).timp ?_)
            intro e h p c he
            exact ⟨_, h p c he, protocOptLines_noGrpc _ _ _ _ _ _ _ _ hfiles⟩

set_option maxRecDepth 100000 in
/-- A complete run in the example project: the compiler is run on an argument file of
seven directives, none of them for the gRPC plugin. -/
theorem Run_envNoGrpc :
    (genDefault.Run varsStub envNoGrpc worldEmpty).1 = none ∧
      (genDefault.Run varsStub envNoGrpc worldEmpty).2.fs
          "/tmp/.go-protoc/example_com_proj/proto_gen.txt" =
        some (Node.file
          ("--proto_path=/x\n" ++ "--proto_path=/proj/proto\n" ++
            "--proto_path=/c/.go_protoc/protoc/KEY/include\n" ++ "--go_out=/proj\n" ++
            "--go_opt=module=example.com/proj\n" ++
            "--plugin=protoc-gen-go=/c/.go_protoc/protoc-gen-go/v1.34.2/protoc-gen-go\n" ++
            "/proj/proto/a.proto\n") 438) := by
  decide

/-! ## The shape of a run -/

theorem getProtocDistPath_memo (g : Generator) (v : PkgVars) (env : Env) (w : World) :
    (g.getProtocDistPath v env w).2.distOnce = some (g.getProtocDistPath v env w).1 ∧
      (∀ r, w.distOnce = some r → g.getProtocDistPath v env w = (r, w)) := by
  unfold Generator.getProtocDistPath
  cases h : w.distOnce with
  | some r => exact ⟨h, fun r' hr => by simp only [Option.some.injEq] at hr; rw [hr]⟩
  | none => exact ⟨rfl, fun r hr => by simp at hr⟩

theorem getProtocDownloadUrl_distOnce (g : Generator) (v : PkgVars) (w : World) :
    (g.getProtocDownloadUrl v w).2.distOnce = w.distOnce :=
  (getProtocDownloadUrl_spec g v w).2.2.2.1

theorem ProvD_of_meta {r0 : Except Err String} {w w' : World} (h : SameMeta w w') :
    TraceAdds (ProvD r0) w w' := TraceAdds.of_meta h

theorem extractProtoc_provd (g : Generator) (v : PkgVars) (env : Env) (bytes : String)
    (w : World) (r0 : Except Err String) (hd : w.distOnce = some r0) :
    TraceAdds (ProvD r0) w (g.extractProtoc v env bytes w).2 ∧
      (g.extractProtoc v env bytes w).2.distOnce = some r0 := by
  unfold Generator.extractProtoc
  cases env.zipNewReader bytes with
  | error e => exact ⟨TraceAdds.trefl _ w, hd⟩
  | ok zr =>
    simp only
    rw [(getProtocDistPath_memo g v env w).2 r0 hd]
    cases r0 with
    | error e => exact ⟨TraceAdds.trefl _ w, hd⟩
    | ok dist =>
      simp only
      have t2 : TraceAdds (ProvD (.ok dist)) w (w.log (.removeAll dist)) :=
        TraceAdds.log w _ (Or.inr (Or.inl ⟨dist, rfl, rfl⟩))
      have h3 := RemoveAll_meta dist (w.log (.removeAll dist))
      rcases hr : RemoveAll dist (w.log (.removeAll dist)) with ⟨e2, w2⟩
      rw [hr] at h3
      have t3 := t2.ttrans (TraceAdds.of_meta h3)
      have d3 : w2.distOnce = some (.ok dist) := by rw [h3.2.2]; exact hd
      cases e2 with
      | some e2 => exact ⟨t3, d3⟩
      | none =>
        simp only
        have h4 := Unzip_meta env.umask dist zr w2
        rcases hu : Unzip env.umask zr dist w2 with ⟨e3, w3⟩
        rw [hu] at h4
        cases e3 <;> exact ⟨t3.ttrans (TraceAdds.of_meta h4), by rw [h4.2.2]; exact d3⟩

theorem downloadAndExtract_provd (g : Generator) (v : PkgVars) (env : Env) (z : String)
    (w : World) (r0 : Except Err String) (hd : w.distOnce = some r0) :
    TraceAdds (ProvD r0) w (g.downloadAndExtract v env z w).2 ∧
      (g.downloadAndExtract v env z w).2.distOnce = some r0 := by
  unfold Generator.downloadAndExtract
  have hu := getProtocDownloadUrl_spec g v w
  rcases hr : g.getProtocDownloadUrl v w with ⟨r, w1⟩
  rw [hr] at hu
  have t1 : TraceAdds (ProvD r0) w w1 := ⟨[], by rw [List.append_nil]; exact hu.2.2.1, by simp⟩
  have d1 : w1.distOnce = some r0 := by rw [hu.2.2.2.1]; exact hd
  cases r with
  | error e => exact ⟨t1, d1⟩
  | ok url =>
    simp only
    have t2 := t1.ttrans (TraceAdds.log w1 (.download url z) (Or.inl ⟨url, z, rfl⟩))
    have h1 := downloadProtocZip_meta env url z (w1.log (.download url z))
    rcases hdl : downloadProtocZip env url z (w1.log (.download url z)) with ⟨e, w2⟩
    rw [hdl] at h1
    have t3 := t2.ttrans (TraceAdds.of_meta h1)
    have d3 : w2.distOnce = some r0 := by rw [h1.2.2]; exact d1
    cases e with
    | some e => exact ⟨t3, d3⟩
    | none =>
      simp only
      have h3 := ReadFile_meta z w2
      rcases hrd : ReadFile z w2 with ⟨rr, w3⟩
      rw [hrd] at h3
      have t4 := t3.ttrans (TraceAdds.of_meta h3)
      have d4 : w3.distOnce = some r0 := by rw [h3.2.2]; exact d3
      cases rr with
      | ok bytes =>
        have h5 := extractProtoc_provd g v env bytes w3 r0 d4
        exact ⟨t4.ttrans h5.1, h5.2⟩
      | notExist => exact ⟨t4, d4⟩
      | otherErr => exact ⟨t4, d4⟩

theorem prepareProtoc_provd (g : Generator) (v : PkgVars) (env : Env) (w : World) :
    TraceAdds (ProvD (g.getProtocDistPath v env w).1) w (g.prepareProtoc v env w).2 ∧
      (g.prepareProtoc v env w).2.distOnce = some (g.getProtocDistPath v env w).1 := by
  unfold Generator.prepareProtoc Generator.getProtocDistZipFilePath
  have hs := getProtocDistPath_spec g v env w
  have hm := (getProtocDistPath_memo g v env w).1
  rcases hr : g.getProtocDistPath v env w with ⟨r, w1⟩
  rw [hr] at hs hm
  simp only at hs hm
  have t1 : TraceAdds (ProvD r) w w1 := ⟨[], by rw [List.append_nil]; exact hs.2.2.1, by simp⟩
  cases r with
  | error e => exact ⟨t1, hm⟩
  | ok dist =>
    simp only
    have h2 := MkdirAll_meta (Dir (dist ++ ".zip")) w1
    rcases hmk : MkdirAll (Dir (dist ++ ".zip")) w1 with ⟨e, w2⟩
    rw [hmk] at h2
    have t2 := t1.ttrans (TraceAdds.of_meta h2)
    have d2 : w2.distOnce = some (.ok dist) := by rw [h2.2.2]; exact hm
    cases e with
    | some e => exact ⟨t2, d2⟩
    | none =>
      simp only
      have h3 := ReadFile_meta (dist ++ ".zip") w2
      rcases hrd : ReadFile (dist ++ ".zip") w2 with ⟨rr, w3⟩
      rw [hrd] at h3
      have t3 := t2.ttrans (TraceAdds.of_meta h3)
      have d3 : w3.distOnce = some (.ok dist) := by rw [h3.2.2]; exact d2
      cases rr with
      | ok bytes =>
        simp only
        split
        · have h5 := downloadAndExtract_provd g v env (dist ++ ".zip") w3 _ d3
          exact ⟨t3.ttrans h5.1, h5.2⟩
        · have h5 := extractProtoc_provd g v env bytes w3 _ d3
          exact ⟨t3.ttrans h5.1, h5.2⟩
      | notExist =>
        have h5 := downloadAndExtract_provd g v env (dist ++ ".zip") w3 _ d3
        exact ⟨t3.ttrans h5.1, h5.2⟩
      | otherErr => exact ⟨t3, d3⟩

theorem GoInstall_provd (env : Env) (pkg dir : String) (w : World) (r0 : Except Err String) :
    TraceAdds (ProvD r0) w (GoInstall env pkg dir w).2 := by
  unfold GoInstall
  split <;> exact TraceAdds.log w _ (Or.inr (Or.inr (Or.inl ⟨pkg, dir, rfl⟩)))

theorem prepareProtocGenGo_provd (g : Generator) (v : PkgVars) (env : Env) (w : World)
    (r0 : Except Err String) :
    TraceAdds (ProvD r0) w (g.prepareProtocGenGo v env w).2 := by
  unfold Generator.prepareProtocGenGo
  cases GoListPkg env pkgNameProtocGenGo [] with
  | error e => exact TraceAdds.trefl _ w
  | ok pkg =>
    simp only
    split
    · exact TraceAdds.trefl _ w
    · cases pkg.Module with
      | none => exact TraceAdds.trefl _ w
      | some module =>
        simp only
        have h1 := MkdirAll_meta (g.getProtocGenGoPath v module.Version) w
        rcases hm : MkdirAll (g.getProtocGenGoPath v module.Version) w with ⟨e, w1⟩
        rw [hm] at h1
        have t1 : TraceAdds (ProvD r0) w w1 := TraceAdds.of_meta h1
        cases e with
        | some e => exact t1
        | none =>
          simp only
          have h2 := GoInstall_provd env pkgNameProtocGenGo
            (g.getProtocGenGoPath v module.Version) w1 r0
          rcases hg : GoInstall env pkgNameProtocGenGo
            (g.getProtocGenGoPath v module.Version) w1 with ⟨e2, w2⟩
          rw [hg] at h2
          cases e2 <;> exact t1.ttrans h2

theorem prepareProtocGenGoGrpc_provd (g : Generator) (v : PkgVars) (env : Env) (w : World)
    (r0 : Except Err String) :
    TraceAdds (ProvD r0) w (g.prepareProtocGenGoGrpc v env w).2 := by
  unfold Generator.prepareProtocGenGoGrpc
  cases GoListPkg env pkgNameGrpc [] with
  | error e => exact TraceAdds.trefl _ w
  | ok pkg =>
    simp only
    split
    · exact TraceAdds.trefl _ w
    · cases pkg.Module with
      | none => exact TraceAdds.trefl _ w
      | some module =>
        simp only
        have h1 := MkdirAll_meta (g.getProtocGenGoGrpcPath v g.getProtocGenGoGrpcVer) w
        rcases hm : MkdirAll (g.getProtocGenGoGrpcPath v g.getProtocGenGoGrpcVer) w with ⟨e, w1⟩
        rw [hm] at h1
        have t1 : TraceAdds (ProvD r0) w w1 := TraceAdds.of_meta h1
        cases e with
        | some e => exact t1
        | none =>
          simp only
          have h2 := GoInstall_provd env (pkgNameProtocGenGoGrpc ++ "@v" ++ g.getProtocGenGoGrpcVer)
            (g.getProtocGenGoGrpcPath v g.getProtocGenGoGrpcVer) w1 r0
          rcases hg : GoInstall env (pkgNameProtocGenGoGrpc ++ "@v" ++ g.getProtocGenGoGrpcVer)
            (g.getProtocGenGoGrpcPath v g.getProtocGenGoGrpcVer) w1 with ⟨e2, w2⟩
          rw [hg] at h2
          cases e2 <;> exact t1.ttrans h2

theorem Save_provd (env : Env) (xmlFile : String) (doc : XmlElement) (w : World)
    (r0 : Except Err String) : TraceAdds (ProvD r0) w (Save env xmlFile doc w).2 := by
  unfold Save
  cases env.xmlEncode doc with
  | none => exact TraceAdds.trefl _ w
  | some text =>
    simp only
    have t1 : TraceAdds (ProvD r0) w (w.log (.editorSave xmlFile)) :=
      TraceAdds.log w _ (Or.inr (Or.inr (Or.inr ⟨xmlFile, rfl⟩)))
    have h2 := WriteFile_meta env.umask xmlFile ("<?xml version=\"1.0\" encoding=\"UTF-8\"?>" ++ text) 420
      (w.log (.editorSave xmlFile))
    rcases hw : WriteFile env.umask xmlFile ("<?xml version=\"1.0\" encoding=\"UTF-8\"?>" ++ text) 420
      (w.log (.editorSave xmlFile)) with ⟨e, w1⟩
    rw [hw] at h2
    cases e <;> exact t1.ttrans (TraceAdds.of_meta h2)

theorem configProtoEditor_provd (env : Env) (genPkg : PackagePublic)
    (protoPaths : List String) (w : World) (r0 : Except Err String) :
    TraceAdds (ProvD r0) w (configProtoEditor env genPkg protoPaths w).2 := by
  unfold configProtoEditor
  have h1 := FindJetBrainsRootAndOpen_meta env genPkg.Dir w
  rcases hf : FindJetBrainsRootAndOpen env genPkg.Dir w with ⟨r, w1⟩
  rw [hf] at h1
  have t1 : TraceAdds (ProvD r0) w w1 := TraceAdds.of_meta h1
  cases r with
  | error e => exact t1
  | ok pr =>
    rcases pr with ⟨xmlFile, docRoot⟩
    simp only
    have h2 := Save_provd env xmlFile (ConfigProtoPath genPkg.ImportPath protoPaths docRoot) w1 r0
    rcases hs : Save env xmlFile (ConfigProtoPath genPkg.ImportPath protoPaths docRoot) w1
      with ⟨e, w2⟩
    rw [hs] at h2
    cases e <;> exact t1.ttrans h2

theorem GoInstall_distOnce (env : Env) (pkg dir : String) (w : World) :
    (GoInstall env pkg dir w).2.distOnce = w.distOnce := by
  unfold GoInstall
  split <;> rfl

theorem prepareProtocGenGo_distOnce (g : Generator) (v : PkgVars) (env : Env) (w : World) :
    (g.prepareProtocGenGo v env w).2.distOnce = w.distOnce := by
  unfold Generator.prepareProtocGenGo
  cases GoListPkg env pkgNameProtocGenGo [] with
  | error e => rfl
  | ok pkg =>
    simp only
    split
    · rfl
    · cases pkg.Module with
      | none => rfl
      | some module =>
        simp only
        have h1 := MkdirAll_meta (g.getProtocGenGoPath v module.Version) w
        rcases hm : MkdirAll (g.getProtocGenGoPath v module.Version) w with ⟨e, w1⟩
        rw [hm] at h1
        cases e with
        | some e => exact h1.2.2
        | none =>
          simp only
          have h2 := GoInstall_distOnce env pkgNameProtocGenGo
            (g.getProtocGenGoPath v module.Version) w1
          rcases hg : GoInstall env pkgNameProtocGenGo
            (g.getProtocGenGoPath v module.Version) w1 with ⟨e2, w2⟩
          rw [hg] at h2
          cases e2 <;> exact h2.trans h1.2.2

theorem prepareProtocGenGoGrpc_distOnce (g : Generator) (v : PkgVars) (env : Env) (w : World) :
    (g.prepareProtocGenGoGrpc v env w).2.distOnce = w.distOnce := by
  unfold Generator.prepareProtocGenGoGrpc
  cases GoListPkg env pkgNameGrpc [] with
  | error e => rfl
  | ok pkg =>
    simp only
    split
    · rfl
    · cases pkg.Module with
      | none => rfl
      | some module =>
        simp only
        have h1 := MkdirAll_meta (g.getProtocGenGoGrpcPath v g.getProtocGenGoGrpcVer) w
        rcases hm : MkdirAll (g.getProtocGenGoGrpcPath v g.getProtocGenGoGrpcVer) w with ⟨e, w1⟩
        rw [hm] at h1
        cases e with
        | some e => exact h1.2.2
        | none =>
          simp only
          have h2 := GoInstall_distOnce env (pkgNameProtocGenGoGrpc ++ "@v" ++ g.getProtocGenGoGrpcVer)
            (g.getProtocGenGoGrpcPath v g.getProtocGenGoGrpcVer) w1
          rcases hg : GoInstall env (pkgNameProtocGenGoGrpc ++ "@v" ++ g.getProtocGenGoGrpcVer)
            (g.getProtocGenGoGrpcPath v g.getProtocGenGoGrpcVer) w1 with ⟨e2, w2⟩
          rw [hg] at h2
          cases e2 <;> exact h2.trans h1.2.2

/-- Every run of `Run` either stops with an error before the argument file is staged,
having logged provisioning events only, or resolves all its inputs and ends with
`stageAndInvoke` on them. -/
theorem Run_cases (g : Generator) (v : PkgVars) (env : Env) (w : World) :
    ∀ res, g.Run v env w = res →
      (res.1 ≠ none ∧ TraceAdds (ProvD (g.getProtocDistPath v env w).1) w res.2) ∨
        ∃ s, g.reaches v env w s ∧ (g.getProtocDistPath v env w).1 = .ok s.protocDistPath ∧
          res = g.stageAndInvoke env s.genFilePkg s.genPkg s.protocDistPath (s.lines g)
            s.world ∧
          TraceAdds (ProvD (g.getProtocDistPath v env w).1) w s.world := by
  intro res hres
  unfold Generator.Run at hres
  cases hq1 : GoListPkg env ((env.lookupEnv "GOFILE").getD "") ["generate"] with
  | error e =>
    rw [hq1] at hres; subst hres
    exact Or.inl ⟨by simp, TraceAdds.trefl _ w⟩
  | ok genFilePkg =>
    rw [hq1] at hres
    simp only at hres
    by_cases hE : genFilePkg.Error ≠ none
    · rw [if_pos hE] at hres; subst hres
      exact Or.inl ⟨by simp, TraceAdds.trefl _ w⟩
    · rw [if_neg hE] at hres
      cases hq2 : GoListPkg env genFilePkg.Dir ["generate"] with
      | error e =>
        rw [hq2] at hres; subst hres
        exact Or.inl ⟨by simp, TraceAdds.trefl _ w⟩
      | ok genPkg =>
        rw [hq2] at hres
        simp only at hres
        rw [if_neg hE] at hres
        have h1 := prepareProtoc_provd g v env w
        generalize hr0 : (g.getProtocDistPath v env w).1 = r0 at h1 ⊢
        rcases hp : g.prepareProtoc v env w with ⟨e1, w1⟩
        rw [hp] at h1 hres
        obtain ⟨t1, d1⟩ := h1
        simp only at t1 d1
        cases e1 with
        | some e1 =>
          simp only at hres; subst hres
          exact Or.inl ⟨by simp, t1⟩
        | none =>
          simp only at hres
          have h2 := prepareProtocGenGo_provd g v env w1 r0
          have d2 := prepareProtocGenGo_distOnce g v env w1
          rcases hg : g.prepareProtocGenGo v env w1 with ⟨r2, w2⟩
          rw [hg] at h2 d2 hres
          have t2 := t1.ttrans h2
          cases r2 with
          | error e2 =>
            simp only at hres; subst hres
            exact Or.inl ⟨by simp, t2⟩
          | ok goDir =>
            simp only at hres
            have h3 := prepareProtocGenGoGrpc_provd g v env w2 r0
            have d3 := prepareProtocGenGoGrpc_distOnce g v env w2
            rcases hgr : g.prepareProtocGenGoGrpc v env w2 with ⟨r3, w3⟩
            rw [hgr] at h3 d3 hres
            have t3 := t2.ttrans h3
            have d3' : w3.distOnce = some r0 := by
              rw [d3]; simp only at d2; rw [d2]; exact d1
            cases r3 with
            | error e3 =>
              simp only at hres; subst hres
              exact Or.inl ⟨by simp, t3⟩
            | ok grpcDir =>
              simp only at hres
              unfold Generator.assemble at hres
              cases hl : listImportPathDir env genFilePkg.Imports with
              | error e =>
                rw [hl] at hres; subst hres
                exact Or.inl ⟨by simp, t3⟩
              | ok protoPaths =>
                rw [hl] at hres
                simp only at hres
                have hmemo := (getProtocDistPath_memo g v env w3).2 r0 d3'
                rw [hmemo] at hres
                cases r0 with
                | error e =>
                  simp only at hres; subst hres
                  exact Or.inl ⟨by simp, t3⟩
                | ok dist =>
                  simp only at hres
                  have h4 := configProtoEditor_provd env genPkg protoPaths w3 (.ok dist)
                  rcases hc : configProtoEditor env genPkg protoPaths w3 with ⟨e4, w4⟩
                  rw [hc] at h4 hres
                  have t4 := t3.ttrans h4
                  simp only at hres
                  cases hge : GoEnv env "GOEXE" with
                  | error e =>
                    rw [hge] at hres; subst hres
                    exact Or.inl ⟨by simp, t4⟩
                  | ok goExe =>
                    rw [hge] at hres
                    simp only at hres
                    cases hmod : genPkg.Module with
                    | none =>
                      rw [hmod] at hres; subst hres
                      exact Or.inl ⟨by simp, t4⟩
                    | some module =>
                      rw [hmod] at hres
                      simp only at hres
                      cases hwalk : walkProtoFiles env
                          (env.walkDir (g.getProtoDirAbs genFilePkg.Dir)) [] with
                      | error e =>
                        rw [hwalk] at hres; subst hres
                        exact Or.inl ⟨by simp, t4⟩
                      | ok protoFiles =>
                        rw [hwalk] at hres
                        simp only at hres
                        refine Or.inr ⟨⟨genFilePkg, genPkg, module, protoPaths, dist, goDir,
                          grpcDir, goExe, protoFiles, w4⟩, ?_, rfl, hres.symm, t4⟩
                        refine ⟨hq1, not_not.1 hE, hq2, hmod, hl, hge, hwalk, w1, w2, w3, w3,
                          hp, hg, hgr, hmemo, ?_⟩
                        show w4 = (configProtoEditor env genPkg protoPaths w3).2
                        rw [hc]

/-! ## The end of a run: write, clean, compile -/

theorem Clean_ne_empty (p : String) : Clean p ≠ "" := by
  intro h
  have h2 : (Clean p).data = [] := by rw [h]
  exact cleanChars_ne_nil p.data h2

theorem Join_ne_empty (a b : String) (hb : b ≠ "") : Join a b ≠ "" := by
  unfold Join
  by_cases ha : a ≠ ""
  · rw [if_pos ha]; exact Clean_ne_empty _
  · rw [if_neg ha, if_pos hb]; exact Clean_ne_empty _

theorem atOrBelow_self (d : String) : atOrBelow d d = true := by
  simp [atOrBelow]

theorem RemoveAll_fs (p : String) (w : World) :
    ((RemoveAll p w).1 = none → p ≠ "" → (RemoveAll p w).2.fs (Clean p) = none) ∧
      ∀ q, w.fs q = none → (RemoveAll p w).2.fs q = none := by
  unfold RemoveAll
  split
  · exact ⟨fun _ hp => absurd (by assumption) hp, fun q hq => hq⟩
  · split
    · exact ⟨fun h => by simp at h, fun q hq => hq⟩
    · have hfs := popFault_fs w
      rcases hpf : w.popFault with ⟨b, w1⟩
      rw [hpf] at hfs
      simp only at hfs
      cases b with
      | true =>
        refine ⟨fun h => by simp at h, fun q hq => ?_⟩
        show w1.fs q = none
        rw [hfs]; exact hq
      | false =>
        simp only
        split
        · refine ⟨fun h => by simp at h, fun q hq => ?_⟩
          show (if q ≠ Clean p ∧ atOrBelow (Clean p) q = true then none else w1.fs q) = none
          split
          · rfl
          · rw [hfs]; exact hq
        · refine ⟨fun _ _ => ?_, fun q hq => ?_⟩
          · show (if atOrBelow (Clean p) (Clean p) = true then none else w1.fs (Clean p)) = none
            rw [if_pos (atOrBelow_self _)]
          · show (if atOrBelow (Clean p) q = true then none else w1.fs q) = none
            split
            · rfl
            · rw [hfs]; exact hq

theorem cleanDirs_fs_none (dir : String) (pieces : List String) :
    ∀ w q, w.fs q = none → (cleanDirs dir pieces w).2.fs q = none := by
  induction pieces with
  | nil => intro w q hq; exact hq
  | cons piece rest ih =>
    intro w q hq
    unfold cleanDirs
    split
    · exact ih w q hq
    · have h1 := (RemoveAll_fs
        (if !IsAbs (TrimSpace piece) then Join dir (TrimSpace piece) else TrimSpace piece)
        (w.log (.removeAll
          (if !IsAbs (TrimSpace piece) then Join dir (TrimSpace piece)
           else TrimSpace piece)))).2 q hq
      rcases hr : RemoveAll
        (if !IsAbs (TrimSpace piece) then Join dir (TrimSpace piece) else TrimSpace piece)
        (w.log (.removeAll
          (if !IsAbs (TrimSpace piece) then Join dir (TrimSpace piece)
           else TrimSpace piece))) with ⟨e, w1⟩
      rw [hr] at h1
      cases e with
      | some e => exact h1
      | none => exact ih w1 q h1

theorem cleanDirs_shape (dir : String) (pieces : List String) : ∀ w,
    ∃ removed, (cleanDirs dir pieces w).2.trace = w.trace ++ removed.map Event.removeAll ∧
      removed <+: ((pieces.map TrimSpace).filter (fun d => decide (d ≠ ""))).map
        (fun d => if IsAbs d then d else Join dir d) ∧
      ((cleanDirs dir pieces w).1 ≠ none ∨
        ((cleanDirs dir pieces w).1 = none ∧
          removed = ((pieces.map TrimSpace).filter (fun d => decide (d ≠ ""))).map
            (fun d => if IsAbs d then d else Join dir d) ∧
          ∀ d ∈ removed, (cleanDirs dir pieces w).2.fs (Clean d) = none)) := by
  induction pieces with
  | nil =>
    intro w
    exact ⟨[], by simp [cleanDirs], by simp, Or.inr ⟨rfl, by simp, by simp⟩⟩
  | cons piece rest ih =>
    intro w
    unfold cleanDirs
    by_cases ht : TrimSpace piece = ""
    · rw [if_pos ht]
      have hl : (((piece :: rest).map TrimSpace).filter (fun d => decide (d ≠ ""))) =
          ((rest.map TrimSpace).filter (fun d => decide (d ≠ ""))) := by
        rw [List.map_cons, List.filter_cons_of_neg]
        simp [ht]
      rw [hl]
      exact ih w
    · rw [if_neg ht]
      have hl : (((piece :: rest).map TrimSpace).filter (fun d => decide (d ≠ ""))).map
          (fun d => if IsAbs d then d else Join dir d) =
          (if !IsAbs (TrimSpace piece) then Join dir (TrimSpace piece) else TrimSpace piece) ::
            ((rest.map TrimSpace).filter (fun d => decide (d ≠ ""))).map
              (fun d => if IsAbs d then d else Join dir d) := by
        rw [List.map_cons, List.filter_cons_of_pos (by simp [ht]), List.map_cons]
        congr 1
        cases IsAbs (TrimSpace piece) <;> rfl
      rw [hl]
      have hne : (if !IsAbs (TrimSpace piece) then Join dir (TrimSpace piece)
          else TrimSpace piece) ≠ "" := by
        split
        · exact Join_ne_empty _ _ ht
        · exact ht
      generalize (if !IsAbs (TrimSpace piece) then Join dir (TrimSpace piece)
        else TrimSpace piece) = t at hne ⊢
      have hm := RemoveAll_meta t (w.log (.removeAll t))
      have hf := (RemoveAll_fs t (w.log (.removeAll t))).1
      rcases hr : RemoveAll t (w.log (.removeAll t)) with ⟨e, w1⟩
      rw [hr] at hm hf
      have htr : w1.trace = w.trace ++ [Event.removeAll t] := hm.1
      cases e with
      | some e =>
        exact ⟨[t], by simpa using htr, by simp, Or.inl (by simp)⟩
      | none =>
        simp only
        obtain ⟨rem, h1, h2, h3⟩ := ih w1
        refine ⟨t :: rem, ?_, ?_, ?_⟩
        · rw [h1, htr]; simp
        · exact (List.prefix_cons_inj t).2 h2
        · rcases h3 with h3 | ⟨h3, h4, h5⟩
          · exact Or.inl h3
          · refine Or.inr ⟨h3, by rw [h4], ?_⟩
            intro d hd
            rcases List.mem_cons.1 hd with hd | hd
            · rw [hd]
              exact cleanDirs_fs_none dir rest w1 (Clean t) (hf rfl hne)
            · exact h5 d hd

theorem cleanTargets_eq (cleanList dir : String) :
    cleanTargets cleanList dir =
      ((((splitChars ',' cleanList.data).map String.mk).map TrimSpace).filter
        (fun d => decide (d ≠ ""))).map (fun d => if IsAbs d then d else Join dir d) := rfl

/-- The log and the outcome of the end of a run. -/
theorem stageAndInvoke_shape (g : Generator) (env : Env) (genFilePkg genPkg : PackagePublic)
    (dist : String) (lines : List String) (w : World) :
    ∀ res, g.stageAndInvoke env genFilePkg genPkg dist lines w = res →
      (res.1 ≠ none ∧ res.2.trace = w.trace) ∨
        ∃ removed tail,
          res.2.trace = w.trace ++
            (Event.writeFile (g.getProtoGenFilePath env genPkg) (optsText lines) ::
              removed.map Event.removeAll ++ tail) ∧
          removed <+: cleanTargets g.getCleanDir genFilePkg.Dir ∧
          ((tail = [] ∧ res.1 ≠ none) ∨
            (removed = cleanTargets g.getCleanDir genFilePkg.Dir ∧
              tail = [Event.exec (JoinList [dist, "bin", "protoc"])
                ["@" ++ g.getProtoGenFilePath env genPkg]] ∧
              (∀ d ∈ removed, res.2.fs (Clean d) = none) ∧
              (res.1 = none ↔ env.protocOk (JoinList [dist, "bin", "protoc"])
                ["@" ++ g.getProtoGenFilePath env genPkg] = true))) := by
  intro res hres
  unfold Generator.stageAndInvoke at hres
  have h1 := MkdirAll_meta (Dir (g.getProtoGenFilePath env genPkg)) w
  rcases hm : MkdirAll (Dir (g.getProtoGenFilePath env genPkg)) w with ⟨e, w1⟩
  rw [hm] at h1 hres
  cases e with
  | some e =>
    simp only at hres; subst hres
    exact Or.inl ⟨by simp, h1.1⟩
  | none =>
    simp only at hres
    have h3 := WriteFile_meta env.umask (g.getProtoGenFilePath env genPkg) (optsText lines) 438
      (w1.log (.writeFile (g.getProtoGenFilePath env genPkg) (optsText lines)))
    rcases hw : WriteFile env.umask (g.getProtoGenFilePath env genPkg) (optsText lines) 438
      (w1.log (.writeFile (g.getProtoGenFilePath env genPkg) (optsText lines))) with ⟨e2, w2⟩
    rw [hw] at h3 hres
    have htr2 : w2.trace = w.trace ++
        [Event.writeFile (g.getProtoGenFilePath env genPkg) (optsText lines)] := by
      have := h3.1
      simp only [World.log] at this
      rw [this, h1.1]
    refine Or.inr ?_
    cases e2 with
    | some e2 =>
      simp only at hres; subst hres
      exact ⟨[], [], by simpa using htr2, List.nil_prefix, Or.inl ⟨rfl, by simp⟩⟩
    | none =>
      simp only at hres
      obtain ⟨removed, c1, c2, c3⟩ := cleanDirs_shape genFilePkg.Dir
        ((splitChars ',' g.getCleanDir.data).map String.mk) w2
      rcases hc : cleanDirs genFilePkg.Dir
        ((splitChars ',' g.getCleanDir.data).map String.mk) w2 with ⟨e3, w3⟩
      rw [hc] at c1 c3 hres
      simp only at c1 c3
      cases e3 with
      | some e3 =>
        simp only at hres; subst hres
        refine ⟨removed, [], ?_, c2, Or.inl ⟨rfl, by simp⟩⟩
        show w3.trace = _
        rw [c1, htr2]; simp
      | none =>
        simp only at hres
        rcases c3 with c3 | ⟨_, c4, c5⟩
        · exact absurd rfl c3
        · refine ⟨removed, [Event.exec (JoinList [dist, "bin", "protoc"])
            ["@" ++ g.getProtoGenFilePath env genPkg]], ?_, c2, Or.inr ⟨c4, rfl, ?_, ?_⟩⟩
          · by_cases hok : env.protocOk (JoinList [dist, "bin", "protoc"])
                ["@" ++ g.getProtoGenFilePath env genPkg] = true
            · rw [if_pos hok] at hres; subst hres
              show w3.trace ++ _ = _
              rw [c1, htr2]; simp
            · rw [if_neg hok] at hres; subst hres
              show w3.trace ++ _ = _
              rw [c1, htr2]; simp
          · intro d hd
            by_cases hok : env.protocOk (JoinList [dist, "bin", "protoc"])
                ["@" ++ g.getProtoGenFilePath env genPkg] = true
            · rw [if_pos hok] at hres; subst hres
              exact c5 d hd
            · rw [if_neg hok] at hres; subst hres
              exact c5 d hd
          · by_cases hok : env.protocOk (JoinList [dist, "bin", "protoc"])
                ["@" ++ g.getProtoGenFilePath env genPkg] = true
            · rw [if_pos hok] at hres; subst hres
              simp [hok]
            · rw [if_neg hok] at hres; subst hres
              simp [hok]

/-! ## The claims about the staged argument file and the clean list -/

/-- The log of `Run`: provisioning events, then nothing more when the run stopped
early, or the write of the argument file, the removals of the clean list and the
compiler run. -/
theorem Run_shape (g : Generator) (v : PkgVars) (env : Env) (w : World) :
    ∃ pre post, (g.Run v env w).2.trace = w.trace ++ pre ++ post ∧
      (∀ e ∈ pre, ProvD (g.getProtocDistPath v env w).1 e) ∧
      ((post = [] ∧ (g.Run v env w).1 ≠ none) ∨
        ∃ s removed tail, g.reaches v env w s ∧
          (g.getProtocDistPath v env w).1 = .ok s.protocDistPath ∧
          post = Event.writeFile (g.getProtoGenFilePath env s.genPkg) (optsText (s.lines g)) ::
            removed.map Event.removeAll ++ tail ∧
          removed <+: cleanTargets g.getCleanDir s.genFilePkg.Dir ∧
          ((tail = [] ∧ (g.Run v env w).1 ≠ none) ∨
            (removed = cleanTargets g.getCleanDir s.genFilePkg.Dir ∧
              tail = [Event.exec (JoinList [s.protocDistPath, "bin", "protoc"])
                ["@" ++ g.getProtoGenFilePath env s.genPkg]] ∧
              (∀ d ∈ removed, (g.Run v env w).2.fs (Clean d) = none) ∧
              ((g.Run v env w).1 = none ↔ env.protocOk (JoinList [s.protocDistPath, "bin", "protoc"])
                ["@" ++ g.getProtoGenFilePath env s.genPkg] = true)))) := by
  rcases Run_cases g v env w _ rfl with ⟨herr, pre, hpre, hP⟩ | ⟨s, hs, hd, hrun, pre, hpre, hP⟩
  · exact ⟨pre, [], by rw [List.append_nil]; exact hpre, hP, Or.inl ⟨rfl, herr⟩⟩
  · rcases stageAndInvoke_shape g env s.genFilePkg s.genPkg s.protocDistPath (s.lines g) s.world
        _ hrun.symm with ⟨herr, htr⟩ | ⟨removed, tail, htr, hpf, hrest⟩
    · exact ⟨pre, [], by simp only [List.append_nil]; exact htr.trans hpre, hP,
        Or.inl ⟨rfl, herr⟩⟩
    · exact ⟨pre, _, by rw [← hpre]; exact htr, hP,
        Or.inr ⟨s, removed, tail, hs, hd, rfl, hpf, hrest⟩⟩

theorem getProtocGenGoGrpcVer_ne_empty (g : Generator) : g.getProtocGenGoGrpcVer ≠ "" := by
  unfold Generator.getProtocGenGoGrpcVer
  split
  · assumption
  · decide

theorem prepareProtocGenGoGrpc_ok (g : Generator) (v : PkgVars) (env : Env) (w w1 : World)
    (dir : String) (h : g.prepareProtocGenGoGrpc v env w = (.ok dir, w1)) :
    dir ≠ "" ↔ ∃ pk, GoListPkg env pkgNameGrpc [] = .ok pk ∧ pk.Error = none ∧
      dir = g.getProtocGenGoGrpcPath v g.getProtocGenGoGrpcVer ∧
      env.goInstallOk (pkgNameProtocGenGoGrpc ++ "@v" ++ g.getProtocGenGoGrpcVer) dir = true := by
  unfold Generator.prepareProtocGenGoGrpc at h
  cases hq : GoListPkg env pkgNameGrpc [] with
  | error e => rw [hq] at h; simp at h
  | ok pk =>
    rw [hq] at h
    simp only at h
    by_cases hE : pk.Error ≠ none
    · rw [if_pos hE] at h
      simp only [Prod.mk.injEq, Except.ok.injEq] at h
      constructor
      · intro hne; exact absurd h.1.symm hne
      · rintro ⟨pk2, h2, h3, _⟩
        simp only [Except.ok.injEq] at h2
        rw [← h2] at h3
        exact absurd h3 hE
    · rw [if_neg hE] at h
      cases hmod : pk.Module with
      | none => rw [hmod] at h; simp at h
      | some module =>
        rw [hmod] at h
        simp only at h
        rcases hm : MkdirAll (g.getProtocGenGoGrpcPath v g.getProtocGenGoGrpcVer) w with ⟨e, w2⟩
        rw [hm] at h
        cases e with
        | some e => simp at h
        | none =>
          simp only at h
          unfold GoInstall at h
          by_cases hok : env.goInstallOk (pkgNameProtocGenGoGrpc ++ "@v" ++ g.getProtocGenGoGrpcVer)
              (g.getProtocGenGoGrpcPath v g.getProtocGenGoGrpcVer) = true
          · rw [if_pos hok] at h
            simp only [Prod.mk.injEq, Except.ok.injEq] at h
            rw [← h.1]
            constructor
            · intro _
              exact ⟨pk, rfl, not_not.1 hE, rfl, hok⟩
            · intro _
              exact Join_ne_empty _ _ (getProtocGenGoGrpcVer_ne_empty g)
          · rw [if_neg hok] at h
            simp at h

theorem walkProtoFiles_ok (env : Env) (entries : List WalkEntry) :
    ∀ acc files, walkProtoFiles env entries acc = .ok files →
      ∃ rest, files = acc ++ rest ∧
        (entries.filter (fun d => !d.isDir && hasSuffix d.path ".proto")).map
          (fun d => Abs env d.path) = rest.map Except.ok := by
  induction entries with
  | nil =>
    intro acc files h
    simp only [walkProtoFiles, Except.ok.injEq] at h
    exact ⟨[], by simp [h], rfl⟩
  | cons d tl ih =>
    intro acc files h
    unfold walkProtoFiles at h
    by_cases herr : d.err = true
    · rw [if_pos herr] at h; simp at h
    · rw [if_neg herr] at h
      by_cases hskip : (d.isDir || !hasSuffix d.path ".proto") = true
      · rw [if_pos hskip] at h
        obtain ⟨rest, h1, h2⟩ := ih acc files h
        refine ⟨rest, h1, ?_⟩
        rw [List.filter_cons_of_neg]
        · exact h2
        · intro hc
          cases hd : d.isDir <;> cases hx : hasSuffix d.path ".proto" <;>
            simp [hd, hx] at hskip hc
      · rw [if_neg hskip] at h
        cases ha : Abs env d.path with
        | error e => rw [ha] at h; simp at h
        | ok q =>
          rw [ha] at h
          simp only at h
          obtain ⟨rest, h1, h2⟩ := ih (acc ++ [q]) files h
          refine ⟨q :: rest, by rw [h1]; simp, ?_⟩
          rw [List.filter_cons_of_pos]
          · rw [List.map_cons, List.map_cons, ha, h2]
          · cases hd : d.isDir <;> cases hx : hasSuffix d.path ".proto" <;>
              simp [hd, hx] at hskip ⊢

theorem ProvD_not_write {r0 : Except Err String} {e : Event} (h : ProvD r0 e) (p c : String) :
    e ≠ Event.writeFile p c := by
  rcases h with ⟨u, d, h⟩ | ⟨d, _, h⟩ | ⟨a, b, h⟩ | ⟨q, h⟩ <;> rw [h] <;> simp

theorem ProvD_not_exec {r0 : Except Err String} {e : Event} (h : ProvD r0 e) (b : String)
    (a : List String) : e ≠ Event.exec b a := by
  rcases h with ⟨u, d, h⟩ | ⟨d, _, h⟩ | ⟨a, b, h⟩ | ⟨q, h⟩ <;> rw [h] <;> simp

/-- C11. The argument file `Run` stages, if it stages one (and it does whenever it
returns no error): the file is written at the staging path of the package of the
generate file's directory, and its bytes are these lines, each ended by a newline, in
this order: one `--proto_path=` line per directory returned by `listImportPathDir` for
the imports of the generate file's package, in the order returned, then one for the
absolute schema directory, then one for `include` under the distribution path; then
`--go_out=` with the module directory, `--go_opt=module=` with the module path,
`--plugin=protoc-gen-go=` with `protoc-gen-go` followed by GOEXE under the install
directory of the base plugin; then the three gRPC lines exactly when the install
directory of the gRPC plugin is not empty, which is the case exactly when the query
for the gRPC module carries no package error (and then `go install` ran with success
into that directory); then the absolute path of every entry of the walk of the schema
directory that is not a directory and whose path ends in `.proto`, in walk order;
nothing else. -/
theorem Run_argument_file (g : Generator) (v : PkgVars) (env : Env) (w : World) :
    ∃ added, (g.Run v env w).2.trace = w.trace ++ added ∧
      ((g.Run v env w).1 = none → ∃ p content, Event.writeFile p content ∈ added) ∧
      ∀ p content, Event.writeFile p content ∈ added →
        ∃ s, g.reaches v env w s ∧ p = g.getProtoGenFilePath env s.genPkg ∧
          content = String.join
            ((s.protoPaths.map (fun d => "--proto_path=" ++ d) ++
              ["--proto_path=" ++ g.getProtoDirAbs s.genFilePkg.Dir,
               "--proto_path=" ++ Join s.protocDistPath "include",
               "--go_out=" ++ s.module.Dir,
               "--go_opt=module=" ++ s.module.Path,
               "--plugin=protoc-gen-go=" ++
                 Join s.protocGenGoInstallDir ("protoc-gen-go" ++ s.goExe)] ++
              (if s.protocGenGoGrpcInstallDir ≠ "" then
                ["--go-grpc_out=" ++ s.module.Dir,
                 "--go-grpc_opt=module=" ++ s.module.Path,
                 "--plugin=protoc-gen-go-grpc=" ++
                   Join s.protocGenGoGrpcInstallDir ("protoc-gen-go-grpc" ++ s.goExe)]
               else []) ++
              s.protoFiles).map (fun l => l ++ "\n")) ∧
          (s.protocGenGoGrpcInstallDir ≠ "" ↔
            ∃ pk, GoListPkg env pkgNameGrpc [] = .ok pk ∧ pk.Error = none ∧
              s.protocGenGoGrpcInstallDir = g.getProtocGenGoGrpcPath v g.getProtocGenGoGrpcVer ∧
              env.goInstallOk (pkgNameProtocGenGoGrpc ++ "@v" ++ g.getProtocGenGoGrpcVer)
                s.protocGenGoGrpcInstallDir = true) ∧
          ((env.walkDir (g.getProtoDirAbs s.genFilePkg.Dir)).filter
              (fun d => !d.isDir && hasSuffix d.path ".proto")).map (fun d => Abs env d.path) =
            s.protoFiles.map Except.ok := by
  obtain ⟨pre, post, htr, hpre, hpost⟩ := Run_shape g v env w
  refine ⟨pre ++ post, by rw [htr, List.append_assoc], ?_, ?_⟩
  · intro hok
    rcases hpost with ⟨_, herr⟩ | ⟨s, removed, tail, _, _, hp, _⟩
    · exact absurd hok herr
    · exact ⟨_, _, by rw [hp]; exact List.mem_append_right _ (List.mem_cons_self _ _)⟩
  · intro p content hmem
    rcases List.mem_append.1 hmem with hmem | hmem
    · exact absurd rfl (ProvD_not_write (hpre _ hmem) p content)
    · rcases hpost with ⟨hnil, _⟩ | ⟨s, removed, tail, hs, _, hp, _, htail⟩
      · rw [hnil] at hmem; simp at hmem
      · have hhead : p = g.getProtoGenFilePath env s.genPkg ∧ content = optsText (s.lines g) := by
          rw [hp] at hmem
          rcases List.mem_cons.1 hmem with h | h
          · simp only [Event.writeFile.injEq] at h; exact h
          · rcases List.mem_append.1 h with h | h
            · simp at h
            · rcases htail with ⟨ht, _⟩ | ⟨_, ht, _⟩
              · rw [ht] at h; simp at h
              · rw [ht] at h; simp at h
        obtain ⟨w1, w2, w3, w4, _, _, hgr, _, _⟩ := hs.2.2.2.2.2.2.2
        refine ⟨s, hs, hhead.1, ?_, prepareProtocGenGoGrpc_ok g v env w2 w3 _ hgr, ?_⟩
        · rw [hhead.2]
          unfold optsText Resolved.lines protocOptLines
          congr 2
          simp
        · obtain ⟨rest, h1, h2⟩ := walkProtoFiles_ok env _ [] s.protoFiles hs.2.2.2.2.2.2.1
          rw [List.nil_append] at h1
          rw [h1]; exact h2

set_option maxRecDepth 100000 in
/-- C12. The clean list of a run is the field `CleanDir`, or `proto_gen_go` when the
field is empty. The log of every run of `Run` is the provisioning events, followed
either by nothing (the run stopped with an error before staging) or by the write of
the argument file, the calls of `os.RemoveAll` of the clean loop and at most the
compiler run. The paths removed are a prefix of the list the specification names (the
comma-separated pieces of the clean list, trimmed, the empty ones skipped, absolute
ones as they are and relative ones joined onto the directory of the generate file's
package), in that order. Either the run returns an error without running the compiler
(so after a removal that fails), or every path of that list was removed, the compiler
is run after the last removal, and nothing is left at those of the paths that are
written in their clean form. Examples: for the clean list `gen, /abs/other` and the
package directory `/proj` the list is `/proj/gen`, `/abs/other`, and the run with this
clean list removes the two trees and then runs the compiler; with the clean list
`/abs/x/., gen` the first removal is refused, `Run` returns the error, and neither the
second removal nor the compiler run takes place; a piece ` /abs/other/ ` removes
`/abs/other`. -/
theorem Run_removes_clean_list (g : Generator) (v : PkgVars) (env : Env) (w : World) :
    (∃ before after, (g.Run v env w).2.trace = w.trace ++ before ++ after ∧
      (∀ e ∈ before, ProvD (g.getProtocDistPath v env w).1 e) ∧
      ((after = [] ∧ (g.Run v env w).1 ≠ none) ∨
        ∃ genFilePkg p content removed tail,
          GoListPkg env ((env.lookupEnv "GOFILE").getD "") ["generate"] = .ok genFilePkg ∧
          after = Event.writeFile p content :: removed.map Event.removeAll ++ tail ∧
          removed <+: cleanTargets (if g.CleanDir ≠ "" then g.CleanDir else "proto_gen_go")
            genFilePkg.Dir ∧
          ((tail = [] ∧ (g.Run v env w).1 ≠ none) ∨
            (removed = cleanTargets (if g.CleanDir ≠ "" then g.CleanDir else "proto_gen_go")
                genFilePkg.Dir ∧
              (∃ bin args, tail = [Event.exec bin args]) ∧
              ∀ d ∈ removed, Clean d = d → (g.Run v env w).2.fs d = none)))) ∧
      cleanTargets "gen, /abs/other" "/proj" = ["/proj/gen", "/abs/other"] ∧
      ((genCleanList.Run varsStub envNoGrpc worldStale).1 = none ∧
        (genCleanList.Run varsStub envNoGrpc worldStale).2.trace.drop 4 =
          [Event.removeAll "/proj/gen", Event.removeAll "/abs/other",
            Event.exec "/c/.go_protoc/protoc/KEY/bin/protoc"
              ["@/tmp/.go-protoc/example_com_proj/proto_gen.txt"]] ∧
        worldStale.fs "/proj/gen/a.pb.go" = some (Node.file "package old" 420) ∧
        (genCleanList.Run varsStub envNoGrpc worldStale).2.fs "/proj/gen" = none ∧
        (genCleanList.Run varsStub envNoGrpc worldStale).2.fs "/proj/gen/a.pb.go" = none ∧
        (genCleanList.Run varsStub envNoGrpc worldStale).2.fs "/abs/other" = none ∧
        (genCleanList.Run varsStub envNoGrpc worldStale).2.fs "/abs/other/b.pb.go" = none ∧
        (genCleanList.Run varsStub envNoGrpc worldStale).2.fs "/abs/x/c.pb.go" =
          some (Node.file "package old" 420)) ∧
      ((genCleanDot.Run varsStub envNoGrpc worldStale).1 =
          some (Err.error "os.RemoveAll() error") ∧
        (genCleanDot.Run varsStub envNoGrpc worldStale).2.trace.drop 4 =
          [Event.removeAll "/abs/x/."] ∧
        (genCleanDot.Run varsStub envNoGrpc worldStale).2.fs "/proj/gen" = some Node.dir) ∧
      ((cleanDirs "/proj" ((splitChars ',' " /abs/other/ ,, ".data).map String.mk)
          worldStale).1 = none ∧
        (cleanDirs "/proj" ((splitChars ',' " /abs/other/ ,, ".data).map String.mk)
          worldStale).2.trace = [Event.removeAll "/abs/other/"] ∧
        (cleanDirs "/proj" ((splitChars ',' " /abs/other/ ,, ".data).map String.mk)
          worldStale).2.fs "/abs/other" = none ∧
        (cleanDirs "/proj" ((splitChars ',' " /abs/other/ ,, ".data).map String.mk)
          worldStale).2.fs "/abs/other/b.pb.go" = none) := by
  refine ⟨?_, by decide, by decide, by decide, by decide⟩
  obtain ⟨pre, post, htr, hpre, hpost⟩ := Run_shape g v env w
  refine ⟨pre, post, htr, hpre, ?_⟩
  rcases hpost with h | ⟨s, removed, tail, hs, _, hp, hpf, htail⟩
  · exact Or.inl h
  · refine Or.inr ⟨s.genFilePkg, _, _, removed, tail, hs.1, hp, hpf, ?_⟩
    rcases htail with h | ⟨h1, h2, h3, _⟩
    · exact Or.inl h
    · refine Or.inr ⟨h1, ⟨_, _, h2⟩, ?_⟩
      intro d hd hc
      have := h3 d hd
      rw [hc] at this
      exact this

set_option maxRecDepth 100000 in
/-- C13, counterexample: the complete run in the example project with the default
clean list. The directory `/proj/proto_gen_go` of the clean list is removed after the
argument file was written, not before. -/
theorem clean_list_removed_before_write_fails :
    (genDefault.Run varsStub envNoGrpc worldEmpty).2.trace =
      [Event.download
          "https://github.com/protocolbuffers/protobuf/releases/download/v27.2/protoc-27.2-linux-x86_64.zip"
          "/c/.go_protoc/protoc/KEY.zip",
        Event.removeAll "/c/.go_protoc/protoc/KEY",
        Event.goInstall "google.golang.org/protobuf/cmd/protoc-gen-go"
          "/c/.go_protoc/protoc-gen-go/v1.34.2",
        Event.writeFile "/tmp/.go-protoc/example_com_proj/proto_gen.txt"
          ("--proto_path=/x\n" ++ "--proto_path=/proj/proto\n" ++
            "--proto_path=/c/.go_protoc/protoc/KEY/include\n" ++ "--go_out=/proj\n" ++
            "--go_opt=module=example.com/proj\n" ++
            "--plugin=protoc-gen-go=/c/.go_protoc/protoc-gen-go/v1.34.2/protoc-gen-go\n" ++
            "/proj/proto/a.proto\n"),
        Event.removeAll "/proj/proto_gen_go",
        Event.exec "/c/.go_protoc/protoc/KEY/bin/protoc"
          ["@/tmp/.go-protoc/example_com_proj/proto_gen.txt"]] ∧
      cleanTargets genDefault.getCleanDir "/proj" = ["/proj/proto_gen_go"] := by
  decide

/-- C13, amended. In every execution of `Run` the removals of the clean list come
after the write of the argument file and before the compiler run: the log is a first
part without any write of the argument file and without a compiler run, in which the
only removal is that of the extracted distribution, followed either by nothing or by
the write, then removals of a prefix of the clean list in its order, then at most the
compiler run. -/
theorem clean_list_removed_after_write (g : Generator) (v : PkgVars) (env : Env) (w : World) :
    ∃ before after, (g.Run v env w).2.trace = w.trace ++ before ++ after ∧
      (∀ e ∈ before, (∀ p c, e ≠ Event.writeFile p c) ∧ (∀ bin args, e ≠ Event.exec bin args) ∧
        ∀ d, e = Event.removeAll d → (g.getProtocDistPath v env w).1 = .ok d) ∧
      (after = [] ∨
        ∃ genFilePkg p content removed tail,
          GoListPkg env ((env.lookupEnv "GOFILE").getD "") ["generate"] = .ok genFilePkg ∧
          after = Event.writeFile p content :: removed.map Event.removeAll ++ tail ∧
          removed <+: cleanTargets g.getCleanDir genFilePkg.Dir ∧
          (tail = [] ∨ ∃ bin args, tail = [Event.exec bin args])) := by
  obtain ⟨pre, post, htr, hpre, hpost⟩ := Run_shape g v env w
  refine ⟨pre, post, htr, ?_, ?_⟩
  · intro e he
    refine ⟨ProvD_not_write (hpre e he), ProvD_not_exec (hpre e he), ?_⟩
    intro d hd
    rcases hpre e he with ⟨u, x, h⟩ | ⟨x, hx, h⟩ | ⟨a, b, h⟩ | ⟨q, h⟩
    · rw [h] at hd; simp at hd
    · rw [h] at hd
      simp only [Event.removeAll.injEq] at hd
      rw [← hd]; exact hx
    · rw [h] at hd; simp at hd
    · rw [h] at hd; simp at hd
  · rcases hpost with h | ⟨s, removed, tail, hs, _, hp, hpf, htail⟩
    · exact Or.inl h.1
    · refine Or.inr ⟨s.genFilePkg, _, _, removed, tail, hs.1, hp, hpf, ?_⟩
      rcases htail with h | ⟨_, h2, _⟩
      · exact Or.inl h.1
      · exact Or.inr ⟨_, _, h2⟩

/-! ## The claims about package errors, the platform tag and the unused options -/

theorem listImportPathDir_err (env : Env) (importPaths : List String)
    (horder : (env.schedule importPaths).Perm (List.range importPaths.length))
    (p : String) (hp : p ∈ importPaths) (hne : p ≠ "") (hf : importFails env p) :
    ∃ e, listImportPathDir env importPaths = .error e := by
  obtain ⟨i, hi⟩ := List.mem_iff_get?.1 hp
  have hlt : i < importPaths.length := by
    by_contra hge
    rw [List.get?_eq_none.2 (by omega)] at hi
    simp at hi
  have hmem : i ∈ env.schedule importPaths := (horder.mem_iff).2 (List.mem_range.2 hlt)
  have herr := runImportTasks_err env importPaths (env.schedule importPaths) [] none
    (Or.inr ⟨i, hmem, p, hi, hne, hf⟩)
  unfold listImportPathDir listImportPathDirIn
  rcases hr : runImportTasks env importPaths (env.schedule importPaths) ([], none)
    with ⟨dirs, fe⟩
  rw [hr] at herr
  cases fe with
  | none => exact absurd rfl herr
  | some e => exact ⟨e, rfl⟩

theorem prepareProtocGenGo_package_error (g : Generator) (v : PkgVars) (env : Env) (w : World)
    (pk : PackagePublic) (hq : GoListPkg env pkgNameProtocGenGo [] = .ok pk)
    (hE : pk.Error ≠ none) :
    g.prepareProtocGenGo v env w = (.error (.error "GoListPkg() error"), w) := by
  unfold Generator.prepareProtocGenGo
  rw [hq]
  simp only
  rw [if_pos hE]

set_option maxRecDepth 100000 in
/-- C14, counterexample: in the example project the query for the import `pkgA`
returns a descriptor with the source directory `/x` and a structured package error;
`Run` returns no error and runs the compiler. -/
theorem import_error_with_dir_not_fatal :
    GoListPkg (envImportErr "/x") "pkgA" ["generate"] =
        .ok { Dir := "/x", ImportPath := "pkgA", Imports := [], Module := none,
              Error := some { Err := "build constraints exclude all Go files" } } ∧
      GoListPkg (envImportErr "/x") (((envImportErr "/x").lookupEnv "GOFILE").getD "")
        ["generate"] = .ok pkgProj ∧
      "pkgA" ∈ pkgProj.Imports ∧
      (genDefault.Run varsStub (envImportErr "/x") worldEmpty).1 = none ∧
      Event.exec "/c/.go_protoc/protoc/KEY/bin/protoc"
          ["@/tmp/.go-protoc/example_com_proj/proto_gen.txt"] ∈
        (genDefault.Run varsStub (envImportErr "/x") worldEmpty).2.trace :=
  ⟨rfl, rfl, by decide, by decide, by decide⟩

/-- C14, amended. `Run` returns an error and does not run the compiler whenever the
descriptor of the generate file's package carries a package error, or the descriptor
of the base plugin package does, or the descriptor of a non-empty import of the
generate file's package carries a package error and has no source directory (the
queries for the imports finishing in any order). -/
theorem package_error_fatal (g : Generator) (v : PkgVars) (env : Env) (w : World)
    (hfatal :
      (∃ pk, GoListPkg env ((env.lookupEnv "GOFILE").getD "") ["generate"] = .ok pk ∧
        pk.Error ≠ none) ∨
      (∃ pk, GoListPkg env pkgNameProtocGenGo [] = .ok pk ∧ pk.Error ≠ none) ∨
      (∃ pk p info, GoListPkg env ((env.lookupEnv "GOFILE").getD "") ["generate"] = .ok pk ∧
        (env.schedule pk.Imports).Perm (List.range pk.Imports.length) ∧
        p ∈ pk.Imports ∧ p ≠ "" ∧ GoListPkg env p ["generate"] = .ok info ∧
        info.Error ≠ none ∧ info.Dir = "")) :
    (g.Run v env w).1 ≠ none ∧
      ∃ added, (g.Run v env w).2.trace = w.trace ++ added ∧
        ∀ bin args, Event.exec bin args ∉ added := by
  rcases Run_cases g v env w _ rfl with ⟨herr, added, hadd, hP⟩ | ⟨s, hs, _, _, _⟩
  · exact ⟨herr, added, hadd, fun bin args hmem => ProvD_not_exec (hP _ hmem) bin args rfl⟩
  · exfalso
    obtain ⟨h1, h2, _, _, h5, _, _, w1, w2, w3, w4, _, hgo, _, _, _⟩ := hs
    rcases hfatal with ⟨pk, hq, hE⟩ | ⟨pk, hq, hE⟩ | ⟨pk, p, info, hq, hperm, hp, hne, hi, _, hd⟩
    · rw [h1] at hq
      simp only [Except.ok.injEq] at hq
      rw [← hq] at hE
      exact hE h2
    · rw [prepareProtocGenGo_package_error g v env w1 pk hq hE] at hgo
      simp at hgo
    · rw [h1] at hq
      simp only [Except.ok.injEq] at hq
      rw [← hq] at hperm hp
      obtain ⟨e, he⟩ := listImportPathDir_err env _ hperm p hp hne (Or.inr ⟨info, hi, hd⟩)
      rw [he] at h5
      simp at h5

set_option maxRecDepth 100000 in
/-- C14, amended, witness: the example project with the import `pkgA` described
without a source directory and with a package error. -/
theorem package_error_fatal_witness :
    (genDefault.Run varsStub (envImportErr "") worldEmpty).1 ≠ none ∧
      ∃ added, (genDefault.Run varsStub (envImportErr "") worldEmpty).2.trace =
          worldEmpty.trace ++ added ∧
        ∀ bin args, Event.exec bin args ∉ added :=
  package_error_fatal genDefault varsStub (envImportErr "") worldEmpty
    (Or.inr (Or.inr ⟨pkgProj, "pkgA",
      { Dir := "", ImportPath := "pkgA", Imports := [], Module := none,
        Error := some { Err := "build constraints exclude all Go files" } },
      by rfl, by decide, by decide, by decide, by rfl, by simp, rfl⟩))

/-- C15, counterexample: for darwin with the architecture 386, a pair outside the
enumerated list, `getProtocOsArch` returns the tag `osx-universal_binary` and no
error. -/
theorem getProtocOsArch_darwin_386 :
    getProtocOsArch { envStub with GOOS := "darwin", GOARCH := "386" } =
        .ok "osx-universal_binary" ∧
      ("darwin", "386") ∉ [("darwin", "amd64"), ("darwin", "arm64"), ("linux", "386"),
        ("linux", "amd64"), ("linux", "arm64"), ("windows", "386"), ("windows", "amd64")] :=
  ⟨rfl, by decide⟩

/-- C15, amended. `getProtocOsArch` returns a tag exactly when the operating system is
darwin (with any architecture) or the pair is one of linux/386, linux/amd64,
linux/arm64, windows/386, windows/amd64, and returns an error for every other pair;
the tags are `osx-x86_64` for darwin/amd64, `osx-aarch_64` for darwin/arm64 and
`osx-universal_binary` for darwin with any other architecture. The operating system
and the architecture are the environment variables GOOS and GOARCH when set, else
those of the running program. -/
theorem getProtocOsArch_tag_iff (env : Env) :
    ((∃ tag, getProtocOsArch env = .ok tag) ↔
      ((env.lookupEnv "GOOS").getD env.GOOS = "darwin" ∨
        ((env.lookupEnv "GOOS").getD env.GOOS, (env.lookupEnv "GOARCH").getD env.GOARCH) ∈
          [("linux", "386"), ("linux", "amd64"), ("linux", "arm64"), ("windows", "386"),
            ("windows", "amd64")])) ∧
      ((∃ e, getProtocOsArch env = .error e) ↔ ¬ ∃ tag, getProtocOsArch env = .ok tag) ∧
      ((env.lookupEnv "GOOS").getD env.GOOS = "darwin" →
        getProtocOsArch env =
          .ok (if (env.lookupEnv "GOARCH").getD env.GOARCH = "amd64" then "osx-x86_64"
            else if (env.lookupEnv "GOARCH").getD env.GOARCH = "arm64" then "osx-aarch_64"
            else "osx-universal_binary")) := by
  unfold getProtocOsArch
  generalize (env.lookupEnv "GOOS").getD env.GOOS = goos
  generalize (env.lookupEnv "GOARCH").getD env.GOARCH = goarch
  by_cases h0 : goos = "darwin" <;> by_cases hl : goos = "linux" <;>
    by_cases hw : goos = "windows" <;> by_cases a1 : goarch = "386" <;>
    by_cases a2 : goarch = "amd64" <;> by_cases a3 : goarch = "arm64" <;>
    simp_all

set_option maxRecDepth 100000 in
/-- C18. `Run` never reads the opt-out flag: setting it changes nothing. With the flag
set to true, in the example project with a directory `/proj/.idea`, `Run` still
invokes the editor integration and writes the editor configuration file. -/
theorem DisableJetBrains_ignored :
    (∀ (g : Generator) (b : Bool) (v : PkgVars) (env : Env) (w : World),
      ({ g with DisableJetBrains := b } : Generator).Run v env w = g.Run v env w) ∧
      genNoJetBrains.DisableJetBrains = true ∧
      (worldWithDir "/proj/.idea").fs "/proj/.idea/protoeditor.xml" = none ∧
      Event.editorSave "/proj/.idea/protoeditor.xml" ∈
        (genNoJetBrains.Run varsStub envIdea (worldWithDir "/proj/.idea")).2.trace ∧
      (genNoJetBrains.Run varsStub envIdea (worldWithDir "/proj/.idea")).2.fs
          "/proj/.idea/protoeditor.xml" =
        some (Node.file "<?xml version=\"1.0\" encoding=\"UTF-8\"?><project></project>" 420) := by
  refine ⟨fun g b v env w => rfl, by decide, by decide, by decide, by decide⟩

set_option maxRecDepth 100000 in
/-- C19. `Run` never reads the custom compiler options: setting them changes nothing.
With the custom option `--experimental_allow_proto3_optional` configured, the run in
the example project succeeds and the argument file it passes to the compiler has
seven lines, none of them the custom option. -/
theorem CustomProtocOpts_ignored :
    (∀ (g : Generator) (opts : List String) (v : PkgVars) (env : Env) (w : World),
      ({ g with CustomProtocOpts := opts } : Generator).Run v env w = g.Run v env w) ∧
      genCustomOpt.CustomProtocOpts = ["--experimental_allow_proto3_optional"] ∧
      (genCustomOpt.Run varsStub envNoGrpc worldEmpty).1 = none ∧
      (genCustomOpt.Run varsStub envNoGrpc worldEmpty).2.fs
          "/tmp/.go-protoc/example_com_proj/proto_gen.txt" =
        some (Node.file
          ("--proto_path=/x\n" ++ "--proto_path=/proj/proto\n" ++
            "--proto_path=/c/.go_protoc/protoc/KEY/include\n" ++ "--go_out=/proj\n" ++
            "--go_opt=module=example.com/proj\n" ++
            "--plugin=protoc-gen-go=/c/.go_protoc/protoc-gen-go/v1.34.2/protoc-gen-go\n" ++
            "/proj/proto/a.proto\n") 438) ∧
      Event.exec "/c/.go_protoc/protoc/KEY/bin/protoc"
          ["@/tmp/.go-protoc/example_com_proj/proto_gen.txt"] ∈
        (genCustomOpt.Run varsStub envNoGrpc worldEmpty).2.trace := by
  refine ⟨fun g opts v env w => rfl, by decide, by decide, by decide, by decide⟩

/-! ## The claim about the staging path -/

theorem replaceNonWord_word (l : List Char) :
    ∀ b, ∀ c ∈ replaceNonWord b l, isWordChar c = true := by
  induction l with
  | nil => intro b c hc; simp [replaceNonWord] at hc
  | cons a l ih =>
    intro b c hc
    unfold replaceNonWord at hc
    by_cases ha : isWordChar a = true
    · rw [if_pos ha] at hc
      rcases List.mem_cons.1 hc with h | h
      · rw [h]; exact ha
      · exact ih false c h
    · rw [if_neg ha] at hc
      cases b with
      | true =>
        simp only [if_true] at hc
        exact ih true c hc
      | false =>
        simp only [Bool.false_eq_true, if_false] at hc
        rcases List.mem_cons.1 hc with h | h
        · rw [h]; decide
        · exact ih true c h

theorem word_comp {X : List Char} (hX : ∀ c ∈ X, isWordChar c = true) :
    '/' ∉ X ∧ X ≠ ['.'] ∧ X ≠ ['.', '.'] := by
  refine ⟨fun h => ?_, fun h => ?_, fun h => ?_⟩
  · exact absurd (hX _ h) (by decide)
  · exact absurd (hX '.' (by rw [h]; simp)) (by decide)
  · exact absurd (hX '.' (by rw [h]; simp)) (by decide)

theorem getProtoGenFilePath_data (g : Generator) (env : Env) (genPkg : PackagePublic) :
    (g.getProtoGenFilePath env genPkg).data =
      cleanChars ((if env.tempDir = "" then ".go-protoc".data
          else env.tempDir.data ++ '/' :: ".go-protoc".data) ++
        '/' :: (replaceNonWord false genPkg.ImportPath.data ++ '/' :: "proto_gen.txt".data)) := by
  unfold Generator.getProtoGenFilePath JoinList
  by_cases ht : env.tempDir = ""
  · rw [if_pos ht, ht, List.dropWhile_cons_of_pos (by simp),
      List.dropWhile_cons_of_neg (by decide)]
    simp only [String.intercalate, String.intercalate.go]
    simp [Clean, String.data_append]
  · rw [if_neg ht, List.dropWhile_cons_of_neg (by simpa using ht)]
    simp only [String.intercalate, String.intercalate.go]
    simp [Clean, String.data_append]

theorem renderPath_single (r : Bool) (X : List Char) (hX : X ≠ []) :
    renderPath r [X] = if r then '/' :: X else X := by
  cases r <;> simp [renderPath, joinSlash, hX]

theorem staging_stack (r : Bool) (S0 : List (List Char)) (X : List Char)
    (hX : ∀ c ∈ X, isWordChar c = true) :
    [X, "proto_gen.txt".data].foldl (cleanStep r) S0 =
      "proto_gen.txt".data :: (if X = [] then S0 else X :: S0) := by
  have hw := word_comp hX
  have h2 : ∀ S, cleanStep r S "proto_gen.txt".data = "proto_gen.txt".data :: S := by
    intro S
    unfold cleanStep
    rw [if_neg (by decide), if_neg (by decide)]
  simp only [List.foldl_cons, List.foldl_nil]
  rw [h2]
  congr 1
  unfold cleanStep
  by_cases hne : X = []
  · rw [if_pos (Or.inl hne), if_pos hne]
  · rw [if_neg (by simp [hne, hw.2.1]), if_neg hw.2.2, if_neg hne]

theorem render_staging_inj (r : Bool) (S0 : List (List Char)) (hS : NormStack r S0)
    (X Y : List Char) (hX : ∀ c ∈ X, isWordChar c = true) (hY : ∀ c ∈ Y, isWordChar c = true)
    (h : renderPath r ("proto_gen.txt".data :: (if X = [] then S0 else X :: S0)) =
      renderPath r ("proto_gen.txt".data :: (if Y = [] then S0 else Y :: S0))) : X = Y := by
  have hpg : GoodComp "proto_gen.txt".data ∧ "proto_gen.txt".data ≠ ['.', '.'] :=
    ⟨⟨by decide, by decide, by decide⟩, by decide⟩
  have norm1 : ∀ Z : List Char, (∀ c ∈ Z, isWordChar c = true) → Z ≠ [] →
      NormStack r (Z :: S0) := fun Z hZ hne =>
    NormStack.comp ⟨hne, (word_comp hZ).2.1, (word_comp hZ).1⟩ (word_comp hZ).2.2 hS
  have top : ∀ S, NormStack r S → S ≠ [] → renderPath r ("proto_gen.txt".data :: S) =
      renderPath r S ++ '/' :: "proto_gen.txt".data := fun S hn hne =>
    renderPath_cons (NormStack.comp hpg.1 hpg.2 hn) hne
  -- the rendering of a stack with one more component on top is longer
  have longer : ∀ Z : List Char, (∀ c ∈ Z, isWordChar c = true) → Z ≠ [] →
      renderPath r ("proto_gen.txt".data :: S0) ≠
        renderPath r ("proto_gen.txt".data :: Z :: S0) := by
    intro Z hZ hne heq
    rw [top (Z :: S0) (norm1 Z hZ hne) (by simp)] at heq
    by_cases hS0 : S0 = []
    · subst hS0
      rw [renderPath_single r _ hpg.1.1, renderPath_single r _ hne] at heq
      have hlen := congrArg List.length heq
      cases r <;> simp at hlen
    · rw [top S0 hS hS0, renderPath_cons (norm1 Z hZ hne) hS0] at heq
      have hlen := congrArg List.length heq
      simp at hlen
  by_cases hx : X = [] <;> by_cases hy : Y = []
  · rw [hx, hy]
  · rw [if_pos hx, if_neg hy] at h
    exact absurd h (longer Y hY hy)
  · rw [if_neg hx, if_pos hy] at h
    exact absurd h.symm (longer X hX hx)
  · rw [if_neg hx, if_neg hy, top _ (norm1 X hX hx) (by simp),
      top _ (norm1 Y hY hy) (by simp)] at h
    have h1 := List.append_cancel_right h
    by_cases hS0 : S0 = []
    · subst hS0
      rw [renderPath_single r _ hx, renderPath_single r _ hy] at h1
      cases r
      · simpa using h1
      · simpa using h1
    · rw [renderPath_cons (norm1 X hX hx) hS0, renderPath_cons (norm1 Y hY hy) hS0] at h1
      simpa using h1

theorem cleanChars_staging_inj (A X Y : List Char) (hA : A ≠ [])
    (hX : ∀ c ∈ X, isWordChar c = true) (hY : ∀ c ∈ Y, isWordChar c = true)
    (h : cleanChars (A ++ '/' :: (X ++ '/' :: "proto_gen.txt".data)) =
      cleanChars (A ++ '/' :: (Y ++ '/' :: "proto_gen.txt".data))) : X = Y := by
  have hhead : ∀ Z : List Char, (A ++ '/' :: (Z ++ '/' :: "proto_gen.txt".data)).head? =
      A.head? := by
    intro Z
    cases A with
    | nil => exact absurd rfl hA
    | cons a t => rfl
  have hsplit : ∀ Z : List Char, (∀ c ∈ Z, isWordChar c = true) →
      splitChars '/' (A ++ '/' :: (Z ++ '/' :: "proto_gen.txt".data)) =
        splitChars '/' A ++ [Z, "proto_gen.txt".data] := by
    intro Z hZ
    rw [splitChars_append, splitChars_append, splitChars_of_no_sep '/' Z (word_comp hZ).1,
      splitChars_of_no_sep '/' "proto_gen.txt".data (by decide)]
    rfl
  unfold cleanChars at h
  rw [hhead X, hhead Y, hsplit X hX, hsplit Y hY, List.foldl_append, List.foldl_append,
    staging_stack _ _ X hX, staging_stack _ _ Y hY] at h
  exact render_staging_inj _ _
    (foldl_cleanStep_norm _ _ NormStack.nil (splitChars_no_sep '/' A)) X Y hX hY h

/-- C20, counterexample: the import paths `a/b` and `a.b` differ and get the same
staging path. -/
theorem getProtoGenFilePath_collision :
    genDefault.getProtoGenFilePath envStub { pkgProj with ImportPath := "a/b" } =
        genDefault.getProtoGenFilePath envStub { pkgProj with ImportPath := "a.b" } ∧
      genDefault.getProtoGenFilePath envStub { pkgProj with ImportPath := "a/b" } =
        "/tmp/.go-protoc/a_b/proto_gen.txt" ∧
      ("a/b" : String) ≠ "a.b" := by
  decide

/-- C20, amended. The staging path depends on nothing but the temp directory and
the import path: equal import paths get the same path, whatever the generator and
the other fields of the package. Two import paths get different paths exactly when they
differ after every maximal run of characters other than letters, digits and the
underscore has been replaced by one underscore. -/
theorem getProtoGenFilePath_eq_iff (g g' : Generator) (env : Env) (p q : PackagePublic) :
    (p.ImportPath = q.ImportPath →
      g.getProtoGenFilePath env p = g'.getProtoGenFilePath env q) ∧
    (g.getProtoGenFilePath env p ≠ g'.getProtoGenFilePath env q ↔
      replaceNonWord false p.ImportPath.data ≠ replaceNonWord false q.ImportPath.data) := by
  have hback : replaceNonWord false p.ImportPath.data = replaceNonWord false q.ImportPath.data →
      g.getProtoGenFilePath env p = g'.getProtoGenFilePath env q := by
    intro h
    unfold Generator.getProtoGenFilePath
    rw [h]
  refine ⟨fun h => hback (by rw [h]), not_congr ⟨fun h => ?_, hback⟩⟩
  have hd := congrArg String.data h
  rw [getProtoGenFilePath_data, getProtoGenFilePath_data] at hd
  refine cleanChars_staging_inj _ _ _ ?_ (replaceNonWord_word _ _) (replaceNonWord_word _ _) hd
  split
  · decide
  · simp

/-! ## The pruning loop of `ConfigProtoPath` -/

theorem take_succ_getD {α : Type} (l : List α) (d : α) (k : Nat) (hk : k < l.length) :
    l.take (k + 1) = l.take k ++ [l.getD k d] := by
  rw [List.take_succ, List.getD_eq_getElem?_getD, List.getElem?_eq_getElem hk]
  rfl

theorem drop_getD_cons {α : Type} (l : List α) (d : α) (k : Nat) (hk : k < l.length) :
    l.drop k = l.getD k d :: l.drop (k + 1) := by
  rw [List.drop_eq_getElem_cons hk, List.getD_eq_getElem l d hk]

theorem take_set_self {α : Type} (l : List α) (a : α) (k : Nat) (hk : k < l.length) :
    (l.set k a).take k = l.take k ∧ (l.set k a).drop k = a :: l.drop (k + 1) := by
  rw [List.set_eq_take_append_cons_drop, if_pos hk]
  have hlen : (l.take k).length = k := by rw [List.length_take]; omega
  constructor
  · rw [List.take_left' hlen]
  · rw [List.drop_left' hlen]

theorem pruneLoop_perm (goPkg : String) :
    ∀ (k : Nat) (es : List XmlElement) (dc : Nat), k + dc ≤ es.length →
      ((pruneLoop goPkg k es dc).1.take (es.length - (pruneLoop goPkg k es dc).2)).Perm
        ((es.take k).filter (fun e => decide (e.Comment ≠ "" ∧ e.Comment ≠ goPkg)) ++
          (es.drop k).take (es.length - dc - k)) := by
  intro k
  induction k with
  | zero =>
    intro es dc _
    simp [pruneLoop]
  | succ k ih =>
    intro es dc hle
    have hk : k < es.length := by omega
    unfold pruneLoop
    by_cases hdel : (es.getD k XmlElement.empty).Comment = "" ∨
        (es.getD k XmlElement.empty).Comment = goPkg
    · rw [if_pos hdel]
      have h := ih (es.set k (es.getD (es.length - 1 - dc) XmlElement.empty)) (dc + 1)
        (by rw [List.length_set]; omega)
      rw [List.length_set, (take_set_self es _ k hk).1, (take_set_self es _ k hk).2] at h
      refine h.trans ?_
      rw [take_succ_getD es XmlElement.empty k hk, List.filter_append]
      have hnot : [es.getD k XmlElement.empty].filter
          (fun e => decide (e.Comment ≠ "" ∧ e.Comment ≠ goPkg)) = [] := by
        rw [List.filter_cons_of_neg]
        · rfl
        · simp only [decide_eq_true_eq]
          intro hc
          rcases hdel with h1 | h1
          · exact hc.1 h1
          · exact hc.2 h1
      rw [hnot, List.append_nil]
      apply List.Perm.append_left
      have hm : es.length - (dc + 1) - k = es.length - dc - (k + 1) := by omega
      rw [hm]
      cases hmm : es.length - dc - (k + 1) with
      | zero => simp
      | succ m =>
        have hlt : m < (es.drop (k + 1)).length := by rw [List.length_drop]; omega
        rw [List.take_succ_cons, take_succ_getD (es.drop (k + 1)) XmlElement.empty m hlt]
        have hy : (es.drop (k + 1)).getD m XmlElement.empty =
            es.getD (es.length - 1 - dc) XmlElement.empty := by
          rw [List.getD_eq_getElem?_getD, List.getD_eq_getElem?_getD, List.getElem?_drop]
          congr 2
          omega
        rw [hy]
        exact (List.perm_append_singleton _ _).symm
    · rw [if_neg hdel]
      refine (ih es dc (by omega)).trans ?_
      rw [take_succ_getD es XmlElement.empty k hk, List.filter_append,
        drop_getD_cons es XmlElement.empty k hk]
      have hkeep : [es.getD k XmlElement.empty].filter
          (fun e => decide (e.Comment ≠ "" ∧ e.Comment ≠ goPkg)) =
          [es.getD k XmlElement.empty] := by
        rw [List.filter_cons_of_pos]
        · rfl
        · simp only [decide_eq_true_eq]
          push_neg at hdel
          exact hdel
      have hm : es.length - dc - k = (es.length - dc - (k + 1)) + 1 := by omega
      rw [hkeep, hm, List.take_succ_cons, List.append_assoc]
      exact List.Perm.refl _

theorem pruneEntries_perm (goPkg : String) (es : List XmlElement) :
    (pruneEntries goPkg es).Perm
      (es.filter (fun e => decide (e.Comment ≠ "" ∧ e.Comment ≠ goPkg))) := by
  have h := pruneLoop_perm goPkg es.length es 0 (by omega)
  unfold pruneEntries
  refine h.trans ?_
  simp

/-! ## The claim about the import path list -/

theorem find?_updateFirst (test : XmlElement → Bool) (f : XmlElement → XmlElement)
    (fresh : XmlElement) (hf : ∀ e, test e = true → test (f e) = true)
    (hfresh : test (f fresh) = true) (l : List XmlElement) :
    (updateFirst test f fresh l).find? test = some (f ((l.find? test).getD fresh)) := by
  induction l with
  | nil => simp [updateFirst, List.find?, hfresh]
  | cons e es ih =>
    unfold updateFirst
    by_cases he : test e = true
    · rw [if_pos he, List.find?_cons_of_pos _ (hf e he), List.find?_cons_of_pos _ he]
      rfl
    · rw [if_neg he, List.find?_cons_of_neg _ he, List.find?_cons_of_neg _ he]
      exact ih

theorem setValueAttr_any (value name x : String) (hname : name ≠ "value")
    (as : List (String × String)) :
    (setValueAttr value as).any (fun a => a.1 = name ∧ a.2 = x) =
      as.any (fun a => a.1 = name ∧ a.2 = x) := by
  induction as with
  | nil => simp [setValueAttr, hname.symm]
  | cons a as ih =>
    unfold setValueAttr
    by_cases ha : a.1 = "value"
    · rw [if_pos ha]
      have h1 : ¬ a.1 = name := fun e => hname (e.symm.trans ha)
      simp [List.any_cons, h1]
    · rw [if_neg ha, List.any_cons, List.any_cons, ih]

/-- An update of the first element passing `P` by a function that keeps the elements
and the value of the test `T` does not change which elements the first element
passing `T` has. -/
theorem find?_updateFirst_other (P T : XmlElement → Bool) (m : XmlElement → XmlElement)
    (fresh : XmlElement) (hT : ∀ e, T (m e) = T e) (hE : ∀ e, (m e).Elements = e.Elements)
    (hfresh : T fresh = false) (l : List XmlElement) :
    ((updateFirst P m fresh l).find? T).map XmlElement.Elements =
      (l.find? T).map XmlElement.Elements := by
  induction l with
  | nil =>
    have h1 : T (m fresh) = false := by rw [hT]; exact hfresh
    simp [updateFirst, List.find?, h1]
  | cons e es ih =>
    unfold updateFirst
    by_cases hP : P e = true
    · rw [if_pos hP]
      by_cases he : T e = true
      · rw [List.find?_cons_of_pos _ (by rw [hT]; exact he), List.find?_cons_of_pos _ he]
        simp [hE]
      · rw [List.find?_cons_of_neg _ (by rw [hT]; exact he), List.find?_cons_of_neg _ he]
    · rw [if_neg hP]
      by_cases he : T e = true
      · rw [List.find?_cons_of_pos _ he, List.find?_cons_of_pos _ he]
      · rw [List.find?_cons_of_neg _ he, List.find?_cons_of_neg _ he]
        exact ih

theorem setOption_find? (name value : String) (hname : name ≠ "importPathEntries")
    (l : List XmlElement) :
    ((setOption name value l).find?
        (fun e => e.XMLName = "option" ∧ hasNameAttr "importPathEntries" e)).map
        XmlElement.Elements =
      (l.find? (fun e => e.XMLName = "option" ∧ hasNameAttr "importPathEntries" e)).map
        XmlElement.Elements := by
  unfold setOption
  split
  · apply find?_updateFirst_other
    · intro e
      cases e with
      | mk n a es c =>
        have h := setValueAttr_any value "name" "importPathEntries" (by decide) a
        simp only [XmlElement.XMLName, XmlElement.Attrs, hasNameAttr, h]
    · intro e; rfl
    · rfl
  · rw [List.find?_append]
    have hnew : List.find? (fun e => decide (e.XMLName = "option" ∧
        hasNameAttr "importPathEntries" e = true))
        [XmlElement.mk "option" [("name", name), ("value", value)] [] ""] = none := by
      rw [List.find?_cons_of_neg]
      · rfl
      · simp [XmlElement.XMLName, hasNameAttr, XmlElement.Attrs, hname]
    rw [hnew]
    simp

theorem XmlElement.Elements_mk (n : String) (a : List (String × String))
    (es : List XmlElement) (c : String) : (XmlElement.mk n a es c).Elements = es := rfl

theorem importPathList_eq (doc : XmlElement) :
    importPathList doc =
      Option.getD (Option.map XmlElement.Elements (List.find? (fun e => e.XMLName = "list")
        (Option.getD (Option.map XmlElement.Elements (List.find?
          (fun e => e.XMLName = "option" ∧ hasNameAttr "importPathEntries" e)
          (Option.getD (Option.map XmlElement.Elements (List.find?
            (fun e => e.XMLName = "component" ∧ hasNameAttr "ProtobufLanguageSettings" e)
            doc.Elements)) []))) []))) [] := by
  unfold importPathList
  cases List.find?
      (fun e => decide (e.XMLName = "component" ∧ hasNameAttr "ProtobufLanguageSettings" e))
      doc.Elements with
  | none => rfl
  | some c =>
    simp only [Option.map_some', Option.getD_some]
    cases List.find?
        (fun e => decide (e.XMLName = "option" ∧ hasNameAttr "importPathEntries" e))
        c.Elements with
    | none => rfl
    | some o =>
      simp only [Option.map_some', Option.getD_some]
      cases List.find? (fun e => decide (e.XMLName = "list")) o.Elements with
      | none => rfl
      | some l => rfl

theorem getD_map_Elements (o : Option XmlElement) (fresh : XmlElement)
    (hfresh : fresh.Elements = []) :
    (o.getD fresh).Elements = (o.map XmlElement.Elements).getD [] := by
  cases o with
  | none => exact hfresh
  | some e => rfl

theorem importPathList_ConfigProtoPath (goPkg : String) (protoPaths : List String)
    (doc : XmlElement) :
    importPathList (ConfigProtoPath goPkg protoPaths doc) =
      pruneEntries goPkg (importPathList doc) ++ protoPaths.map (importPathEntry goPkg) := by
  rw [importPathList_eq (ConfigProtoPath goPkg protoPaths doc), importPathList_eq doc]
  unfold ConfigProtoPath
  simp only [XmlElement.Elements_mk]
  rw [find?_updateFirst _ _ _ (fun e he => by cases e; exact he) (by rfl)]
  simp only [Option.map_some', Option.getD_some, XmlElement.Elements_mk]
  rw [find?_updateFirst _ _ _ (fun e _ => by rfl) (by rfl)]
  simp only [Option.map_some', Option.getD_some, XmlElement.Elements_mk]
  rw [find?_updateFirst _ _ _ (fun e he => by cases e; exact he) (by rfl)]
  simp only [Option.map_some', Option.getD_some, XmlElement.Elements_mk]
  rw [getD_map_Elements _ (.mk "list" [] [] "") rfl, getD_map_Elements _ XmlElement.empty rfl,
    setOption_find? _ _ (by decide), setOption_find? _ _ (by decide),
    getD_map_Elements _ (.mk "component" [("name", "ProtobufLanguageSettings")] [] "") rfl]

/-- C16. After `ConfigProtoPath goPkg protoPaths` the import path list is the entries
the list held before whose comment is neither empty nor `goPkg`, each exactly once
and unchanged (as a list: a rearrangement of the list of these entries), followed by
one new entry per element of `protoPaths` in the given order, each with the comment
`goPkg` and one option `location` with the value `file://` followed by the path. No
entry of the retained part has an empty comment or the comment `goPkg`. -/
theorem ConfigProtoPath_import_list (goPkg : String) (protoPaths : List String)
    (docRoot : XmlElement) :
    ∃ kept, importPathList (ConfigProtoPath goPkg protoPaths docRoot) =
        kept ++ protoPaths.map (fun p =>
          XmlElement.mk "ImportPathEntry" []
            [XmlElement.mk "option" [("name", "location"), ("value", "file://" ++ p)] [] ""]
            goPkg) ∧
      kept.Perm ((importPathList docRoot).filter
        (fun e => decide (e.Comment ≠ "" ∧ e.Comment ≠ goPkg))) ∧
      ∀ e ∈ kept, e.Comment ≠ "" ∧ e.Comment ≠ goPkg := by
  refine ⟨pruneEntries goPkg (importPathList docRoot),
    importPathList_ConfigProtoPath goPkg protoPaths docRoot,
    pruneEntries_perm goPkg _, ?_⟩
  intro e he
  have := (pruneEntries_perm goPkg (importPathList docRoot)).mem_iff.1 he
  simpa using (List.mem_filter.1 this).2

/-! ## Fault-free plans stay fault-free -/

theorem mkdirAllList_noFaults (l : List String) :
    ∀ w, NoFaults w → NoFaults (mkdirAllList l w).2 := by
  induction l with
  | nil => intro w h; exact h
  | cons p rest ih =>
    intro w h
    unfold mkdirAllList
    rcases hp : w.fs p with _ | n
    · simp only
      have ih' := ih w h
      rcases hr : mkdirAllList rest w with ⟨e, w1⟩
      rw [hr] at ih'
      cases e with
      | some e => exact ih'
      | none => exact Mkdir_noFaults ih'
    · cases n <;> exact h

theorem MkdirAll_noFaults (p : String) (w : World) (h : NoFaults w) :
    NoFaults (MkdirAll p w).2 := mkdirAllList_noFaults _ w h

theorem ReadFile_noFaults (p : String) (w : World) (h : NoFaults w) :
    NoFaults (ReadFile p w).2 := by
  have := popFault_keeps_noFaults h
  unfold ReadFile
  rcases hpf : w.popFault with ⟨b, w1⟩
  rw [hpf] at this
  cases b with
  | true => exact this
  | false =>
    simp only
    rcases hp : w1.fs p with _ | n
    · exact this
    · cases n <;> exact this

theorem Stat_noFaults (p : String) (w : World) (h : NoFaults w) :
    NoFaults (Stat p w).2 := by
  have := popFault_keeps_noFaults h
  unfold Stat
  rcases hpf : w.popFault with ⟨b, w1⟩
  rw [hpf] at this
  cases b with
  | true => exact this
  | false =>
    simp only
    rcases hp : w1.fs p with _ | n
    · exact this
    · cases n <;> exact this

theorem RemoveAll_noFaults (p : String) (w : World) (h : NoFaults w) :
    NoFaults (RemoveAll p w).2 := by
  have := popFault_keeps_noFaults h
  unfold RemoveAll
  split
  · exact h
  · split
    · exact h
    · rcases hpf : w.popFault with ⟨b, w1⟩
      rw [hpf] at this
      cases b with
      | true => exact this
      | false =>
        simp only
        split <;> exact this

theorem WriteFile_noFaults (u : Nat) (p data : String) (perm : Nat) (w : World) (h : NoFaults w) :
    NoFaults (WriteFile u p data perm w).2 := by
  unfold WriteFile
  have h1 := (OpenFile_spec u p perm w).2.1 h
  rcases ho : OpenFile u p perm w with ⟨e, w1⟩
  rw [ho] at h1
  cases e with
  | some e => exact h1
  | none =>
    simp only
    have h2 := (WriteTo_spec p data w1).2.1 h1
    rcases hw : WriteTo p data w1 with ⟨e2, w2⟩
    rw [hw] at h2
    cases e2 <;> exact CloseFile_noFaults h2

theorem Unzip_noFaults (u : Nat) (dest : String) (files : List ZipFile) :
    ∀ w, NoFaults w → NoFaults (Unzip u files dest w).2 := by
  induction files with
  | nil => intro w h; exact h
  | cons f rest ih =>
    intro w h
    unfold Unzip
    have h1 := (unzipFile_spec u dest f w).2.1 h
    rcases hu : unzipFile u dest f w with ⟨e, w1⟩
    rw [hu] at h1
    cases e with
    | some e => exact h1
    | none => exact ih w1 h1

theorem downloadProtocZip_noFaults (env : Env) (url dest : String) (w : World)
    (h : NoFaults w) : NoFaults (downloadProtocZip env url dest w).2 := by
  unfold downloadProtocZip
  split
  · exact h
  · cases env.httpDo url with
    | none => exact h
    | some resp =>
      simp only
      split
      · exact h
      · split
        · exact h
        · have h1 := WriteFile_noFaults env.umask dest resp.body 438 w h
          rcases hw : WriteFile env.umask dest resp.body 438 w with ⟨e, w1⟩
          rw [hw] at h1
          cases e <;> exact h1

theorem getProtocDownloadUrl_noFaults (g : Generator) (v : PkgVars) (w : World)
    (h : NoFaults w) : NoFaults (g.getProtocDownloadUrl v w).2 := by
  unfold Generator.getProtocDownloadUrl
  cases w.urlOnce <;> exact h

theorem getProtocDistPath_noFaults (g : Generator) (v : PkgVars) (env : Env) (w : World)
    (h : NoFaults w) : NoFaults (g.getProtocDistPath v env w).2 := by
  unfold Generator.getProtocDistPath
  cases w.distOnce with
  | some r => exact h
  | none =>
    simp only
    unfold Generator.doGetProtocDistPath
    have h1 := getProtocDownloadUrl_noFaults g v w h
    rcases hu : g.getProtocDownloadUrl v w with ⟨r, w1⟩
    rw [hu] at h1
    cases r <;> exact h1

theorem extractProtoc_noFaults (g : Generator) (v : PkgVars) (env : Env) (bytes : String)
    (w : World) (h : NoFaults w) : NoFaults (g.extractProtoc v env bytes w).2 := by
  unfold Generator.extractProtoc
  cases env.zipNewReader bytes with
  | error e => exact h
  | ok zr =>
    simp only
    have h1 := getProtocDistPath_noFaults g v env w h
    rcases hd : g.getProtocDistPath v env w with ⟨r, w1⟩
    rw [hd] at h1
    cases r with
    | error e => exact h1
    | ok dist =>
      simp only
      have h2 := RemoveAll_noFaults dist (w1.log (.removeAll dist)) h1
      rcases hr : RemoveAll dist (w1.log (.removeAll dist)) with ⟨e2, w2⟩
      rw [hr] at h2
      cases e2 with
      | some e2 => exact h2
      | none =>
        simp only
        have h3 := Unzip_noFaults env.umask dist zr w2 h2
        rcases hu : Unzip env.umask zr dist w2 with ⟨e3, w3⟩
        rw [hu] at h3
        cases e3 <;> exact h3

theorem downloadAndExtract_noFaults (g : Generator) (v : PkgVars) (env : Env) (z : String)
    (w : World) (h : NoFaults w) : NoFaults (g.downloadAndExtract v env z w).2 := by
  unfold Generator.downloadAndExtract
  have h1 := getProtocDownloadUrl_noFaults g v w h
  rcases hu : g.getProtocDownloadUrl v w with ⟨r, w1⟩
  rw [hu] at h1
  cases r with
  | error e => exact h1
  | ok url =>
    simp only
    have h2 := downloadProtocZip_noFaults env url z (w1.log (.download url z)) h1
    rcases hd : downloadProtocZip env url z (w1.log (.download url z)) with ⟨e, w2⟩
    rw [hd] at h2
    cases e with
    | some e => exact h2
    | none =>
      simp only
      have h3 := ReadFile_noFaults z w2 h2
      rcases hr : ReadFile z w2 with ⟨rr, w3⟩
      rw [hr] at h3
      cases rr with
      | ok bytes => exact extractProtoc_noFaults g v env bytes w3 h3
      | notExist => exact h3
      | otherErr => exact h3

theorem prepareProtoc_noFaults (g : Generator) (v : PkgVars) (env : Env) (w : World)
    (h : NoFaults w) : NoFaults (g.prepareProtoc v env w).2 := by
  unfold Generator.prepareProtoc Generator.getProtocDistZipFilePath
  have h1 := getProtocDistPath_noFaults g v env w h
  rcases hd : g.getProtocDistPath v env w with ⟨r, w1⟩
  rw [hd] at h1
  cases r with
  | error e => exact h1
  | ok dist =>
    simp only
    have h2 := MkdirAll_noFaults (Dir (dist ++ ".zip")) w1 h1
    rcases hm : MkdirAll (Dir (dist ++ ".zip")) w1 with ⟨e, w2⟩
    rw [hm] at h2
    cases e with
    | some e => exact h2
    | none =>
      simp only
      have h3 := ReadFile_noFaults (dist ++ ".zip") w2 h2
      rcases hr : ReadFile (dist ++ ".zip") w2 with ⟨rr, w3⟩
      rw [hr] at h3
      cases rr with
      | ok bytes =>
        simp only
        split
        · exact downloadAndExtract_noFaults g v env _ w3 h3
        · exact extractProtoc_noFaults g v env bytes w3 h3
      | notExist => exact downloadAndExtract_noFaults g v env _ w3 h3
      | otherErr => exact h3

theorem GoInstall_noFaults (env : Env) (pkg dir : String) (w : World) (h : NoFaults w) :
    NoFaults (GoInstall env pkg dir w).2 := by
  unfold GoInstall
  split <;> exact h

theorem prepareProtocGenGo_noFaults (g : Generator) (v : PkgVars) (env : Env) (w : World)
    (h : NoFaults w) : NoFaults (g.prepareProtocGenGo v env w).2 := by
  unfold Generator.prepareProtocGenGo
  cases GoListPkg env pkgNameProtocGenGo [] with
  | error e => exact h
  | ok pkg =>
    simp only
    split
    · exact h
    · cases pkg.Module with
      | none => exact h
      | some module =>
        simp only
        have h1 := MkdirAll_noFaults (g.getProtocGenGoPath v module.Version) w h
        rcases hm : MkdirAll (g.getProtocGenGoPath v module.Version) w with ⟨e, w1⟩
        rw [hm] at h1
        cases e with
        | some e => exact h1
        | none =>
          simp only
          have h2 := GoInstall_noFaults env pkgNameProtocGenGo
            (g.getProtocGenGoPath v module.Version) w1 h1
          rcases hg : GoInstall env pkgNameProtocGenGo
            (g.getProtocGenGoPath v module.Version) w1 with ⟨e2, w2⟩
          rw [hg] at h2
          cases e2 <;> exact h2

theorem prepareProtocGenGoGrpc_noFaults (g : Generator) (v : PkgVars) (env : Env) (w : World)
    (h : NoFaults w) : NoFaults (g.prepareProtocGenGoGrpc v env w).2 := by
  unfold Generator.prepareProtocGenGoGrpc
  cases GoListPkg env pkgNameGrpc [] with
  | error e => exact h
  | ok pkg =>
    simp only
    split
    · exact h
    · cases pkg.Module with
      | none => exact h
      | some module =>
        simp only
        have h1 := MkdirAll_noFaults (g.getProtocGenGoGrpcPath v g.getProtocGenGoGrpcVer) w h
        rcases hm : MkdirAll (g.getProtocGenGoGrpcPath v g.getProtocGenGoGrpcVer) w with ⟨e, w1⟩
        rw [hm] at h1
        cases e with
        | some e => exact h1
        | none =>
          simp only
          have h2 := GoInstall_noFaults env (pkgNameProtocGenGoGrpc ++ "@v" ++ g.getProtocGenGoGrpcVer)
            (g.getProtocGenGoGrpcPath v g.getProtocGenGoGrpcVer) w1 h1
          rcases hg : GoInstall env (pkgNameProtocGenGoGrpc ++ "@v" ++ g.getProtocGenGoGrpcVer)
            (g.getProtocGenGoGrpcPath v g.getProtocGenGoGrpcVer) w1 with ⟨e2, w2⟩
          rw [hg] at h2
          cases e2 <;> exact h2

theorem findIdeaDir_noFaults (fuel : Nat) : ∀ (findFrom : String) (w : World),
    NoFaults w → NoFaults (findIdeaDir fuel findFrom w).2 := by
  induction fuel with
  | zero => intro f w h; exact h
  | succ n ih =>
    intro f w h
    unfold findIdeaDir
    have h1 := Stat_noFaults (Join f ".idea") w h
    rcases hs : Stat (Join f ".idea") w with ⟨r, w1⟩
    rw [hs] at h1
    cases r with
    | isDir => exact h1
    | otherErr => exact h1
    | notDir =>
      simp only
      split
      · exact h1
      · exact ih _ w1 h1
    | notExist =>
      simp only
      split
      · exact h1
      · exact ih _ w1 h1

theorem FindJetBrainsRootAndOpen_noFaults (env : Env) (findFrom : String) (w : World)
    (h : NoFaults w) : NoFaults (FindJetBrainsRootAndOpen env findFrom w).2 := by
  unfold FindJetBrainsRootAndOpen
  cases Abs env findFrom with
  | error e => exact h
  | ok start =>
    simp only
    have h1 := findIdeaDir_noFaults (start.length + 1) start w h
    rcases hf : findIdeaDir (start.length + 1) start w with ⟨r, w1⟩
    rw [hf] at h1
    cases r with
    | error e => exact h1
    | ok ideaDir =>
      simp only
      have h2 := ReadFile_noFaults (Join ideaDir "protoeditor.xml") w1 h1
      rcases hr : ReadFile (Join ideaDir "protoeditor.xml") w1 with ⟨rr, w2⟩
      rw [hr] at h2
      cases rr with
      | otherErr => exact h2
      | notExist => exact h2
      | ok bytes =>
        simp only
        split
        · exact h2
        · cases env.xmlUnmarshal bytes <;> exact h2

theorem Save_noFaults (env : Env) (xmlFile : String) (doc : XmlElement) (w : World)
    (h : NoFaults w) : NoFaults (Save env xmlFile doc w).2 := by
  unfold Save
  cases env.xmlEncode doc with
  | none => exact h
  | some text =>
    simp only
    have h2 := WriteFile_noFaults env.umask xmlFile ("<?xml version=\"1.0\" encoding=\"UTF-8\"?>" ++ text)
      420 (w.log (.editorSave xmlFile)) h
    rcases hw : WriteFile env.umask xmlFile ("<?xml version=\"1.0\" encoding=\"UTF-8\"?>" ++ text) 420
      (w.log (.editorSave xmlFile)) with ⟨e, w1⟩
    rw [hw] at h2
    cases e <;> exact h2

theorem configProtoEditor_noFaults (env : Env) (genPkg : PackagePublic)
    (protoPaths : List String) (w : World) (h : NoFaults w) :
    NoFaults (configProtoEditor env genPkg protoPaths w).2 := by
  unfold configProtoEditor
  have h1 := FindJetBrainsRootAndOpen_noFaults env genPkg.Dir w h
  rcases hf : FindJetBrainsRootAndOpen env genPkg.Dir w with ⟨r, w1⟩
  rw [hf] at h1
  cases r with
  | error e => exact h1
  | ok pr =>
    rcases pr with ⟨xmlFile, docRoot⟩
    simp only
    have h2 := Save_noFaults env xmlFile (ConfigProtoPath genPkg.ImportPath protoPaths docRoot)
      w1 h1
    rcases hs : Save env xmlFile (ConfigProtoPath genPkg.ImportPath protoPaths docRoot) w1
      with ⟨e, w2⟩
    rw [hs] at h2
    cases e <;> exact h2

/-! ## Runs from worlds that agree outside the editor configuration -/

theorem writes_append (a b : List Event) : writes (a ++ b) = writes a ++ writes b := by
  simp [writes]

theorem writes_notWrite (added : List Event) (h : ∀ e ∈ added, NotWrite e) :
    writes added = [] := by
  unfold writes
  rw [List.filter_eq_nil_iff]
  intro e he
  cases e with
  | writeFile p c => exact absurd rfl (h _ he p c)
  | download _ _ => simp
  | removeAll _ => simp
  | editorSave _ => simp
  | goInstall _ _ => simp
  | exec _ _ => simp

theorem Agree.apop {S : String → Prop} {w w' : World} (h : Agree S w w') :
    w.popFault.1 = false ∧ w'.popFault.1 = false ∧ Agree S w.popFault.2 w'.popFault.2 := by
  obtain ⟨n1, n2, hfs, htr⟩ := h
  have a := popFault_noFaults n1
  have b := popFault_noFaults n2
  have ta := (popFault_meta w).1
  have tb := (popFault_meta w').1
  refine ⟨a.1, b.1, a.2.2, b.2.2, ?_, ?_⟩
  · intro p hp
    rw [a.2.1, b.2.1]; exact hfs p hp
  · rw [ta, tb]; exact htr

theorem Agree.aset {S : String → Prop} {w w' : World} (h : Agree S w w') (p : String)
    (n : Option Node) : Agree S (w.setNode p n) (w'.setNode p n) := by
  obtain ⟨n1, n2, hfs, htr⟩ := h
  refine ⟨n1, n2, ?_, htr⟩
  intro q hq
  show (if q = p then n else w.fs q) = (if q = p then n else w'.fs q)
  split
  · rfl
  · exact hfs q hq

theorem Agree.alog {S : String → Prop} {w w' : World} (h : Agree S w w') (e : Event) :
    Agree S (w.log e) (w'.log e) := by
  obtain ⟨n1, n2, hfs, htr⟩ := h
  refine ⟨n1, n2, hfs, ?_⟩
  show writes (w.trace ++ [e]) = writes (w'.trace ++ [e])
  rw [writes_append, writes_append, htr]

theorem Mkdir_agree {S : String → Prop} {w w' : World} (h : Agree S w w') (p : String) :
    (Mkdir p w).1 = (Mkdir p w').1 ∧ Agree S (Mkdir p w).2 (Mkdir p w').2 := by
  obtain ⟨a, b, c⟩ := h.apop
  unfold Mkdir
  rcases h1 : w.popFault with ⟨b1, w1⟩
  rcases h2 : w'.popFault with ⟨b2, w2⟩
  rw [h1] at a c
  rw [h2] at b c
  simp only at a b c
  subst a; subst b
  exact ⟨rfl, c.aset p _⟩

theorem mkdirAllList_agree {S : String → Prop} (l : List String) (hl : ∀ p ∈ l, ¬ S p) :
    ∀ w w', Agree S w w' →
      (mkdirAllList l w).1 = (mkdirAllList l w').1 ∧
        Agree S (mkdirAllList l w).2 (mkdirAllList l w').2 := by
  induction l with
  | nil => intro w w' h; exact ⟨rfl, h⟩
  | cons p rest ih =>
    intro w w' h
    have hp : w.fs p = w'.fs p := h.2.2.1 p (hl p (List.mem_cons_self _ _))
    unfold mkdirAllList
    rw [← hp]
    rcases hn : w.fs p with _ | n
    · simp only
      obtain ⟨e1, e2⟩ := ih (fun q hq => hl q (List.mem_cons_of_mem _ hq)) w w' h
      rcases hr : mkdirAllList rest w with ⟨r1, w1⟩
      rcases hr' : mkdirAllList rest w' with ⟨r2, w2⟩
      rw [hr, hr'] at e1 e2
      simp only at e1 e2
      subst e1
      cases r1 with
      | some e => exact ⟨rfl, e2⟩
      | none => exact Mkdir_agree e2 p
    · cases n with
      | dir => exact ⟨rfl, h⟩
      | file c m => exact ⟨rfl, h⟩

theorem OpenFile_agree (u : Nat) {S : String → Prop} {w w' : World} (h : Agree S w w') (p : String)
    (mode : Nat) (hp : ¬ S p) (ha : ∀ a ∈ ancestors p, ¬ S a) :
    (OpenFile u p mode w).1 = (OpenFile u p mode w').1 ∧
      Agree S (OpenFile u p mode w).2 (OpenFile u p mode w').2 := by
  obtain ⟨a, b, c⟩ := h.apop
  unfold OpenFile
  rcases h1 : w.popFault with ⟨b1, w1⟩
  rcases h2 : w'.popFault with ⟨b2, w2⟩
  rw [h1] at a c
  rw [h2] at b c
  simp only at a b c
  subst a; subst b
  simp only
  have hfp : w1.fs p = w2.fs p := c.2.2.1 p hp
  rw [← hfp]
  rcases hn : w1.fs p with _ | n
  · simp only
    cases hh : (ancestors p).head? with
    | none => exact ⟨rfl, c.aset p _⟩
    | some d =>
      simp only
      have hd : w1.fs d = w2.fs d := c.2.2.1 d (ha d (List.mem_of_mem_head? hh))
      rw [← hd]
      split
      · exact ⟨rfl, c.aset p _⟩
      · exact ⟨rfl, c⟩
  · cases n with
    | dir => exact ⟨rfl, c⟩
    | file c0 m => exact ⟨rfl, c.aset p _⟩

theorem WriteTo_agree {S : String → Prop} {w w' : World} (h : Agree S w w') (p data : String)
    (hp : ¬ S p) :
    (WriteTo p data w).1 = (WriteTo p data w').1 ∧
      Agree S (WriteTo p data w).2 (WriteTo p data w').2 := by
  obtain ⟨a, b, c⟩ := h.apop
  unfold WriteTo
  rcases h1 : w.popFault with ⟨b1, w1⟩
  rcases h2 : w'.popFault with ⟨b2, w2⟩
  rw [h1] at a c
  rw [h2] at b c
  simp only at a b c
  subst a; subst b
  simp only
  have hfp : w1.fs p = w2.fs p := c.2.2.1 p hp
  rw [← hfp]
  rcases hn : w1.fs p with _ | n
  · exact ⟨rfl, c⟩
  · cases n with
    | dir => exact ⟨rfl, c⟩
    | file c0 m => exact ⟨rfl, c.aset p _⟩

theorem CloseFile_agree {S : String → Prop} {w w' : World} (h : Agree S w w') :
    (CloseFile w).1 = (CloseFile w').1 ∧ Agree S (CloseFile w).2 (CloseFile w').2 := by
  obtain ⟨a, b, c⟩ := h.apop
  unfold CloseFile
  rcases h1 : w.popFault with ⟨b1, w1⟩
  rcases h2 : w'.popFault with ⟨b2, w2⟩
  rw [h1] at a c
  rw [h2] at b c
  simp only at a b c
  subst a; subst b
  exact ⟨rfl, c⟩

theorem WriteFile_agree (u : Nat) {S : String → Prop} {w w' : World} (h : Agree S w w') (p data : String)
    (perm : Nat) (hp : ¬ S p) (ha : ∀ a ∈ ancestors p, ¬ S a) :
    (WriteFile u p data perm w).1 = (WriteFile u p data perm w').1 ∧
      Agree S (WriteFile u p data perm w).2 (WriteFile u p data perm w').2 := by
  unfold WriteFile
  obtain ⟨e1, e2⟩ := OpenFile_agree u h p perm hp ha
  rcases ho : OpenFile u p perm w with ⟨r1, w1⟩
  rcases ho' : OpenFile u p perm w' with ⟨r2, w2⟩
  rw [ho, ho'] at e1 e2
  simp only at e1 e2
  subst e1
  cases r1 with
  | some e => exact ⟨rfl, e2⟩
  | none =>
    simp only
    obtain ⟨f1, f2⟩ := WriteTo_agree e2 p data hp
    rcases hw : WriteTo p data w1 with ⟨s1, w3⟩
    rcases hw' : WriteTo p data w2 with ⟨s2, w4⟩
    rw [hw, hw'] at f1 f2
    simp only at f1 f2
    subst f1
    cases s1 with
    | some e => exact ⟨rfl, (CloseFile_agree f2).2⟩
    | none => exact CloseFile_agree f2

theorem RemoveAll_agree {S : String → Prop} {w w' : World} (h : Agree S w w') (p : String) :
    (RemoveAll p w).1 = (RemoveAll p w').1 ∧
      Agree S (RemoveAll p w).2 (RemoveAll p w').2 := by
  obtain ⟨a, b, c⟩ := h.apop
  unfold RemoveAll
  split
  · exact ⟨rfl, h⟩
  · split
    · exact ⟨rfl, h⟩
    · rcases h1 : w.popFault with ⟨b1, w1⟩
      rcases h2 : w'.popFault with ⟨b2, w2⟩
      rw [h1] at a c
      rw [h2] at b c
      simp only at a b c
      subst a; subst b
      simp only
      split
      · refine ⟨rfl, c.1, c.2.1, ?_, c.2.2.2⟩
        intro q hq
        show (if q ≠ Clean p ∧ atOrBelow (Clean p) q = true then none else w1.fs q) =
          (if q ≠ Clean p ∧ atOrBelow (Clean p) q = true then none else w2.fs q)
        split
        · rfl
        · exact c.2.2.1 q hq
      · refine ⟨rfl, c.1, c.2.1, ?_, c.2.2.2⟩
        intro q hq
        show (if atOrBelow (Clean p) q = true then none else w1.fs q) =
          (if atOrBelow (Clean p) q = true then none else w2.fs q)
        split
        · rfl
        · exact c.2.2.1 q hq

theorem cleanDirs_agree {S : String → Prop} (dir : String) (pieces : List String) :
    ∀ w w', Agree S w w' →
      (cleanDirs dir pieces w).1 = (cleanDirs dir pieces w').1 ∧
        Agree S (cleanDirs dir pieces w).2 (cleanDirs dir pieces w').2 := by
  induction pieces with
  | nil => intro w w' h; exact ⟨rfl, h⟩
  | cons piece rest ih =>
    intro w w' h
    unfold cleanDirs
    split
    · exact ih w w' h
    · generalize (if !IsAbs (TrimSpace piece) then Join dir (TrimSpace piece)
        else TrimSpace piece) = t
      obtain ⟨e1, e2⟩ := RemoveAll_agree (h.alog (.removeAll t)) t
      rcases hr : RemoveAll t (w.log (.removeAll t)) with ⟨r1, w1⟩
      rcases hr' : RemoveAll t (w'.log (.removeAll t)) with ⟨r2, w2⟩
      rw [hr, hr'] at e1 e2
      simp only at e1 e2
      subst e1
      cases r1 with
      | some e => exact ⟨rfl, e2⟩
      | none => exact ih w1 w2 e2

theorem stageAndInvoke_agree {S : String → Prop} (g : Generator) (env : Env)
    (genFilePkg genPkg : PackagePublic) (dist : String) (lines : List String)
    (hfoot : ∀ p ∈ stagingFootprint g env genPkg, ¬ S p) (w w' : World) (h : Agree S w w') :
    (g.stageAndInvoke env genFilePkg genPkg dist lines w).1 =
        (g.stageAndInvoke env genFilePkg genPkg dist lines w').1 ∧
      Agree S (g.stageAndInvoke env genFilePkg genPkg dist lines w).2
        (g.stageAndInvoke env genFilePkg genPkg dist lines w').2 := by
  have hfile : ¬ S (g.getProtoGenFilePath env genPkg) :=
    hfoot _ (by simp [stagingFootprint])
  have hanc : ∀ a ∈ ancestors (g.getProtoGenFilePath env genPkg), ¬ S a :=
    fun a ha => hfoot _ (by simp [stagingFootprint, ha])
  have hdir : ∀ p ∈ Dir (g.getProtoGenFilePath env genPkg) ::
      ancestors (Dir (g.getProtoGenFilePath env genPkg)), ¬ S p := by
    intro p hp
    apply hfoot
    unfold stagingFootprint
    exact List.mem_append_right _ hp
  unfold Generator.stageAndInvoke
  obtain ⟨e1, e2⟩ := mkdirAllList_agree _ hdir w w' h
  change (MkdirAll (Dir (g.getProtoGenFilePath env genPkg)) w).1 =
    (MkdirAll (Dir (g.getProtoGenFilePath env genPkg)) w').1 at e1
  change Agree S (MkdirAll (Dir (g.getProtoGenFilePath env genPkg)) w).2
    (MkdirAll (Dir (g.getProtoGenFilePath env genPkg)) w').2 at e2
  rcases hm : MkdirAll (Dir (g.getProtoGenFilePath env genPkg)) w with ⟨r1, w1⟩
  rcases hm' : MkdirAll (Dir (g.getProtoGenFilePath env genPkg)) w' with ⟨r2, w2⟩
  rw [hm, hm'] at e1 e2
  simp only at e1 e2
  subst e1
  cases r1 with
  | some e => exact ⟨rfl, e2⟩
  | none =>
    simp only
    obtain ⟨f1, f2⟩ := WriteFile_agree env.umask
      (e2.alog (.writeFile (g.getProtoGenFilePath env genPkg) (optsText lines)))
      (g.getProtoGenFilePath env genPkg) (optsText lines) 438 hfile hanc
    rcases hw : WriteFile env.umask (g.getProtoGenFilePath env genPkg) (optsText lines) 438
      (w1.log (.writeFile (g.getProtoGenFilePath env genPkg) (optsText lines))) with ⟨s1, w3⟩
    rcases hw' : WriteFile env.umask (g.getProtoGenFilePath env genPkg) (optsText lines) 438
      (w2.log (.writeFile (g.getProtoGenFilePath env genPkg) (optsText lines))) with ⟨s2, w4⟩
    rw [hw, hw'] at f1 f2
    simp only at f1 f2
    subst f1
    cases s1 with
    | some e => exact ⟨rfl, f2⟩
    | none =>
      simp only
      obtain ⟨c1, c2⟩ := cleanDirs_agree genFilePkg.Dir
        ((splitChars ',' g.getCleanDir.data).map String.mk) w3 w4 f2
      rcases hc : cleanDirs genFilePkg.Dir
        ((splitChars ',' g.getCleanDir.data).map String.mk) w3 with ⟨t1, w5⟩
      rcases hc' : cleanDirs genFilePkg.Dir
        ((splitChars ',' g.getCleanDir.data).map String.mk) w4 with ⟨t2, w6⟩
      rw [hc, hc'] at c1 c2
      simp only at c1 c2
      subst c1
      cases t1 with
      | some e => exact ⟨rfl, c2⟩
      | none =>
        simp only
        split
        · exact ⟨rfl, c2.alog _⟩
        · exact ⟨rfl, c2.alog _⟩

/-! ## The claim about failures of the editor integration -/

theorem Run_eq_RunWith (g : Generator) (v : PkgVars) (env : Env) (w : World) :
    g.Run v env w = g.RunWith (configProtoEditor env) v env w := rfl

theorem Stat_fs (p : String) (w : World) : (Stat p w).2.fs = w.fs := by
  have hf := popFault_fs w
  unfold Stat
  rcases hpf : w.popFault with ⟨b, w1⟩
  rw [hpf] at hf
  cases b with
  | true => exact hf
  | false =>
    simp only
    rcases hp : w1.fs p with _ | n
    · exact hf
    · cases n <;> exact hf

theorem findIdeaDir_fs (fuel : Nat) : ∀ (findFrom : String) (w : World),
    (findIdeaDir fuel findFrom w).2.fs = w.fs := by
  induction fuel with
  | zero => intro f w; rfl
  | succ n ih =>
    intro f w
    unfold findIdeaDir
    have h1 := Stat_fs (Join f ".idea") w
    rcases hs : Stat (Join f ".idea") w with ⟨r, w1⟩
    rw [hs] at h1
    simp only at h1
    cases r with
    | isDir => exact h1
    | otherErr => exact h1
    | notDir =>
      simp only
      split
      · exact h1
      · rw [ih, h1]
    | notExist =>
      simp only
      split
      · exact h1
      · rw [ih, h1]

theorem FindJetBrainsRootAndOpen_fs (env : Env) (findFrom : String) (w : World) :
    (FindJetBrainsRootAndOpen env findFrom w).2.fs = w.fs ∧
      ∀ x doc, (FindJetBrainsRootAndOpen env findFrom w).1 = .ok (x, doc) →
        ∃ d, x = Join d "protoeditor.xml" := by
  unfold FindJetBrainsRootAndOpen
  cases Abs env findFrom with
  | error e => exact ⟨rfl, fun x doc h => by simp at h⟩
  | ok start =>
    simp only
    have h1 := findIdeaDir_fs (start.length + 1) start w
    rcases hf : findIdeaDir (start.length + 1) start w with ⟨r, w1⟩
    rw [hf] at h1
    simp only at h1
    cases r with
    | error e => exact ⟨h1, fun x doc h => by simp at h⟩
    | ok ideaDir =>
      simp only
      have h2 := ReadFile_fs (Join ideaDir "protoeditor.xml") w1
      rcases hr : ReadFile (Join ideaDir "protoeditor.xml") w1 with ⟨rr, w2⟩
      rw [hr] at h2
      simp only at h2
      have hfs : w2.fs = w.fs := by rw [h2, h1]
      cases rr with
      | otherErr => exact ⟨hfs, fun x doc h => by simp at h⟩
      | notExist =>
        refine ⟨hfs, fun x doc h => ?_⟩
        simp only [Except.ok.injEq, Prod.mk.injEq] at h
        exact ⟨ideaDir, h.1.symm⟩
      | ok bytes =>
        simp only
        split
        · refine ⟨hfs, fun x doc h => ?_⟩
          simp only [Except.ok.injEq, Prod.mk.injEq] at h
          exact ⟨ideaDir, h.1.symm⟩
        · cases env.xmlUnmarshal bytes with
          | none => exact ⟨hfs, fun x doc h => by simp at h⟩
          | some d =>
            refine ⟨hfs, fun x doc h => ?_⟩
            simp only [Except.ok.injEq, Prod.mk.injEq] at h
            exact ⟨ideaDir, h.1.symm⟩

theorem WriteFile_frame (u : Nat) (p data : String) (perm : Nat) (w : World) :
    ChangedOnly (fun q => q = p) w (WriteFile u p data perm w).2 := by
  unfold WriteFile
  have h1 := (OpenFile_frame u p perm w).1
  rcases ho : OpenFile u p perm w with ⟨e, w1⟩
  rw [ho] at h1
  cases e with
  | some e => exact h1
  | none =>
    simp only
    have h2 := (WriteTo_frame p data w1).1
    rcases hw : WriteTo p data w1 with ⟨e2, w2⟩
    rw [hw] at h2
    have h3 : ChangedOnly (fun q => q = p) w2 (CloseFile w2).2 :=
      ChangedOnly.cof_fs_eq (CloseFile_fs w2)
    cases e2 <;> exact (h1.ctrans h2).ctrans h3

theorem Save_frame (env : Env) (xmlFile : String) (doc : XmlElement) (w : World) :
    ChangedOnly (fun q => q = xmlFile) w (Save env xmlFile doc w).2 := by
  unfold Save
  cases env.xmlEncode doc with
  | none => exact ChangedOnly.crefl _ w
  | some text =>
    simp only
    have h2 := WriteFile_frame env.umask xmlFile ("<?xml version=\"1.0\" encoding=\"UTF-8\"?>" ++ text)
      420 (w.log (.editorSave xmlFile))
    rcases hw : WriteFile env.umask xmlFile ("<?xml version=\"1.0\" encoding=\"UTF-8\"?>" ++ text) 420
      (w.log (.editorSave xmlFile)) with ⟨e, w1⟩
    rw [hw] at h2
    cases e <;> exact h2

theorem Join_suffix (d : String) :
    hasSuffix (Join d "protoeditor.xml") "protoeditor.xml" = true := by
  have key : ∃ X, (Join d "protoeditor.xml").data = X ++ "protoeditor.xml".data := by
    unfold Join
    by_cases hd : d ≠ ""
    · rw [if_pos hd]
      have hdd : d.data ≠ [] := fun h => hd (String.ext h)
      have hdata : (d ++ "/" ++ "protoeditor.xml").data =
          d.data ++ '/' :: "protoeditor.xml".data := by
        simp [String.data_append]
      show ∃ X, cleanChars (d ++ "/" ++ "protoeditor.xml").data = _
      rw [hdata]
      unfold cleanChars
      have hhead : (d.data ++ '/' :: "protoeditor.xml".data).head? = d.data.head? := by
        cases hx : d.data with
        | nil => exact absurd hx hdd
        | cons a t => rfl
      rw [hhead, splitChars_append,
        splitChars_of_no_sep '/' "protoeditor.xml".data (by decide), List.foldl_append]
      generalize hr : decide (d.data.head? = some '/') = r
      have hS : NormStack r ((splitChars '/' d.data).foldl (cleanStep r) []) :=
        foldl_cleanStep_norm _ _ NormStack.nil (splitChars_no_sep '/' d.data)
      generalize (splitChars '/' d.data).foldl (cleanStep r) [] = S0 at hS
      have hstep : [("protoeditor.xml".data)].foldl (cleanStep r) S0 =
          "protoeditor.xml".data :: S0 := by
        simp only [List.foldl_cons, List.foldl_nil]
        unfold cleanStep
        rw [if_neg (by decide), if_neg (by decide)]
      rw [hstep]
      by_cases hS0 : S0 = []
      · subst hS0
        rw [renderPath_single r _ (by decide)]
        cases r
        · exact ⟨[], rfl⟩
        · exact ⟨['/'], rfl⟩
      · rw [renderPath_cons (NormStack.comp ⟨by decide, by decide, by decide⟩ (by decide) hS)
          hS0]
        exact ⟨renderPath r S0 ++ ['/'], by simp⟩
    · rw [if_neg hd, if_pos (by decide)]
      exact ⟨[], by decide⟩
  obtain ⟨X, hX⟩ := key
  unfold hasSuffix
  rw [hX, List.reverse_append]
  exact List.isPrefixOf_iff_prefix.2 (List.prefix_append _ _)

theorem configProtoEditor_frame (env : Env) :
    SinkFrame (fun p => hasSuffix p "protoeditor.xml" = true) (configProtoEditor env) := by
  intro genPkg protoPaths w
  refine ⟨configProtoEditor_noFaults env genPkg protoPaths w, ?_,
    configProtoEditor_adds env genPkg protoPaths w⟩
  intro p hp
  unfold configProtoEditor
  have h1 := FindJetBrainsRootAndOpen_fs env genPkg.Dir w
  rcases hf : FindJetBrainsRootAndOpen env genPkg.Dir w with ⟨r, w1⟩
  rw [hf] at h1
  simp only at h1
  cases r with
  | error e => simp only; rw [h1.1]
  | ok pr =>
    rcases pr with ⟨xmlFile, docRoot⟩
    simp only
    obtain ⟨d, hd⟩ := h1.2 xmlFile docRoot rfl
    have h2 := Save_frame env xmlFile (ConfigProtoPath genPkg.ImportPath protoPaths docRoot) w1
    rcases hs : Save env xmlFile (ConfigProtoPath genPkg.ImportPath protoPaths docRoot) w1
      with ⟨e, w2⟩
    rw [hs] at h2
    have hfs : w2.fs p = w1.fs p := by
      by_contra hne
      have := h2 p hne
      simp only at this
      rw [this, hd] at hp
      exact hp (Join_suffix d)
    cases e <;> simp only <;> rw [hfs, h1.1]

theorem Agree_of_sinks {S : String → Prop}
    (sink1 sink2 : PackagePublic → List String → World → Option Err × World)
    (h1 : SinkFrame S sink1) (h2 : SinkFrame S sink2) (genPkg : PackagePublic)
    (protoPaths : List String) (w : World) (hw : NoFaults w) :
    Agree S (sink1 genPkg protoPaths w).2 (sink2 genPkg protoPaths w).2 := by
  obtain ⟨a1, a2, added1, a3, a4⟩ := h1 genPkg protoPaths w
  obtain ⟨b1, b2, added2, b3, b4⟩ := h2 genPkg protoPaths w
  refine ⟨a1 hw, b1 hw, ?_, ?_⟩
  · intro p hp
    rw [a2 p hp, b2 p hp]
  · rw [a3, b3, writes_append, writes_append, writes_notWrite _ a4, writes_notWrite _ b4]

theorem RunWith_agree {S : String → Prop} (g : Generator) (v : PkgVars) (env : Env) (w : World)
    (sink1 sink2 : PackagePublic → List String → World → Option Err × World)
    (hw : NoFaults w) (h1 : SinkFrame S sink1) (h2 : SinkFrame S sink2)
    (hfoot : ∀ genFilePkg genPkg,
      GoListPkg env ((env.lookupEnv "GOFILE").getD "") ["generate"] = .ok genFilePkg →
      GoListPkg env genFilePkg.Dir ["generate"] = .ok genPkg →
      ∀ p ∈ stagingFootprint g env genPkg, ¬ S p) :
    (g.RunWith sink1 v env w).1 = (g.RunWith sink2 v env w).1 ∧
      writes (g.RunWith sink1 v env w).2.trace = writes (g.RunWith sink2 v env w).2.trace ∧
      ∀ p, ¬ S p → (g.RunWith sink1 v env w).2.fs p = (g.RunWith sink2 v env w).2.fs p := by
  have fin : ∀ {r1 r2 : Option Err × World}, r1.1 = r2.1 ∧ Agree S r1.2 r2.2 →
      r1.1 = r2.1 ∧ writes r1.2.trace = writes r2.2.trace ∧
        ∀ p, ¬ S p → r1.2.fs p = r2.2.fs p :=
    fun h => ⟨h.1, h.2.2.2.2, h.2.2.2.1⟩
  unfold Generator.RunWith
  cases hq1 : GoListPkg env ((env.lookupEnv "GOFILE").getD "") ["generate"] with
  | error e => exact ⟨rfl, rfl, fun _ _ => rfl⟩
  | ok genFilePkg =>
    simp only
    by_cases hE : genFilePkg.Error ≠ none
    · rw [if_pos hE, if_pos hE]; exact ⟨rfl, rfl, fun _ _ => rfl⟩
    · rw [if_neg hE, if_neg hE]
      cases hq2 : GoListPkg env genFilePkg.Dir ["generate"] with
      | error e => exact ⟨rfl, rfl, fun _ _ => rfl⟩
      | ok genPkg =>
        simp only
        rw [if_neg hE, if_neg hE]
        have n1 := prepareProtoc_noFaults g v env w hw
        rcases hp : g.prepareProtoc v env w with ⟨e1, w1⟩
        rw [hp] at n1
        cases e1 with
        | some e1 => exact ⟨rfl, rfl, fun _ _ => rfl⟩
        | none =>
          simp only
          have n2 := prepareProtocGenGo_noFaults g v env w1 n1
          rcases hg : g.prepareProtocGenGo v env w1 with ⟨r2, w2⟩
          rw [hg] at n2
          cases r2 with
          | error e2 => exact ⟨rfl, rfl, fun _ _ => rfl⟩
          | ok goDir =>
            simp only
            have n3 := prepareProtocGenGoGrpc_noFaults g v env w2 n2
            rcases hgr : g.prepareProtocGenGoGrpc v env w2 with ⟨r3, w3⟩
            rw [hgr] at n3
            cases r3 with
            | error e3 => exact ⟨rfl, rfl, fun _ _ => rfl⟩
            | ok grpcDir =>
              simp only
              unfold Generator.assembleWith
              cases listImportPathDir env genFilePkg.Imports with
              | error e => exact ⟨rfl, rfl, fun _ _ => rfl⟩
              | ok protoPaths =>
                simp only
                have n4 := getProtocDistPath_noFaults g v env w3 n3
                rcases hd : g.getProtocDistPath v env w3 with ⟨r4, w4⟩
                rw [hd] at n4
                cases r4 with
                | error e => exact ⟨rfl, rfl, fun _ _ => rfl⟩
                | ok dist =>
                  simp only
                  have hag := Agree_of_sinks sink1 sink2 h1 h2 genPkg protoPaths w4 n4
                  rcases hs1 : sink1 genPkg protoPaths w4 with ⟨o1, wa⟩
                  rcases hs2 : sink2 genPkg protoPaths w4 with ⟨o2, wb⟩
                  rw [hs1, hs2] at hag
                  simp only at hag ⊢
                  cases GoEnv env "GOEXE" with
                  | error e => exact fin ⟨rfl, hag⟩
                  | ok goExe =>
                    simp only
                    cases genPkg.Module with
                    | none => exact fin ⟨rfl, hag⟩
                    | some module =>
                      simp only
                      cases walkProtoFiles env
                          (env.walkDir (g.getProtoDirAbs genFilePkg.Dir)) [] with
                      | error e => exact fin ⟨rfl, hag⟩
                      | ok protoFiles =>
                        simp only
                        exact fin (stageAndInvoke_agree g env genFilePkg genPkg dist _
                          (hfoot genFilePkg genPkg hq1 hq2) wa wb hag)

/-- C17. Whatever the editor integration does and returns, as long as it touches no
file other than editor configuration files (paths ending in `protoeditor.xml`) and
does not itself stage the argument file, `Run` returns the same error value, stages
the same argument file with the same content, and leaves the same file system outside
the editor configuration as a run in which the integration is replaced by any other
such sink, be it one that fails or one that succeeds. The comparison is made for runs
without faults of the operating system and for a staging path of which neither the
file nor its ancestors is an editor configuration file. -/
theorem editor_sink_never_escalates (g : Generator) (v : PkgVars) (env : Env) (w : World)
    (sink : PackagePublic → List String → World → Option Err × World)
    (hw : NoFaults w)
    (hsink : SinkFrame (fun p => hasSuffix p "protoeditor.xml" = true) sink)
    (hfoot : ∀ genFilePkg genPkg,
      GoListPkg env ((env.lookupEnv "GOFILE").getD "") ["generate"] = .ok genFilePkg →
      GoListPkg env genFilePkg.Dir ["generate"] = .ok genPkg →
      ∀ p ∈ stagingFootprint g env genPkg, hasSuffix p "protoeditor.xml" = false) :
    (g.Run v env w).1 = (g.RunWith sink v env w).1 ∧
      writes (g.Run v env w).2.trace = writes (g.RunWith sink v env w).2.trace ∧
      ∀ p, hasSuffix p "protoeditor.xml" = false →
        (g.Run v env w).2.fs p = (g.RunWith sink v env w).2.fs p := by
  rw [Run_eq_RunWith]
  obtain ⟨a, b, c⟩ := RunWith_agree g v env w (configProtoEditor env) sink hw
    (configProtoEditor_frame env) hsink
    (fun gf gp h1 h2 p hp => by rw [hfoot gf gp h1 h2 p hp]; simp)
  exact ⟨a, b, fun p hp => c p (by rw [hp]; simp)⟩

set_option maxRecDepth 100000 in
/-- C17, witness: the example project with a directory `/proj/.idea`. In the run the
encoder of the editor configuration works and the configuration is saved; in the
compared run the integration is the one of surroundings whose encoder fails, so that
saving fails. Both runs return the same error value and stage the same argument
file. -/
theorem editor_sink_never_escalates_witness :
    ((genDefault.Run varsStub envIdea (worldWithDir "/proj/.idea")).1 =
        (genDefault.RunWith (configProtoEditor envNoGrpc) varsStub envIdea
          (worldWithDir "/proj/.idea")).1 ∧
      writes (genDefault.Run varsStub envIdea (worldWithDir "/proj/.idea")).2.trace =
        writes (genDefault.RunWith (configProtoEditor envNoGrpc) varsStub envIdea
          (worldWithDir "/proj/.idea")).2.trace ∧
      ∀ p, hasSuffix p "protoeditor.xml" = false →
        (genDefault.Run varsStub envIdea (worldWithDir "/proj/.idea")).2.fs p =
          (genDefault.RunWith (configProtoEditor envNoGrpc) varsStub envIdea
            (worldWithDir "/proj/.idea")).2.fs p) ∧
      (configProtoEditor envIdea pkgProj ["/x"] (worldWithDir "/proj/.idea")).1 = none ∧
      (configProtoEditor envNoGrpc pkgProj ["/x"] (worldWithDir "/proj/.idea")).1 =
        some (.error "func protoEditor.Save() error") :=
  ⟨editor_sink_never_escalates genDefault varsStub envIdea (worldWithDir "/proj/.idea")
      (configProtoEditor envNoGrpc)
      (by intro b hb; cases hb)
      (configProtoEditor_frame envNoGrpc)
      (by
        intro gf gp h1 h2
        have e1 : gf = pkgProj := by
          have h1' : (Except.ok pkgProj : Except Err PackagePublic) = .ok gf := h1
          simp only [Except.ok.injEq] at h1'
          exact h1'.symm
        subst e1
        have e2 : gp = pkgProj := by
          have h2' : (Except.ok pkgProj : Except Err PackagePublic) = .ok gp := h2
          simp only [Except.ok.injEq] at h2'
          exact h2'.symm
        subst e2
        decide),
    by decide, by decide⟩

/-! ## The order of the entries that survive pruning -/

theorem moveLast_concat {α : Type} (t : List α) (y : α) : moveLast (t ++ [y]) = y :: t := by
  unfold moveLast
  rw [List.getLast?_append, List.dropLast_concat]
  rfl

theorem moveLast_short {α : Type} (r : List α) (h : r.length ≤ 1) : moveLast r = r := by
  match r, h with
  | [], _ => rfl
  | [x], _ => rfl

/-- The pruning loop, exactly: scanning from the end, an entry that is kept goes in
front of the survivors so far, an entry that is pruned makes the last survivor so far
the first. -/
theorem pruneLoop_eq (goPkg : String) :
    ∀ (k : Nat) (es : List XmlElement) (dc : Nat), k + dc ≤ es.length →
      (pruneLoop goPkg k es dc).1.take (es.length - (pruneLoop goPkg k es dc).2) =
        (es.take k).foldr
          (fun e r => if e.Comment = "" ∨ e.Comment = goPkg then moveLast r else e :: r)
          ((es.drop k).take (es.length - dc - k)) := by
  intro k
  induction k with
  | zero =>
    intro es dc _
    simp [pruneLoop]
  | succ k ih =>
    intro es dc hle
    have hk : k < es.length := by omega
    unfold pruneLoop
    rw [take_succ_getD es XmlElement.empty k hk, List.foldr_append, List.foldr_cons,
      List.foldr_nil]
    by_cases hdel : (es.getD k XmlElement.empty).Comment = "" ∨
        (es.getD k XmlElement.empty).Comment = goPkg
    · rw [if_pos hdel, if_pos hdel]
      have h := ih (es.set k (es.getD (es.length - 1 - dc) XmlElement.empty)) (dc + 1)
        (by rw [List.length_set]; omega)
      rw [List.length_set, (take_set_self es _ k hk).1, (take_set_self es _ k hk).2] at h
      rw [h]
      congr 1
      have hm : es.length - (dc + 1) - k = es.length - dc - (k + 1) := by omega
      rw [hm]
      cases hmm : es.length - dc - (k + 1) with
      | zero => rfl
      | succ m =>
        have hlt : m < (es.drop (k + 1)).length := by rw [List.length_drop]; omega
        rw [List.take_succ_cons, take_succ_getD (es.drop (k + 1)) XmlElement.empty m hlt]
        have hy : (es.drop (k + 1)).getD m XmlElement.empty =
            es.getD (es.length - 1 - dc) XmlElement.empty := by
          rw [List.getD_eq_getElem?_getD, List.getD_eq_getElem?_getD, List.getElem?_drop]
          congr 2
          omega
        rw [hy, moveLast_concat]
    · rw [if_neg hdel, if_neg hdel, ih es dc (by omega)]
      congr 1
      have hm : es.length - dc - k = (es.length - dc - (k + 1)) + 1 := by omega
      rw [drop_getD_cons es XmlElement.empty k hk, hm, List.take_succ_cons]

theorem pruneEntries_eq (goPkg : String) (es : List XmlElement) :
    pruneEntries goPkg es =
      es.foldr (fun e r => if e.Comment = "" ∨ e.Comment = goPkg then moveLast r else e :: r)
        [] := by
  have h := pruneLoop_eq goPkg es.length es 0 (by omega)
  unfold pruneEntries
  rw [h]
  simp

/-- When no pruned entry is followed by two entries that are kept, pruning is the
filter. -/
theorem pruneEntries_eq_filter (goPkg : String) (es : List XmlElement)
    (h : ∀ pre e post, es = pre ++ e :: post → (e.Comment = "" ∨ e.Comment = goPkg) →
      (post.filter (fun x => decide (x.Comment ≠ "" ∧ x.Comment ≠ goPkg))).length ≤ 1) :
    pruneEntries goPkg es =
      es.filter (fun x => decide (x.Comment ≠ "" ∧ x.Comment ≠ goPkg)) := by
  rw [pruneEntries_eq]
  induction es with
  | nil => rfl
  | cons e rest ih =>
    have ih2 := ih (fun pre x post hx hp => h (e :: pre) x post (by rw [hx]; rfl) hp)
    rw [List.foldr_cons, ih2]
    by_cases hdel : e.Comment = "" ∨ e.Comment = goPkg
    · rw [if_pos hdel, moveLast_short _ (h [] e rest rfl hdel), List.filter_cons_of_neg]
      simp only [decide_eq_true_eq]
      intro hc
      rcases hdel with h1 | h1
      · exact hc.1 h1
      · exact hc.2 h1
    · rw [if_neg hdel, List.filter_cons_of_pos]
      simp only [decide_eq_true_eq]
      push_neg at hdel
      exact hdel

/-- Pruning a list of kept entries followed by pruned entries gives the kept entries. -/
theorem pruneEntries_append (goPkg : String) (kept pruned : List XmlElement)
    (hk : ∀ e ∈ kept, e.Comment ≠ "" ∧ e.Comment ≠ goPkg)
    (hp : ∀ e ∈ pruned, e.Comment = "" ∨ e.Comment = goPkg) :
    pruneEntries goPkg (kept ++ pruned) = kept := by
  rw [pruneEntries_eq, List.foldr_append]
  have h1 : pruned.foldr
      (fun e r => if e.Comment = "" ∨ e.Comment = goPkg then moveLast r else e :: r) [] = [] := by
    induction pruned with
    | nil => rfl
    | cons e rest ih =>
      rw [List.foldr_cons, ih (fun x hx => hp x (List.mem_cons_of_mem _ hx)),
        if_pos (hp e (List.mem_cons_self _ _))]
      rfl
  rw [h1]
  induction kept with
  | nil => rfl
  | cons e rest ih =>
    rw [List.foldr_cons, ih (fun x hx => hk x (List.mem_cons_of_mem _ hx)), if_neg]
    have := hk e (List.mem_cons_self _ _)
    push_neg
    exact this

/-! ## The claim about the order of the surviving entries -/

/-- C24, as the code has it. The import path list after `ConfigProtoPath goPkg
protoPaths` is the surviving entries followed by the new entries, where the surviving
entries are obtained from the list before the call by a scan from its end: an entry
owned by another package goes in front of the survivors so far, an entry that is pruned
(empty comment or comment `goPkg`) moves the last survivor so far to the front. The
survivors are the entries owned by other packages, each once, as a rearrangement; they
are in the same relative order as before the call whenever no pruned entry is followed
by two or more entries owned by other packages. -/
theorem ConfigProtoPath_prune_order (goPkg : String) (protoPaths : List String)
    (docRoot : XmlElement) :
    importPathList (ConfigProtoPath goPkg protoPaths docRoot) =
        (importPathList docRoot).foldr
          (fun e r => if e.Comment = "" ∨ e.Comment = goPkg then moveLast r else e :: r) [] ++
          protoPaths.map (importPathEntry goPkg) ∧
      ((importPathList docRoot).foldr
          (fun e r => if e.Comment = "" ∨ e.Comment = goPkg then moveLast r else e :: r) []).Perm
        ((importPathList docRoot).filter
          (fun x => decide (x.Comment ≠ "" ∧ x.Comment ≠ goPkg))) ∧
      ((∀ pre e post, importPathList docRoot = pre ++ e :: post →
          (e.Comment = "" ∨ e.Comment = goPkg) →
          (post.filter (fun x => decide (x.Comment ≠ "" ∧ x.Comment ≠ goPkg))).length ≤ 1) →
        importPathList (ConfigProtoPath goPkg protoPaths docRoot) =
          (importPathList docRoot).filter
            (fun x => decide (x.Comment ≠ "" ∧ x.Comment ≠ goPkg)) ++
            protoPaths.map (importPathEntry goPkg)) := by
  refine ⟨?_, ?_, ?_⟩
  · rw [importPathList_ConfigProtoPath, pruneEntries_eq]
  · rw [← pruneEntries_eq]
    exact pruneEntries_perm goPkg _
  · intro h
    rw [importPathList_ConfigProtoPath, pruneEntries_eq_filter goPkg _ h]

set_option maxRecDepth 100000 in
/-- The order is kept for a list whose pruned entries are at its end. -/
theorem ConfigProtoPath_prune_order_witness :
    importPathList (ConfigProtoPath "example.com/proj" ["/proj/proto"] docKeptFirst) =
      [entryOf "example.com/a", entryOf "example.com/b",
        importPathEntry "example.com/proj" "/proj/proto"] :=
  (ConfigProtoPath_prune_order "example.com/proj" ["/proj/proto"] docKeptFirst).2.2 (by
    intro pre e post h hp
    have h2 : importPathList docKeptFirst = [entryOf "example.com/a", entryOf "example.com/b",
      entryOf "example.com/proj", entryOf ""] := rfl
    rw [h2] at h
    match pre, h with
    | [], h =>
      simp [entryOf, XmlElement.Comment] at h
      rcases h with ⟨rfl, _⟩
      simp [XmlElement.Comment] at hp
    | [_], h =>
      simp [entryOf, XmlElement.Comment] at h
      rcases h with ⟨_, rfl, _⟩
      simp [XmlElement.Comment] at hp
    | [_, _], h => simp [entryOf] at h; rcases h with ⟨_, _, _, rfl⟩; decide
    | [_, _, _], h => simp [entryOf] at h; rcases h with ⟨_, _, _, _, rfl⟩; decide
    | _ :: _ :: _ :: _ :: _, h => simp at h)

set_option maxRecDepth 100000 in
/-- C24, counterexample. The import path list holds an entry of the package itself
before the entries of the packages `example.com/a` and `example.com/b`, in this order;
after `ConfigProtoPath` for the package with no path the two surviving entries are in
the opposite order. -/
theorem ConfigProtoPath_prune_reorders :
    (importPathList docMixed).map XmlElement.Comment =
        ["example.com/proj", "example.com/a", "example.com/b"] ∧
      (importPathList (ConfigProtoPath "example.com/proj" [] docMixed)).map XmlElement.Comment =
        ["example.com/b", "example.com/a"] := by
  decide

/-! ## Updates of the first element passing a test -/

theorem ConfigProtoPath_eq (goPkg : String) (protoPaths : List String) (docRoot : XmlElement) :
    ConfigProtoPath goPkg protoPaths docRoot =
      .mk docRoot.XMLName docRoot.Attrs
        (updateFirst (fun e => e.XMLName = "component" ∧ hasNameAttr "ProtobufLanguageSettings" e)
          (editComponent goPkg protoPaths)
          (.mk "component" [("name", "ProtobufLanguageSettings")] [] "") docRoot.Elements)
        docRoot.Comment := rfl

theorem updateFirst_of_any (t : XmlElement → Bool) (f : XmlElement → XmlElement)
    (r r2 : XmlElement) (l : List XmlElement) (h : l.any t = true) :
    updateFirst t f r l = updateFirst t f r2 l := by
  induction l with
  | nil => simp at h
  | cons x xs ih =>
    unfold updateFirst
    by_cases hx : t x = true
    · rw [if_pos hx, if_pos hx]
    · rw [if_neg hx, if_neg hx, ih]
      rw [List.any_cons] at h
      simpa [hx] using h

theorem updateFirst_of_not_any (t : XmlElement → Bool) (f : XmlElement → XmlElement)
    (r : XmlElement) (l : List XmlElement) (h : ¬ l.any t = true) :
    updateFirst t f r l = l ++ [f r] := by
  induction l with
  | nil => rfl
  | cons x xs ih =>
    rw [List.any_cons] at h
    have hx : ¬ t x = true := fun hc => h (by simp [hc])
    have hxs : ¬ xs.any t = true := fun hc => h (by simp [hc])
    unfold updateFirst
    rw [if_neg hx, ih hxs]
    rfl

theorem setOption_eq (name value : String) (l : List XmlElement) :
    setOption name value l =
      updateFirst (isOption name) (withValue value) (.mk "option" [("name", name)] [] "") l := by
  show (if l.any (isOption name) = true then
      updateFirst (isOption name) (withValue value) XmlElement.empty l
    else l ++ [.mk "option" [("name", name), ("value", value)] [] ""]) = _
  by_cases h : l.any (isOption name) = true
  · rw [if_pos h]
    exact updateFirst_of_any (isOption name) (withValue value) _ _ l h
  · rw [if_neg h, updateFirst_of_not_any (isOption name) (withValue value) _ l h]
    simp [withValue, setValueAttr, XmlElement.XMLName, XmlElement.Attrs, XmlElement.Elements,
      XmlElement.Comment]

theorem updateFirst_nil (t : XmlElement → Bool) (f : XmlElement → XmlElement) (r : XmlElement) :
    updateFirst t f r [] = [f r] := rfl

theorem updateFirst_pos (t : XmlElement → Bool) (f : XmlElement → XmlElement) (r x : XmlElement)
    (xs : List XmlElement) (h : t x = true) : updateFirst t f r (x :: xs) = f x :: xs := by
  unfold updateFirst; rw [if_pos h]

theorem updateFirst_neg (t : XmlElement → Bool) (f : XmlElement → XmlElement) (r x : XmlElement)
    (xs : List XmlElement) (h : ¬ t x = true) :
    updateFirst t f r (x :: xs) = x :: updateFirst t f r xs := by
  conv => lhs; unfold updateFirst
  rw [if_neg h]

/-- An update of the first element passing a test, done twice, is the update done
once, when the update keeps the test and is idempotent on the element it reaches. -/
theorem updateFirst_idem (t : XmlElement → Bool) (f : XmlElement → XmlElement) (r : XmlElement)
    (ht : ∀ x, t x = true → t (f x) = true) (hr : t (f r) = true) (hrr : f (f r) = f r)
    (l : List XmlElement) (hff : ∀ x, l.find? t = some x → f (f x) = f x) :
    updateFirst t f r (updateFirst t f r l) = updateFirst t f r l := by
  induction l with
  | nil => rw [updateFirst_nil, updateFirst_pos _ _ _ _ _ hr, hrr]
  | cons x xs ih =>
    by_cases hx : t x = true
    · rw [updateFirst_pos _ _ _ _ _ hx, updateFirst_pos _ _ _ _ _ (ht x hx),
        hff x (List.find?_cons_of_pos _ hx)]
    · rw [updateFirst_neg _ _ _ _ _ hx, updateFirst_neg _ _ _ _ _ hx,
        ih (fun y hy => hff y (by rw [List.find?_cons_of_neg _ hx]; exact hy))]

/-- After an update for one test that did nothing, an update for a second test, then
the first again, gives the list after the second or the list before it, when the first
update absorbs the second. -/
theorem updateFirst_absorb (t1 t2 : XmlElement → Bool) (f1 f2 : XmlElement → XmlElement)
    (r1 r2 : XmlElement) (h12 : ∀ x, t1 (f2 x) = t1 x) (habs : ∀ x, f1 (f2 x) = f1 x) :
    ∀ n, updateFirst t1 f1 r1 n = n →
      updateFirst t1 f1 r1 (updateFirst t2 f2 r2 n) = updateFirst t2 f2 r2 n ∨
        updateFirst t1 f1 r1 (updateFirst t2 f2 r2 n) = n := by
  intro n
  induction n with
  | nil =>
    intro h
    have := congrArg List.length h
    simp [updateFirst] at this
  | cons x xs ih =>
    intro h
    by_cases h1 : t1 x = true
    · have hx : f1 x = x := by
        rw [updateFirst_pos _ _ _ _ _ h1] at h
        exact (List.cons.inj h).1
      by_cases h2 : t2 x = true
      · right
        rw [updateFirst_pos _ _ _ _ _ h2, updateFirst_pos _ _ _ _ _ (by rw [h12]; exact h1),
          habs, hx]
      · left
        rw [updateFirst_neg _ _ _ _ _ h2, updateFirst_pos _ _ _ _ _ h1, hx]
    · have hxs : updateFirst t1 f1 r1 xs = xs := by
        rw [updateFirst_neg _ _ _ _ _ h1] at h
        exact (List.cons.inj h).2
      by_cases h2 : t2 x = true
      · left
        rw [updateFirst_pos _ _ _ _ _ h2, updateFirst_neg _ _ _ _ _ (by rw [h12]; exact h1), hxs]
      · rw [updateFirst_neg _ _ _ _ _ h2, updateFirst_neg _ _ _ _ _ h1]
        rcases ih hxs with h3 | h3
        · left; rw [h3]
        · right; rw [h3]

/-- Two updates for tests that do not meet on the first element passing the second
test commute, when the list has an element passing the first. -/
theorem updateFirst_comm (t1 tI : XmlElement → Bool) (f1 fI : XmlElement → XmlElement)
    (r1 rI : XmlElement) (hI1 : ∀ x, tI (f1 x) = tI x) (h1I : ∀ x, t1 (fI x) = false) :
    ∀ m, m.any t1 = true → (∀ e, m.find? tI = some e → t1 e = false) →
      updateFirst t1 f1 r1 (updateFirst tI fI rI m) =
        updateFirst tI fI rI (updateFirst t1 f1 r1 m) := by
  intro m
  induction m with
  | nil => intro h; simp at h
  | cons x xs ih =>
    intro hany hfind
    by_cases hi : tI x = true
    · have h1 : ¬ t1 x = true := by
        rw [hfind x (List.find?_cons_of_pos _ hi)]; simp
      rw [updateFirst_pos _ _ _ _ _ hi, updateFirst_neg _ _ _ _ _ h1,
        updateFirst_neg _ _ _ _ _ (by rw [h1I]; simp), updateFirst_pos _ _ _ _ _ hi]
    · by_cases h1 : t1 x = true
      · rw [updateFirst_neg _ _ _ _ _ hi, updateFirst_pos _ _ _ _ _ h1,
          updateFirst_pos _ _ _ _ _ h1, updateFirst_neg _ _ _ _ _ (by rw [hI1]; exact hi)]
      · rw [updateFirst_neg _ _ _ _ _ hi, updateFirst_neg _ _ _ _ _ h1,
          updateFirst_neg _ _ _ _ _ h1, updateFirst_neg _ _ _ _ _ hi, ih]
        · rw [List.any_cons] at hany
          simpa [h1] using hany
        · intro e he
          exact hfind e (by rw [List.find?_cons_of_neg _ hi]; exact he)

/-- An update for one test leaves the first element passing a second test as it is,
when that element does not pass the first test. -/
theorem find?_updateFirst_apart (t1 tI : XmlElement → Bool) (f1 : XmlElement → XmlElement)
    (r1 : XmlElement) (hI1 : ∀ x, tI (f1 x) = tI x) (hr : tI (f1 r1) = false) :
    ∀ m, (∀ e, m.find? tI = some e → t1 e = false) →
      (updateFirst t1 f1 r1 m).find? tI = m.find? tI := by
  intro m
  induction m with
  | nil =>
    intro _
    rw [updateFirst_nil, List.find?_cons_of_neg _ (by rw [hr]; simp)]
  | cons x xs ih =>
    intro hfind
    by_cases h1 : t1 x = true
    · have hi : ¬ tI x = true := by
        intro hi
        have := hfind x (List.find?_cons_of_pos _ hi)
        rw [h1] at this
        exact Bool.noConfusion this
      rw [updateFirst_pos _ _ _ _ _ h1, List.find?_cons_of_neg _ (by rw [hI1]; exact hi),
        List.find?_cons_of_neg _ hi]
    · rw [updateFirst_neg _ _ _ _ _ h1]
      by_cases hi : tI x = true
      · rw [List.find?_cons_of_pos _ hi, List.find?_cons_of_pos _ hi]
      · rw [List.find?_cons_of_neg _ hi, List.find?_cons_of_neg _ hi]
        exact ih (fun e he => hfind e (by rw [List.find?_cons_of_neg _ hi]; exact he))

theorem any_updateFirst_self (t : XmlElement → Bool) (f : XmlElement → XmlElement)
    (r : XmlElement) (ht : ∀ x, t x = true → t (f x) = true) (hr : t (f r) = true)
    (l : List XmlElement) : (updateFirst t f r l).any t = true := by
  induction l with
  | nil => simp [updateFirst, hr]
  | cons x xs ih =>
    by_cases hx : t x = true
    · rw [updateFirst_pos _ _ _ _ _ hx, List.any_cons, ht x hx]; rfl
    · rw [updateFirst_neg _ _ _ _ _ hx, List.any_cons, ih]; simp

theorem any_updateFirst_other (t t2 : XmlElement → Bool) (f : XmlElement → XmlElement)
    (r : XmlElement) (h2 : ∀ x, t2 (f x) = t2 x) (l : List XmlElement)
    (h : l.any t2 = true) : (updateFirst t f r l).any t2 = true := by
  induction l with
  | nil => simp at h
  | cons x xs ih =>
    rw [List.any_cons] at h
    by_cases hx : t x = true
    · rw [updateFirst_pos _ _ _ _ _ hx, List.any_cons, h2]; exact h
    · rw [updateFirst_neg _ _ _ _ _ hx, List.any_cons]
      by_cases hx2 : t2 x = true
      · rw [hx2]; rfl
      · have : xs.any t2 = true := by simpa [hx2] using h
        rw [ih this]; simp

/-! ## `ConfigProtoPath` applied twice -/

theorem isOption_withValue (name value : String) (x : XmlElement) :
    isOption name (withValue value x) = isOption name x := by
  cases x with
  | mk n a es c =>
    have h := setValueAttr_any value "name" name (by decide) a
    simp only [isOption, withValue, XmlElement.XMLName, XmlElement.Attrs, hasNameAttr, h]

theorem setValueAttr_absorb (a b : String) (as : List (String × String)) :
    setValueAttr a (setValueAttr b as) = setValueAttr a as := by
  induction as with
  | nil => simp [setValueAttr]
  | cons x xs ih =>
    by_cases hx : x.1 = "value"
    · simp [setValueAttr, hx]
    · simp [setValueAttr, hx, ih]

theorem withValue_absorb (a b : String) (x : XmlElement) :
    withValue a (withValue b x) = withValue a x := by
  cases x with
  | mk n as es c =>
    simp only [withValue, XmlElement.XMLName, XmlElement.Attrs, XmlElement.Elements,
      XmlElement.Comment, setValueAttr_absorb]

theorem isOption_fresh (name name2 : String) :
    isOption name2 (.mk "option" [("name", name)] [] "") = decide (name = name2) := by
  simp [isOption, XmlElement.XMLName, hasNameAttr, XmlElement.Attrs]

theorem isOption_editEntries (goPkg : String) (protoPaths : List String) (name : String)
    (x : XmlElement) :
    isOption name (editEntries goPkg protoPaths x) = decide ("importPathEntries" = name) := by
  simp [isOption, editEntries, XmlElement.XMLName, hasNameAttr, XmlElement.Attrs]

theorem editList_idem (goPkg : String) (protoPaths : List String) (x : XmlElement) :
    editList goPkg protoPaths (editList goPkg protoPaths x) = editList goPkg protoPaths x := by
  cases x with
  | mk n as es c =>
    simp only [editList, XmlElement.XMLName, XmlElement.Attrs, XmlElement.Elements,
      XmlElement.Comment]
    rw [pruneEntries_append]
    · intro e he
      have := (pruneEntries_perm goPkg es).mem_iff.1 he
      simpa using (List.mem_filter.1 this).2
    · intro e he
      obtain ⟨p, _, rfl⟩ := List.mem_map.1 he
      exact Or.inr rfl

theorem editEntries_idem (goPkg : String) (protoPaths : List String) (x : XmlElement) :
    editEntries goPkg protoPaths (editEntries goPkg protoPaths x) =
      editEntries goPkg protoPaths x := by
  cases x with
  | mk n as es c =>
    simp only [editEntries, XmlElement.Elements, XmlElement.Comment]
    rw [updateFirst_idem _ _ _ (fun x hx => by cases x; exact hx) rfl
      (editList_idem goPkg protoPaths _) es (fun x _ => editList_idem goPkg protoPaths x)]

/-- The two value options of the settings component, set twice, are as set once. -/
theorem setOption_pair_idem (l : List XmlElement) :
    setOption "descriptorPath" "google/protobuf/descriptor.proto"
        (setOption "autoConfigEnabled" "false"
          (setOption "descriptorPath" "google/protobuf/descriptor.proto"
            (setOption "autoConfigEnabled" "false" l))) =
      setOption "descriptorPath" "google/protobuf/descriptor.proto"
        (setOption "autoConfigEnabled" "false" l) := by
  simp only [setOption_eq]
  have hA : ∀ n, updateFirst (isOption "autoConfigEnabled") (withValue "false")
      (.mk "option" [("name", "autoConfigEnabled")] [] "")
      (updateFirst (isOption "autoConfigEnabled") (withValue "false")
        (.mk "option" [("name", "autoConfigEnabled")] [] "") n) =
      updateFirst (isOption "autoConfigEnabled") (withValue "false")
        (.mk "option" [("name", "autoConfigEnabled")] [] "") n := fun n =>
    updateFirst_idem _ _ _ (fun x hx => by rw [isOption_withValue]; exact hx)
      (by rw [isOption_withValue, isOption_fresh]; rfl) (withValue_absorb _ _ _) n
      (fun x _ => withValue_absorb _ _ x)
  have hD : ∀ n, updateFirst (isOption "descriptorPath")
      (withValue "google/protobuf/descriptor.proto")
      (.mk "option" [("name", "descriptorPath")] [] "")
      (updateFirst (isOption "descriptorPath") (withValue "google/protobuf/descriptor.proto")
        (.mk "option" [("name", "descriptorPath")] [] "") n) =
      updateFirst (isOption "descriptorPath") (withValue "google/protobuf/descriptor.proto")
        (.mk "option" [("name", "descriptorPath")] [] "") n := fun n =>
    updateFirst_idem _ _ _ (fun x hx => by rw [isOption_withValue]; exact hx)
      (by rw [isOption_withValue, isOption_fresh]; rfl) (withValue_absorb _ _ _) n
      (fun x _ => withValue_absorb _ _ x)
  rcases updateFirst_absorb (isOption "autoConfigEnabled") (isOption "descriptorPath")
      (withValue "false") (withValue "google/protobuf/descriptor.proto")
      (.mk "option" [("name", "autoConfigEnabled")] [] "")
      (.mk "option" [("name", "descriptorPath")] [] "")
      (fun x => isOption_withValue _ _ x) (fun x => withValue_absorb _ _ x) _ (hA l) with h | h
  · rw [h, hD]
  · rw [h]

/-- The elements of the settings component after two applications are those after
one, when the first option `importPathEntries` is not also an option
`autoConfigEnabled` or `descriptorPath`. -/
theorem editOptions_idem (goPkg : String) (protoPaths : List String) (l : List XmlElement)
    (h : ∀ e, l.find? (isOption "importPathEntries") = some e →
      isOption "autoConfigEnabled" e = false ∧ isOption "descriptorPath" e = false) :
    editOptions goPkg protoPaths (editOptions goPkg protoPaths l) =
      editOptions goPkg protoPaths l := by
  have hpair := setOption_pair_idem l
  unfold editOptions
  simp only [setOption_eq] at hpair ⊢
  -- the first option `importPathEntries` through the two value options
  have f1 : (updateFirst (isOption "autoConfigEnabled") (withValue "false")
      (.mk "option" [("name", "autoConfigEnabled")] [] "") l).find?
      (isOption "importPathEntries") = l.find? (isOption "importPathEntries") :=
    find?_updateFirst_apart _ _ _ _ (fun x => isOption_withValue _ _ x)
      (by rw [isOption_withValue, isOption_fresh]; rfl) l (fun e he => (h e he).1)
  generalize hl1 : updateFirst (isOption "autoConfigEnabled") (withValue "false")
      (.mk "option" [("name", "autoConfigEnabled")] [] "") l = l1 at f1 hpair ⊢
  have a1 : l1.any (isOption "autoConfigEnabled") = true := by
    rw [← hl1]
    exact any_updateFirst_self _ _ _ (fun x hx => by rw [isOption_withValue]; exact hx)
      (by rw [isOption_withValue, isOption_fresh]; rfl) l
  have f2 : (updateFirst (isOption "descriptorPath")
      (withValue "google/protobuf/descriptor.proto")
      (.mk "option" [("name", "descriptorPath")] [] "") l1).find?
      (isOption "importPathEntries") = l.find? (isOption "importPathEntries") := by
    rw [← f1]
    exact find?_updateFirst_apart _ _ _ _ (fun x => isOption_withValue _ _ x)
      (by rw [isOption_withValue, isOption_fresh]; rfl) l1
      (fun e he => (h e (by rw [← f1]; exact he)).2)
  have a2 : (updateFirst (isOption "descriptorPath")
      (withValue "google/protobuf/descriptor.proto")
      (.mk "option" [("name", "descriptorPath")] [] "") l1).any
      (isOption "autoConfigEnabled") = true :=
    any_updateFirst_other _ _ _ _ (fun x => isOption_withValue _ _ x) l1 a1
  have d2 : (updateFirst (isOption "descriptorPath")
      (withValue "google/protobuf/descriptor.proto")
      (.mk "option" [("name", "descriptorPath")] [] "") l1).any
      (isOption "descriptorPath") = true :=
    any_updateFirst_self _ _ _ (fun x hx => by rw [isOption_withValue]; exact hx)
      (by rw [isOption_withValue, isOption_fresh]; rfl) l1
  generalize updateFirst (isOption "descriptorPath")
      (withValue "google/protobuf/descriptor.proto")
      (.mk "option" [("name", "descriptorPath")] [] "") l1 = m at f2 a2 d2 hpair ⊢
  have hm : ∀ e, m.find? (isOption "importPathEntries") = some e →
      isOption "autoConfigEnabled" e = false ∧ isOption "descriptorPath" e = false :=
    fun e he => h e (by rw [← f2]; exact he)
  -- the update of the entries moves outwards
  rw [updateFirst_comm (isOption "autoConfigEnabled") (isOption "importPathEntries")
    (withValue "false") (editEntries goPkg protoPaths) _ _
    (fun x => isOption_withValue _ _ x)
    (fun x => by rw [isOption_editEntries]; rfl) m a2 (fun e he => (hm e he).1)]
  have f3 : (updateFirst (isOption "autoConfigEnabled") (withValue "false")
      (.mk "option" [("name", "autoConfigEnabled")] [] "") m).find?
      (isOption "importPathEntries") = m.find? (isOption "importPathEntries") :=
    find?_updateFirst_apart _ _ _ _ (fun x => isOption_withValue _ _ x)
      (by rw [isOption_withValue, isOption_fresh]; rfl) m (fun e he => (hm e he).1)
  rw [updateFirst_comm (isOption "descriptorPath") (isOption "importPathEntries")
    (withValue "google/protobuf/descriptor.proto") (editEntries goPkg protoPaths) _ _
    (fun x => isOption_withValue _ _ x)
    (fun x => by rw [isOption_editEntries]; rfl) _
    (any_updateFirst_other _ _ _ _ (fun x => isOption_withValue _ _ x) m d2)
    (fun e he => (hm e (by rw [← f3]; exact he)).2)]
  rw [hpair]
  exact updateFirst_idem _ _ _ (fun x _ => by rw [isOption_editEntries]; rfl)
    (by rw [isOption_editEntries]; rfl) (editEntries_idem goPkg protoPaths _) m
    (fun x _ => editEntries_idem goPkg protoPaths x)

/-! ## The claim about `ConfigProtoPath` applied twice -/

theorem editComponent_idem (goPkg : String) (protoPaths : List String) (c : XmlElement)
    (h : ∀ e, c.Elements.find? (isOption "importPathEntries") = some e →
      isOption "autoConfigEnabled" e = false ∧ isOption "descriptorPath" e = false) :
    editComponent goPkg protoPaths (editComponent goPkg protoPaths c) =
      editComponent goPkg protoPaths c := by
  cases c with
  | mk n as es cm =>
    simp only [editComponent, XmlElement.XMLName, XmlElement.Attrs, XmlElement.Elements,
      XmlElement.Comment]
    rw [editOptions_idem goPkg protoPaths es h]

/-- C23, with the condition it needs. Applying `ConfigProtoPath goPkg protoPaths`
twice gives the same document as applying it once (the same elements, attributes and
comments in the same order, hence the same components, options, attribute values and
list of import paths), for every document in which the first option
`importPathEntries` of the first component `ProtobufLanguageSettings`, if there is one,
carries neither the name `autoConfigEnabled` nor the name `descriptorPath`. -/
theorem ConfigProtoPath_idempotent (goPkg : String) (protoPaths : List String)
    (docRoot : XmlElement)
    (h : ∀ c e,
      docRoot.Elements.find?
        (fun e => e.XMLName = "component" ∧ hasNameAttr "ProtobufLanguageSettings" e) = some c →
      c.Elements.find?
        (fun e => e.XMLName = "option" ∧ hasNameAttr "importPathEntries" e) = some e →
      hasNameAttr "autoConfigEnabled" e = false ∧ hasNameAttr "descriptorPath" e = false) :
    ConfigProtoPath goPkg protoPaths (ConfigProtoPath goPkg protoPaths docRoot) =
      ConfigProtoPath goPkg protoPaths docRoot := by
  rw [ConfigProtoPath_eq goPkg protoPaths docRoot, ConfigProtoPath_eq]
  simp only [XmlElement.XMLName, XmlElement.Attrs, XmlElement.Elements, XmlElement.Comment]
  congr 1
  apply updateFirst_idem
  · intro x hx
    cases x
    exact hx
  · rfl
  · exact editComponent_idem goPkg protoPaths _ (fun e he => by cases he)
  · intro c hc
    apply editComponent_idem
    intro e he
    have h2 := h c e hc he
    simp only [isOption, h2.1, h2.2]
    simp

set_option maxRecDepth 100000 in
/-- A document with an option `autoConfigEnabled`, an option `importPathEntries`, an
entry of the package and an entry of another package: the second application changes
nothing. -/
theorem ConfigProtoPath_idempotent_witness :
    ConfigProtoPath "example.com/proj" ["/proj/proto"]
        (ConfigProtoPath "example.com/proj" ["/proj/proto"] docSettled) =
      ConfigProtoPath "example.com/proj" ["/proj/proto"] docSettled :=
  ConfigProtoPath_idempotent "example.com/proj" ["/proj/proto"] docSettled (by
    intro c e hc he
    have h1 : docSettled.Elements.find?
        (fun e => e.XMLName = "component" ∧ hasNameAttr "ProtobufLanguageSettings" e) =
        some (.mk "component" [("name", "ProtobufLanguageSettings")]
          [.mk "option" [("name", "autoConfigEnabled"), ("value", "true")] [] "",
            .mk "option" [("name", "importPathEntries")]
              [.mk "list" [] [entryOf "example.com/proj", entryOf "example.com/a"] ""] ""]
          "") := rfl
    rw [h1] at hc
    cases hc
    have h2 : (XmlElement.mk "component" [("name", "ProtobufLanguageSettings")]
          [.mk "option" [("name", "autoConfigEnabled"), ("value", "true")] [] "",
            .mk "option" [("name", "importPathEntries")]
              [.mk "list" [] [entryOf "example.com/proj", entryOf "example.com/a"] ""] ""]
          "").Elements.find?
        (fun e => e.XMLName = "option" ∧ hasNameAttr "importPathEntries" e) =
        some (.mk "option" [("name", "importPathEntries")]
              [.mk "list" [] [entryOf "example.com/proj", entryOf "example.com/a"] ""] "") :=
      rfl
    rw [h2] at he
    cases he
    exact ⟨rfl, rfl⟩)

set_option maxRecDepth 100000 in
/-- C23, counterexample. The settings component of the document has one option, with
the attributes `name="autoConfigEnabled"` and `name="importPathEntries"` (two attributes
of the local name `name`). One application sets its value, appends the option
`descriptorPath` and then makes the option the option `importPathEntries` with the one
attribute `name="importPathEntries"`: two options. The second application finds no
option `autoConfigEnabled` and appends one: three options. -/
theorem ConfigProtoPath_twice_differs :
    (ConfigProtoPath "example.com/proj" [] docTwoNames).Elements.map
        (fun c => c.Elements.map XmlElement.Attrs) =
        [[[("name", "importPathEntries")],
          [("name", "descriptorPath"), ("value", "google/protobuf/descriptor.proto")]]] ∧
      (ConfigProtoPath "example.com/proj" []
        (ConfigProtoPath "example.com/proj" [] docTwoNames)).Elements.map
        (fun c => c.Elements.map XmlElement.Attrs) =
        [[[("name", "importPathEntries")],
          [("name", "descriptorPath"), ("value", "google/protobuf/descriptor.proto")],
          [("name", "autoConfigEnabled"), ("value", "false")]]] ∧
      ConfigProtoPath "example.com/proj" []
          (ConfigProtoPath "example.com/proj" [] docTwoNames) ≠
        ConfigProtoPath "example.com/proj" [] docTwoNames := by
  refine ⟨by decide, by decide, ?_⟩
  intro h
  have h2 := congrArg (fun d => d.Elements.map (fun c => c.Elements.length)) h
  revert h2
  decide

/-! ## The memoised download URL and cache path -/

theorem getProtocDownloadUrlCounted_fst (g : Generator) (v : PkgVars) (w : World) :
    (g.getProtocDownloadUrlCounted v w).1 = g.getProtocDownloadUrl v w := by
  unfold Generator.getProtocDownloadUrlCounted Generator.getProtocDownloadUrl
  cases w.urlOnce <;> rfl

theorem doGetProtocDistPathCounted_fst (g : Generator) (v : PkgVars) (env : Env) (w : World) :
    (g.doGetProtocDistPathCounted v env w).1 = g.doGetProtocDistPath v env w := by
  unfold Generator.doGetProtocDistPathCounted Generator.doGetProtocDistPath
  rw [← getProtocDownloadUrlCounted_fst]
  rcases g.getProtocDownloadUrlCounted v w with ⟨⟨r, w1⟩, n⟩
  cases r <;> rfl

theorem getProtocDistPathCounted_fst (g : Generator) (v : PkgVars) (env : Env) (w : World) :
    (g.getProtocDistPathCounted v env w).1 = g.getProtocDistPath v env w := by
  unfold Generator.getProtocDistPathCounted Generator.getProtocDistPath
  cases w.distOnce with
  | some r => rfl
  | none =>
    simp only
    rw [← doGetProtocDistPathCounted_fst]

/-- One counted call of `getProtocDownloadUrl`: the cell holds the result afterwards,
the other cell is as before; a full cell gives its value without a run of the
derivation, an empty one makes one run. -/
theorem getProtocDownloadUrlCounted_spec (g : Generator) (v : PkgVars) (w : World) :
    (g.getProtocDownloadUrlCounted v w).1.2.urlOnce =
        some (g.getProtocDownloadUrlCounted v w).1.1 ∧
      (g.getProtocDownloadUrlCounted v w).1.2.distOnce = w.distOnce ∧
      (∀ r0, w.urlOnce = some r0 → (g.getProtocDownloadUrlCounted v w).1.1 = r0 ∧
        (g.getProtocDownloadUrlCounted v w).2 = 0) ∧
      (g.getProtocDownloadUrlCounted v w).2 ≤ 1 := by
  unfold Generator.getProtocDownloadUrlCounted
  cases h : w.urlOnce with
  | some r =>
    refine ⟨h, rfl, ?_, Nat.zero_le _⟩
    intro r0 h0
    exact ⟨Option.some.inj h0, rfl⟩
  | none =>
    refine ⟨rfl, rfl, ?_, Nat.le_refl _⟩
    intro r0 h0
    cases h0

theorem doGetProtocDistPathCounted_spec (g : Generator) (v : PkgVars) (env : Env) (w : World) :
    (g.doGetProtocDistPathCounted v env w).1.2.urlOnce ≠ none ∧
      (g.doGetProtocDistPathCounted v env w).1.2.distOnce = w.distOnce ∧
      (∀ r0, w.urlOnce = some r0 →
        (g.doGetProtocDistPathCounted v env w).1.2.urlOnce = some r0 ∧
        (g.doGetProtocDistPathCounted v env w).2 = 0) ∧
      (g.doGetProtocDistPathCounted v env w).2 ≤ 1 := by
  have h := getProtocDownloadUrlCounted_spec g v w
  unfold Generator.doGetProtocDistPathCounted
  rcases hc : g.getProtocDownloadUrlCounted v w with ⟨⟨r, w1⟩, n⟩
  rw [hc] at h
  simp only at h
  obtain ⟨h1, h2, h3, h4⟩ := h
  have key : w1.urlOnce ≠ none ∧ w1.distOnce = w.distOnce ∧
      (∀ r0, w.urlOnce = some r0 → w1.urlOnce = some r0 ∧ n = 0) ∧ n ≤ 1 := by
    refine ⟨by rw [h1]; simp, h2, ?_, h4⟩
    intro r0 h0
    have := h3 r0 h0
    exact ⟨by rw [h1, this.1], this.2⟩
  cases r <;> exact key

/-- One counted call of `getProtocDistPath`. -/
theorem getProtocDistPathCounted_spec (g : Generator) (v : PkgVars) (env : Env) (w : World) :
    (g.getProtocDistPathCounted v env w).1.2.distOnce =
        some (g.getProtocDistPathCounted v env w).1.1 ∧
      (∀ r0, w.urlOnce = some r0 →
        (g.getProtocDistPathCounted v env w).1.2.urlOnce = some r0 ∧
        (g.getProtocDistPathCounted v env w).2.1 = 0) ∧
      (∀ d0, w.distOnce = some d0 → (g.getProtocDistPathCounted v env w).1.1 = d0 ∧
        (g.getProtocDistPathCounted v env w).1.2 = w ∧
        (g.getProtocDistPathCounted v env w).2 = (0, 0)) ∧
      (g.getProtocDistPathCounted v env w).2.1 ≤ 1 ∧
      (g.getProtocDistPathCounted v env w).2.2 ≤ 1 ∧
      ((g.getProtocDistPathCounted v env w).2.1 = 1 →
        (g.getProtocDistPathCounted v env w).1.2.urlOnce ≠ none) := by
  unfold Generator.getProtocDistPathCounted
  cases h : w.distOnce with
  | some d =>
    refine ⟨h, fun r0 h0 => ⟨h0, rfl⟩, ?_, Nat.zero_le _, Nat.zero_le _, ?_⟩
    · intro d0 h0
      exact ⟨Option.some.inj h0, rfl, rfl⟩
    · intro hc
      cases hc
  | none =>
    have hd := doGetProtocDistPathCounted_spec g v env w
    rcases hc : g.doGetProtocDistPathCounted v env w with ⟨⟨r, w1⟩, n⟩
    rw [hc] at hd
    simp only at hd ⊢
    obtain ⟨h1, _, h3, h4⟩ := hd
    refine ⟨trivial, h3, ?_, h4, Nat.le_refl _, fun _ => h1⟩
    intro d0 h0
    cases h0

/-- The callers in a sequence get what the wrappers return, and the next call starts
from the state the wrapper leaves. -/
theorem runCalls_url (v : PkgVars) (env : Env) (g : Generator) (calls : List MemoCall)
    (w : World) :
    (runCalls v env (.url g :: calls) w).1.urls =
        (g.getProtocDownloadUrl v w).1 ::
          (runCalls v env calls (g.getProtocDownloadUrl v w).2).1.urls ∧
      (runCalls v env (.url g :: calls) w).1.dists =
        (runCalls v env calls (g.getProtocDownloadUrl v w).2).1.dists := by
  rw [← getProtocDownloadUrlCounted_fst]
  exact ⟨rfl, rfl⟩

theorem runCalls_dist (v : PkgVars) (env : Env) (g : Generator) (calls : List MemoCall)
    (w : World) :
    (runCalls v env (.dist g :: calls) w).1.dists =
        (g.getProtocDistPath v env w).1 ::
          (runCalls v env calls (g.getProtocDistPath v env w).2).1.dists ∧
      (runCalls v env (.dist g :: calls) w).1.urls =
        (runCalls v env calls (g.getProtocDistPath v env w).2).1.urls := by
  rw [← getProtocDistPathCounted_fst]
  exact ⟨rfl, rfl⟩

/-- The invariant of a sequence of calls: a derivation runs at most once for the
empty cell it starts from and once for each `Init`; without `Init` every result is the
value of the cell once it is full. -/
theorem runCalls_inv (v : PkgVars) (env : Env) (calls : List MemoCall) :
    ∀ w, (runCalls v env calls w).1.urlRuns ≤
          calls.count MemoCall.init + (if w.urlOnce.isSome then 0 else 1) ∧
        (runCalls v env calls w).1.distRuns ≤
          calls.count MemoCall.init + (if w.distOnce.isSome then 0 else 1) ∧
        (MemoCall.init ∉ calls →
          (∀ r0, w.urlOnce = some r0 → ∀ r ∈ (runCalls v env calls w).1.urls, r = r0) ∧
          (∀ d0, w.distOnce = some d0 → ∀ r ∈ (runCalls v env calls w).1.dists, r = d0) ∧
          (∀ r ∈ (runCalls v env calls w).1.urls,
            ∀ r2 ∈ (runCalls v env calls w).1.urls, r = r2) ∧
          (∀ r ∈ (runCalls v env calls w).1.dists,
            ∀ r2 ∈ (runCalls v env calls w).1.dists, r = r2)) := by
  induction calls with
  | nil =>
    intro w
    refine ⟨Nat.zero_le _, Nat.zero_le _, fun _ => ⟨?_, ?_, ?_, ?_⟩⟩ <;>
      simp [runCalls]
  | cons c calls ih =>
    intro w
    cases c with
    | init =>
      have h := ih (Generator.Init w)
      have e : runCalls v env (MemoCall.init :: calls) w =
          runCalls v env calls (Generator.Init w) := rfl
      rw [e]
      have hc : (MemoCall.init :: calls).count MemoCall.init =
          calls.count MemoCall.init + 1 := by simp
      rw [hc]
      refine ⟨?_, ?_, fun hn => absurd (List.mem_cons_self _ _) hn⟩
      · have h1 : (runCalls v env calls (Generator.Init w)).1.urlRuns ≤
            calls.count MemoCall.init + 1 := h.1
        exact Nat.le_trans h1 (Nat.le_add_right _ _)
      · have h1 : (runCalls v env calls (Generator.Init w)).1.distRuns ≤
            calls.count MemoCall.init + 1 := h.2.1
        exact Nat.le_trans h1 (Nat.le_add_right _ _)
    | url g =>
      have hs := getProtocDownloadUrlCounted_spec g v w
      have e : runCalls v env (MemoCall.url g :: calls) w =
          ({ (runCalls v env calls (g.getProtocDownloadUrlCounted v w).1.2).1 with
              urls := (g.getProtocDownloadUrlCounted v w).1.1 ::
                (runCalls v env calls (g.getProtocDownloadUrlCounted v w).1.2).1.urls,
              urlRuns := (g.getProtocDownloadUrlCounted v w).2 +
                (runCalls v env calls (g.getProtocDownloadUrlCounted v w).1.2).1.urlRuns },
            (runCalls v env calls (g.getProtocDownloadUrlCounted v w).1.2).2) := rfl
      rw [e]
      have h := ih (g.getProtocDownloadUrlCounted v w).1.2
      generalize g.getProtocDownloadUrlCounted v w = q at hs h ⊢
      rcases q with ⟨⟨r, w1⟩, n⟩
      simp only at hs h ⊢
      obtain ⟨s1, s2, s3, s4⟩ := hs
      obtain ⟨i1, i2, i3⟩ := h
      have hc : (MemoCall.url g :: calls).count MemoCall.init = calls.count MemoCall.init := by
        simp
      rw [hc]
      rw [s1] at i1
      rw [s2] at i2
      simp only [Option.isSome_some, Option.isSome_none, Bool.false_eq_true, if_true,
        if_false, Nat.add_zero] at i1
      refine ⟨?_, i2, ?_⟩
      · cases hu : w.urlOnce with
        | none =>
          simp only [Option.isSome_some, Option.isSome_none, Bool.false_eq_true, if_true,
            if_false, Nat.add_zero]
          omega
        | some r0 =>
          have := (s3 r0 hu).2
          simp only [Option.isSome_some, Option.isSome_none, Bool.false_eq_true, if_true,
            if_false, Nat.add_zero]
          omega
      · intro hn
        have hn2 : MemoCall.init ∉ calls := fun hm => hn (List.mem_cons_of_mem _ hm)
        obtain ⟨j1, j2, j3, j4⟩ := i3 hn2
        have hall : ∀ x ∈ r :: (runCalls v env calls w1).1.urls, x = r := by
          intro x hx
          rcases List.mem_cons.1 hx with hx | hx
          · exact hx
          · exact j1 r s1 x hx
        refine ⟨?_, ?_, ?_, j4⟩
        · intro r0 h0 x hx
          rw [hall x hx]
          exact (s3 r0 h0).1
        · intro d0 h0
          exact j2 d0 (by rw [s2]; exact h0)
        · intro x hx y hy
          rw [hall x hx, hall y hy]
    | dist g =>
      have hs := getProtocDistPathCounted_spec g v env w
      have e : runCalls v env (MemoCall.dist g :: calls) w =
          ({ (runCalls v env calls (g.getProtocDistPathCounted v env w).1.2).1 with
              dists := (g.getProtocDistPathCounted v env w).1.1 ::
                (runCalls v env calls (g.getProtocDistPathCounted v env w).1.2).1.dists,
              urlRuns := (g.getProtocDistPathCounted v env w).2.1 +
                (runCalls v env calls (g.getProtocDistPathCounted v env w).1.2).1.urlRuns,
              distRuns := (g.getProtocDistPathCounted v env w).2.2 +
                (runCalls v env calls (g.getProtocDistPathCounted v env w).1.2).1.distRuns },
            (runCalls v env calls (g.getProtocDistPathCounted v env w).1.2).2) := rfl
      rw [e]
      have h := ih (g.getProtocDistPathCounted v env w).1.2
      generalize g.getProtocDistPathCounted v env w = q at hs h ⊢
      rcases q with ⟨⟨r, w1⟩, ⟨n, m⟩⟩
      simp only at hs h ⊢
      obtain ⟨s1, s2, s3, s4, s5, s6⟩ := hs
      obtain ⟨i1, i2, i3⟩ := h
      have hc : (MemoCall.dist g :: calls).count MemoCall.init = calls.count MemoCall.init := by
        simp
      rw [hc]
      rw [s1] at i2
      simp only [Option.isSome_some, Option.isSome_none, Bool.false_eq_true, if_true,
        if_false, Nat.add_zero] at i2
      refine ⟨?_, ?_, ?_⟩
      · cases hu : w.urlOnce with
        | some r0 =>
          have h1 := s2 r0 hu
          rw [h1.1] at i1
          simp only [Option.isSome_some, Option.isSome_none, Bool.false_eq_true, if_true,
            if_false, Nat.add_zero] at i1 ⊢
          omega
        | none =>
          simp only [Option.isSome_some, Option.isSome_none, Bool.false_eq_true, if_true,
            if_false, Nat.add_zero]
          by_cases hn1 : n = 1
          · have := s6 hn1
            have h2 : w1.urlOnce.isSome = true := by
              cases hw : w1.urlOnce with
              | none => exact absurd hw this
              | some x => rfl
            rw [if_pos h2] at i1
            omega
          · have : n = 0 := by omega
            have : (if w1.urlOnce.isSome then 0 else 1) ≤ 1 := by split <;> omega
            omega
      · cases hd : w.distOnce with
        | some d0 =>
          have := (s3 d0 hd).2.2
          have hm : m = 0 := (Prod.mk.inj this).2
          simp only [Option.isSome_some, Option.isSome_none, Bool.false_eq_true, if_true,
            if_false, Nat.add_zero]
          omega
        | none =>
          simp only [Option.isSome_some, Option.isSome_none, Bool.false_eq_true, if_true,
            if_false, Nat.add_zero]
          omega
      · intro hn
        have hn2 : MemoCall.init ∉ calls := fun hm => hn (List.mem_cons_of_mem _ hm)
        obtain ⟨j1, j2, j3, j4⟩ := i3 hn2
        have hall : ∀ x ∈ r :: (runCalls v env calls w1).1.dists, x = r := by
          intro x hx
          rcases List.mem_cons.1 hx with hx | hx
          · exact hx
          · exact j2 r s1 x hx
        refine ⟨?_, ?_, j3, ?_⟩
        · intro r0 h0
          exact j1 r0 (s2 r0 h0).1
        · intro d0 h0 x hx
          rw [hall x hx]
          exact (s3 d0 h0).1
        · intro x hx y hy
          rw [hall x hx, hall y hy]

/-! ## The claim about the memoised download URL and cache path -/

/-- C21, as the code has it. In every sequence of calls to `getProtocDownloadUrl`,
`getProtocDistPath` and `Init`, made with any configuration fields at each call and
started from any state of the two cells, `doGetProtocDownloadUrl` and
`doGetProtocDistPath` each run at most once more than `Init` is called; and in a
sequence without a call of `Init` (where each therefore runs at most once) all callers
of `getProtocDownloadUrl` get the same result and all callers of `getProtocDistPath`
get the same result. -/
theorem memo_once_per_Init (v : PkgVars) (env : Env) (calls : List MemoCall) (w : World) :
    (runCalls v env calls w).1.urlRuns ≤ calls.count MemoCall.init + 1 ∧
      (runCalls v env calls w).1.distRuns ≤ calls.count MemoCall.init + 1 ∧
      (MemoCall.init ∉ calls →
        (runCalls v env calls w).1.urlRuns ≤ 1 ∧
        (runCalls v env calls w).1.distRuns ≤ 1 ∧
        (∀ r ∈ (runCalls v env calls w).1.urls,
          ∀ r2 ∈ (runCalls v env calls w).1.urls, r = r2) ∧
        (∀ r ∈ (runCalls v env calls w).1.dists,
          ∀ r2 ∈ (runCalls v env calls w).1.dists, r = r2)) := by
  obtain ⟨h1, h2, h3⟩ := runCalls_inv v env calls w
  have b1 : (if w.urlOnce.isSome then 0 else 1) ≤ 1 := by split <;> omega
  have b2 : (if w.distOnce.isSome then 0 else 1) ≤ 1 := by split <;> omega
  refine ⟨by omega, by omega, fun hn => ?_⟩
  have hc : calls.count MemoCall.init = 0 := List.count_eq_zero_of_not_mem hn
  obtain ⟨_, _, j3, j4⟩ := h3 hn
  exact ⟨by omega, by omega, j3, j4⟩

set_option maxRecDepth 100000 in
/-- Four calls with four configurations and no `Init`, from empty cells: one run of
each derivation, and the URL and the path of the first configuration for every
caller. -/
theorem memo_once_per_Init_witness :
    ((∀ r ∈ (runCalls varsStub envIdDigest
          [.url (genVer "25.1"), .dist (genVer "26.0"), .url (genMirror "27.0"), .dist genDefault]
          worldEmpty).1.urls,
        ∀ r2 ∈ (runCalls varsStub envIdDigest
          [.url (genVer "25.1"), .dist (genVer "26.0"), .url (genMirror "27.0"), .dist genDefault]
          worldEmpty).1.urls, r = r2)) ∧
      (runCalls varsStub envIdDigest
          [.url (genVer "25.1"), .dist (genVer "26.0"), .url (genMirror "27.0"), .dist genDefault]
          worldEmpty).1.urls =
        [.ok "https://github.com/protocolbuffers/protobuf/releases/download/v25.1/protoc-25.1-linux-x86_64.zip",
          .ok "https://github.com/protocolbuffers/protobuf/releases/download/v25.1/protoc-25.1-linux-x86_64.zip"] ∧
      (runCalls varsStub envIdDigest
          [.url (genVer "25.1"), .dist (genVer "26.0"), .url (genMirror "27.0"), .dist genDefault]
          worldEmpty).1.urlRuns = 1 ∧
      (runCalls varsStub envIdDigest
          [.url (genVer "25.1"), .dist (genVer "26.0"), .url (genMirror "27.0"), .dist genDefault]
          worldEmpty).1.distRuns = 1 :=
  ⟨((memo_once_per_Init varsStub envIdDigest
      [.url (genVer "25.1"), .dist (genVer "26.0"), .url (genMirror "27.0"), .dist genDefault]
      worldEmpty).2.2 (by simp)).2.2.1, rfl, rfl, rfl⟩

set_option maxRecDepth 100000 in
/-- C21, counterexample. `getProtocDownloadUrl` and `getProtocDistPath` are called for
the version 25.1, then `Init` is called again, the version is set to 26.0 and the two
are called again: each derivation has run twice, and the callers have seen two download
URLs and two cache paths. -/
theorem Init_resets_memo :
    (runCalls varsStub envIdDigest
        [.url (genVer "25.1"), .dist (genVer "25.1"), .init, .url (genVer "26.0"),
          .dist (genVer "26.0")] worldEmpty).1.urlRuns = 2 ∧
      (runCalls varsStub envIdDigest
        [.url (genVer "25.1"), .dist (genVer "25.1"), .init, .url (genVer "26.0"),
          .dist (genVer "26.0")] worldEmpty).1.distRuns = 2 ∧
      (runCalls varsStub envIdDigest
        [.url (genVer "25.1"), .dist (genVer "25.1"), .init, .url (genVer "26.0"),
          .dist (genVer "26.0")] worldEmpty).1.urls =
        [.ok "https://github.com/protocolbuffers/protobuf/releases/download/v25.1/protoc-25.1-linux-x86_64.zip",
          .ok "https://github.com/protocolbuffers/protobuf/releases/download/v26.0/protoc-26.0-linux-x86_64.zip"] ∧
      (runCalls varsStub envIdDigest
        [.url (genVer "25.1"), .dist (genVer "25.1"), .init, .url (genVer "26.0"),
          .dist (genVer "26.0")] worldEmpty).1.dists =
        [.ok "/c/.go_protoc/protoc/https:/github.com/protocolbuffers/protobuf/releases/download/v25.1/protoc-25.1-linux-x86_64.zip",
          .ok "/c/.go_protoc/protoc/https:/github.com/protocolbuffers/protobuf/releases/download/v26.0/protoc-26.0-linux-x86_64.zip"] :=
  ⟨rfl, rfl, rfl, rfl⟩

/-! ## A run resolves its inputs in one way -/

theorem reaches_unique (g : Generator) (v : PkgVars) (env : Env) (w : World) (s s2 : Resolved)
    (h : g.reaches v env w s) (h2 : g.reaches v env w s2) : s = s2 := by
  obtain ⟨a1, _, a3, a4, a5, a6, a7, w1, w2, w3, w4, b1, b2, b3, b4, b5⟩ := h
  obtain ⟨c1, _, c3, c4, c5, c6, c7, u1, u2, u3, u4, d1, d2, d3, d4, d5⟩ := h2
  cases s with
  | mk genFilePkg genPkg module protoPaths protocDistPath goDir grpcDir goExe protoFiles world =>
  cases s2 with
  | mk genFilePkg2 genPkg2 module2 protoPaths2 protocDistPath2 goDir2 grpcDir2 goExe2
      protoFiles2 world2 =>
  simp only at a1 a3 a4 a5 a6 a7 b2 b3 b4 b5 c1 c3 c4 c5 c6 c7 d2 d3 d4 d5
  have e1 : genFilePkg = genFilePkg2 := Except.ok.inj (a1.symm.trans c1)
  subst e1
  have e2 : genPkg = genPkg2 := Except.ok.inj (a3.symm.trans c3)
  subst e2
  have e3 : module = module2 := Option.some.inj (a4.symm.trans c4)
  subst e3
  have e4 : protoPaths = protoPaths2 := Except.ok.inj (a5.symm.trans c5)
  subst e4
  have e5 : goExe = goExe2 := Except.ok.inj (a6.symm.trans c6)
  subst e5
  have e6 : protoFiles = protoFiles2 := Except.ok.inj (a7.symm.trans c7)
  subst e6
  have f1 : w1 = u1 := (Prod.mk.inj (b1.symm.trans d1)).2
  subst f1
  have f2 := Prod.mk.inj (b2.symm.trans d2)
  have e7 : goDir = goDir2 := Except.ok.inj f2.1
  subst e7
  have f2' : w2 = u2 := f2.2
  subst f2'
  have f3 := Prod.mk.inj (b3.symm.trans d3)
  have e8 : grpcDir = grpcDir2 := Except.ok.inj f3.1
  subst e8
  have f3' : w3 = u3 := f3.2
  subst f3'
  have f4 := Prod.mk.inj (b4.symm.trans d4)
  have e9 : protocDistPath = protocDistPath2 := Except.ok.inj f4.1
  subst e9
  have f4' : w4 = u4 := f4.2
  subst f4'
  rw [b5, d5]

/-- The writes of an argument file that a run logs: each is the write of the text of
the directives for the values the run resolved, at the staging path of its package. -/
theorem Run_writes (g : Generator) (v : PkgVars) (env : Env) (w : World) (s : Resolved)
    (hs : g.reaches v env w s) :
    ∃ added, (g.Run v env w).2.trace = w.trace ++ added ∧
      ∀ p content, Event.writeFile p content ∈ added →
        p = g.getProtoGenFilePath env s.genPkg ∧ content = optsText (s.lines g) := by
  obtain ⟨pre, post, htr, hpre, hpost⟩ := Run_shape g v env w
  refine ⟨pre ++ post, by rw [htr, List.append_assoc], ?_⟩
  intro p content hmem
  rcases List.mem_append.1 hmem with hmem | hmem
  · exact absurd rfl (ProvD_not_write (hpre _ hmem) p content)
  · rcases hpost with ⟨hnil, _⟩ | ⟨s2, removed, tail, hs2, _, hp, _, htail⟩
    · rw [hnil] at hmem; simp at hmem
    · have e := reaches_unique g v env w s s2 hs hs2
      subst e
      rw [hp] at hmem
      rcases List.mem_cons.1 hmem with h | h
      · simp only [Event.writeFile.injEq] at h; exact h
      · rcases List.mem_append.1 h with h | h
        · simp at h
        · rcases htail with ⟨ht, _⟩ | ⟨_, ht, _⟩
          · rw [ht] at h; simp at h
          · rw [ht] at h; simp at h

/-! ## The claim about the determinism of the argument file -/

/-- C22, with the inputs the path needs. Two runs that resolve the same ordered list
of import directories, the same schema directory with the same list of schema files,
the same distribution root, the same module directory and path, the same install
directories of the two plugins and the same GOEXE write the same bytes as their
argument file, whatever else differs (generator, surroundings, start state); they
write them at the same path when moreover the temp directory and the import path of
the package are the same. -/
theorem Run_argument_file_determined (g g2 : Generator) (v v2 : PkgVars) (env env2 : Env)
    (w w2 : World) (s s2 : Resolved)
    (hs : g.reaches v env w s) (hs2 : g2.reaches v2 env2 w2 s2)
    (h1 : s.protoPaths = s2.protoPaths)
    (h2 : g.getProtoDirAbs s.genFilePkg.Dir = g2.getProtoDirAbs s2.genFilePkg.Dir)
    (h3 : s.protoFiles = s2.protoFiles)
    (h4 : s.protocDistPath = s2.protocDistPath)
    (h5 : s.module.Dir = s2.module.Dir) (h6 : s.module.Path = s2.module.Path)
    (h7 : s.protocGenGoInstallDir = s2.protocGenGoInstallDir)
    (h8 : s.protocGenGoGrpcInstallDir = s2.protocGenGoGrpcInstallDir)
    (h9 : s.goExe = s2.goExe) :
    ∃ added added2, (g.Run v env w).2.trace = w.trace ++ added ∧
      (g2.Run v2 env2 w2).2.trace = w2.trace ++ added2 ∧
      ∀ p c p2 c2, Event.writeFile p c ∈ added → Event.writeFile p2 c2 ∈ added2 →
        c = c2 ∧
          (env.tempDir = env2.tempDir → s.genPkg.ImportPath = s2.genPkg.ImportPath → p = p2) := by
  obtain ⟨added, ha, hw⟩ := Run_writes g v env w s hs
  obtain ⟨added2, ha2, hw2⟩ := Run_writes g2 v2 env2 w2 s2 hs2
  refine ⟨added, added2, ha, ha2, ?_⟩
  intro p c p2 c2 hm hm2
  obtain ⟨hp, hc⟩ := hw p c hm
  obtain ⟨hp2, hc2⟩ := hw2 p2 c2 hm2
  refine ⟨?_, ?_⟩
  · rw [hc, hc2]
    unfold Resolved.lines
    rw [h1, h2, h3, h4, h5, h6, h7, h8, h9]
  · intro ht hi
    rw [hp, hp2]
    unfold Generator.getProtoGenFilePath
    rw [ht, hi]

theorem reaches_example (g : Generator) (env : Env) (pkg : PackagePublic)
    (a1 : GoListPkg env ((env.lookupEnv "GOFILE").getD "") ["generate"] = .ok pkg)
    (a2 : pkg.Error = none)
    (a3 : GoListPkg env pkg.Dir ["generate"] = .ok pkg)
    (a4 : pkg.Module = some { Path := "example.com/proj", Version := "", Dir := "/proj" })
    (a5 : listImportPathDir env pkg.Imports = .ok ["/x"])
    (a6 : GoEnv env "GOEXE" = .ok "")
    (a7 : walkProtoFiles env (env.walkDir (g.getProtoDirAbs pkg.Dir)) [] =
      .ok ["/proj/proto/a.proto"])
    (b1 : (g.prepareProtoc varsStub env worldEmpty).1 = none)
    (b2 : (g.prepareProtocGenGo varsStub env (g.prepareProtoc varsStub env worldEmpty).2).1 =
      .ok "/c/.go_protoc/protoc-gen-go/v1.34.2")
    (b3 : (g.prepareProtocGenGoGrpc varsStub env
      (g.prepareProtocGenGo varsStub env (g.prepareProtoc varsStub env worldEmpty).2).2).1 =
      .ok "")
    (b4 : (g.getProtocDistPath varsStub env
      (g.prepareProtocGenGoGrpc varsStub env
        (g.prepareProtocGenGo varsStub env (g.prepareProtoc varsStub env worldEmpty).2).2).2).1 =
      .ok "/c/.go_protoc/protoc/KEY") :
    g.reaches varsStub env worldEmpty (resolvedIn g env pkg) :=
  ⟨a1, a2, a3, a4, a5, a6, a7, _, _, _, _, Prod.ext b1 rfl, Prod.ext b2 rfl, Prod.ext b3 rfl,
    Prod.ext b4 rfl, rfl⟩

set_option maxRecDepth 100000 in
theorem reaches_proj (g : Generator) (hg : g = genDefault ∨ g = genAbsProto) :
    g.reaches varsStub envNoGrpc worldEmpty (resolvedIn g envNoGrpc pkgProj) := by
  rcases hg with rfl | rfl
  · exact reaches_example _ _ _ rfl rfl rfl rfl rfl rfl rfl (by decide) rfl rfl rfl
  · exact reaches_example _ _ _ rfl rfl rfl rfl rfl rfl rfl (by decide) rfl rfl rfl

set_option maxRecDepth 100000 in
theorem reaches_other :
    genAbsProto.reaches varsStub envOther worldEmpty (resolvedIn genAbsProto envOther pkgOther) :=
  reaches_example _ _ _ rfl rfl rfl rfl rfl rfl rfl (by decide) rfl rfl rfl

set_option maxRecDepth 100000 in
/-- Two runs in the example project, one with the default schema directory `proto`
relative to the package, one with the absolute schema directory `/proj/proto`: the
resolved inputs are the same, and both runs write the same argument file. -/
theorem Run_argument_file_determined_witness :
    (∃ added added2,
      (genDefault.Run varsStub envNoGrpc worldEmpty).2.trace = worldEmpty.trace ++ added ∧
      (genAbsProto.Run varsStub envNoGrpc worldEmpty).2.trace = worldEmpty.trace ++ added2 ∧
      ∀ p c p2 c2, Event.writeFile p c ∈ added → Event.writeFile p2 c2 ∈ added2 →
        c = c2 ∧
          (envNoGrpc.tempDir = envNoGrpc.tempDir →
            (resolvedIn genDefault envNoGrpc pkgProj).genPkg.ImportPath =
              (resolvedIn genAbsProto envNoGrpc pkgProj).genPkg.ImportPath → p = p2)) ∧
      writes (genDefault.Run varsStub envNoGrpc worldEmpty).2.trace =
        [Event.writeFile "/tmp/.go-protoc/example_com_proj/proto_gen.txt"
          ("--proto_path=/x\n" ++ "--proto_path=/proj/proto\n" ++
            "--proto_path=/c/.go_protoc/protoc/KEY/include\n" ++ "--go_out=/proj\n" ++
            "--go_opt=module=example.com/proj\n" ++
            "--plugin=protoc-gen-go=/c/.go_protoc/protoc-gen-go/v1.34.2/protoc-gen-go\n" ++
            "/proj/proto/a.proto\n")] ∧
      writes (genAbsProto.Run varsStub envNoGrpc worldEmpty).2.trace =
        writes (genDefault.Run varsStub envNoGrpc worldEmpty).2.trace :=
  ⟨Run_argument_file_determined genDefault genAbsProto varsStub varsStub envNoGrpc envNoGrpc
      worldEmpty worldEmpty (resolvedIn genDefault envNoGrpc pkgProj)
      (resolvedIn genAbsProto envNoGrpc pkgProj) (reaches_proj _ (Or.inl rfl))
      (reaches_proj _ (Or.inr rfl)) rfl (by decide) rfl rfl rfl rfl rfl rfl rfl,
    by decide, by decide⟩

set_option maxRecDepth 100000 in
/-- C22, counterexample. Two packages of one module, `example.com/proj` in `/proj` and
`example.com/proj/other` in `/proj/other`, have the same imports and are generated with
the schema directory `/proj/proto`. The two runs resolve the same import directories,
schema directory, schema files, distribution root, module directory and path, install
directories and GOEXE, and write the same bytes, but at two paths. -/
theorem argument_file_path_differs :
    genAbsProto.reaches varsStub envNoGrpc worldEmpty (resolvedIn genAbsProto envNoGrpc pkgProj) ∧
      genAbsProto.reaches varsStub envOther worldEmpty
        (resolvedIn genAbsProto envOther pkgOther) ∧
      (resolvedIn genAbsProto envNoGrpc pkgProj).protoPaths =
        (resolvedIn genAbsProto envOther pkgOther).protoPaths ∧
      genAbsProto.getProtoDirAbs (resolvedIn genAbsProto envNoGrpc pkgProj).genFilePkg.Dir =
        genAbsProto.getProtoDirAbs (resolvedIn genAbsProto envOther pkgOther).genFilePkg.Dir ∧
      (resolvedIn genAbsProto envNoGrpc pkgProj).protoFiles =
        (resolvedIn genAbsProto envOther pkgOther).protoFiles ∧
      (resolvedIn genAbsProto envNoGrpc pkgProj).protocDistPath =
        (resolvedIn genAbsProto envOther pkgOther).protocDistPath ∧
      (resolvedIn genAbsProto envNoGrpc pkgProj).module =
        (resolvedIn genAbsProto envOther pkgOther).module ∧
      (resolvedIn genAbsProto envNoGrpc pkgProj).protocGenGoInstallDir =
        (resolvedIn genAbsProto envOther pkgOther).protocGenGoInstallDir ∧
      (resolvedIn genAbsProto envNoGrpc pkgProj).protocGenGoGrpcInstallDir =
        (resolvedIn genAbsProto envOther pkgOther).protocGenGoGrpcInstallDir ∧
      (resolvedIn genAbsProto envNoGrpc pkgProj).goExe =
        (resolvedIn genAbsProto envOther pkgOther).goExe ∧
      writes (genAbsProto.Run varsStub envNoGrpc worldEmpty).2.trace =
        [Event.writeFile "/tmp/.go-protoc/example_com_proj/proto_gen.txt"
          ("--proto_path=/x\n" ++ "--proto_path=/proj/proto\n" ++
            "--proto_path=/c/.go_protoc/protoc/KEY/include\n" ++ "--go_out=/proj\n" ++
            "--go_opt=module=example.com/proj\n" ++
            "--plugin=protoc-gen-go=/c/.go_protoc/protoc-gen-go/v1.34.2/protoc-gen-go\n" ++
            "/proj/proto/a.proto\n")] ∧
      writes (genAbsProto.Run varsStub envOther worldEmpty).2.trace =
        [Event.writeFile "/tmp/.go-protoc/example_com_proj_other/proto_gen.txt"
          ("--proto_path=/x\n" ++ "--proto_path=/proj/proto\n" ++
            "--proto_path=/c/.go_protoc/protoc/KEY/include\n" ++ "--go_out=/proj\n" ++
            "--go_opt=module=example.com/proj\n" ++
            "--plugin=protoc-gen-go=/c/.go_protoc/protoc-gen-go/v1.34.2/protoc-gen-go\n" ++
            "/proj/proto/a.proto\n")] :=
  ⟨reaches_proj _ (Or.inr rfl), reaches_other, rfl, by decide, rfl, rfl, rfl, rfl, rfl, rfl,
    by decide, by decide⟩

/-! ## The claim about the argument file without the optional plugin -/

/-- Every write of an argument file that a run logs is the write of the text of the
directives for values the run resolved. -/
theorem Run_writes_resolved (g : Generator) (v : PkgVars) (env : Env) (w : World) :
    ∃ added, (g.Run v env w).2.trace = w.trace ++ added ∧
      ∀ p content, Event.writeFile p content ∈ added →
        ∃ s, g.reaches v env w s ∧ content = optsText (s.lines g) := by
  obtain ⟨pre, post, htr, hpre, hpost⟩ := Run_shape g v env w
  refine ⟨pre ++ post, by rw [htr, List.append_assoc], ?_⟩
  intro p content hmem
  rcases List.mem_append.1 hmem with hmem | hmem
  · exact absurd rfl (ProvD_not_write (hpre _ hmem) p content)
  · rcases hpost with ⟨hnil, _⟩ | ⟨s, removed, tail, hs, _, hp, _, htail⟩
    · rw [hnil] at hmem; simp at hmem
    · refine ⟨s, hs, ?_⟩
      rw [hp] at hmem
      rcases List.mem_cons.1 hmem with h | h
      · simp only [Event.writeFile.injEq] at h; exact h.2
      · rcases List.mem_append.1 h with h | h
        · simp at h
        · rcases htail with ⟨ht, _⟩ | ⟨_, ht, _⟩
          · rw [ht] at h; simp at h
          · rw [ht] at h; simp at h

/-- The lines of a text made of items that hold no newline, each followed by one: the
items, and the empty rest after the last newline. -/
theorem splitChars_lines (lines : List String) (h : ∀ l ∈ lines, '\n' ∉ l.data) :
    splitChars '\n' (String.join (lines.map (fun l => l ++ "\n"))).data =
      lines.map String.data ++ [[]] := by
  induction lines with
  | nil => rfl
  | cons l rest ih =>
    have e : (String.join ((l :: rest).map (fun l => l ++ "\n"))).data =
        l.data ++ '\n' :: (String.join (rest.map (fun l => l ++ "\n"))).data := by
      simp [String.data_join]
    rw [e, splitChars_append, splitChars_of_no_sep _ _ (h l (List.mem_cons_self _ _)),
      ih (fun x hx => h x (List.mem_cons_of_mem _ hx))]
    rfl

/-- C10. When the build-graph query for the gRPC module succeeds but carries a
structured package error, `prepareProtocGenGoGrpc` returns the empty install
directory and no error and leaves the world as it was (no directory created, no
install run); and every argument file `Run` then writes is exactly the text of these
directives, each followed by a newline: the import directories, the schema directory
and the include directory of the distribution as `--proto_path`, then `--go_out`,
`--go_opt=module` and `--plugin=protoc-gen-go`, then the schema files. None of these
directives starts with `--go-grpc_out`, `--go-grpc_opt` or
`--plugin=protoc-gen-go-grpc`; and when no directive holds a newline, no line of the
file starts with one of them. The working directory is absolute, as `os.Getwd` reports
it. -/
theorem grpc_absent_no_directive (g : Generator) (v : PkgVars) (env : Env)
    (grpcPkg : PackagePublic)
    (hwd : ∀ wd, env.getwd = .ok wd → IsAbs wd = true)
    (hquery : GoListPkg env pkgNameGrpc [] = .ok grpcPkg)
    (herror : grpcPkg.Error ≠ none) :
    (∀ w, g.prepareProtocGenGoGrpc v env w = (.ok "", w)) ∧
      ∀ w, ∃ added, (g.Run v env w).2.trace = w.trace ++ added ∧
        ∀ p content, Event.writeFile p content ∈ added →
          ∃ s lines, g.reaches v env w s ∧
            lines =
              s.protoPaths.map (fun d => "--proto_path=" ++ d) ++
                ["--proto_path=" ++ g.getProtoDirAbs s.genFilePkg.Dir,
                 "--proto_path=" ++ Join s.protocDistPath "include",
                 "--go_out=" ++ s.module.Dir,
                 "--go_opt=module=" ++ s.module.Path,
                 "--plugin=protoc-gen-go=" ++
                   Join s.protocGenGoInstallDir ("protoc-gen-go" ++ s.goExe)] ++
                s.protoFiles ∧
            content = String.join (lines.map (fun l => l ++ "\n")) ∧
            (∀ l ∈ lines, hasPrefix l "--go-grpc_out" = false ∧
              hasPrefix l "--go-grpc_opt" = false ∧
              hasPrefix l "--plugin=protoc-gen-go-grpc" = false) ∧
            ((∀ l ∈ lines, '\n' ∉ l.data) →
              ∀ l ∈ (splitChars '\n' content.data).map String.mk,
                hasPrefix l "--go-grpc_out" = false ∧
                  hasPrefix l "--go-grpc_opt" = false ∧
                  hasPrefix l "--plugin=protoc-gen-go-grpc" = false) := by
  have hgrpc : ∀ w, g.prepareProtocGenGoGrpc v env w = (.ok "", w) := by
    intro w
    unfold Generator.prepareProtocGenGoGrpc
    rw [hquery]
    simp only
    rw [if_pos herror]
  refine ⟨hgrpc, ?_⟩
  intro w
  obtain ⟨added, ha, hall⟩ := Run_writes_resolved g v env w
  refine ⟨added, ha, ?_⟩
  intro p content hmem
  obtain ⟨s, hs, hc⟩ := hall p content hmem
  have hdir : s.protocGenGoGrpcInstallDir = "" := by
    obtain ⟨_, _, _, _, _, _, _, w1, w2, w3, w4, _, _, h3, _⟩ := hs
    rw [hgrpc w2] at h3
    simp only [Prod.mk.injEq, Except.ok.injEq] at h3
    exact h3.1.symm
  have hfiles : ∀ l ∈ s.protoFiles, ∃ t, l.data = '/' :: t :=
    walkProtoFiles_rooted env hwd _ [] s.protoFiles (by simp) hs.2.2.2.2.2.2.1
  have hlines : s.lines g =
      s.protoPaths.map (fun d => "--proto_path=" ++ d) ++
        ["--proto_path=" ++ g.getProtoDirAbs s.genFilePkg.Dir,
         "--proto_path=" ++ Join s.protocDistPath "include",
         "--go_out=" ++ s.module.Dir,
         "--go_opt=module=" ++ s.module.Path,
         "--plugin=protoc-gen-go=" ++
           Join s.protocGenGoInstallDir ("protoc-gen-go" ++ s.goExe)] ++
        s.protoFiles := by
    unfold Resolved.lines protocOptLines
    rw [hdir]
    simp
  have hno : ∀ l ∈ s.lines g, NoGrpc l := by
    unfold Resolved.lines
    rw [hdir]
    exact protocOptLines_noGrpc _ _ _ _ _ _ _ _ hfiles
  refine ⟨s, s.lines g, hs, hlines, hc, hno, ?_⟩
  intro hnl l hl
  rw [hc] at hl
  unfold optsText at hl
  rw [splitChars_lines _ hnl] at hl
  simp only [List.map_append, List.map_map, List.map_cons, List.map_nil, List.mem_append,
    List.mem_map, Function.comp_apply, List.mem_singleton] at hl
  rcases hl with ⟨x, hx, rfl⟩ | rfl
  · exact hno x hx
  · decide

/-- C10, witness: the example project, whose build graph reports a package error for
the gRPC module. -/
theorem grpc_absent_no_directive_witness :
    (∀ w, genDefault.prepareProtocGenGoGrpc varsStub envNoGrpc w = (.ok "", w)) ∧
      ∀ w, ∃ added, (genDefault.Run varsStub envNoGrpc w).2.trace = w.trace ++ added ∧
        ∀ p content, Event.writeFile p content ∈ added →
          ∃ s lines, genDefault.reaches varsStub envNoGrpc w s ∧
            lines =
              s.protoPaths.map (fun d => "--proto_path=" ++ d) ++
                ["--proto_path=" ++ genDefault.getProtoDirAbs s.genFilePkg.Dir,
                 "--proto_path=" ++ Join s.protocDistPath "include",
                 "--go_out=" ++ s.module.Dir,
                 "--go_opt=module=" ++ s.module.Path,
                 "--plugin=protoc-gen-go=" ++
                   Join s.protocGenGoInstallDir ("protoc-gen-go" ++ s.goExe)] ++
                s.protoFiles ∧
            content = String.join (lines.map (fun l => l ++ "\n")) ∧
            (∀ l ∈ lines, hasPrefix l "--go-grpc_out" = false ∧
              hasPrefix l "--go-grpc_opt" = false ∧
              hasPrefix l "--plugin=protoc-gen-go-grpc" = false) ∧
            ((∀ l ∈ lines, '\n' ∉ l.data) →
              ∀ l ∈ (splitChars '\n' content.data).map String.mk,
                hasPrefix l "--go-grpc_out" = false ∧
                  hasPrefix l "--go-grpc_opt" = false ∧
                  hasPrefix l "--plugin=protoc-gen-go-grpc" = false) :=
  grpc_absent_no_directive genDefault varsStub envNoGrpc
    { Dir := "", ImportPath := pkgNameGrpc, Imports := [], Module := none,
      Error := some { Err := "no required module provides package" } }
    (by
      intro wd h
      have : wd = "/proj" := by
        have h' : (Except.ok "/proj" : Except Err String) = .ok wd := h
        simp only [Except.ok.injEq] at h'
        exact h'.symm
      rw [this]; decide)
    (by rfl) (by simp)

set_option maxRecDepth 100000 in
/-- C10, counterexample: the gRPC module is absent from the build graph and
`prepareProtocGenGoGrpc` returns the empty install directory, yet the argument file
`Run` writes has a line that starts with `--go-grpc_out`: the schema directory holds a
file whose name has a newline in it, and the file name is written as it is. -/
theorem grpc_line_from_newline_name :
    genDefault.prepareProtocGenGoGrpc varsStub envNewline worldEmpty = (.ok "", worldEmpty) ∧
      (genDefault.Run varsStub envNewline worldEmpty).1 = none ∧
      (genDefault.Run varsStub envNewline worldEmpty).2.fs
          "/tmp/.go-protoc/example_com_proj/proto_gen.txt" =
        some (Node.file
          ("--proto_path=/x\n" ++ "--proto_path=/proj/proto\n" ++
            "--proto_path=/c/.go_protoc/protoc/KEY/include\n" ++ "--go_out=/proj\n" ++
            "--go_opt=module=example.com/proj\n" ++
            "--plugin=protoc-gen-go=/c/.go_protoc/protoc-gen-go/v1.34.2/protoc-gen-go\n" ++
            "/proj/proto/a.proto\n" ++ "/proj/proto/b\n--go-grpc_out=x.proto\n") 438) ∧
      "--go-grpc_out=x.proto" ∈
        (splitChars '\n'
          ("--proto_path=/x\n" ++ "--proto_path=/proj/proto\n" ++
            "--proto_path=/c/.go_protoc/protoc/KEY/include\n" ++ "--go_out=/proj\n" ++
            "--go_opt=module=example.com/proj\n" ++
            "--plugin=protoc-gen-go=/c/.go_protoc/protoc-gen-go/v1.34.2/protoc-gen-go\n" ++
            "/proj/proto/a.proto\n" ++
            "/proj/proto/b\n--go-grpc_out=x.proto\n").data).map String.mk ∧
      hasPrefix "--go-grpc_out=x.proto" "--go-grpc_out" = true := by
  exact ⟨by rfl, by decide, by decide, by decide, by decide⟩

end GoProtoc
